import Mathlib

/-!
The program cminifier: a shallow embedding of `main.go`

Go strings are modelled as lists of characters (`Str`); the source text is taken to be
valid UTF-8, so that positions of substrings, which Go counts in bytes, are ordered the
same way as positions counted in characters.

The program uses five regular expressions, all through `ReplaceAllString`.  That
library call is modelled by `regexpReplaceAll`, a left-to-right scan which, at each
position, asks a *matcher* for the length of the leftmost-first match starting there; a
match is replaced and skipped, otherwise one character is copied.  Each expression of
the program has its own matcher, written from the backtracking reading of the
expression (greedy `*`, and `.` matching everything except a line break).  None of the
five expressions can match the empty string.
-/

namespace Cminifier

/-- A Go string, as the list of its characters. -/
abbrev Str := List Char

/-! ## The parts of Go's `strings` and `regexp` packages the program uses -/

/-- Go `unicode.IsSpace`, the white space that `strings.TrimSpace` removes. -/
def isSpace (c : Char) : Bool :=
  c == '\t' || c == '\n' || c.toNat == 0x0B || c.toNat == 0x0C || c == '\r' || c == ' '
    || c.toNat == 0x85 || c.toNat == 0xA0 || c.toNat == 0x1680
    || (0x2000 ≤ c.toNat && c.toNat ≤ 0x200A)
    || c.toNat == 0x2028 || c.toNat == 0x2029 || c.toNat == 0x202F
    || c.toNat == 0x205F || c.toNat == 0x3000

/-- Go `strings.TrimSpace`: leading and trailing white space removed. -/
def stringsTrimSpace (s : Str) : Str :=
  ((s.dropWhile isSpace).reverse.dropWhile isSpace).reverse

/-- Go `strings.ReplaceAll(line, "\t", " ")`: every tab becomes one space. -/
def replaceTabs (s : Str) : Str :=
  s.map (fun c => if c = '\t' then ' ' else c)

/-- Go `strings.Split(s, "\n")`: the pieces between line breaks, at least one piece. -/
def stringsSplit : Str → List Str
  | [] => [[]]
  | c :: cs =>
    if c = '\n' then [] :: stringsSplit cs
    else
      match stringsSplit cs with
      | [] => [[c]]
      | l :: ls => (c :: l) :: ls

/-- Go `strings.Join(lines, "")`: plain concatenation. -/
def stringsJoin (lines : List Str) : Str :=
  lines.flatten

/-- Go `strings.HasPrefix`. -/
def stringsHasPrefix (s pre : Str) : Bool :=
  pre.isPrefixOf s

/-- Go `strings.Index`: position of the first occurrence of `sub` in `s`, or `-1`. -/
def stringsIndex : Str → Str → Int
  | [], sub => if sub = [] then 0 else -1
  | c :: cs, sub =>
    if sub.isPrefixOf (c :: cs) then 0
    else
      let r := stringsIndex cs sub
      if r = -1 then -1 else r + 1

/-- The scan of `ReplaceAllString`: `skip` characters of an earlier match are still
to be dropped; with nothing to drop the matcher `m` is asked for the length of a match
starting at the current position (a positive length: no expression of the program
matches the empty string). -/
def regexpReplaceGo (m : Str → Option Nat) (rep : Str) : Nat → Str → Str
  | _, [] => []
  | skip + 1, _ :: cs => regexpReplaceGo m rep skip cs
  | 0, c :: cs =>
    match m (c :: cs) with
    | some n => rep ++ regexpReplaceGo m rep (n - 1) cs
    | none => c :: regexpReplaceGo m rep 0 cs

/-- Go `regexp.ReplaceAllString` for an expression whose matches are never empty. -/
def regexpReplaceAll (m : Str → Option Nat) (rep : Str) (s : Str) : Str :=
  regexpReplaceGo m rep 0 s

/-- Number of leading space characters (the greedy ` *`). -/
def leadingSpaces (s : Str) : Nat :=
  (s.takeWhile (fun c => c == ' ')).length

/-- Length of the part of `s` before its first line break (how far `.*` can reach). -/
def dotStarLen (s : Str) : Nat :=
  (s.takeWhile (fun c => c != '\n')).length

/-- Position of the last occurrence of `sub` in `s`, if there is one. -/
def lastIndex (sub : Str) : Str → Option Nat
  | [] => if sub = [] then some 0 else none
  | c :: cs =>
    match lastIndex sub cs with
    | some i => some (i + 1)
    | none => if sub.isPrefixOf (c :: cs) then some 0 else none

/-- Matcher of the expression ` *` + QuoteMeta(op) + ` *`: all spaces here, then `op`,
then all spaces that follow.  (Every entry of `ops` is non-empty and holds no space, so
giving back some of the leading spaces can never make `op` match.) -/
def matchSpacedOp (op : Str) (s : Str) : Option Nat :=
  let k := leadingSpaces s
  let rest := s.drop k
  if op.isPrefixOf rest then
    some (k + op.length + leadingSpaces (rest.drop op.length))
  else none

/-- Matcher of QuoteMeta(start) + `.*` + QuoteMeta(end): `start` here, then the longest
run without line break that is still followed by `end`. -/
def matchBetween (start stop : Str) (s : Str) : Option Nat :=
  if start.isPrefixOf s then
    let rest := s.drop start.length
    match lastIndex stop (rest.take (dotStarLen rest)) with
    | some q => some (start.length + q + stop.length)
    | none => none
  else none

/-- Matcher of `.*` + QuoteMeta(subs): the longest run without line break that is
still followed by `subs`. -/
def matchBefore (subs : Str) (s : Str) : Option Nat :=
  match lastIndex subs (s.take (dotStarLen s)) with
  | some q => some (q + subs.length)
  | none => none

/-- Matcher of QuoteMeta(subs) + `.*`: `subs` here, then everything up to the next
line break. -/
def matchPast (subs : Str) (s : Str) : Option Nat :=
  if subs.isPrefixOf s then
    some (subs.length + dotStarLen (s.drop subs.length))
  else none

/-- Matcher of `\n{2,}`: two or more line breaks. -/
def matchNewlines (s : Str) : Option Nat :=
  let k := (s.takeWhile (fun c => c == '\n')).length
  if 2 ≤ k then some k else none

/-- Matcher of a literal, for `strings.ReplaceAll` with a non-empty pattern. -/
def matchLiteral (pat : Str) (s : Str) : Option Nat :=
  if pat.isPrefixOf s then some pat.length else none

/-- Go `strings.ReplaceAll` with a non-empty pattern: leftmost non-overlapping
occurrences are replaced. -/
def stringsReplaceAll (s pat rep : Str) : Str :=
  regexpReplaceAll (matchLiteral pat) rep s

/-! ## The program -/

/-- The operator table `ops`, in its declared order. -/
def ops : List Str :=
  [ "+", "-", "*", "/", "%", "++", "--",
    "+=", "-=", "*=", "/=", "%=", "=", "==", "!=",
    "&&", "||", "!", "&", "|", "^", "<<", ">>",
    "<", ">", "<=", ">=", "<<=", ">>=", "&=", "|=", "^=", ",",
    "(", ")", "\x7b", "\x7d", ";", "else", ":", "::", "?" ].map String.toList

/-- The table `spacedOps`. -/
def spacedOps : List Str := ["else".toList]

/-- The table `unaryOps` (declared, never used). -/
def unaryOps : List Str := ["+", "-", "&", "!", "*"].map String.toList

/-- The helper `contains`. -/
def contains (slice : List Str) (item : Str) : Bool :=
  match slice with
  | [] => false
  | elem :: rest => if elem = item then true else contains rest item

def removeEverythingBetween (start stop line : Str) : Str :=
  regexpReplaceAll (matchBetween start stop) [] line

def removeEverythingBefore (subs line : Str) : Str :=
  regexpReplaceAll (matchBefore subs) [] line

def removeEverythingPast (subs line : Str) : Str :=
  regexpReplaceAll (matchPast subs) [] line

/-- The loop of `removeMultilineComments`, with the flag `inComment` as an argument. -/
def removeMultilineCommentsFrom (inComment : Bool) : List Str → List Str
  | [] => []
  | line :: rest =>
    if !inComment then
      let startPos := stringsIndex line ['/', '*']
      if startPos ≠ -1 then
        let endPos := stringsIndex line ['*', '/']
        if startPos < endPos then
          removeEverythingBetween ['/', '*'] ['*', '/'] line
            :: removeMultilineCommentsFrom false rest
        else
          removeEverythingPast ['/', '*'] line :: removeMultilineCommentsFrom true rest
      else
        line :: removeMultilineCommentsFrom false rest
    else
      let endPos := stringsIndex line ['*', '/']
      if endPos ≠ -1 then
        removeEverythingBefore ['*', '/'] line :: removeMultilineCommentsFrom false rest
      else
        [] :: removeMultilineCommentsFrom true rest

def removeMultilineComments (lines : List Str) : List Str :=
  removeMultilineCommentsFrom false lines

def removeInlineComments (lines : List Str) : List Str :=
  lines.map (removeEverythingPast ['/', '/'])

def minifyOperator (op : Str) (line : Str) : Str :=
  let replacement := if contains spacedOps op then op ++ [' '] else op
  regexpReplaceAll (matchSpacedOp op) replacement line

def fixSpacedOps (text : Str) : Str :=
  spacedOps.foldl (fun text op => stringsReplaceAll text (op ++ " \x7b".toList) (op ++ "\x7b".toList))
    text

def clearWhitespaceFirstPass (lines : List Str) : List Str :=
  lines.map (fun line => stringsTrimSpace (replaceTabs line))

def reinsertPreprocessorNewlines (lines : List Str) : List Str :=
  lines.map (fun line => if stringsHasPrefix line ['#'] then line ++ ['\n'] else line)

def fixDuplicateNewlines (file : Str) : Str :=
  regexpReplaceAll matchNewlines ['\n'] file

/-- The lines of `minifySource` when its loop over the operators and the inline-comment
pass are done, before the block-comment pass. -/
def compactedLines (source : Str) (keepNewlines keepInlineComments : Bool) : List Str :=
  let lines := stringsSplit source
  let lines := clearWhitespaceFirstPass lines
  let lines := if !keepNewlines then reinsertPreprocessorNewlines lines else lines
  let lines := ops.foldl (fun lines op => lines.map (minifyOperator op)) lines
  let lines := if !keepInlineComments then removeInlineComments lines else lines
  lines

/-- The lines of `minifySource` just before they are joined. -/
def minifiedLines (source : Str) (keepNewlines keepMultilineComments keepInlineComments : Bool) :
    List Str :=
  let lines := compactedLines source keepNewlines keepInlineComments
  let lines := if !keepMultilineComments then removeMultilineComments lines else lines
  lines

/-- The value of the flag `inComment` of `removeMultilineComments` when its loop,
started with the flag at `inComment`, has gone through `lines`. -/
def insideAfter (inComment : Bool) : List Str → Bool
  | [] => inComment
  | line :: rest =>
    if !inComment then
      let startPos := stringsIndex line ['/', '*']
      if startPos ≠ -1 then
        let endPos := stringsIndex line ['*', '/']
        if startPos < endPos then insideAfter false rest else insideAfter true rest
      else insideAfter false rest
    else
      let endPos := stringsIndex line ['*', '/']
      if endPos ≠ -1 then insideAfter false rest else insideAfter true rest

/-- The first character of `l` that is not white space, if there is one. -/
def firstNonSpace (l : Str) : Option Char :=
  (l.dropWhile isSpace).head?

def minifySource (source : Str) (keepNewlines keepMultilineComments keepInlineComments : Bool) :
    Str :=
  let lines := minifiedLines source keepNewlines keepMultilineComments keepInlineComments
  let minified := stringsJoin lines
  let minified := if !keepNewlines then fixDuplicateNewlines minified else minified
  fixSpacedOps minified

/-- The part of `line` before the first occurrence of `sub` (all of it when `sub` does
not occur). -/
def prefixBefore (sub : Str) : Str → Str
  | [] => []
  | c :: cs => if sub.isPrefixOf (c :: cs) then [] else c :: prefixBefore sub cs

/-- A run of `n` space characters. -/
def spaces (n : Nat) : Str := List.replicate n ' '

/-- The text with its space characters deleted. -/
def despace (l : Str) : Str := l.filter (fun c => c != ' ')

/-- No space character stands next to the character `c`. -/
@[irreducible] def NoSpaceNextTo (c : Char) (l : Str) : Prop :=
  List.Chain' (fun a b => ¬ (a = ' ' ∧ b = c) ∧ ¬ (a = c ∧ b = ' ')) l

/-- The operator compaction loop of `minifySource` on one line, for a list of operators. -/
def compactLine (os : List Str) (line : Str) : Str :=
  os.foldl (fun line op => minifyOperator op line) line

/-- Letters, digits and the underscore (the characters of a C identifier).  Beyond
ASCII every character that is not white space is let through, which covers the letters
and digits of every script. -/
def isWordChar (c : Char) : Bool :=
  (48 ≤ c.toNat && c.toNat ≤ 57) || (65 ≤ c.toNat && c.toNat ≤ 90)
    || (97 ≤ c.toNat && c.toNat ≤ 122) || c.toNat == 95
    || (128 ≤ c.toNat && !isSpace c)

/-- The characters of which the operators other than `else` are made. -/
def opChars : Str := "+-*/%=!&|^<>,()\x7b\x7d;:?".toList

/-- A character that is neither white space, nor `#`, nor part of an operator other
than `else`. -/
def isPlainChar (c : Char) : Bool :=
  !isSpace c && c != '#' && !decide (c ∈ opChars)

/-- Text without `/` and `#` whose only white space is the space character. -/
def PlainText (x : Str) : Prop :=
  ∀ c ∈ x, c ≠ '/' ∧ c ≠ '#' ∧ (isSpace c = true → c = ' ')

/-- Text that neither begins nor ends with a space. -/
def Trimmed (x : Str) : Prop :=
  (∀ c ∈ x.head?, c ≠ ' ') ∧ (∀ c ∈ x.getLast?, c ≠ ' ')

/-- What `minifySource` does to one line up to the end of its loop over the operators:
tabs to spaces, trimming, then the loop. -/
@[irreducible] def normalLine (l : Str) : Str :=
  compactLine ops (stringsTrimSpace (replaceTabs l))

/-- The text `t` with every run of line breaks cut down to a single line break; `prev`
tells whether the character standing before `t` is a line break. -/
def collapseRuns (prev : Bool) : Str → Str
  | [] => []
  | c :: cs =>
    if c = '\n' then
      if prev then collapseRuns true cs else '\n' :: collapseRuns true cs
    else c :: collapseRuns false cs

/-- The pairs (longer operator, shorter operator) of the table in which the shorter one is
a proper substring of the longer one and the longer one comes first. -/
def longerFirst : List (Str × Str) :=
  [("<<", "<"), (">>", ">"), ("&&", "&"), ("||", "|"), ("!=", "!"), ("+=", "="),
    ("-=", "="), ("*=", "="), ("/=", "="), ("%=", "=")].map
      (fun p => (p.1.toList, p.2.toList))

/-- The pieces joined with `sep` between them (Go `strings.Join`). -/
def joinWith (sep : Str) : List Str → Str
  | [] => []
  | [x] => x
  | x :: y :: rest => x ++ (sep ++ joinWith sep (y :: rest))

/-- Text in which `/` does not occur. -/
def Free (x : Str) : Prop := '/' ∉ x

/-- Whether the last character of `p` other than spaces and tabs is `*`. -/
def endsWithStar (p : Str) : Bool := (despace (replaceTabs p)).getLast? == some '*'

/-- No space stands right after the character `c`. -/
@[irreducible] def NoSpaceAfter (c : Char) (l : Str) : Prop :=
  List.Chain' (fun a b => ¬ (a = c ∧ b = ' ')) l

/-- What `minifySource` makes of one line of the source before the block-comment pass
(default flags): tabs, outer white space, the directive guard, the operators, the
inline comments. -/
@[irreducible] def compactedLine (l : Str) : Str :=
  removeEverythingPast ['/', '/']
    (compactLine ops
      (if stringsHasPrefix (stringsTrimSpace (replaceTabs l)) ['#'] = true
        then stringsTrimSpace (replaceTabs l) ++ ['\n']
        else stringsTrimSpace (replaceTabs l)))

/-- The marker `m` when `b` holds, nothing otherwise. -/
def marker (b : Bool) (m : Str) : Str := if b then m else []

/-- Whether a block comment is open after a line, given whether one was open before it
and whether the line holds a start marker (`b1`) and an end marker (`b2`). -/
def nextOpen (isOpen b1 b2 : Bool) : Bool :=
  if isOpen then !b2 else (b1 && !b2)

/-- Lines whose block comments are well-formed and simple: every line is `p`,
`p /* c`, `c */ q` or `p /* c */ q`, where `/` occurs in the markers only; before a
start marker the last character of `p` other than spaces and tabs is not `*`; and a
line with an end marker but no start marker comes only while a comment is open
(`isOpen` tells whether one is open before the first line). -/
def WellFormedLines (isOpen : Bool) : List Str → Prop
  | [] => True
  | l :: rest =>
    ∃ (b1 b2 : Bool) (p c q : Str),
      l = p ++ (marker b1 ['/', '*'] ++ (c ++ (marker b2 ['*', '/'] ++ q)))
        ∧ Free p ∧ Free c ∧ Free q
        ∧ (b1 = true → endsWithStar p = false)
        ∧ (isOpen = false → b2 = true → b1 = true)
        ∧ WellFormedLines (nextOpen isOpen b1 b2) rest

/-! ## Texts that a further run of `minifySource` leaves alone: definitions -/

/-- All the ways of cutting a text in two: the pairs `(a, b)` with `a ++ b = t`. -/
def splits : Str → List (Str × Str)
  | [] => [([], [])]
  | c :: cs => ([], c :: cs) :: (splits cs).map (fun p => (c :: p.1, p.2))

/-- What may stand after the keyword `else` in a line that a further run leaves alone:
an opening brace, `:` or `?` directly, or one space that ends the line or is followed by
something other than a second space, `:` and `?`. -/
def elseFollowOk (b : Str) : Bool :=
  match b with
  | [] => false
  | c :: rest =>
    if c = '\x7b' ∨ c = ':' ∨ c = '?' then true
    else if c = ' ' then
      match rest with
      | [] => true
      | d :: _ => !(d == ' ' || d == ':' || d == '?')
    else false

/-- A line that a further run leaves alone: it does not begin with white space; it ends
with white space only if it ends with `else` and one space; a space stands right before
`else` only right after an `else`; and what follows each `else` is as `elseFollowOk`
says. -/
def StableLine (g : Str) : Prop :=
  (∀ c ∈ g.head?, isSpace c = false)
    ∧ (∀ c ∈ g.getLast?, isSpace c = true → ['e', 'l', 's', 'e', ' '] <:+ g)
    ∧ (∀ p ∈ splits g, [' ', 'e', 'l', 's', 'e'] <+: p.2 → ['e', 'l', 's', 'e'] <:+ p.1)
    ∧ (∀ p ∈ splits g, ['e', 'l', 's', 'e'] <:+ p.1 → elseFollowOk p.2 = true)

/-- A text that a further run of `minifySource` with the same flags leaves alone: it
holds no `//` when inline comments are removed and no `/*` when block comments are
removed; when directives get their line break, every line but the last begins with `#`
and the last line does not; and every line is a `StableLine`. -/
def Stable (keepNewlines keepMultilineComments keepInlineComments : Bool) (t : Str) : Prop :=
  (keepInlineComments = false → ¬ ['/', '/'] <:+: t)
    ∧ (keepMultilineComments = false → ¬ ['/', '*'] <:+: t)
    ∧ (keepNewlines = false →
        (∀ g ∈ (stringsSplit t).dropLast, g.head? = some '#')
          ∧ ∀ g ∈ (stringsSplit t).getLast?, g.head? ≠ some '#')
    ∧ ∀ g ∈ stringsSplit t, StableLine g

/-- Text in which no space stands right after an operator character, and which does not
begin with a space. -/
@[irreducible] def OpsTight (l : Str) : Prop :=
  List.Chain' (fun x y => ¬ (x ∈ opChars ∧ y = ' ')) l ∧ ∀ c ∈ l.head?, c ≠ ' '

/-- The operator characters other than `:` and `?`, which the loop over the operators
reaches before `else`. -/
def earlyOpChars : Str := "+-*/%=!&|^<>,()\x7b\x7d;".toList

/-- Every space of `l` that is followed by a character of `S`, or by nothing, stands
right after `else`. -/
def Guarded (S : Str) (l : Str) : Prop :=
  ∀ pre post : Str, l = pre ++ ' ' :: post → (∀ c ∈ post.head?, c ∈ S) →
    ['e', 'l', 's', 'e'] <:+ pre

/-- The test `elseFollowOk` with one more condition: the one space is not followed by an
opening brace either. -/
def elseFollowTight (b : Str) : Bool :=
  match b with
  | [] => false
  | c :: rest =>
    if c = '\x7b' ∨ c = ':' ∨ c = '?' then true
    else if c = ' ' then
      match rest with
      | [] => true
      | d :: _ => !(d == ' ' || d == '\x7b' || d == ':' || d == '?')
    else false

/-- A `StableLine` with three properties more, which every line of an output of
`minifySource` has: no space stands right after an operator character; a space stands
right before an operator character only right after `else`; and what follows each `else`
is as `elseFollowTight` says. -/
def SteadyLine (g : Str) : Prop :=
  (∀ c ∈ g.head?, isSpace c = false)
    ∧ (∀ c ∈ g.getLast?, isSpace c = true → ['e', 'l', 's', 'e', ' '] <:+ g)
    ∧ (∀ o ∈ opChars, ¬ [o, ' '] <:+: g)
    ∧ (∀ p ∈ splits g, ((∃ o ∈ opChars, [' ', o] <+: p.2) ∨ [' ', 'e', 'l', 's', 'e'] <+: p.2) →
        ['e', 'l', 's', 'e'] <:+ p.1)
    ∧ (∀ p ∈ splits g, ['e', 'l', 's', 'e'] <:+ p.1 → elseFollowTight p.2 = true)

/-- The predicate `Stable` with `SteadyLine` for `StableLine`. -/
def Steady (keepNewlines keepMultilineComments keepInlineComments : Bool) (t : Str) : Prop :=
  (keepInlineComments = false → ¬ ['/', '/'] <:+: t)
    ∧ (keepMultilineComments = false → ¬ ['/', '*'] <:+: t)
    ∧ (keepNewlines = false →
        (∀ g ∈ (stringsSplit t).dropLast, g.head? = some '#')
          ∧ ∀ g ∈ (stringsSplit t).getLast?, g.head? ≠ some '#')
    ∧ ∀ g ∈ stringsSplit t, SteadyLine g

/-- Pieces `x0`, `x1`, ... joined by the keyword `else`, each `else` followed by one
space when the flag of the piece after it is set. -/
def render (x0 : Str) : List (Bool × Str) → Str
  | [] => x0
  | p :: rest =>
    x0 ++ (['e', 'l', 's', 'e'] ++ ((if p.1 then [' '] else []) ++ render p.2 rest))

/-- Text without a space next to an operator character. -/
def Plain (x : Str) : Prop :=
  ∀ o ∈ opChars, ¬ [' ', o] <:+: x ∧ ¬ [o, ' '] <:+: x

/-- The pieces of `render` are cut at every `else`: no piece has a space next to an
operator character, `else` begins nowhere inside a piece, a piece before an `else` does
not end with a space, and a piece after an `else` does not begin with one. -/
def PiecesOK (x0 : Str) : List (Bool × Str) → Prop
  | [] => Plain x0 ∧ ¬ ['e', 'l', 's', 'e'] <:+: x0
  | p :: rest =>
    Plain x0 ∧ ¬ ['e', 'l', 's', 'e'] <:+: x0 ++ ['e', 'l', 's']
      ∧ x0.getLast? ≠ some ' ' ∧ p.2.head? ≠ some ' ' ∧ PiecesOK p.2 rest

/-- Whether `else` keeps its space before the piece `x`: not when `x` begins with `:`,
`?` or an opening brace. -/
def elseSpace (x : Str) : Bool :=
  !(x.head? == some ':' || x.head? == some '?' || x.head? == some '\x7b')

/-- What a further run makes of a line up to the end of its loop over the operators:
outer white space removed, then the loop. -/
@[irreducible] def recompact (g : Str) : Str :=
  compactLine ops (stringsTrimSpace g)

/-- The line `recompact g` with the line break that a line beginning with `#` gets. -/
def steadyCompact (g : Str) : Str :=
  if g.head? = some '#' then recompact g ++ ['\n'] else recompact g

/-! ## The scan of `ReplaceAllString` -/

theorem regexpReplaceGo_skip (m : Str → Option Nat) (rep : Str) (xs ys : Str) :
    regexpReplaceGo m rep xs.length (xs ++ ys) = regexpReplaceGo m rep 0 ys := by
  induction xs with
  | nil => simp
  | cons x xs ih => simpa [regexpReplaceGo] using ih

theorem regexpReplaceAll_nil (m : Str → Option Nat) (rep : Str) :
    regexpReplaceAll m rep [] = [] := by
  simp [regexpReplaceAll, regexpReplaceGo]

theorem regexpReplaceAll_cons_none (m : Str → Option Nat) (rep : Str) (c : Char) (cs : Str)
    (h : m (c :: cs) = none) :
    regexpReplaceAll m rep (c :: cs) = c :: regexpReplaceAll m rep cs := by
  simp [regexpReplaceAll, regexpReplaceGo, h]

theorem regexpReplaceAll_match (m : Str → Option Nat) (rep : Str) (xs ys : Str) (hx : xs ≠ [])
    (h : m (xs ++ ys) = some xs.length) :
    regexpReplaceAll m rep (xs ++ ys) = rep ++ regexpReplaceAll m rep ys := by
  cases xs with
  | nil => exact absurd rfl hx
  | cons x xs =>
    have hs := regexpReplaceGo_skip m rep xs ys
    simp only [List.cons_append] at h
    simp [regexpReplaceAll, regexpReplaceGo, h, hs]

theorem regexpReplaceAll_id (m : Str → Option Nat) (rep : Str) (l : Str)
    (h : ∀ t, t <:+ l → m t = none) : regexpReplaceAll m rep l = l := by
  induction l with
  | nil => exact regexpReplaceAll_nil m rep
  | cons c cs ih =>
    rw [regexpReplaceAll_cons_none m rep c cs (h _ (List.suffix_refl _)),
      ih (fun t ht => h t (ht.trans (List.suffix_cons c cs)))]

/-! ## `strings.Index` and the text before a first occurrence -/

theorem stringsIndex_ge (sub l : Str) : -1 ≤ stringsIndex l sub := by
  induction l with
  | nil => simp only [stringsIndex]; split <;> omega
  | cons c cs ih =>
    simp only [stringsIndex]
    split
    · omega
    · split <;> omega

theorem stringsIndex_eq_neg_one (sub l : Str) : stringsIndex l sub = -1 ↔ ¬ sub <:+: l := by
  induction l with
  | nil =>
    simp only [stringsIndex, List.infix_nil]
    by_cases h : sub = [] <;> simp [h]
  | cons c cs ih =>
    have hge := stringsIndex_ge sub cs
    simp only [stringsIndex, List.infix_cons_iff, List.isPrefixOf_iff_prefix]
    by_cases hp : sub <+: c :: cs
    · simp [hp]
    · simp only [hp, if_false, false_or]
      rw [← ih]
      constructor
      · intro h
        by_contra hne
        rw [if_neg hne] at h
        omega
      · intro h
        simp [h]

theorem prefixBefore_of_absent (sub l : Str) (h : ¬ sub <:+: l) : prefixBefore sub l = l := by
  induction l with
  | nil => rfl
  | cons c cs ih =>
    have h1 : ¬ sub <+: c :: cs := fun hp => h hp.isInfix
    have h2 : ¬ sub <:+: cs := fun hi => h (List.infix_cons hi)
    simp [prefixBefore, List.isPrefixOf_iff_prefix, h1, ih h2]

theorem prefixBefore_append (x y : Char) (pre post : Str) (h : ¬ [x, y] <:+: pre ++ [x]) :
    prefixBefore [x, y] (pre ++ [x, y] ++ post) = pre := by
  induction pre with
  | nil => simp [prefixBefore]
  | cons a pre ih =>
    have h2 : ¬ [x, y] <:+: pre ++ [x] := fun hi => h (List.infix_cons hi)
    have h1 : ¬ [x, y] <+: a :: (pre ++ [x, y] ++ post) := by
      intro hp
      apply h
      cases pre with
      | nil =>
        simp only [List.nil_append, List.cons_append, List.cons_prefix_cons] at hp
        obtain ⟨rfl, rfl, -⟩ := hp
        exact List.infix_refl _
      | cons b pre =>
        simp only [List.cons_append, List.cons_prefix_cons] at hp
        obtain ⟨rfl, rfl, -⟩ := hp
        exact (List.prefix_append [x, y] (pre ++ [x])).isInfix
    simp only [List.cons_append, prefixBefore, List.isPrefixOf_iff_prefix]
    rw [if_neg (by simpa using h1)]
    simpa using ih h2

theorem prefixBefore_first (x y : Char) (l : Str) (h : [x, y] <:+: l) :
    ¬ [x, y] <:+: prefixBefore [x, y] l ++ [x] := by
  induction l with
  | nil => simp at h
  | cons c cs ih =>
    simp only [prefixBefore, List.isPrefixOf_iff_prefix]
    by_cases hp : [x, y] <+: c :: cs
    · simp [hp, List.infix_cons_iff]
    · have hi : [x, y] <:+: cs := by
        rcases List.infix_cons_iff.1 h with h1 | h1
        · exact absurd h1 hp
        · exact h1
      simp only [hp, if_false, List.cons_append, List.infix_cons_iff, not_or]
      refine ⟨?_, ih hi⟩
      intro hq
      apply hp
      cases cs with
      | nil => simp at hi
      | cons d ds =>
        simp only [prefixBefore, List.isPrefixOf_iff_prefix] at hq
        by_cases hd : [x, y] <+: d :: ds
        · simp only [hd, if_true, List.nil_append, List.cons_prefix_cons] at hq
          obtain ⟨rfl, rfl, -⟩ := hq
          simp only [List.cons_prefix_cons] at hd
          simp [hd.1]
        · simp only [hd, if_false, List.cons_append, List.cons_prefix_cons] at hq
          simp [hq.1, hq.2.1]

theorem prefixBefore_clean (x y : Char) (l : Str) :
    ¬ [x, y] <:+: prefixBefore [x, y] l := by
  by_cases h : [x, y] <:+: l
  · intro hi
    exact prefixBefore_first x y l h (hi.trans (List.infix_append' [] _ [x] |>.trans (by simp)))
  · rw [prefixBefore_of_absent _ _ h]
    exact h

theorem prefixBefore_split (sub l : Str) (h : sub <:+: l) :
    ∃ post, l = prefixBefore sub l ++ sub ++ post := by
  induction l with
  | nil =>
    have : sub = [] := by simpa using h
    subst this
    exact ⟨[], by simp [prefixBefore]⟩
  | cons c cs ih =>
    simp only [prefixBefore, List.isPrefixOf_iff_prefix]
    by_cases hp : sub <+: c :: cs
    · obtain ⟨t, ht⟩ := hp
      exact ⟨t, by simp [List.prefix_iff_eq_append, ← ht]⟩
    · have hi : sub <:+: cs := by
        rcases List.infix_cons_iff.1 h with h1 | h1
        · exact absurd h1 hp
        · exact h1
      obtain ⟨post, hpost⟩ := ih hi
      refine ⟨post, ?_⟩
      simp only [hp, if_false, List.cons_append]
      simp only [List.append_assoc] at hpost ⊢
      rw [← hpost]

theorem dotStarLen_of_no_newline (l : Str) (h : '\n' ∉ l) : dotStarLen l = l.length := by
  unfold dotStarLen
  rw [List.takeWhile_eq_self_iff.2]
  intro c hc
  have : c ≠ '\n' := fun e => h (e ▸ hc)
  simpa using this

theorem removeEverythingPast_eq (sub l : Str) (hnl : '\n' ∉ l) :
    removeEverythingPast sub l = prefixBefore sub l := by
  induction l with
  | nil => simp [removeEverythingPast, regexpReplaceAll_nil, prefixBefore]
  | cons c cs ih =>
    have hnl2 : '\n' ∉ cs := fun h => hnl (List.mem_cons_of_mem _ h)
    unfold removeEverythingPast at ih ⊢
    simp only [prefixBefore, List.isPrefixOf_iff_prefix]
    by_cases hp : sub <+: c :: cs
    · have hm : matchPast sub ((c :: cs) ++ []) = some (c :: cs).length := by
        have hd : '\n' ∉ List.drop sub.length (c :: cs) :=
          fun h => hnl (List.mem_of_mem_drop h)
        have hl := hp.length_le
        simp only [matchPast, List.append_nil, List.isPrefixOf_iff_prefix, hp, if_true,
          dotStarLen_of_no_newline _ hd, List.length_drop]
        congr 1
        omega
      have := regexpReplaceAll_match (matchPast sub) [] (c :: cs) [] (by simp) hm
      simp only [List.append_nil] at this
      simp [this, hp, regexpReplaceAll_nil]
    · have hm : matchPast sub (c :: cs) = none := by
        simp [matchPast, List.isPrefixOf_iff_prefix, hp]
      rw [regexpReplaceAll_cons_none _ _ _ _ hm, ih hnl2]
      simp [hp]

/-! ## The matcher of ` *op *` -/

theorem leadingSpaces_cons_space (cs : Str) : leadingSpaces (' ' :: cs) = leadingSpaces cs + 1 := by
  simp [leadingSpaces, List.takeWhile]

theorem leadingSpaces_cons_ne (c : Char) (cs : Str) (h : c ≠ ' ') :
    leadingSpaces (c :: cs) = 0 := by
  simp [leadingSpaces, List.takeWhile_cons, h]

theorem leadingSpaces_nil : leadingSpaces [] = 0 := rfl

theorem leadingSpaces_spaces_append (k : Nat) (l : Str) :
    leadingSpaces (spaces k ++ l) = k + leadingSpaces l := by
  induction k with
  | zero => simp [spaces]
  | succ k ih =>
    have : spaces (k + 1) ++ l = ' ' :: (spaces k ++ l) := by
      simp [spaces, List.replicate_succ]
    rw [this, leadingSpaces_cons_space, ih]
    omega

theorem split_leadingSpaces (l : Str) :
    l = spaces (leadingSpaces l) ++ l.drop (leadingSpaces l)
      ∧ leadingSpaces (l.drop (leadingSpaces l)) = 0 := by
  induction l with
  | nil => simp [leadingSpaces, spaces]
  | cons c cs ih =>
    by_cases hc : c = ' '
    · subst hc
      rw [leadingSpaces_cons_space]
      refine ⟨?_, by simpa using ih.2⟩
      have : spaces (leadingSpaces cs + 1) = ' ' :: spaces (leadingSpaces cs) := by
        simp [spaces, List.replicate_succ]
      rw [this, List.drop_succ_cons, List.cons_append, ← ih.1]
    · rw [leadingSpaces_cons_ne c cs hc]
      exact ⟨by simp [spaces], by simpa using leadingSpaces_cons_ne c cs hc⟩

theorem matchSpacedOp_space_cons (op cs : Str) :
    matchSpacedOp op (' ' :: cs) = (matchSpacedOp op cs).map (fun n => n + 1) := by
  simp only [matchSpacedOp, leadingSpaces_cons_space, List.drop_succ_cons]
  split
  · simp only [Option.map_some']
    congr 1
    omega
  · rfl

theorem matchSpacedOp_decomp (op l : Str) (n : Nat) (h : matchSpacedOp op l = some n) :
    ∃ k k' rest, l = spaces k ++ (op ++ (spaces k' ++ rest)) ∧ leadingSpaces rest = 0
      ∧ n = (spaces k ++ (op ++ spaces k')).length := by
  simp only [matchSpacedOp, List.isPrefixOf_iff_prefix] at h
  split at h
  · rename_i hp
    obtain ⟨t, ht⟩ := hp
    have h1 := split_leadingSpaces l
    have h2 := split_leadingSpaces t
    refine ⟨leadingSpaces l, leadingSpaces t, t.drop (leadingSpaces t), ?_, h2.2, ?_⟩
    · rw [← h2.1, ht, ← h1.1]
    · have hn := Option.some.inj h
      rw [← ht, List.drop_left] at hn
      simp [spaces, ← hn]
      omega
  · exact absurd h (by simp)

theorem minifyOperator_step (op rep l : Str) (n : Nat) (hop : op ≠ [])
    (h : matchSpacedOp op l = some n) :
    ∃ k k' rest, l = spaces k ++ (op ++ (spaces k' ++ rest)) ∧ leadingSpaces rest = 0
      ∧ regexpReplaceAll (matchSpacedOp op) rep l
          = rep ++ regexpReplaceAll (matchSpacedOp op) rep rest := by
  obtain ⟨k, k', rest, hl, hr, hn⟩ := matchSpacedOp_decomp op l n h
  refine ⟨k, k', rest, hl, hr, ?_⟩
  have hx : spaces k ++ (op ++ spaces k') ≠ [] := by simp [hop]
  have hl2 : l = (spaces k ++ (op ++ spaces k')) ++ rest := by simp [hl]
  rw [hl2] at h ⊢
  rw [hn] at h
  exact regexpReplaceAll_match _ _ _ _ hx h

theorem minifyOperator_rest_lt (op l rest : Str) (k k' : Nat) (hop : op ≠ [])
    (hl : l = spaces k ++ (op ++ (spaces k' ++ rest))) : rest.length < l.length := by
  have := List.length_pos.2 hop
  simp [hl]
  omega

theorem despace_append (a b : Str) : despace (a ++ b) = despace a ++ despace b := by
  simp [despace]

theorem despace_spaces (k : Nat) : despace (spaces k) = [] := by
  simp [despace, spaces]

theorem despace_of_no_space (l : Str) (h : ' ' ∉ l) : despace l = l := by
  unfold despace
  rw [List.filter_eq_self]
  intro c hc
  have : c ≠ ' ' := fun e => h (e ▸ hc)
  simpa using this

/-- Replacing ` *op *` changes space characters only. -/
theorem despace_replace (op rep : Str) (hop : op ≠ []) (hrep : despace rep = despace op)
    (l : Str) : despace (regexpReplaceAll (matchSpacedOp op) rep l) = despace l := by
  induction' hn : l.length using Nat.strong_induction_on with n ih generalizing l
  cases l with
  | nil => simp [regexpReplaceAll_nil]
  | cons c cs =>
    cases hm : matchSpacedOp op (c :: cs) with
    | none =>
      rw [regexpReplaceAll_cons_none _ _ _ _ hm]
      have h1 := ih cs.length (by simp [← hn]) cs rfl
      have e : ∀ t : Str, despace (c :: t) = despace [c] ++ despace t := fun t =>
        despace_append [c] t
      rw [e, e cs, h1]
    | some n' =>
      obtain ⟨k, k', rest, hl, -, hR⟩ := minifyOperator_step op rep _ n' hop hm
      have hlt := minifyOperator_rest_lt op _ rest k k' hop hl
      have h1 := ih rest.length (by omega) rest rfl
      rw [hR, hl]
      simp only [despace_append, despace_spaces, h1, hrep, List.nil_append]

/-- Replacing ` *op *` by `op` only deletes characters. -/
theorem sublist_replace (op : Str) (hop : op ≠ []) (l : Str) :
    (regexpReplaceAll (matchSpacedOp op) op l).Sublist l := by
  induction' hn : l.length using Nat.strong_induction_on with n ih generalizing l
  cases l with
  | nil => simp [regexpReplaceAll_nil]
  | cons c cs =>
    cases hm : matchSpacedOp op (c :: cs) with
    | none =>
      rw [regexpReplaceAll_cons_none _ _ _ _ hm]
      exact (ih cs.length (by simp [← hn]) cs rfl).cons₂ c
    | some n' =>
      obtain ⟨k, k', rest, hl, -, hR⟩ := minifyOperator_step op op _ n' hop hm
      have hlt := minifyOperator_rest_lt op _ rest k k' hop hl
      have h1 := ih rest.length (by omega) rest rfl
      rw [hR, hl]
      refine List.Sublist.trans ?_ (List.sublist_append_right _ _)
      refine List.Sublist.append (List.Sublist.refl _) ?_
      exact h1.trans (List.sublist_append_right _ _)

/-- Where `op` does not occur nothing is replaced. -/
theorem replace_of_absent (op rep l : Str) (h : ¬ op <:+: l) :
    regexpReplaceAll (matchSpacedOp op) rep l = l := by
  apply regexpReplaceAll_id
  intro t ht
  cases hm : matchSpacedOp op t with
  | none => rfl
  | some n =>
    exfalso
    obtain ⟨k, k', rest, hl, -, -⟩ := matchSpacedOp_decomp op t n hm
    apply h
    refine List.IsInfix.trans ?_ ht.isInfix
    exact ⟨spaces k, spaces k' ++ rest, by simp [hl]⟩

theorem head_replace (op l : Str) (hop : op ≠ []) (y : Char)
    (hy : y ∈ (regexpReplaceAll (matchSpacedOp op) op l).head?) :
    (y ∈ l.head? ∧ matchSpacedOp op l = none)
      ∨ (y ∈ op.head? ∧ ∃ n, matchSpacedOp op l = some n) := by
  cases l with
  | nil => simp [regexpReplaceAll_nil] at hy
  | cons c cs =>
    cases hm : matchSpacedOp op (c :: cs) with
    | none =>
      rw [regexpReplaceAll_cons_none _ _ _ _ hm] at hy
      exact Or.inl ⟨by simpa using hy, rfl⟩
    | some n =>
      obtain ⟨k, k', rest, -, -, hR⟩ := minifyOperator_step op op _ n hop hm
      rw [hR] at hy
      cases op with
      | nil => exact absurd rfl hop
      | cons o os => exact Or.inr ⟨by simpa using hy, n, rfl⟩

theorem head_ne_space_of_leadingSpaces (l : Str) (h : leadingSpaces l = 0) (y : Char)
    (hy : y ∈ l.head?) : y ≠ ' ' := by
  cases l with
  | nil => simp at hy
  | cons c cs =>
    simp only [List.head?_cons, Option.mem_def, Option.some.injEq] at hy
    subst hy
    intro hc
    subst hc
    rw [leadingSpaces_cons_space] at h
    omega

theorem chain_of_no_space (r : Char → Char → Prop)
    (hr : ∀ a b, a ≠ ' ' → b ≠ ' ' → r a b) (l : Str) (h : ' ' ∉ l) : List.Chain' r l := by
  induction l with
  | nil => exact List.chain'_nil
  | cons c cs ih =>
    rw [List.chain'_cons']
    refine ⟨?_, ih (fun hc => h (List.mem_cons_of_mem _ hc))⟩
    intro y hy
    have hy' : y ∈ cs := List.mem_of_mem_head? hy
    exact hr c y (fun e => h (e ▸ List.mem_cons_self _ _))
      (fun e => h (e ▸ List.mem_cons_of_mem _ hy'))

/-- Replacing ` *op *` by `op` never puts a space next to a character that had none:
a relation that holds between any two characters other than the space, and held between
neighbours before, holds between neighbours after. -/
theorem chain_replace (op : Str) (hop : op ≠ []) (hsp : ' ' ∉ op) (r : Char → Char → Prop)
    (hr : ∀ a b, a ≠ ' ' → b ≠ ' ' → r a b) (l : Str) (hl : List.Chain' r l) :
    List.Chain' r (regexpReplaceAll (matchSpacedOp op) op l) := by
  induction' hn : l.length using Nat.strong_induction_on with n ih generalizing l
  cases l with
  | nil => simp [regexpReplaceAll_nil]
  | cons c cs =>
    cases hm : matchSpacedOp op (c :: cs) with
    | none =>
      rw [regexpReplaceAll_cons_none _ _ _ _ hm, List.chain'_cons']
      rw [List.chain'_cons'] at hl
      refine ⟨?_, ih cs.length (by simp [← hn]) cs hl.2 rfl⟩
      intro y hy
      rcases head_replace op cs hop y hy with ⟨h1, -⟩ | ⟨h1, n', h2⟩
      · exact hl.1 y h1
      · have hc : c ≠ ' ' := by
          intro e
          subst e
          rw [matchSpacedOp_space_cons, h2] at hm
          simp at hm
        exact hr c y hc (fun e => hsp (e ▸ List.mem_of_mem_head? h1))
    | some n' =>
      obtain ⟨k, k', rest, hl', hrest, hR⟩ := minifyOperator_step op op _ n' hop hm
      have hlt := minifyOperator_rest_lt op _ rest k k' hop hl'
      have hsuf : rest <:+ c :: cs := ⟨spaces k ++ (op ++ spaces k'), by simp [hl']⟩
      rw [hR, List.chain'_append]
      refine ⟨chain_of_no_space r hr op hsp, ih rest.length (by omega) rest (hl.suffix hsuf) rfl,
        ?_⟩
      intro x hx y hy
      have hx' : x ≠ ' ' := fun e => hsp (e ▸ List.mem_of_mem_getLast? hx)
      rcases head_replace op rest hop y hy with ⟨h1, -⟩ | ⟨h1, -⟩
      · exact hr x y hx' (head_ne_space_of_leadingSpaces rest hrest y h1)
      · exact hr x y hx' (fun e => hsp (e ▸ List.mem_of_mem_head? h1))

/-- After ` *c *` has been replaced by `c` no space stands next to `c`. -/
theorem noSpaceNextTo_replace (c : Char) (hc : c ≠ ' ') (l : Str) :
    NoSpaceNextTo c (regexpReplaceAll (matchSpacedOp [c]) [c] l) := by
  unfold NoSpaceNextTo
  induction' hn : l.length using Nat.strong_induction_on with n ih generalizing l
  cases l with
  | nil => simp [regexpReplaceAll_nil]
  | cons d ds =>
    cases hm : matchSpacedOp [c] (d :: ds) with
    | none =>
      rw [regexpReplaceAll_cons_none _ _ _ _ hm, List.chain'_cons']
      refine ⟨?_, ih ds.length (by simp [← hn]) ds rfl⟩
      have hd : d ≠ c := by
        intro e
        subst e
        simp [matchSpacedOp, leadingSpaces_cons_ne d ds hc] at hm
      intro y hy
      refine ⟨?_, fun h => hd h.1⟩
      rintro ⟨rfl, rfl⟩
      rw [matchSpacedOp_space_cons] at hm
      rcases head_replace [y] ds (by simp) y hy with ⟨h1, h2⟩ | ⟨-, n', h2⟩
      · cases ds with
        | nil => simp at h1
        | cons e es =>
          simp only [List.head?_cons, Option.mem_def, Option.some.injEq] at h1
          subst h1
          simp [matchSpacedOp, leadingSpaces_cons_ne e es hc] at h2
      · simp [h2] at hm
    | some n' =>
      obtain ⟨k, k', rest, hl', hrest, hR⟩ := minifyOperator_step [c] [c] _ n' (by simp) hm
      have hlt := minifyOperator_rest_lt [c] _ rest k k' (by simp) hl'
      rw [hR, List.singleton_append, List.chain'_cons']
      refine ⟨?_, ih rest.length (by omega) rest rfl⟩
      intro y hy
      have hy' : y ≠ ' ' := by
        rcases head_replace [c] rest (by simp) y hy with ⟨h1, -⟩ | ⟨h1, -⟩
        · exact head_ne_space_of_leadingSpaces rest hrest y h1
        · simp only [List.head?_cons, Option.mem_def, Option.some.injEq] at h1
          exact h1 ▸ hc
      exact ⟨fun h => hc h.1, fun h => hy' h.2⟩

/-! ## The operator loop -/

theorem ops_wellformed : ∀ op ∈ ops, op ≠ [] ∧ ' ' ∉ op := by decide

theorem minifyOperator_else (l : Str) :
    minifyOperator ['e', 'l', 's', 'e'] l
      = regexpReplaceAll (matchSpacedOp ['e', 'l', 's', 'e']) ['e', 'l', 's', 'e', ' '] l := by
  simp [minifyOperator, contains, spacedOps]

theorem minifyOperator_plain (op l : Str) (h : op ≠ ['e', 'l', 's', 'e']) :
    minifyOperator op l = regexpReplaceAll (matchSpacedOp op) op l := by
  have : ¬ (['e', 'l', 's', 'e'] = op) := fun e => h e.symm
  simp [minifyOperator, contains, spacedOps, this]

theorem infix_despace (p l : Str) (hp : ' ' ∉ p) (h : p <:+: l) : p <:+: despace l := by
  have := List.IsInfix.filter (fun c => c != ' ') h
  rwa [show List.filter (fun c => c != ' ') p = p from despace_of_no_space p hp] at this

theorem noSpaceNextTo_pairs (c : Char) (l : Str) (h : NoSpaceNextTo c l) :
    ¬ [' ', c] <:+: l ∧ ¬ [c, ' '] <:+: l := by
  unfold NoSpaceNextTo at h
  constructor
  · intro hi
    have := List.chain'_pair.1 ( List.Chain'.infix h hi)
    exact this.1 ⟨rfl, rfl⟩
  · intro hi
    have := List.chain'_pair.1 ( List.Chain'.infix h hi)
    exact this.2 ⟨rfl, rfl⟩

/-- The operator loop when `else` is not among the operators, or does not occur in the
line even with spaces in between: it only deletes spaces, it keeps every character free of neighbouring spaces
that was so, and it frees every one-character operator it has processed. -/
theorem compactLine_inv (os : List Str) (hos : ∀ op ∈ os, op ≠ [] ∧ ' ' ∉ op) (l : Str)
    (hE : ['e', 'l', 's', 'e'] ∈ os → ¬ ['e', 'l', 's', 'e'] <:+: despace l) :
    (compactLine os l).Sublist l ∧ despace (compactLine os l) = despace l
      ∧ (∀ c, NoSpaceNextTo c l → NoSpaceNextTo c (compactLine os l))
      ∧ (∀ c, [c] ∈ os → NoSpaceNextTo c (compactLine os l)) := by
  induction os generalizing l with
  | nil =>
    refine ⟨List.Sublist.refl _, rfl, fun c h => h, ?_⟩
    intro c hc
    simp at hc
  | cons op os ih =>
    have hos' : ∀ op ∈ os, op ≠ [] ∧ ' ' ∉ op := fun o ho => hos o (List.mem_cons_of_mem _ ho)
    obtain ⟨hne, hsp⟩ := hos op (List.mem_cons_self _ _)
    have hfold : compactLine (op :: os) l = compactLine os (minifyOperator op l) := rfl
    rw [hfold]
    by_cases he : op = ['e', 'l', 's', 'e']
    · have hid : minifyOperator op l = l := by
        rw [he, minifyOperator_else]
        exact replace_of_absent _ _ _
          (fun hi => hE (he ▸ List.mem_cons_self _ _) (infix_despace _ _ (by decide) hi))
      rw [hid]
      obtain ⟨h1, h2, h3, h4⟩ := ih hos' l (fun hm => hE (List.mem_cons_of_mem _ hm))
      refine ⟨h1, h2, h3, ?_⟩
      intro c hc
      rcases List.mem_cons.1 hc with hc | hc
      · rw [he] at hc
        simp at hc
      · exact h4 c hc
    · rw [minifyOperator_plain op l he]
      have hd := despace_replace op op hne rfl l
      obtain ⟨h1, h2, h3, h4⟩ := ih hos' (regexpReplaceAll (matchSpacedOp op) op l)
        (fun hm => by rw [hd]; exact hE (List.mem_cons_of_mem _ hm))
      have hkeep : ∀ c, NoSpaceNextTo c l →
          NoSpaceNextTo c (regexpReplaceAll (matchSpacedOp op) op l) := by
        intro c hc
        unfold NoSpaceNextTo at hc ⊢
        exact chain_replace op hne hsp _
          (fun a b ha hb => ⟨fun h => ha h.1, fun h => hb h.2⟩) l hc
      refine ⟨h1.trans (sublist_replace op hne l), h2.trans hd, fun c hc => h3 c (hkeep c hc), ?_⟩
      intro c hc
      rcases List.mem_cons.1 hc with hc | hc
      · subst hc
        have hc' : c ≠ ' ' := fun e => hsp (by rw [e]; simp)
        exact h3 c (noSpaceNextTo_replace c hc' l)
      · exact h4 c hc

theorem foldl_map_lines (os : List Str) (lines : List Str) :
    os.foldl (fun lines op => lines.map (minifyOperator op)) lines
      = lines.map (compactLine os) := by
  induction os generalizing lines with
  | nil =>
    have : compactLine [] = id := rfl
    simp [this]
  | cons op os ih =>
    rw [List.foldl_cons, ih]
    simp [compactLine]

/-! ## Lines of the form `a`, spaces, `op`, spaces, `b` -/

theorem sublist_append_despace (r x y : Str) (h : r.Sublist (x ++ y))
    (hd : despace r = despace x ++ despace y) :
    ∃ r1 r2, r = r1 ++ r2 ∧ r1.Sublist x ∧ r2.Sublist y
      ∧ despace r1 = despace x ∧ despace r2 = despace y := by
  obtain ⟨r1, r2, rfl, h1, h2⟩ := List.sublist_append_iff.1 h
  have s1 : (despace r1).Sublist (despace x) := h1.filter _
  have s2 : (despace r2).Sublist (despace y) := h2.filter _
  rw [despace_append] at hd
  have hlen := congrArg List.length hd
  simp only [List.length_append] at hlen
  have l1 := s1.length_le
  have l2 := s2.length_le
  exact ⟨r1, r2, rfl, h1, h2, s1.eq_of_length (by omega), s2.eq_of_length (by omega)⟩

theorem sublist_eq_of_despace (r x : Str) (h : r.Sublist x) (hd : despace r = despace x)
    (hx : ' ' ∉ x) : r = x := by
  apply h.eq_of_length
  have h1 := h.length_le
  have h2 : (despace r).length ≤ r.length := List.length_filter_le _ _
  rw [hd, despace_of_no_space x hx] at h2
  omega

theorem sublist_spaces (r : Str) (m : Nat) (h : r.Sublist (spaces m)) : ∃ i, r = spaces i := by
  obtain ⟨i, -, hi⟩ := List.sublist_replicate_iff.1 h
  exact ⟨i, hi⟩

theorem form_of_sublist (a op b r : Str) (m n : Nat) (ha : ' ' ∉ a) (hop : ' ' ∉ op)
    (hb : ' ' ∉ b) (h : r.Sublist (a ++ (spaces m ++ (op ++ (spaces n ++ b)))))
    (hd : despace r = despace (a ++ (spaces m ++ (op ++ (spaces n ++ b))))) :
    ∃ i j, r = a ++ (spaces i ++ (op ++ (spaces j ++ b))) := by
  rw [despace_append] at hd
  obtain ⟨r1, r2, rfl, h1, h2, d1, d2⟩ := sublist_append_despace _ _ _ h hd
  rw [despace_append] at d2
  obtain ⟨r3, r4, rfl, h3, h4, -, d4⟩ := sublist_append_despace _ _ _ h2 d2
  rw [despace_append] at d4
  obtain ⟨r5, r6, rfl, h5, h6, d5, d6⟩ := sublist_append_despace _ _ _ h4 d4
  rw [despace_append] at d6
  obtain ⟨r7, r8, rfl, h7, h8, -, d8⟩ := sublist_append_despace _ _ _ h6 d6
  obtain ⟨i, rfl⟩ := sublist_spaces r3 m h3
  obtain ⟨j, rfl⟩ := sublist_spaces r7 n h7
  rw [sublist_eq_of_despace r1 a h1 d1 ha, sublist_eq_of_despace r5 op h5 d5 hop,
    sublist_eq_of_despace r8 b h8 d8 hb]
  exact ⟨i, j, rfl⟩

/-! ## Splitting, trimming and the passes that find nothing to do -/

theorem isSpace_space : isSpace ' ' = true := by decide

theorem opChars_ascii : ∀ c ∈ opChars, c.toNat < 128 := by decide

theorem isPlainChar_of_isWordChar (c : Char) (h : isWordChar c = true) : isPlainChar c = true := by
  by_cases hn : c.toNat < 128
  · have hv : c = Char.ofNat c.toNat := (Char.ofNat_toNat c).symm
    generalize c.toNat = k at hn hv
    subst hv
    revert h
    interval_cases k <;> decide
  · have hs : isSpace c = false := by
      simp only [isWordChar, Bool.or_eq_true, Bool.and_eq_true, decide_eq_true_eq,
        beq_iff_eq, Bool.not_eq_true'] at h
      rcases h with h | h
      · omega
      · exact h.2
    have h1 : c ≠ '#' := by
      rintro rfl
      exact hn (by decide)
    have h2 : c ∉ opChars := fun hm => hn (opChars_ascii c hm)
    simp [isPlainChar, hs, h1, h2]

theorem stringsSplit_of_no_newline (l : Str) (h : '\n' ∉ l) : stringsSplit l = [l] := by
  induction l with
  | nil => rfl
  | cons c cs ih =>
    have hc : c ≠ '\n' := fun e => h (e ▸ List.mem_cons_self _ _)
    have hcs : '\n' ∉ cs := fun hm => h (List.mem_cons_of_mem _ hm)
    simp [stringsSplit, hc, ih hcs]

theorem replaceTabs_of_no_tab (l : Str) (h : '\t' ∉ l) : replaceTabs l = l := by
  induction l with
  | nil => rfl
  | cons c cs ih =>
    have hc : c ≠ '\t' := fun e => h (e ▸ List.mem_cons_self _ _)
    have hcs : '\t' ∉ cs := fun hm => h (List.mem_cons_of_mem _ hm)
    have := ih hcs
    simp only [replaceTabs] at this ⊢
    simp [hc, this]

theorem dropWhile_isSpace_spaces (i : Nat) (y : Str) :
    List.dropWhile isSpace (spaces i ++ y) = List.dropWhile isSpace y := by
  induction i with
  | zero => simp [spaces]
  | succ i ih =>
    have : spaces (i + 1) ++ y = ' ' :: (spaces i ++ y) := by
      simp [spaces, List.replicate_succ]
    rw [this, List.dropWhile_cons, isSpace_space]
    simpa using ih

theorem dropWhile_isSpace_of_head (y : Str) (h : ∀ c ∈ y.head?, isSpace c = false) :
    List.dropWhile isSpace y = y := by
  cases y with
  | nil => rfl
  | cons c cs =>
    have := h c (by simp)
    simp [List.dropWhile_cons, this]

theorem stringsTrimSpace_core (i j : Nat) (x : Str) (hne : x ≠ [])
    (hh : ∀ c ∈ x.head?, isSpace c = false) (hl : ∀ c ∈ x.getLast?, isSpace c = false) :
    stringsTrimSpace (spaces i ++ (x ++ spaces j)) = x := by
  unfold stringsTrimSpace
  have h1 : List.dropWhile isSpace (spaces i ++ (x ++ spaces j)) = x ++ spaces j := by
    rw [dropWhile_isSpace_spaces]
    apply dropWhile_isSpace_of_head
    intro c hc
    rw [List.head?_append_of_ne_nil _ hne] at hc
    exact hh c hc
  have h2 : (x ++ spaces j).reverse = spaces j ++ x.reverse := by
    simp [spaces]
  rw [h1, h2, dropWhile_isSpace_spaces, dropWhile_isSpace_of_head, List.reverse_reverse]
  intro c hc
  rw [List.head?_reverse] at hc
  exact hl c hc

theorem prefix_sep (p x z : Str) (y : Char) (hy : y ∉ p) (h : p <+: x ++ y :: z) : p <+: x := by
  induction x generalizing p with
  | nil =>
    rcases List.prefix_cons_iff.1 h with rfl | ⟨t, rfl, -⟩
    · exact List.prefix_refl _
    · exact absurd (List.mem_cons_self _ _) hy
  | cons c x ih =>
    rcases List.prefix_cons_iff.1 h with rfl | ⟨t, rfl, ht⟩
    · exact List.nil_prefix
    · have := ih t (fun hm => hy (List.mem_cons_of_mem _ hm)) ht
      exact (List.prefix_cons_inj c).2 this

theorem infix_sep (p x z : Str) (y : Char) (hy : y ∉ p) (h : p <:+: x ++ y :: z) :
    p <:+: x ∨ p <:+: z := by
  induction x with
  | nil =>
    rcases List.infix_cons_iff.1 h with h1 | h1
    · exact Or.inl (prefix_sep p [] z y hy h1).isInfix
    · exact Or.inr h1
  | cons c x ih =>
    rcases List.infix_cons_iff.1 h with h1 | h1
    · exact Or.inl (prefix_sep p (c :: x) z y hy h1).isInfix
    · rcases ih h1 with h2 | h2
      · exact Or.inl (List.infix_cons h2)
      · exact Or.inr h2

theorem infix_sep_list (p x y z : Str) (hp : p ≠ []) (hy : ∀ c ∈ y, c ∉ p) (hne : y ≠ [])
    (h : p <:+: x ++ (y ++ z)) : p <:+: x ∨ p <:+: z := by
  have hz : ∀ ys : Str, (∀ c ∈ ys, c ∉ p) → p <:+: ys ++ z → p <:+: z := by
    intro ys
    induction ys with
    | nil => intro _ h; exact h
    | cons d ds ih =>
      intro hd h
      rcases infix_sep p [] (ds ++ z) d (hd d (List.mem_cons_self _ _)) h with h1 | h1
      · exact absurd (List.eq_nil_of_infix_nil h1) hp
      · exact ih (fun c hc => hd c (List.mem_cons_of_mem _ hc)) h1
  cases y with
  | nil => exact absurd rfl hne
  | cons d ds =>
    rcases infix_sep p x (ds ++ z) d (hy d (List.mem_cons_self _ _)) h with h1 | h1
    · exact Or.inl h1
    · exact Or.inr (hz ds (fun c hc => hy c (List.mem_cons_of_mem _ hc)) h1)

theorem fixDuplicateNewlines_of_no_newline (l : Str) (h : '\n' ∉ l) :
    fixDuplicateNewlines l = l := by
  apply regexpReplaceAll_id
  intro t ht
  cases t with
  | nil => simp [matchNewlines]
  | cons c cs =>
    have hc : c ≠ '\n' := fun e => h (ht.subset (e ▸ List.mem_cons_self _ _))
    simp [matchNewlines, List.takeWhile_cons, hc]

theorem fixSpacedOps_of_no_space (l : Str) (h : ' ' ∉ l) : fixSpacedOps l = l := by
  simp only [fixSpacedOps, spacedOps, List.foldl_cons, List.foldl_nil, stringsReplaceAll]
  apply regexpReplaceAll_id
  intro t ht
  simp only [matchLiteral, List.isPrefixOf_iff_prefix]
  rw [if_neg]
  intro hp
  exact h (ht.subset (hp.subset (by decide)))

/-! ## The comment passes -/

theorem removeMultilineCommentsFrom_outside (before rest : List Str)
    (h : ∀ l ∈ before, ¬ ['/', '*'] <:+: l) :
    removeMultilineCommentsFrom false (before ++ rest)
      = before ++ removeMultilineCommentsFrom false rest := by
  induction before with
  | nil => rfl
  | cons l ls ih =>
    have h1 : stringsIndex l ['/', '*'] = -1 :=
      (stringsIndex_eq_neg_one _ _).2 (h l (List.mem_cons_self _ _))
    have h2 := ih (fun l hl => h l (List.mem_cons_of_mem _ hl))
    simp [removeMultilineCommentsFrom, h1, h2]

theorem removeMultilineCommentsFrom_inside (after : List Str)
    (h : ∀ l ∈ after, ¬ ['*', '/'] <:+: l) :
    removeMultilineCommentsFrom true after = after.map (fun _ => []) := by
  induction after with
  | nil => rfl
  | cons l ls ih =>
    have h1 : stringsIndex l ['*', '/'] = -1 :=
      (stringsIndex_eq_neg_one _ _).2 (h l (List.mem_cons_self _ _))
    have h2 := ih (fun l hl => h l (List.mem_cons_of_mem _ hl))
    simp [removeMultilineCommentsFrom, h1, h2]

theorem removeInlineComments_of_clean (l : Str) (hnl : '\n' ∉ l) (h : ¬ ['/', '/'] <:+: l) :
    removeInlineComments [l] = [l] := by
  simp [removeInlineComments, removeEverythingPast_eq _ _ hnl, prefixBefore_of_absent _ _ h]

theorem removeMultilineComments_of_clean (l : Str) (h : ¬ ['/', '*'] <:+: l) :
    removeMultilineComments [l] = [l] := by
  have := removeMultilineCommentsFrom_outside [l] [] (by simpa using h)
  simpa [removeMultilineComments, removeMultilineCommentsFrom] using this

/-- C9: in a list of lines without line breaks where no line contains the end marker,
let the first line containing the start marker be `pre ++ "/*" ++ post`, with `pre` the
text before the first start marker.  Then `removeMultilineComments` returns the earlier
lines unchanged, that line cut down to `pre`, and every later line as the empty string. -/
theorem removeMultilineComments_unterminated (before after : List Str) (pre post : Str)
    (hbefore : ∀ l ∈ before, ¬ ['/', '*'] <:+: l)
    (hfirst : ¬ ['/', '*'] <:+: pre ++ ['/'])
    (hend : ∀ l ∈ before ++ [pre ++ ['/', '*'] ++ post] ++ after, ¬ ['*', '/'] <:+: l)
    (hnl : ∀ l ∈ before ++ [pre ++ ['/', '*'] ++ post] ++ after, '\n' ∉ l) :
    removeMultilineComments (before ++ [pre ++ ['/', '*'] ++ post] ++ after)
      = before ++ [pre] ++ after.map (fun _ => []) := by
  have hk : pre ++ ['/', '*'] ++ post ∈ before ++ [pre ++ ['/', '*'] ++ post] ++ after := by simp
  have hstart : stringsIndex (pre ++ ['/', '*'] ++ post) ['/', '*'] ≠ -1 := by
    rw [Ne, stringsIndex_eq_neg_one, not_not]
    exact ⟨pre, post, rfl⟩
  have hstop : stringsIndex (pre ++ ['/', '*'] ++ post) ['*', '/'] = -1 :=
    (stringsIndex_eq_neg_one _ _).2 (hend _ hk)
  have hlt : ¬ stringsIndex (pre ++ ['/', '*'] ++ post) ['/', '*'] < -1 := by
    have := stringsIndex_ge ['/', '*'] (pre ++ ['/', '*'] ++ post)
    omega
  have hcut : removeEverythingPast ['/', '*'] (pre ++ ['/', '*'] ++ post) = pre := by
    rw [removeEverythingPast_eq _ _ (hnl _ hk), prefixBefore_append _ _ _ _ hfirst]
  have hafter : removeMultilineCommentsFrom true after = after.map (fun _ => []) :=
    removeMultilineCommentsFrom_inside after
      (fun l hl => hend l (List.mem_append_right _ hl))
  unfold removeMultilineComments
  rw [List.append_assoc, removeMultilineCommentsFrom_outside _ _ hbefore]
  simp only [List.singleton_append, removeMultilineCommentsFrom, Bool.not_false, if_true,
    hstart, hstop, hlt, if_false, ne_eq, not_false_eq_true, hcut, hafter]
  simp [hafter]

theorem removeMultilineComments_unterminated_witness :
    removeMultilineComments
        (["a".toList] ++ ["b ".toList ++ ['/', '*'] ++ " c".toList] ++ ["d".toList, "e".toList])
      = ["a".toList] ++ ["b ".toList] ++ ["d".toList, "e".toList].map (fun _ => []) :=
  removeMultilineComments_unterminated ["a".toList] ["d".toList, "e".toList] "b ".toList
    " c".toList (by decide) (by decide) (by decide) (by decide)

/-- C10: on lines without line breaks `removeInlineComments` keeps the number of lines,
and each output line `o` is the part of the input line `l` before its first `//`: either
`//` does not occur in `l` and `o = l`, or `l = o ++ "//" ++ post` with no occurrence of
`//` starting inside `o`; so no output line contains `//`. -/
theorem removeInlineComments_truncates (lines : List Str) (hnl : ∀ l ∈ lines, '\n' ∉ l) :
    (removeInlineComments lines).length = lines.length ∧
    ∀ (i : Nat) (l : Str), lines[i]? = some l →
      ∃ o, (removeInlineComments lines)[i]? = some o ∧
        ((¬ ['/', '/'] <:+: l ∧ o = l) ∨
          (∃ post, l = o ++ ['/', '/'] ++ post ∧ ¬ ['/', '/'] <:+: o ++ ['/'])) ∧
        ¬ ['/', '/'] <:+: o := by
  refine ⟨by simp [removeInlineComments], ?_⟩
  intro i l hl
  have hmem : l ∈ lines := List.getElem?_mem hl
  refine ⟨prefixBefore ['/', '/'] l, ?_, ?_, prefixBefore_clean _ _ _⟩
  · simp [removeInlineComments, hl, removeEverythingPast_eq _ _ (hnl l hmem)]
  · by_cases h : ['/', '/'] <:+: l
    · right
      obtain ⟨post, hpost⟩ := prefixBefore_split _ _ h
      exact ⟨post, hpost, prefixBefore_first _ _ _ h⟩
    · left
      exact ⟨h, prefixBefore_of_absent _ _ h⟩

theorem removeInlineComments_truncates_witness :
    (∀ l ∈ ["x = 1; // one".toList, "y".toList], '\n' ∉ l) ∧
    (removeInlineComments ["x = 1; // one".toList, "y".toList]).length = 2 :=
  ⟨by decide, (removeInlineComments_truncates ["x = 1; // one".toList, "y".toList]
    (by decide)).1⟩

/-! ## A binary expression -/

theorem ops_chars : ∀ op ∈ ops, op ≠ ['e', 'l', 's', 'e'] →
    ∀ c ∈ op, c ∈ opChars ∧ [c] ∈ ops := by decide

theorem opChars_facts : ∀ c ∈ opChars,
    isSpace c = false ∧ c ≠ '#' ∧ c ∉ ['e', 'l', 's', 'e'] := by decide

theorem chain_of_forall (r : Char → Char → Prop) (l : Str) (h : ∀ x ∈ l, ∀ y, r x y) :
    List.Chain' r l := by
  induction l with
  | nil => exact List.chain'_nil
  | cons c cs ih =>
    rw [List.chain'_cons']
    exact ⟨fun y _ => h c (List.mem_cons_self _ _) y,
      ih (fun x hx => h x (List.mem_cons_of_mem _ hx))⟩

theorem ops_slash :∀ op ∈ ops, '/' ∉ op ∨ op = ['/'] ∨ op = ['/', '='] := by decide

theorem ops_no_comment (op : Str) (hop : op ∈ ops) :
    List.Chain' (fun x y => ¬ (x = '/' ∧ (y = '/' ∨ y = '*'))) op := by
  rcases ops_slash op hop with h | rfl | rfl
  · exact chain_of_forall _ op (fun x hx y hxy => h (hxy.1 ▸ hx))
  · exact List.chain'_singleton _
  · exact List.chain'_pair.2 (by decide)

theorem isPlainChar_iff (c : Char) :
    isPlainChar c = true ↔ isSpace c = false ∧ c ≠ '#' ∧ c ∉ opChars := by
  simp [isPlainChar, and_assoc]

theorem ne_of_not_isSpace (c : Char) (h : isSpace c = false) :
    c ≠ ' ' ∧ c ≠ '\n' ∧ c ≠ '\t' := by
  refine ⟨?_, ?_, ?_⟩ <;> rintro rfl <;> revert h <;> decide

theorem trim_form (a op b : Str) (m n : Nat) (hop : op ≠ [])
    (hs : ∀ c ∈ a ++ (op ++ b), isSpace c = false) :
    ∃ m' n', stringsTrimSpace (a ++ (spaces m ++ (op ++ (spaces n ++ b))))
        = a ++ (spaces m' ++ (op ++ (spaces n' ++ b))) ∧ (a = [] → m' = 0) := by
  have hhead : ∀ (x y : Str), x ≠ [] → (∀ c ∈ x, isSpace c = false) →
      ∀ c ∈ (x ++ y).head?, isSpace c = false := by
    intro x y hx hxs c hc
    rw [List.head?_append_of_ne_nil _ hx] at hc
    exact hxs c (List.mem_of_mem_head? hc)
  have hlast : ∀ (x y : Str), y ≠ [] → (∀ c ∈ y, isSpace c = false) →
      ∀ c ∈ (x ++ y).getLast?, isSpace c = false := by
    intro x y hy hys c hc
    rw [List.getLast?_append_of_ne_nil _ hy] at hc
    exact hys c (List.mem_of_mem_getLast? hc)
  have hsa : ∀ c ∈ a, isSpace c = false := fun c hc => hs c (by simp [hc])
  have hso : ∀ c ∈ op, isSpace c = false := fun c hc => hs c (by simp [hc])
  have hsb : ∀ c ∈ b, isSpace c = false := fun c hc => hs c (by simp [hc])
  by_cases ha : a = []
  · by_cases hb : b = []
    · subst ha hb
      refine ⟨0, 0, ?_, fun _ => rfl⟩
      have := stringsTrimSpace_core m n op hop
        (fun c hc => hso c (List.mem_of_mem_head? hc))
        (fun c hc => hso c (List.mem_of_mem_getLast? hc))
      simpa [spaces] using this
    · subst ha
      refine ⟨0, n, ?_, fun _ => rfl⟩
      have := stringsTrimSpace_core m 0 (op ++ (spaces n ++ b)) (by simp [hop])
        (hhead op _ hop hso) (by rw [← List.append_assoc]; exact hlast _ b hb hsb)
      simpa [spaces] using this
  · by_cases hb : b = []
    · subst hb
      refine ⟨m, 0, ?_, fun h => absurd h ha⟩
      have := stringsTrimSpace_core 0 n (a ++ (spaces m ++ op)) (by simp [ha])
        (hhead a _ ha hsa) (by rw [← List.append_assoc]; exact hlast _ op hop hso)
      simpa [spaces] using this
    · refine ⟨m, n, ?_, fun h => absurd h ha⟩
      have := stringsTrimSpace_core 0 0 (a ++ (spaces m ++ (op ++ (spaces n ++ b))))
        (by simp [ha]) (hhead a _ ha hsa) (by
          have e : a ++ (spaces m ++ (op ++ (spaces n ++ b)))
              = (a ++ (spaces m ++ (op ++ spaces n))) ++ b := by simp
          rw [e]
          exact hlast _ b hb hsb)
      simpa [spaces] using this

theorem compactLine_binary (a b op : Str) (m n : Nat) (hop : op ∈ ops)
    (hne : op ≠ ['e', 'l', 's', 'e']) (ha : ' ' ∉ a) (hb : ' ' ∉ b)
    (hE : ¬ ['e', 'l', 's', 'e'] <:+: a ++ (op ++ b)) :
    compactLine ops (a ++ (spaces m ++ (op ++ (spaces n ++ b)))) = a ++ (op ++ b) := by
  obtain ⟨hopne, hopsp⟩ := ops_wellformed op hop
  have hd : despace (a ++ (spaces m ++ (op ++ (spaces n ++ b)))) = a ++ (op ++ b) := by
    simp [despace_append, despace_spaces, despace_of_no_space _ ha, despace_of_no_space _ hb,
      despace_of_no_space _ hopsp]
  obtain ⟨h1, h2, -, h4⟩ := compactLine_inv ops ops_wellformed
    (a ++ (spaces m ++ (op ++ (spaces n ++ b)))) (fun _ => by rw [hd]; exact hE)
  obtain ⟨i, j, hr⟩ := form_of_sublist a op b _ m n ha hopsp hb h1 h2
  rw [hr]
  have hi : i = 0 := by
    cases i with
    | zero => rfl
    | succ i =>
      exfalso
      cases op with
      | nil => exact hopne rfl
      | cons o os =>
        have ho := (ops_chars _ hop hne o (List.mem_cons_self _ _)).2
        apply (noSpaceNextTo_pairs o _ (h4 o ho)).1
        rw [hr]
        exact ⟨a ++ spaces i, os ++ (spaces j ++ b), by simp [spaces, List.replicate_succ']⟩
  have hj : j = 0 := by
    cases j with
    | zero => rfl
    | succ j =>
      exfalso
      rcases List.eq_nil_or_concat op with h | ⟨init, z, h⟩
      · exact hopne h
      · have hz := (ops_chars _ hop hne z (by simp [h])).2
        apply (noSpaceNextTo_pairs z _ (h4 z hz)).2
        rw [hr, h]
        exact ⟨a ++ (spaces i ++ init), spaces j ++ b, by simp [spaces, List.replicate_succ]⟩
  simp [hi, hj, spaces]

theorem binary_no_comment (a b op : Str) (hop : op ∈ ops)
    (ha : ∀ c ∈ a, c ∉ opChars) (hb : ∀ c ∈ b, c ∉ opChars) :
    ¬ ['/', '/'] <:+: a ++ (op ++ b) ∧ ¬ ['/', '*'] <:+: a ++ (op ++ b) := by
  have hns : ∀ c : Char, c ∉ opChars → c ≠ '/' ∧ c ≠ '*' := by
    intro c hc
    constructor <;> rintro rfl <;> exact hc (by decide)
  have hch : List.Chain' (fun x y => ¬ (x = '/' ∧ (y = '/' ∨ y = '*'))) (a ++ (op ++ b)) := by
    rw [List.chain'_append, List.chain'_append]
    refine ⟨chain_of_forall _ a (fun x hx y h => (hns x (ha x hx)).1 h.1),
      ⟨ops_no_comment op hop, chain_of_forall _ b (fun x hx y h => (hns x (hb x hx)).1 h.1), ?_⟩,
      ?_⟩
    · intro x _ y hy h
      have := hns y (hb y (List.mem_of_mem_head? hy))
      rcases h.2 with h2 | h2
      · exact this.1 h2
      · exact this.2 h2
    · intro x hx y _ h
      exact (hns x (ha x (List.mem_of_mem_getLast? hx))).1 h.1
  constructor
  · intro hi
    exact List.chain'_pair.1 ( List.Chain'.infix hch hi) ⟨rfl, Or.inl rfl⟩
  · intro hi
    exact List.chain'_pair.1 ( List.Chain'.infix hch hi) ⟨rfl, Or.inr rfl⟩

theorem minifySource_binary (a b op : Str) (m n : Nat) (hop : op ∈ ops)
    (hne : op ≠ ['e', 'l', 's', 'e'])
    (ha : ∀ c ∈ a, isPlainChar c = true) (hb : ∀ c ∈ b, isPlainChar c = true)
    (hae : ¬ ['e', 'l', 's', 'e'] <:+: a) (hbe : ¬ ['e', 'l', 's', 'e'] <:+: b) :
    minifySource (a ++ (spaces m ++ (op ++ (spaces n ++ b)))) false false false
      = a ++ (op ++ b) := by
  obtain ⟨hopne, hopsp⟩ := ops_wellformed op hop
  have hpa : ∀ c ∈ a, isSpace c = false ∧ c ≠ '#' ∧ c ∉ opChars :=
    fun c hc => (isPlainChar_iff c).1 (ha c hc)
  have hpb : ∀ c ∈ b, isSpace c = false ∧ c ≠ '#' ∧ c ∉ opChars :=
    fun c hc => (isPlainChar_iff c).1 (hb c hc)
  have hpo : ∀ c ∈ op, isSpace c = false ∧ c ≠ '#' ∧ c ∉ ['e', 'l', 's', 'e'] :=
    fun c hc => opChars_facts c (ops_chars op hop hne c hc).1
  have hsp : ∀ c ∈ a ++ (op ++ b), isSpace c = false := by
    intro c hc
    rcases List.mem_append.1 hc with h | h
    · exact (hpa c h).1
    · rcases List.mem_append.1 h with h | h
      · exact (hpo c h).1
      · exact (hpb c h).1
  have hR : ∀ c ∈ a ++ (op ++ b), c ≠ ' ' ∧ c ≠ '\n' ∧ c ≠ '\t' :=
    fun c hc => ne_of_not_isSpace c (hsp c hc)
  have hL0 : ∀ c ∈ a ++ (spaces m ++ (op ++ (spaces n ++ b))), c ≠ '\n' ∧ c ≠ '\t' := by
    intro c hc
    simp only [List.mem_append, spaces, List.mem_replicate] at hc
    rcases hc with h | ⟨-, rfl⟩ | h | ⟨-, rfl⟩ | h
    · exact (hR c (by simp [h])).2
    · decide
    · exact (hR c (by simp [h])).2
    · decide
    · exact (hR c (by simp [h])).2
  obtain ⟨m', n', htrim, hm'⟩ := trim_form a op b m n hopne hsp
  have hhash : stringsHasPrefix (a ++ (spaces m' ++ (op ++ (spaces n' ++ b)))) ['#'] = false := by
    cases a with
    | nil =>
      rw [hm' rfl]
      cases op with
      | nil => exact absurd rfl hopne
      | cons o os =>
        have := (hpo o (List.mem_cons_self _ _)).2.1
        simp [stringsHasPrefix, List.isPrefixOf, spaces, Ne.symm this]
    | cons c cs =>
      have := (hpa c (List.mem_cons_self _ _)).2.1
      simp [stringsHasPrefix, List.isPrefixOf, Ne.symm this]
  have hE : ¬ ['e', 'l', 's', 'e'] <:+: a ++ (op ++ b) := by
    intro h
    rcases infix_sep_list _ a op b (by simp) (fun c hc => (hpo c hc).2.2) hopne h with h | h
    · exact hae h
    · exact hbe h
  have hcomp := compactLine_binary a b op m' n' hop hne
    (fun h => (hR ' ' (by simp [h])).1 rfl) (fun h => (hR ' ' (by simp [h])).1 rfl) hE
  have hclean := binary_no_comment a b op hop (fun c hc => (hpa c hc).2.2)
    (fun c hc => (hpb c hc).2.2)
  have hnl : '\n' ∉ a ++ (op ++ b) := fun h => (hR _ h).2.1 rfl
  have hns : ' ' ∉ a ++ (op ++ b) := fun h => (hR _ h).1 rfl
  have hsplit := stringsSplit_of_no_newline (a ++ (spaces m ++ (op ++ (spaces n ++ b))))
    (fun h => (hL0 _ h).1 rfl)
  have htab := replaceTabs_of_no_tab (a ++ (spaces m ++ (op ++ (spaces n ++ b))))
    (fun h => (hL0 _ h).2 rfl)
  simp only [minifySource, minifiedLines, compactedLines, Bool.not_false, if_true, hsplit,
    clearWhitespaceFirstPass, List.map_cons, List.map_nil, htab, htrim,
    reinsertPreprocessorNewlines, hhash, foldl_map_lines, Bool.false_eq_true, if_false]
  rw [hcomp, removeInlineComments_of_clean _ hnl hclean.1,
    removeMultilineComments_of_clean _ hclean.2]
  simp [stringsJoin, fixDuplicateNewlines_of_no_newline _ hnl, fixSpacedOps_of_no_space _ hns]

/-- C6: for every operator `op` of the table other than `else`, words `a` and `b` of
letters, digits and underscores that do not contain `else`, and numbers `m`, `n` of
spaces, `minifySource` turns `a`, `m` spaces, `op`, `n` spaces, `b` into `a op b` with
no space left. -/
theorem minifySource_binary_expression (op a b : Str) (m n : Nat) (hop : op ∈ ops)
    (hne : op ≠ "else".toList)
    (ha : ∀ c ∈ a, isWordChar c = true) (hb : ∀ c ∈ b, isWordChar c = true)
    (hae : ¬ "else".toList <:+: a) (hbe : ¬ "else".toList <:+: b) :
    minifySource (a ++ spaces m ++ op ++ spaces n ++ b) false false false = a ++ op ++ b := by
  have := minifySource_binary a b op m n hop hne
    (fun c hc => isPlainChar_of_isWordChar c (ha c hc))
    (fun c hc => isPlainChar_of_isWordChar c (hb c hc)) hae hbe
  simpa only [List.append_assoc] using this

theorem minifySource_binary_expression_witness :
    minifySource "a  +  b".toList false false false = "a+b".toList
      ∧ minifySource "a == b".toList false false false = "a==b".toList :=
  ⟨minifySource_binary_expression "+".toList "a".toList "b".toList 2 2
      (by decide) (by decide) (by decide) (by decide) (by decide) (by decide),
    minifySource_binary_expression "==".toList "a".toList "b".toList 1 1
      (by decide) (by decide) (by decide) (by decide) (by decide) (by decide)⟩

/-! ## The keyword `else` between braces -/

theorem ops_before_else : (∀ op ∈ ops.take 38, op ≠ [] ∧ ' ' ∉ op)
    ∧ ['e', 'l', 's', 'e'] ∉ ops.take 38
    ∧ ['\x7b'] ∈ ops.take 38 ∧ ['\x7d'] ∈ ops.take 38 := by decide

theorem compactLine_append (xs ys : List Str) (l : Str) :
    compactLine (xs ++ ys) l = compactLine ys (compactLine xs l) := by
  simp [compactLine, List.foldl_append]

theorem compactLine_else_braces (m n : Nat) :
    compactLine ops ('\x7d' :: (spaces m ++ ("else".toList ++ (spaces n ++ ['\x7b']))))
      = "\x7delse \x7b".toList := by
  obtain ⟨hwf, hne, hopen, hclose⟩ := ops_before_else
  have hd : despace (['\x7d'] ++ (spaces m ++ ("else".toList ++ (spaces n ++ ['\x7b']))))
      = "\x7delse\x7b".toList := by
    simp only [despace_append, despace_spaces]
    decide
  obtain ⟨h1, h2, -, h4⟩ := compactLine_inv (ops.take 38) hwf
    (['\x7d'] ++ (spaces m ++ ("else".toList ++ (spaces n ++ ['\x7b'])))) (fun h => absurd h hne)
  obtain ⟨i, j, hr⟩ := form_of_sublist ['\x7d'] "else".toList ['\x7b'] _ m n
    (by decide) (by decide) (by decide) h1 h2
  have hi : i = 0 := by
    cases i with
    | zero => rfl
    | succ i =>
      exfalso
      apply (noSpaceNextTo_pairs '\x7d' _ (h4 _ hclose)).2
      rw [hr]
      exact ⟨[], spaces i ++ ("else".toList ++ (spaces j ++ ['\x7b'])),
        by simp [spaces, List.replicate_succ]⟩
  have hj : j = 0 := by
    cases j with
    | zero => rfl
    | succ j =>
      exfalso
      apply (noSpaceNextTo_pairs '\x7b' _ (h4 _ hopen)).1
      rw [hr]
      exact ⟨['\x7d'] ++ (spaces i ++ ("else".toList ++ spaces j)), [],
        by simp [spaces, List.replicate_succ']⟩
  have hsplit : ops = ops.take 38 ++ ops.drop 38 := (List.take_append_drop 38 ops).symm
  have hpre : compactLine (ops.take 38)
      ('\x7d' :: (spaces m ++ ("else".toList ++ (spaces n ++ ['\x7b'])))) = "\x7delse\x7b".toList := by
    have := hr
    rw [hi, hj] at this
    simpa [spaces] using this
  rw [hsplit, compactLine_append, hpre]
  decide

/-- C7: for all numbers `m`, `n` of spaces, `minifySource` turns a closing brace,
`m` spaces, `else`, `n` spaces, an opening brace into the six characters of
"closing brace, else, opening brace", with no space left. -/
theorem minifySource_else_braces (m n : Nat) :
    minifySource ("\x7d".toList ++ spaces m ++ "else".toList ++ spaces n ++ "\x7b".toList)
      false false false = "\x7delse\x7b".toList := by
  have hform : "\x7d".toList ++ spaces m ++ "else".toList ++ spaces n ++ "\x7b".toList
      = ['\x7d'] ++ (spaces m ++ ("else".toList ++ (spaces n ++ ['\x7b']))) := by
    simp
  have hmem : ∀ c ∈ ['\x7d'] ++ (spaces m ++ ("else".toList ++ (spaces n ++ ['\x7b']))),
      c ≠ '\n' ∧ c ≠ '\t' := by
    intro c hc
    simp only [List.mem_append, spaces, List.mem_replicate] at hc
    rcases hc with h | ⟨-, rfl⟩ | h | ⟨-, rfl⟩ | h
    · revert c; decide
    · decide
    · revert c; decide
    · decide
    · revert c; decide
  obtain ⟨m', n', htrim, -⟩ := trim_form ['\x7d'] "else".toList ['\x7b'] m n (by decide)
    (by decide)
  have hsplit := stringsSplit_of_no_newline _ (fun h => (hmem _ h).1 rfl)
  have htab := replaceTabs_of_no_tab _ (fun h => (hmem _ h).2 rfl)
  have hhash : stringsHasPrefix
      (['\x7d'] ++ (spaces m' ++ ("else".toList ++ (spaces n' ++ ['\x7b'])))) ['#'] = false := by
    simp [stringsHasPrefix, List.isPrefixOf]
  rw [hform]
  simp only [minifySource, minifiedLines, compactedLines, Bool.not_false, if_true, hsplit,
    clearWhitespaceFirstPass, List.map_cons, List.map_nil, htab, htrim,
    reinsertPreprocessorNewlines, hhash, foldl_map_lines, Bool.false_eq_true, if_false]
  rw [List.singleton_append, compactLine_else_braces]
  decide

/-! ## Lines that end with a line break -/

theorem regexpReplaceGo_snoc_newline (m : Str → Option Nat) (rep : Str)
    (h1 : ∀ u : Str, u ≠ [] → m (u ++ ['\n']) = m u)
    (h2 : ∀ (u : Str) (n : Nat), m u = some n → n ≤ u.length)
    (h3 : m ['\n'] = none) (t : Str) (k : Nat) (hk : k ≤ t.length) :
    regexpReplaceGo m rep k (t ++ ['\n']) = regexpReplaceGo m rep k t ++ ['\n'] := by
  induction t generalizing k with
  | nil =>
    have : k = 0 := by simpa using hk
    subst this
    simp [regexpReplaceGo, h3]
  | cons c cs ih =>
    cases k with
    | zero =>
      have e := h1 (c :: cs) (by simp)
      simp only [List.cons_append] at e ⊢
      cases hm : m (c :: cs) with
      | none =>
        simp only [regexpReplaceGo, e, hm]
        rw [ih 0 (Nat.zero_le _)]
        simp
      | some n =>
        have hn := h2 _ _ hm
        simp only [List.length_cons] at hn
        simp only [regexpReplaceGo, e, hm]
        rw [ih (n - 1) (by omega)]
        simp
    | succ k =>
      simp only [List.cons_append, regexpReplaceGo]
      exact ih k (by simpa using hk)

theorem regexpReplaceAll_snoc_newline (m : Str → Option Nat) (rep : Str)
    (h1 : ∀ u : Str, u ≠ [] → m (u ++ ['\n']) = m u)
    (h2 : ∀ (u : Str) (n : Nat), m u = some n → n ≤ u.length)
    (h3 : m ['\n'] = none) (t : Str) :
    regexpReplaceAll m rep (t ++ ['\n']) = regexpReplaceAll m rep t ++ ['\n'] :=
  regexpReplaceGo_snoc_newline m rep h1 h2 h3 t 0 (Nat.zero_le _)

theorem leadingSpaces_snoc_newline (u : Str) : leadingSpaces (u ++ ['\n']) = leadingSpaces u := by
  induction u with
  | nil => simp [leadingSpaces, List.takeWhile_cons]
  | cons c cs ih =>
    by_cases hc : c = ' '
    · subst hc
      rw [List.cons_append, leadingSpaces_cons_space, leadingSpaces_cons_space, ih]
    · rw [List.cons_append, leadingSpaces_cons_ne _ _ hc, leadingSpaces_cons_ne _ _ hc]

theorem dotStarLen_snoc_newline (u : Str) : dotStarLen (u ++ ['\n']) = dotStarLen u := by
  induction u with
  | nil => simp [dotStarLen, List.takeWhile_cons]
  | cons c cs ih =>
    unfold dotStarLen at ih ⊢
    by_cases hc : c = '\n'
    · simp [List.takeWhile_cons, hc]
    · simp [List.takeWhile_cons, hc, ih]

theorem leadingSpaces_le (u : Str) : leadingSpaces u ≤ u.length :=
  (List.takeWhile_sublist _).length_le

theorem dotStarLen_le (u : Str) : dotStarLen u ≤ u.length :=
  (List.takeWhile_sublist _).length_le

theorem take_dotStarLen_snoc (u : Str) :
    (u ++ ['\n']).take (dotStarLen (u ++ ['\n'])) = u.take (dotStarLen u) := by
  rw [dotStarLen_snoc_newline, List.take_append_of_le_length (dotStarLen_le u)]

theorem isPrefixOf_snoc (op v : Str) (x : Char) (hx : x ∉ op) :
    op.isPrefixOf (v ++ [x]) = op.isPrefixOf v := by
  rw [Bool.eq_iff_iff, List.isPrefixOf_iff_prefix, List.isPrefixOf_iff_prefix,
    List.prefix_concat_iff]
  constructor
  · rintro (h | h)
    · exact absurd (h ▸ by simp) hx
    · exact h
  · exact Or.inr

theorem lastIndex_le (sub l : Str) (q : Nat) (h : lastIndex sub l = some q) :
    q + sub.length ≤ l.length := by
  induction l generalizing q with
  | nil =>
    simp only [lastIndex] at h
    split at h
    · rename_i hs
      simp [hs, ← Option.some.inj h]
    · exact absurd h (by simp)
  | cons c cs ih =>
    simp only [lastIndex] at h
    cases hq : lastIndex sub cs with
    | some i =>
      rw [hq] at h
      have := ih i hq
      have hi := Option.some.inj h
      simp only [List.length_cons]
      omega
    | none =>
      rw [hq] at h
      simp only [List.isPrefixOf_iff_prefix] at h
      split at h
      · rename_i hp
        have := hp.length_le
        have hi := Option.some.inj h
        omega
      · exact absurd h (by simp)

theorem matchSpacedOp_snoc (op u : Str) (hnl : '\n' ∉ op) :
    matchSpacedOp op (u ++ ['\n']) = matchSpacedOp op u := by
  simp only [matchSpacedOp, leadingSpaces_snoc_newline,
    List.drop_append_of_le_length (leadingSpaces_le u), isPrefixOf_snoc _ _ _ hnl]
  by_cases hp : op.isPrefixOf (List.drop (leadingSpaces u) u) = true
  · have hle := (List.isPrefixOf_iff_prefix.1 hp).length_le
    simp only [hp, if_true, List.drop_append_of_le_length hle, leadingSpaces_snoc_newline]
  · simp only [hp, if_false]
    rfl

theorem matchSpacedOp_le (op u : Str) (n : Nat) (h : matchSpacedOp op u = some n) :
    n ≤ u.length := by
  obtain ⟨k, k', rest, hl, -, hn⟩ := matchSpacedOp_decomp op u n h
  rw [hn, hl]
  simp only [List.length_append]
  omega

theorem matchPast_snoc (sub u : Str) (hnl : '\n' ∉ sub) :
    matchPast sub (u ++ ['\n']) = matchPast sub u := by
  simp only [matchPast, isPrefixOf_snoc _ _ _ hnl]
  by_cases hp : sub.isPrefixOf u = true
  · have hle := (List.isPrefixOf_iff_prefix.1 hp).length_le
    simp only [hp, if_true, List.drop_append_of_le_length hle, dotStarLen_snoc_newline]
  · simp only [hp, if_false]
    rfl

theorem matchPast_le (sub u : Str) (n : Nat) (h : matchPast sub u = some n) :
    n ≤ u.length := by
  simp only [matchPast] at h
  split at h
  · rename_i hp
    have hle := (List.isPrefixOf_iff_prefix.1 hp).length_le
    have hd := dotStarLen_le (List.drop sub.length u)
    have hn := Option.some.inj h
    simp only [List.length_drop] at hd
    omega
  · exact absurd h (by simp)

theorem matchBefore_snoc (sub u : Str) :
    matchBefore sub (u ++ ['\n']) = matchBefore sub u := by
  simp only [matchBefore, take_dotStarLen_snoc]

theorem matchBefore_le (sub u : Str) (n : Nat) (h : matchBefore sub u = some n) :
    n ≤ u.length := by
  simp only [matchBefore] at h
  split at h
  · rename_i q hq
    have := lastIndex_le _ _ _ hq
    have hn := Option.some.inj h
    simp only [List.length_take] at this
    omega
  · exact absurd h (by simp)

theorem matchBetween_snoc (start stop u : Str) (hnl : '\n' ∉ start) :
    matchBetween start stop (u ++ ['\n']) = matchBetween start stop u := by
  simp only [matchBetween, isPrefixOf_snoc _ _ _ hnl]
  by_cases hp : start.isPrefixOf u = true
  · have hle := (List.isPrefixOf_iff_prefix.1 hp).length_le
    simp only [hp, if_true, List.drop_append_of_le_length hle, take_dotStarLen_snoc]
  · simp only [hp, if_false]
    rfl

theorem matchBetween_le (start stop u : Str) (n : Nat)
    (h : matchBetween start stop u = some n) : n ≤ u.length := by
  simp only [matchBetween] at h
  split at h
  · rename_i hp
    have hle := (List.isPrefixOf_iff_prefix.1 hp).length_le
    split at h
    · rename_i q hq
      have := lastIndex_le _ _ _ hq
      have hn := Option.some.inj h
      simp only [List.length_take, List.length_drop] at this
      omega
    · exact absurd h (by simp)
  · exact absurd h (by simp)

theorem ops_newline : ∀ op ∈ ops, '\n' ∉ op ∧ matchSpacedOp op ['\n'] = none := by decide

theorem minifyOperator_snoc (op t : Str) (hop : op ∈ ops) :
    minifyOperator op (t ++ ['\n']) = minifyOperator op t ++ ['\n'] := by
  obtain ⟨h1, h3⟩ := ops_newline op hop
  unfold minifyOperator
  exact regexpReplaceAll_snoc_newline _ _ (fun u _ => matchSpacedOp_snoc op u h1)
    (matchSpacedOp_le op) h3 t

theorem compactLine_snoc (os : List Str) (hos : ∀ op ∈ os, op ∈ ops) (t : Str) :
    compactLine os (t ++ ['\n']) = compactLine os t ++ ['\n'] := by
  induction os generalizing t with
  | nil => rfl
  | cons op os ih =>
    have e : ∀ l : Str, compactLine (op :: os) l = compactLine os (minifyOperator op l) :=
      fun _ => rfl
    rw [e, e, minifyOperator_snoc op t (hos op (List.mem_cons_self _ _)),
      ih (fun o ho => hos o (List.mem_cons_of_mem _ ho))]

theorem removeEverythingPast_snoc (sub t : Str) (hnl : '\n' ∉ sub)
    (h3 : matchPast sub ['\n'] = none) :
    removeEverythingPast sub (t ++ ['\n']) = removeEverythingPast sub t ++ ['\n'] :=
  regexpReplaceAll_snoc_newline _ _ (fun u _ => matchPast_snoc sub u hnl) (matchPast_le sub) h3 t

theorem removeEverythingBefore_snoc (sub t : Str) (h3 : matchBefore sub ['\n'] = none) :
    removeEverythingBefore sub (t ++ ['\n']) = removeEverythingBefore sub t ++ ['\n'] :=
  regexpReplaceAll_snoc_newline _ _ (fun u _ => matchBefore_snoc sub u) (matchBefore_le sub) h3 t

theorem removeEverythingBetween_snoc (start stop t : Str) (hnl : '\n' ∉ start)
    (h3 : matchBetween start stop ['\n'] = none) :
    removeEverythingBetween start stop (t ++ ['\n'])
      = removeEverythingBetween start stop t ++ ['\n'] :=
  regexpReplaceAll_snoc_newline _ _ (fun u _ => matchBetween_snoc start stop u hnl)
    (matchBetween_le start stop) h3 t

theorem removeMultilineCommentsFrom_cons (st : Bool) (y : Str) (rest : List Str) :
    removeMultilineCommentsFrom st (y :: rest)
      = removeMultilineCommentsFrom st [y]
        ++ removeMultilineCommentsFrom (insideAfter st [y]) rest := by
  cases st <;> simp only [removeMultilineCommentsFrom, insideAfter] <;> split_ifs <;> simp

theorem insideAfter_cons (st : Bool) (y : Str) (rest : List Str) :
    insideAfter st (y :: rest) = insideAfter (insideAfter st [y]) rest := by
  cases st <;> simp only [insideAfter] <;> split_ifs <;> simp

theorem removeMultilineCommentsFrom_single (st : Bool) (t : Str) :
    ∃ o, removeMultilineCommentsFrom st [t ++ ['\n']] = [o]
      ∧ ((o = [] ∧ st = true) ∨ ∃ t', o = t' ++ ['\n']) := by
  have hb := removeEverythingBetween_snoc ['/', '*'] ['*', '/'] t (by decide) (by decide)
  have hp := removeEverythingPast_snoc ['/', '*'] t (by decide) (by decide)
  have hf := removeEverythingBefore_snoc ['*', '/'] t (by decide)
  cases st with
  | false =>
    simp only [removeMultilineCommentsFrom, Bool.not_false, if_true]
    split_ifs
    · exact ⟨_, rfl, Or.inr ⟨_, hb⟩⟩
    · exact ⟨_, rfl, Or.inr ⟨_, hp⟩⟩
    · exact ⟨_, rfl, Or.inr ⟨_, rfl⟩⟩
  | true =>
    simp only [removeMultilineCommentsFrom, Bool.not_true, Bool.false_eq_true, if_false]
    split_ifs
    · exact ⟨_, rfl, Or.inr ⟨_, hf⟩⟩
    · exact ⟨_, rfl, Or.inl ⟨rfl, trivial⟩⟩

/-- The block-comment pass on a line that ends with a line break: the line keeps its
final line break, unless the pass reaches it inside a comment and blanks it. -/
theorem removeMultilineCommentsFrom_keeps_break (st : Bool) (lines : List Str) (i : Nat)
    (t : Str) (h : lines[i]? = some (t ++ ['\n'])) :
    ∃ o, (removeMultilineCommentsFrom st lines)[i]? = some o
      ∧ (o = [] ∨ ∃ t', o = t' ++ ['\n'])
      ∧ (insideAfter st (lines.take i) = false → ∃ t', o = t' ++ ['\n']) := by
  induction lines generalizing st i with
  | nil => simp at h
  | cons y rest ih =>
    rw [removeMultilineCommentsFrom_cons]
    cases i with
    | zero =>
      simp only [List.getElem?_cons_zero, Option.some.injEq] at h
      subst h
      obtain ⟨o, ho, hcase⟩ := removeMultilineCommentsFrom_single st t
      refine ⟨o, by simp [ho], ?_, ?_⟩
      · rcases hcase with ⟨h1, -⟩ | h1
        · exact Or.inl h1
        · exact Or.inr h1
      · intro hst
        simp only [List.take_zero, insideAfter] at hst
        rcases hcase with ⟨-, h2⟩ | h1
        · rw [hst] at h2
          exact absurd h2 (by simp)
        · exact h1
    | succ i =>
      simp only [List.getElem?_cons_succ] at h
      obtain ⟨o, ho, h1, h2⟩ := ih (insideAfter st [y]) i h
      have hlen : (removeMultilineCommentsFrom st [y]).length = 1 := by
        cases st <;> simp only [removeMultilineCommentsFrom] <;> split_ifs <;> rfl
      refine ⟨o, ?_, h1, ?_⟩
      · rw [List.getElem?_append_right (by omega), hlen]
        simpa using ho
      · intro hst
        rw [List.take_succ_cons, insideAfter_cons] at hst
        exact h2 hst

theorem dropWhile_snoc (p : Char → Bool) (xs : Str) (c : Char) (hc : p c = false) :
    ∃ z, List.dropWhile p (xs ++ [c]) = z ++ [c] := by
  induction xs with
  | nil => exact ⟨[], by simp [List.dropWhile_cons, hc]⟩
  | cons x xs ih =>
    by_cases hx : p x = true
    · obtain ⟨z, hz⟩ := ih
      exact ⟨z, by simp [List.dropWhile_cons, hx, hz]⟩
    · exact ⟨x :: xs, by simp [List.dropWhile_cons, hx]⟩

theorem dropWhile_replaceTabs (l : Str) (h : firstNonSpace l = some '#') :
    ∃ rest, List.dropWhile isSpace (replaceTabs l) = '#' :: rest := by
  induction l with
  | nil => simp [firstNonSpace] at h
  | cons c cs ih =>
    by_cases hc : isSpace c = true
    · have h' : firstNonSpace cs = some '#' := by
        simpa [firstNonSpace, List.dropWhile_cons, hc] using h
      obtain ⟨rest, hrest⟩ := ih h'
      refine ⟨rest, ?_⟩
      have hc' : isSpace (if c = '\t' then ' ' else c) = true := by
        split_ifs
        · decide
        · exact hc
      simp only [replaceTabs, List.map_cons, List.dropWhile_cons, hc', if_true]
      exact hrest
    · have hc2 : c = '#' := by
        simpa [firstNonSpace, List.dropWhile_cons, hc] using h
      subst hc2
      exact ⟨replaceTabs cs, by simp [replaceTabs, List.dropWhile_cons, hc]⟩

theorem hasPrefix_of_firstNonSpace (l : Str) (h : firstNonSpace l = some '#') :
    stringsHasPrefix (stringsTrimSpace (replaceTabs l)) ['#'] = true := by
  obtain ⟨rest, hrest⟩ := dropWhile_replaceTabs l h
  obtain ⟨z, hz⟩ := dropWhile_snoc isSpace rest.reverse '#' (by decide)
  have : stringsTrimSpace (replaceTabs l) = '#' :: z.reverse := by
    simp [stringsTrimSpace, hrest, hz]
  rw [this]
  simp [stringsHasPrefix, List.isPrefixOf]

/-! ## Line breaks in the joined text -/

theorem split_leadingNewlines (l : Str) :
    l = List.replicate (l.takeWhile (fun c => c == '\n')).length '\n'
          ++ l.drop (l.takeWhile (fun c => c == '\n')).length
      ∧ ((l.drop (l.takeWhile (fun c => c == '\n')).length).takeWhile
          (fun c => c == '\n')).length = 0 := by
  induction l with
  | nil => simp
  | cons c cs ih =>
    by_cases hc : c = '\n'
    · subst hc
      simp only [List.takeWhile_cons, beq_self_eq_true, if_true, List.length_cons,
        List.replicate_succ, List.drop_succ_cons, List.cons_append]
      exact ⟨by rw [← ih.1], ih.2⟩
    · simp [List.takeWhile_cons, hc]

theorem collapseRuns_of_head (b : Bool) (l : Str)
    (h : (l.takeWhile (fun c => c == '\n')).length = 0) :
    collapseRuns b l = collapseRuns false l := by
  cases l with
  | nil => rfl
  | cons c cs =>
    have hc : c ≠ '\n' := by
      rintro rfl
      simp [List.takeWhile_cons] at h
    simp [collapseRuns, hc]

theorem collapseRuns_newlines (k : Nat) (rest : Str) :
    collapseRuns true (List.replicate k '\n' ++ rest) = collapseRuns true rest := by
  induction k with
  | zero => simp
  | succ k ih => simpa [List.replicate_succ, collapseRuns] using ih

/-- The expression `\n{2,}` replaced by one line break: every run of line breaks is
cut down to one. -/
theorem fixDuplicateNewlines_eq (l : Str) : fixDuplicateNewlines l = collapseRuns false l := by
  unfold fixDuplicateNewlines
  induction' hn : l.length using Nat.strong_induction_on with n ih generalizing l
  cases l with
  | nil => simp [regexpReplaceAll_nil, collapseRuns]
  | cons c cs =>
    by_cases hc : c = '\n'
    · subst hc
      obtain ⟨h1, h2⟩ := split_leadingNewlines cs
      generalize (cs.takeWhile (fun c => c == '\n')).length = k at h1 h2
      generalize List.drop k cs = rest at h1 h2
      subst h1
      have hrest := collapseRuns_of_head true rest h2
      have hlead : (List.takeWhile (fun c => c == '\n')
          ('\n' :: (List.replicate k '\n' ++ rest))).length = k + 1 := by
        have e : '\n' :: (List.replicate k '\n' ++ rest)
            = List.replicate (k + 1) '\n' ++ rest := by simp [List.replicate_succ]
        rw [e, List.takeWhile_append_of_pos (by simp), List.length_append,
          List.length_replicate]
        omega
      have hcol : collapseRuns false ('\n' :: (List.replicate k '\n' ++ rest))
          = '\n' :: collapseRuns false rest := by
        simp [collapseRuns, collapseRuns_newlines, hrest]
      rw [hcol]
      cases k with
      | zero =>
        have hm : matchNewlines ('\n' :: ([] ++ rest)) = none := by
          simp only [List.replicate_zero] at hlead
          simp only [matchNewlines, hlead]
          rfl
        simp only [List.replicate_zero] at hn ⊢
        rw [regexpReplaceAll_cons_none _ _ _ _ hm, List.nil_append,
          ih rest.length (by simp [← hn]) rest rfl]
      | succ k =>
        have hm : matchNewlines (List.replicate (k + 2) '\n' ++ rest)
            = some (List.replicate (k + 2) '\n').length := by
          have e : '\n' :: (List.replicate (k + 1) '\n' ++ rest)
              = List.replicate (k + 2) '\n' ++ rest := by simp [List.replicate_succ]
          rw [e] at hlead
          simp only [matchNewlines, hlead, List.length_replicate]
          simp
        have e : '\n' :: (List.replicate (k + 1) '\n' ++ rest)
            = List.replicate (k + 2) '\n' ++ rest := by simp [List.replicate_succ]
        rw [e, regexpReplaceAll_match _ _ _ _ (by simp) hm,
          ih rest.length (by simp [← hn]; omega) rest rfl]
        rfl
    · have hm : matchNewlines (c :: cs) = none := by
        simp [matchNewlines, List.takeWhile_cons, hc]
      rw [regexpReplaceAll_cons_none _ _ _ _ hm, ih cs.length (by simp [← hn]) cs rfl]
      simp [collapseRuns, hc]

theorem collapseRuns_split (b : Bool) (x y : Str) :
    collapseRuns b (x ++ '\n' :: y) = collapseRuns b (x ++ ['\n']) ++ collapseRuns true y := by
  induction x generalizing b with
  | nil => cases b <;> simp [collapseRuns]
  | cons c cs ih =>
    by_cases hc : c = '\n'
    · cases b <;> simp [collapseRuns, hc, ih]
    · simp [collapseRuns, hc, ih]

theorem collapseRuns_dropWhile (y : Str) :
    collapseRuns true y = collapseRuns false (y.dropWhile (fun c => c == '\n')) := by
  induction y with
  | nil => rfl
  | cons c cs ih =>
    by_cases hc : c = '\n'
    · simp [collapseRuns, hc, List.dropWhile_cons, ih]
    · simp [collapseRuns, hc, List.dropWhile_cons]

theorem collapseRuns_snoc (b : Bool) (x : Str) :
    (b = true ∧ collapseRuns b (x ++ ['\n']) = [])
      ∨ ∃ u, collapseRuns b (x ++ ['\n']) = u ++ ['\n'] := by
  induction x generalizing b with
  | nil => cases b <;> simp [collapseRuns]
  | cons c cs ih =>
    by_cases hc : c = '\n'
    · cases b
      · rcases ih true with ⟨-, h⟩ | ⟨u, h⟩
        · exact Or.inr ⟨[], by simp [collapseRuns, hc, h]⟩
        · exact Or.inr ⟨'\n' :: u, by simp [collapseRuns, hc, h]⟩
      · rcases ih true with ⟨-, h⟩ | ⟨u, h⟩
        · exact Or.inl ⟨rfl, by simp [collapseRuns, hc, h]⟩
        · exact Or.inr ⟨u, by simp [collapseRuns, hc, h]⟩
    · rcases ih false with ⟨h, -⟩ | ⟨u, h⟩
      · exact absurd h (by simp)
      · exact Or.inr ⟨c :: u, by simp [collapseRuns, hc, h]⟩

/-- Collapsing line breaks around a line break of the text: the part up to and
including it is collapsed on its own and still ends with a line break; what follows is
collapsed without its leading line breaks. -/
theorem fixDuplicateNewlines_split (x y : Str) :
    fixDuplicateNewlines (x ++ '\n' :: y)
        = fixDuplicateNewlines (x ++ ['\n'])
          ++ fixDuplicateNewlines (y.dropWhile (fun c => c == '\n'))
      ∧ ∃ u, fixDuplicateNewlines (x ++ ['\n']) = u ++ ['\n'] := by
  simp only [fixDuplicateNewlines_eq]
  refine ⟨by rw [collapseRuns_split, collapseRuns_dropWhile], ?_⟩
  rcases collapseRuns_snoc false x with ⟨h, -⟩ | h
  · exact absurd h (by simp)
  · exact h

theorem regexpReplaceGo_split_newline (m : Str → Option Nat) (rep y : Str)
    (h1 : ∀ u : Str, u ≠ [] → m (u ++ '\n' :: y) = m u)
    (h2 : ∀ (u : Str) (n : Nat), m u = some n → n ≤ u.length)
    (h3 : m ('\n' :: y) = none) (t : Str) (k : Nat) (hk : k ≤ t.length) :
    regexpReplaceGo m rep k (t ++ '\n' :: y)
      = regexpReplaceGo m rep k t ++ '\n' :: regexpReplaceGo m rep 0 y := by
  induction t generalizing k with
  | nil =>
    have : k = 0 := by simpa using hk
    subst this
    simp [regexpReplaceGo, h3]
  | cons c cs ih =>
    cases k with
    | zero =>
      have e := h1 (c :: cs) (by simp)
      simp only [List.cons_append] at e ⊢
      cases hm : m (c :: cs) with
      | none =>
        simp only [regexpReplaceGo, e, hm]
        rw [ih 0 (Nat.zero_le _)]
        simp
      | some n =>
        have hn := h2 _ _ hm
        simp only [List.length_cons] at hn
        simp only [regexpReplaceGo, e, hm]
        rw [ih (n - 1) (by omega)]
        simp
    | succ k =>
      simp only [List.cons_append, regexpReplaceGo]
      exact ih k (by simpa using hk)

/-- The pass `fixSpacedOps` works on each side of a line break separately. -/
theorem fixSpacedOps_split (x y : Str) :
    fixSpacedOps (x ++ '\n' :: y) = fixSpacedOps x ++ '\n' :: fixSpacedOps y := by
  simp only [fixSpacedOps, spacedOps, List.foldl_cons, List.foldl_nil, stringsReplaceAll,
    regexpReplaceAll]
  apply regexpReplaceGo_split_newline _ _ _ _ _ _ _ _ (Nat.zero_le _)
  · intro u _
    have hpre : ∀ pat : Str, '\n' ∉ pat →
        pat.isPrefixOf (u ++ '\n' :: y) = pat.isPrefixOf u := by
      intro pat hpat
      rw [Bool.eq_iff_iff, List.isPrefixOf_iff_prefix, List.isPrefixOf_iff_prefix]
      constructor
      · exact prefix_sep _ u y '\n' hpat
      · exact fun h => h.trans (List.prefix_append _ _)
    simp only [matchLiteral, hpre ("else".toList ++ " \x7b".toList) (by decide)]
  · intro u n h
    simp only [matchLiteral] at h
    split at h
    · rename_i hp
      have := (List.isPrefixOf_iff_prefix.1 hp).length_le
      have hn := Option.some.inj h
      omega
    · exact absurd h (by simp)
  · simp [matchLiteral, List.isPrefixOf]

theorem compactedLines_getElem (s : Str) (i : Nat) (l : Str)
    (hl : (stringsSplit s)[i]? = some l) :
    (compactedLines s false false)[i]? = some (removeEverythingPast ['/', '/']
      (compactLine ops
        (if stringsHasPrefix (stringsTrimSpace (replaceTabs l)) ['#'] = true
          then stringsTrimSpace (replaceTabs l) ++ ['\n']
          else stringsTrimSpace (replaceTabs l)))) := by
  simp only [compactedLines, clearWhitespaceFirstPass, reinsertPreprocessorNewlines,
    foldl_map_lines, removeInlineComments, Bool.not_false, if_true, List.getElem?_map, hl,
    Option.map_some']

/-- A line that begins with `#` inside a block comment is comment text: in the source
`/*`, `#x`, `*/y` (three lines) the second line contributes nothing to the output `y`,
which holds no line break at all. -/
theorem directive_inside_comment_loses_break :
    (stringsSplit "/*\n#x\n*/y".toList)[1]? = some "#x".toList
      ∧ firstNonSpace "#x".toList = some '#'
      ∧ (minifiedLines "/*\n#x\n*/y".toList false false false)[1]? = some []
      ∧ minifySource "/*\n#x\n*/y".toList false false false = "y".toList := by
  decide

theorem output_split_at_break (P : List Str) (i : Nat) (t : Str)
    (h : P[i]? = some (t ++ ['\n'])) :
    ∃ u, fixSpacedOps (fixDuplicateNewlines (P.take (i + 1)).flatten) = u ++ ['\n']
      ∧ fixSpacedOps (fixDuplicateNewlines P.flatten)
        = u ++ ['\n'] ++ fixSpacedOps (fixDuplicateNewlines
            ((P.drop (i + 1)).flatten.dropWhile (fun c => c == '\n'))) := by
  have htake : (P.take (i + 1)).flatten = ((P.take i).flatten ++ t) ++ ['\n'] := by
    rw [List.take_succ, h]
    simp
  have hall : P.flatten = ((P.take i).flatten ++ t) ++ '\n' :: (P.drop (i + 1)).flatten := by
    conv_lhs => rw [← List.take_append_drop (i + 1) P]
    rw [List.flatten_append, htake]
    simp
  obtain ⟨h1, u0, h2⟩ := fixDuplicateNewlines_split ((P.take i).flatten ++ t)
    (P.drop (i + 1)).flatten
  have hnil : fixSpacedOps [] = [] := by decide
  refine ⟨fixSpacedOps u0, ?_, ?_⟩
  · rw [htake, h2, fixSpacedOps_split, hnil]
  · rw [hall, h1, h2, List.append_assoc, List.singleton_append, fixSpacedOps_split]
    simp

/-- How the line break of a directive travels through the passes: take a source line
whose first non-blank character is `#`, and let `o` be its processed text, the line of
`minifiedLines` at the same position.  If the block-comment pass reaches the line with its
flag `inComment` unset, `o` ends with a line break; in any case `o` is empty or ends with
a line break.  When `o` ends with a line break, the output
of `minifySource` (all flags false) is the minified text of the lines up to and including
this one, which ends with a line break, followed by the minified text of the later lines:
the line is not joined with what follows it. -/
theorem directive_line_keeps_break (s : Str) (i : Nat) (l : Str)
    (hl : (stringsSplit s)[i]? = some l) (hd : firstNonSpace l = some '#') :
    ∃ o, (minifiedLines s false false false)[i]? = some o
      ∧ (insideAfter false ((compactedLines s false false).take i) = false →
          ∃ t, o = t ++ ['\n'])
      ∧ (o = [] ∨ ∃ t, o = t ++ ['\n'])
      ∧ ((∃ t, o = t ++ ['\n']) →
          ∃ u, fixSpacedOps (fixDuplicateNewlines
                ((minifiedLines s false false false).take (i + 1)).flatten) = u ++ ['\n']
            ∧ minifySource s false false false
              = u ++ ['\n'] ++ fixSpacedOps (fixDuplicateNewlines
                  (((minifiedLines s false false false).drop (i + 1)).flatten.dropWhile
                    (fun c => c == '\n')))) := by
  have hsrc : minifySource s false false false
      = fixSpacedOps (fixDuplicateNewlines (minifiedLines s false false false).flatten) := by
    simp only [minifySource, stringsJoin, Bool.not_false, if_true]
  have h1 := compactedLines_getElem s i l hl
  rw [hasPrefix_of_firstNonSpace l hd, if_pos rfl,
    compactLine_snoc ops (fun _ h => h), removeEverythingPast_snoc _ _ (by decide) (by decide)]
    at h1
  obtain ⟨o, ho, h2, h3⟩ := removeMultilineCommentsFrom_keeps_break false _ i _ h1
  have ho' : (minifiedLines s false false false)[i]? = some o := by
    simpa only [minifiedLines, removeMultilineComments, Bool.not_false, if_true] using ho
  refine ⟨o, ho', h3, h2, ?_⟩
  rintro ⟨t, rfl⟩
  rw [hsrc]
  exact output_split_at_break _ i t ho'

/-- C4: in the source `x = a * /* f */ b;`, `#define Y 1`, `int z;` (three lines) the
second line is a directive that stands after the end of the only comment; yet its
processed text is empty and the output is `x=a*`, without any line break.  The operator
loop turns the first line into `x=a*/*f*/b;`, where the first `*/` (position 3) stands
before the `/*` (position 4); the block-comment pass then cuts the line at `/*` and keeps
its flag `inComment` set, so that the directive and the line after it are blanked. -/
theorem minifySource_blanks_directive_after_comment :
    (stringsSplit "x = a * /* f */ b;\n#define Y 1\nint z;".toList)[1]?
        = some "#define Y 1".toList
      ∧ firstNonSpace "#define Y 1".toList = some '#'
      ∧ compactedLines "x = a * /* f */ b;\n#define Y 1\nint z;".toList false false
          = ["x=a*/*f*/b;".toList, "#define Y 1\n".toList, "int z;".toList]
      ∧ minifiedLines "x = a * /* f */ b;\n#define Y 1\nint z;".toList false false false
          = ["x=a*".toList, [], []]
      ∧ minifySource "x = a * /* f */ b;\n#define Y 1\nint z;".toList false false false
          = "x=a*".toList
      ∧ '\n' ∉ minifySource "x = a * /* f */ b;\n#define Y 1\nint z;".toList false false
          false := by
  decide

/-! ## Sources without comments, directives and `else` -/

theorem stringsSplit_flatten (s : Str) :
    (stringsSplit s).flatten = s.filter (fun c => c != '\n') := by
  induction s with
  | nil => rfl
  | cons c cs ih =>
    by_cases hc : c = '\n'
    · simp [stringsSplit, hc, ih]
    · simp only [stringsSplit, hc, if_false]
      cases hs : stringsSplit cs with
      | nil =>
        rw [hs] at ih
        simp [hc, ← ih]
      | cons l ls =>
        rw [hs] at ih
        simp [hc, ← ih]

theorem mem_of_mem_stringsSplit (s l : Str) (hl : l ∈ stringsSplit s) (c : Char) (hc : c ∈ l) :
    c ∈ s ∧ c ≠ '\n' := by
  have h1 : c ∈ (stringsSplit s).flatten := List.mem_flatten.2 ⟨l, hl, hc⟩
  rw [stringsSplit_flatten] at h1
  simpa using h1

theorem filter_dropWhile_isSpace (y : Str) :
    (y.dropWhile isSpace).filter (fun c => !isSpace c) = y.filter (fun c => !isSpace c) := by
  induction y with
  | nil => rfl
  | cons c cs ih =>
    by_cases hc : isSpace c = true
    · simp [List.dropWhile_cons, hc, ih]
    · simp [List.dropWhile_cons, hc]

theorem filter_stringsTrimSpace (y : Str) :
    (stringsTrimSpace y).filter (fun c => !isSpace c) = y.filter (fun c => !isSpace c) := by
  unfold stringsTrimSpace
  rw [List.filter_reverse, filter_dropWhile_isSpace, List.filter_reverse, List.reverse_reverse,
    filter_dropWhile_isSpace]

theorem filter_replaceTabs (y : Str) :
    (replaceTabs y).filter (fun c => !isSpace c) = y.filter (fun c => !isSpace c) := by
  induction y with
  | nil => rfl
  | cons c cs ih =>
    unfold replaceTabs at ih ⊢
    by_cases hc : c = '\t'
    · subst hc
      have h1 : isSpace ' ' = true := by decide
      have h2 : isSpace '\t' = true := by decide
      simp [h1, h2, ih]
    · simp only [List.map_cons, hc, if_false, List.filter_cons, ih]

theorem stringsTrimSpace_sublist (y : Str) : (stringsTrimSpace y).Sublist y := by
  unfold stringsTrimSpace
  have h1 := List.dropWhile_sublist isSpace (l := (y.dropWhile isSpace).reverse)
  have h2 := h1.reverse
  rw [List.reverse_reverse] at h2
  exact h2.trans (List.dropWhile_sublist isSpace)

theorem mem_replaceTabs (y : Str) (c : Char) (hc : c ∈ replaceTabs y) :
    c = ' ' ∨ (c ∈ y ∧ c ≠ '\t') := by
  simp only [replaceTabs, List.mem_map] at hc
  obtain ⟨d, hd, rfl⟩ := hc
  by_cases h : d = '\t'
  · simp [h]
  · simp [h, hd]

theorem stringsTrimSpace_head (y : Str) :
    (∀ c ∈ (stringsTrimSpace y).head?, isSpace c = false)
      ∧ (∀ c ∈ (stringsTrimSpace y).getLast?, isSpace c = false) := by
  unfold stringsTrimSpace
  have key : ∀ w : Str, ∀ c ∈ (w.dropWhile isSpace).head?, isSpace c = false := by
    intro w c hc
    have := List.head?_dropWhile_not isSpace w
    rw [Option.mem_def.1 hc] at this
    simpa using this
  constructor
  · intro c hc
    rw [List.head?_reverse] at hc
    have hsuf := List.dropWhile_suffix isSpace (l := (y.dropWhile isSpace).reverse)
    obtain ⟨pre, hpre⟩ := hsuf
    have hne : List.dropWhile isSpace (y.dropWhile isSpace).reverse ≠ [] := by
      intro h
      rw [h] at hc
      simp at hc
    have : (pre ++ List.dropWhile isSpace (y.dropWhile isSpace).reverse).getLast? = some c := by
      rw [List.getLast?_append_of_ne_nil _ hne]
      exact hc
    rw [hpre, List.getLast?_reverse] at this
    exact key y c this
  · intro c hc
    rw [List.getLast?_reverse] at hc
    exact key _ c hc

theorem plainText_line (s l : Str) (hslash : '/' ∉ s) (hhash : '#' ∉ s)
    (hws : ∀ c ∈ s, isSpace c = true → c = ' ' ∨ c = '\t' ∨ c = '\n')
    (hl : l ∈ stringsSplit s) : PlainText (stringsTrimSpace (replaceTabs l)) := by
  intro c hc
  have h1 := mem_replaceTabs l c ((stringsTrimSpace_sublist _).subset hc)
  rcases h1 with rfl | ⟨h1, h2⟩
  · exact ⟨by decide, by decide, fun _ => rfl⟩
  · obtain ⟨h3, h4⟩ := mem_of_mem_stringsSplit s l hl c h1
    refine ⟨fun e => hslash (e ▸ h3), fun e => hhash (e ▸ h3), fun hsp => ?_⟩
    rcases hws c h3 hsp with h | h | h
    · exact h
    · exact absurd h h2
    · exact absurd h h4

theorem despace_of_plainText (x : Str) (h : PlainText x) :
    despace x = x.filter (fun c => !isSpace c) := by
  unfold despace
  apply List.filter_congr
  intro c hc
  by_cases hs : isSpace c = true
  · have := (h c hc).2.2 hs
    subst this
    simp [hs]
  · have : c ≠ ' ' := by
      rintro rfl
      exact hs (by decide)
    simp [hs, this]

theorem filter_line_within (s l : Str) (hl : l ∈ stringsSplit s) :
    l.filter (fun c => !isSpace c) <:+: s.filter (fun c => !isSpace c) := by
  have h1 : l.filter (fun c => !isSpace c)
      <:+: ((stringsSplit s).map (List.filter (fun c => !isSpace c))).flatten :=
    List.infix_of_mem_flatten (List.mem_map_of_mem _ hl)
  rw [← List.filter_flatten, stringsSplit_flatten, List.filter_filter] at h1
  have e : s.filter (fun c => !isSpace c && c != '\n') = s.filter (fun c => !isSpace c) := by
    apply List.filter_congr
    intro c _
    by_cases hc : c = '\n'
    · subst hc
      decide
    · simp [hc]
  rwa [e] at h1

theorem filter_split (s : Str) :
    ((stringsSplit s).map (List.filter (fun c => !isSpace c))).flatten
      = s.filter (fun c => !isSpace c) := by
  rw [← List.filter_flatten, stringsSplit_flatten, List.filter_filter]
  apply List.filter_congr
  intro c _
  by_cases hc : c = '\n'
  · subst hc
    decide
  · simp [hc]

theorem sublist_head (r x : Str) (h : r.Sublist x) (hd : despace r = despace x)
    (hx : ∀ c ∈ x.head?, c ≠ ' ') : ∀ c ∈ r.head?, c ≠ ' ' := by
  intro c hc
  cases r with
  | nil => simp at hc
  | cons c' r' =>
    simp only [List.head?_cons, Option.mem_def, Option.some.injEq] at hc
    subst hc
    cases x with
    | nil => simp at h
    | cons h0 x' =>
      have h0ne : h0 ≠ ' ' := hx h0 (by simp)
      rcases List.sublist_cons_iff.1 h with h1 | ⟨r'', h1, -⟩
      · exfalso
        have h2 : (despace (c' :: r')).Sublist (despace x') := h1.filter _
        have h3 := h2.length_le
        rw [hd] at h3
        have h4 : despace (h0 :: x') = h0 :: despace x' := by
          simp [despace, h0ne]
        rw [h4] at h3
        simp at h3
      · have : c' = h0 := (List.cons.inj h1).1
        rw [this]
        exact h0ne

theorem sublist_trimmed (r x : Str) (h : r.Sublist x) (hd : despace r = despace x)
    (hx : Trimmed x) : Trimmed r := by
  refine ⟨sublist_head r x h hd hx.1, ?_⟩
  intro c hc
  rw [← List.head?_reverse] at hc
  refine sublist_head r.reverse x.reverse h.reverse ?_ ?_ c hc
  · simp only [despace, List.filter_reverse]
    exact congrArg List.reverse hd
  · intro d hd'
    rw [List.head?_reverse] at hd'
    exact hx.2 d hd'

theorem trimmed_append (x y : Str) (hx : Trimmed x) (hy : Trimmed y) : Trimmed (x ++ y) := by
  constructor
  · intro c hc
    rw [List.head?_append] at hc
    cases hxh : x.head? with
    | none =>
      rw [hxh] at hc
      exact hy.1 c (by simpa using hc)
    | some d =>
      rw [hxh] at hc
      have : d = c := by simpa using hc
      exact hx.1 c (by rw [hxh, this]; rfl)
  · intro c hc
    rw [List.getLast?_append] at hc
    cases hyl : y.getLast? with
    | none =>
      rw [hyl] at hc
      exact hx.2 c (by simpa using hc)
    | some d =>
      rw [hyl] at hc
      have : d = c := by simpa using hc
      exact hy.2 c (by rw [hyl, this]; rfl)

theorem flatten_chain (r : Char → Char → Prop) (hr : ∀ a b, a ≠ ' ' → b ≠ ' ' → r a b)
    (rs : List Str) (h : ∀ x ∈ rs, List.Chain' r x ∧ Trimmed x) :
    List.Chain' r rs.flatten ∧ Trimmed rs.flatten := by
  induction rs with
  | nil => exact ⟨List.chain'_nil, by simp [Trimmed]⟩
  | cons x rs ih =>
    obtain ⟨h1, h2⟩ := h x (List.mem_cons_self _ _)
    obtain ⟨h3, h4⟩ := ih (fun y hy => h y (List.mem_cons_of_mem _ hy))
    rw [List.flatten_cons]
    refine ⟨?_, trimmed_append _ _ h2 h4⟩
    rw [List.chain'_append]
    exact ⟨h1, h3, fun a ha b hb => hr a b (h2.2 a ha) (h4.1 b hb)⟩

/-- What is known of a processed line of a source without `/`, `#` and `else` whose
white space is made of spaces, tabs and line breaks. -/
theorem normalLine_facts (s l : Str) (hslash : '/' ∉ s) (hhash : '#' ∉ s)
    (hws : ∀ c ∈ s, isSpace c = true → c = ' ' ∨ c = '\t' ∨ c = '\n')
    (helse : ¬ ['e', 'l', 's', 'e'] <:+: s.filter (fun c => !isSpace c))
    (hl : l ∈ stringsSplit s) :
    PlainText (normalLine l) ∧ Trimmed (normalLine l)
      ∧ despace (normalLine l) = l.filter (fun c => !isSpace c)
      ∧ ∀ c, [c] ∈ ops → NoSpaceNextTo c (normalLine l) := by
  unfold normalLine
  have hp := plainText_line s l hslash hhash hws hl
  have hdx : despace (stringsTrimSpace (replaceTabs l)) = l.filter (fun c => !isSpace c) := by
    rw [despace_of_plainText _ hp, filter_stringsTrimSpace, filter_replaceTabs]
  have hE : ¬ ['e', 'l', 's', 'e'] <:+: despace (stringsTrimSpace (replaceTabs l)) := by
    rw [hdx]
    exact fun h => helse (h.trans (filter_line_within s l hl))
  obtain ⟨h1, h2, -, h4⟩ := compactLine_inv ops ops_wellformed
    (stringsTrimSpace (replaceTabs l)) (fun _ => hE)
  have ht : Trimmed (stringsTrimSpace (replaceTabs l)) := by
    obtain ⟨ha, hb⟩ := stringsTrimSpace_head (replaceTabs l)
    constructor
    · intro c hc e
      have := ha c hc
      rw [e] at this
      exact absurd this (by decide)
    · intro c hc e
      have := hb c hc
      rw [e] at this
      exact absurd this (by decide)
  refine ⟨fun c hc => hp c (h1.subset hc), sublist_trimmed _ _ h1 h2 ht, h2.trans hdx, h4⟩

/-- Where no space stands before the first or after the last character of `op`,
replacing ` *op *` by `op` changes nothing. -/
theorem replace_id (op l : Str) (o z : Char) (ho : op.head? = some o)
    (hz : op.getLast? = some z) (h1 : ¬ [' ', o] <:+: l) (h2 : ¬ [z, ' '] <:+: l) :
    regexpReplaceAll (matchSpacedOp op) op l = l := by
  have hop : op ≠ [] := by
    rintro rfl
    simp at ho
  induction' hn : l.length using Nat.strong_induction_on with n ih generalizing l
  cases l with
  | nil => exact regexpReplaceAll_nil _ _
  | cons d ds =>
    cases hm : matchSpacedOp op (d :: ds) with
    | none =>
      rw [regexpReplaceAll_cons_none _ _ _ _ hm,
        ih ds.length (by simp [← hn]) ds (fun h => h1 (List.infix_cons h))
          (fun h => h2 (List.infix_cons h)) rfl]
    | some n' =>
      obtain ⟨k, k', rest, hl, -, hR⟩ := minifyOperator_step op op _ n' hop hm
      have hlt := minifyOperator_rest_lt op _ rest k k' hop hl
      have hk : k = 0 := by
        cases k with
        | zero => rfl
        | succ k =>
          exfalso
          apply h1
          obtain ⟨os, hos⟩ := List.head?_eq_some_iff.1 ho
          rw [hl, hos]
          exact ⟨spaces k, os ++ (spaces k' ++ rest), by simp [spaces, List.replicate_succ']⟩
      have hk' : k' = 0 := by
        cases k' with
        | zero => rfl
        | succ k' =>
          exfalso
          apply h2
          obtain ⟨init, hinit⟩ := List.getLast?_eq_some_iff.1 hz
          rw [hl, hinit]
          exact ⟨spaces k ++ init, spaces k' ++ rest, by simp [spaces, List.replicate_succ]⟩
      have hsuf : rest <:+: d :: ds :=
        ⟨spaces k ++ (op ++ spaces k'), [], by simp [hl]⟩
      rw [hR, ih rest.length (by omega) rest (fun h => h1 (h.trans hsuf))
        (fun h => h2 (h.trans hsuf)) rfl, hl, hk, hk']
      simp [spaces]

theorem compactLine_id (os : List Str) (hos : ∀ op ∈ os, op ∈ ops) (l : Str)
    (hQ : ∀ c, [c] ∈ ops → NoSpaceNextTo c l) (hE : ¬ ['e', 'l', 's', 'e'] <:+: l) :
    compactLine os l = l := by
  induction os with
  | nil => rfl
  | cons op os ih =>
    have hop := hos op (List.mem_cons_self _ _)
    have hstep : minifyOperator op l = l := by
      by_cases he : op = ['e', 'l', 's', 'e']
      · rw [he, minifyOperator_else]
        exact replace_of_absent _ _ _ hE
      · rw [minifyOperator_plain op l he]
        obtain ⟨hne, -⟩ := ops_wellformed op hop
        obtain ⟨o, os', hos'⟩ := List.exists_cons_of_ne_nil hne
        rcases List.eq_nil_or_concat op with h | ⟨init, z, hz⟩
        · exact absurd h hne
        · have ho1 := (ops_chars op hop he o (by rw [hos']; simp)).2
          have hz1 := (ops_chars op hop he z (by rw [hz]; simp)).2
          exact replace_id op l o z (by rw [hos']; rfl) (by rw [hz]; simp)
            (noSpaceNextTo_pairs o l (hQ o ho1)).1 (noSpaceNextTo_pairs z l (hQ z hz1)).2
    have e : compactLine (op :: os) l = compactLine os (minifyOperator op l) := rfl
    rw [e, hstep]
    exact ih (fun o ho => hos o (List.mem_cons_of_mem _ ho))

theorem fixSpacedOps_of_absent (l : Str) (h : ¬ ['e', 'l', 's', 'e'] <:+: l) :
    fixSpacedOps l = l := by
  simp only [fixSpacedOps, spacedOps, List.foldl_cons, List.foldl_nil, stringsReplaceAll]
  apply regexpReplaceAll_id
  intro t ht
  simp only [matchLiteral, List.isPrefixOf_iff_prefix]
  rw [if_neg]
  intro hp
  apply h
  have h1 : ['e', 'l', 's', 'e'] <+: "else".toList ++ " \x7b".toList := ⟨_, rfl⟩
  exact (h1.trans hp).isInfix.trans ht.isInfix

theorem removeEverythingPast_of_absent (l : Str) (h : '/' ∉ l) :
    removeEverythingPast ['/', '/'] l = l := by
  apply regexpReplaceAll_id
  intro t ht
  simp only [matchPast, List.isPrefixOf_iff_prefix]
  rw [if_neg]
  intro hp
  exact h (ht.subset (hp.subset (by simp)))

theorem removeMultilineComments_of_absent (lines : List Str) (h : ∀ l ∈ lines, '/' ∉ l) :
    removeMultilineComments lines = lines := by
  have := removeMultilineCommentsFrom_outside lines []
    (fun l hl hi => h l hl (hi.subset (by simp)))
  simpa [removeMultilineComments, removeMultilineCommentsFrom] using this

theorem minifiedLines_clean (s : Str) (kn km ki : Bool) (hslash : '/' ∉ s) (hhash : '#' ∉ s)
    (hws : ∀ c ∈ s, isSpace c = true → c = ' ' ∨ c = '\t' ∨ c = '\n')
    (helse : ¬ ['e', 'l', 's', 'e'] <:+: s.filter (fun c => !isSpace c)) :
    minifiedLines s kn km ki = (stringsSplit s).map normalLine := by
  have hre : reinsertPreprocessorNewlines (clearWhitespaceFirstPass (stringsSplit s))
      = clearWhitespaceFirstPass (stringsSplit s) := by
    simp only [reinsertPreprocessorNewlines, clearWhitespaceFirstPass, List.map_map]
    apply List.map_congr_left
    intro l hl
    have hp := plainText_line s l hslash hhash hws hl
    have : stringsHasPrefix (stringsTrimSpace (replaceTabs l)) ['#'] = false := by
      rw [Bool.eq_false_iff]
      intro hpre
      have := List.isPrefixOf_iff_prefix.1 hpre
      exact (hp '#' (this.subset (by simp))).2.1 rfl
    simp [this]
  have hcomp : (clearWhitespaceFirstPass (stringsSplit s)).map (compactLine ops)
      = (stringsSplit s).map normalLine := by
    simp only [clearWhitespaceFirstPass, List.map_map]
    apply List.map_congr_left
    intro l _
    simp only [Function.comp_apply, normalLine]
  have hslashes : ∀ r ∈ (stringsSplit s).map normalLine, '/' ∉ r := by
    intro r hr
    obtain ⟨l, hl, rfl⟩ := List.mem_map.1 hr
    exact fun hm => ((normalLine_facts s l hslash hhash hws helse hl).1 '/' hm).1 rfl
  have hinl : removeInlineComments ((stringsSplit s).map normalLine)
      = (stringsSplit s).map normalLine := by
    unfold removeInlineComments
    conv_rhs => rw [← List.map_id ((stringsSplit s).map normalLine)]
    apply List.map_congr_left
    intro r hr
    exact removeEverythingPast_of_absent r (hslashes r hr)
  have hml := removeMultilineComments_of_absent _ hslashes
  cases kn <;> cases km <;> cases ki <;>
    simp only [minifiedLines, compactedLines, Bool.not_true, Bool.not_false,
      Bool.false_eq_true, if_true, if_false, hre, foldl_map_lines, hcomp, hinl, hml]

theorem clean_output_facts (s : Str) (hslash : '/' ∉ s) (hhash : '#' ∉ s)
    (hws : ∀ c ∈ s, isSpace c = true → c = ' ' ∨ c = '\t' ∨ c = '\n')
    (helse : ¬ ['e', 'l', 's', 'e'] <:+: s.filter (fun c => !isSpace c)) :
    PlainText ((stringsSplit s).map normalLine).flatten
      ∧ Trimmed ((stringsSplit s).map normalLine).flatten
      ∧ despace ((stringsSplit s).map normalLine).flatten = s.filter (fun c => !isSpace c)
      ∧ ∀ c, [c] ∈ ops → NoSpaceNextTo c ((stringsSplit s).map normalLine).flatten := by
  have hf := fun l hl => normalLine_facts s l hslash hhash hws helse hl
  refine ⟨?_, ?_, ?_, ?_⟩
  · intro c hc
    obtain ⟨r, hr, hcr⟩ := List.mem_flatten.1 hc
    obtain ⟨l, hl, rfl⟩ := List.mem_map.1 hr
    exact (hf l hl).1 c hcr
  · refine (flatten_chain (fun _ _ => True) (fun _ _ _ _ => trivial) _ ?_).2
    intro r hr
    obtain ⟨l, hl, rfl⟩ := List.mem_map.1 hr
    exact ⟨chain_of_forall _ _ (fun _ _ _ => trivial), (hf l hl).2.1⟩
  · have e : (stringsSplit s).map (fun l => despace (normalLine l))
        = (stringsSplit s).map (List.filter (fun c => !isSpace c)) :=
      List.map_congr_left (fun l hl => (hf l hl).2.2.1)
    have e2 : despace ((stringsSplit s).map normalLine).flatten
        = ((stringsSplit s).map (fun l => despace (normalLine l))).flatten := by
      simp only [despace, List.filter_flatten, List.map_map]
      rfl
    rw [e2, e, filter_split]
  · intro c hc
    unfold NoSpaceNextTo
    refine (flatten_chain _ (fun a b ha hb => ⟨fun h => ha h.1, fun h => hb h.2⟩) _ ?_).1
    intro r hr
    obtain ⟨l, hl, rfl⟩ := List.mem_map.1 hr
    have h4 := (hf l hl).2.2.2 c hc
    unfold NoSpaceNextTo at h4
    exact ⟨h4, (hf l hl).2.1⟩

theorem minifySource_clean (s : Str) (kn km ki : Bool) (hslash : '/' ∉ s) (hhash : '#' ∉ s)
    (hws : ∀ c ∈ s, isSpace c = true → c = ' ' ∨ c = '\t' ∨ c = '\n')
    (helse : ¬ ['e', 'l', 's', 'e'] <:+: s.filter (fun c => !isSpace c)) :
    minifySource s kn km ki = ((stringsSplit s).map normalLine).flatten := by
  obtain ⟨h1, -, h3, -⟩ := clean_output_facts s hslash hhash hws helse
  have hnl : '\n' ∉ ((stringsSplit s).map normalLine).flatten := by
    intro hm
    have := (h1 '\n' hm).2.2 (by decide)
    exact absurd this (by decide)
  have hE : ¬ ['e', 'l', 's', 'e'] <:+: ((stringsSplit s).map normalLine).flatten := by
    intro hi
    have := infix_despace _ _ (by decide) hi
    rw [h3] at this
    exact helse this
  cases kn <;>
    simp only [minifySource, minifiedLines_clean s _ km ki hslash hhash hws helse, stringsJoin,
      Bool.not_true, Bool.not_false, Bool.false_eq_true, if_true, if_false,
      fixDuplicateNewlines_of_no_newline _ hnl, fixSpacedOps_of_absent _ hE]

/-- A case that can be read off the source: on a source that contains neither `/` nor
`#`, whose white space is made of spaces, tabs and line breaks only, and in which `else`
does not occur once the white space is deleted, running `minifySource` twice gives what
running it once gives, for every choice of the three flags. -/
theorem minifySource_idempotent_clean (s : Str) (keepNewlines keepMultilineComments
    keepInlineComments : Bool) (hslash : '/' ∉ s) (hhash : '#' ∉ s)
    (hws : ∀ c ∈ s, isSpace c = true → c = ' ' ∨ c = '\t' ∨ c = '\n')
    (helse : ¬ "else".toList <:+: s.filter (fun c => !isSpace c)) :
    minifySource (minifySource s keepNewlines keepMultilineComments keepInlineComments)
        keepNewlines keepMultilineComments keepInlineComments
      = minifySource s keepNewlines keepMultilineComments keepInlineComments := by
  obtain ⟨h1, h2, h3, h4⟩ := clean_output_facts s hslash hhash hws helse
  rw [minifySource_clean s _ _ _ hslash hhash hws helse]
  generalize ((stringsSplit s).map normalLine).flatten = o at h1 h2 h3 h4
  have hnl : '\n' ∉ o := by
    intro hm
    have := (h1 '\n' hm).2.2 (by decide)
    exact absurd this (by decide)
  have htab : '\t' ∉ o := by
    intro hm
    have := (h1 '\t' hm).2.2 (by decide)
    exact absurd this (by decide)
  have hfil : o.filter (fun c => !isSpace c) = s.filter (fun c => !isSpace c) := by
    rw [← despace_of_plainText o h1, h3]
  have hE : ¬ ['e', 'l', 's', 'e'] <:+: o := by
    intro hi
    have := infix_despace _ _ (by decide) hi
    rw [h3] at this
    exact helse this
  rw [minifySource_clean o _ _ _ (fun hm => (h1 '/' hm).1 rfl) (fun hm => (h1 '#' hm).2.1 rfl)
    (fun c hc hsp => Or.inl ((h1 c hc).2.2 hsp)) (by rw [hfil]; exact helse),
    stringsSplit_of_no_newline o hnl]
  have htrim : stringsTrimSpace o = o := by
    by_cases ho : o = []
    · subst ho
      decide
    · have hsp : ∀ c ∈ o, c ≠ ' ' → isSpace c = false := by
        intro c hc hne
        by_contra hs
        exact hne ((h1 c hc).2.2 (by simpa using hs))
      have := stringsTrimSpace_core 0 0 o ho
        (fun c hc => hsp c (List.mem_of_mem_head? hc) (h2.1 c hc))
        (fun c hc => hsp c (List.mem_of_mem_getLast? hc) (h2.2 c hc))
      simpa [spaces] using this
  simp only [List.map_cons, List.map_nil, List.flatten_cons, List.flatten_nil, List.append_nil,
    normalLine, replaceTabs_of_no_tab o htab, htrim]
  exact compactLine_id ops (fun _ h => h) o h4 hE

theorem minifySource_idempotent_clean_witness :
    minifySource (minifySource "int  x = 1 ;\n\ty = x + 2 ;".toList false false false)
        false false false
      = minifySource "int  x = 1 ;\n\ty = x + 2 ;".toList false false false :=
  minifySource_idempotent_clean "int  x = 1 ;\n\ty = x + 2 ;".toList false false false
    (by decide) (by decide) (by decide) (by decide)

/-! ## With `keepNewlines` set no line break is left -/

theorem mem_regexpReplaceGo (m : Str → Option Nat) (rep l : Str) (k : Nat) (c : Char)
    (h : c ∈ regexpReplaceGo m rep k l) : c ∈ l ∨ c ∈ rep := by
  induction l generalizing k with
  | nil => simp [regexpReplaceGo] at h
  | cons d ds ih =>
    cases k with
    | succ k =>
      simp only [regexpReplaceGo] at h
      rcases ih k h with h1 | h1
      · exact Or.inl (List.mem_cons_of_mem _ h1)
      · exact Or.inr h1
    | zero =>
      simp only [regexpReplaceGo] at h
      cases hm : m (d :: ds) with
      | none =>
        rw [hm] at h
        rcases List.mem_cons.1 h with h1 | h1
        · exact Or.inl (h1 ▸ List.mem_cons_self _ _)
        · rcases ih 0 h1 with h2 | h2
          · exact Or.inl (List.mem_cons_of_mem _ h2)
          · exact Or.inr h2
      | some n =>
        rw [hm] at h
        rcases List.mem_append.1 h with h1 | h1
        · exact Or.inr h1
        · rcases ih (n - 1) h1 with h2 | h2
          · exact Or.inl (List.mem_cons_of_mem _ h2)
          · exact Or.inr h2

theorem mem_regexpReplaceAll_nil (m : Str → Option Nat) (l : Str) (c : Char)
    (h : c ∈ regexpReplaceAll m [] l) : c ∈ l := by
  rcases mem_regexpReplaceGo m [] l 0 c h with h1 | h1
  · exact h1
  · simp at h1

theorem compactLine_no_newline (os : List Str) (hos : ∀ op ∈ os, op ∈ ops) (x : Str)
    (hx : '\n' ∉ x) : '\n' ∉ compactLine os x := by
  induction os generalizing x with
  | nil => exact hx
  | cons op os ih =>
    have e : compactLine (op :: os) x = compactLine os (minifyOperator op x) := rfl
    rw [e]
    apply ih (fun o ho => hos o (List.mem_cons_of_mem _ ho))
    intro hm
    have hop := (ops_newline op (hos op (List.mem_cons_self _ _))).1
    unfold minifyOperator regexpReplaceAll at hm
    rcases mem_regexpReplaceGo _ _ _ _ _ hm with h1 | h1
    · exact hx h1
    · split at h1
      · rcases List.mem_append.1 h1 with h2 | h2
        · exact hop h2
        · simp at h2
      · exact hop h1

theorem removeMultilineCommentsFrom_mem (st : Bool) (lines : List Str) (o : Str)
    (ho : o ∈ removeMultilineCommentsFrom st lines) (c : Char) (hc : c ∈ o) :
    ∃ l ∈ lines, c ∈ l := by
  induction lines generalizing st with
  | nil => simp [removeMultilineCommentsFrom] at ho
  | cons y rest ih =>
    rw [removeMultilineCommentsFrom_cons] at ho
    rcases List.mem_append.1 ho with h | h
    · refine ⟨y, List.mem_cons_self _ _, ?_⟩
      cases st
      · simp only [removeMultilineCommentsFrom, Bool.not_false, if_true] at h
        split_ifs at h
        · rw [List.mem_singleton.1 h] at hc
          exact mem_regexpReplaceAll_nil _ _ _ hc
        · rw [List.mem_singleton.1 h] at hc
          exact mem_regexpReplaceAll_nil _ _ _ hc
        · rw [List.mem_singleton.1 h] at hc
          exact hc
      · simp only [removeMultilineCommentsFrom, Bool.not_true, Bool.false_eq_true,
          if_false] at h
        split_ifs at h
        · rw [List.mem_singleton.1 h] at hc
          exact mem_regexpReplaceAll_nil _ _ _ hc
        · rw [List.mem_singleton.1 h] at hc
          simp at hc
    · obtain ⟨l, hl, hcl⟩ := ih _ h
      exact ⟨l, List.mem_cons_of_mem _ hl, hcl⟩

/-- With `keepNewlines` set the output of `minifySource` holds no line break at all,
whatever the source and the other two flags. -/
theorem minifySource_keepNewlines_no_break (s : Str) (k1 k2 : Bool) :
    '\n' ∉ minifySource s true k1 k2 := by
  have h0 : ∀ x ∈ clearWhitespaceFirstPass (stringsSplit s), '\n' ∉ x := by
    intro x hx hm
    simp only [clearWhitespaceFirstPass, List.mem_map] at hx
    obtain ⟨l, hl, rfl⟩ := hx
    rcases mem_replaceTabs l _ ((stringsTrimSpace_sublist _).subset hm) with h | ⟨h, -⟩
    · exact absurd h (by decide)
    · exact (mem_of_mem_stringsSplit s l hl _ h).2 rfl
  have h1 : ∀ x ∈ (clearWhitespaceFirstPass (stringsSplit s)).map (compactLine ops),
      '\n' ∉ x := by
    intro x hx
    obtain ⟨y, hy, rfl⟩ := List.mem_map.1 hx
    exact compactLine_no_newline ops (fun _ h => h) y (h0 y hy)
  have h2 : ∀ x ∈ compactedLines s true k2, '\n' ∉ x := by
    intro x hx hm
    cases k2
    · simp only [compactedLines, Bool.not_true, Bool.not_false, Bool.false_eq_true, if_true,
        if_false, foldl_map_lines, removeInlineComments] at hx
      obtain ⟨y, hy, rfl⟩ := List.mem_map.1 hx
      exact h1 y hy (mem_regexpReplaceAll_nil _ _ _ hm)
    · simp only [compactedLines, Bool.not_true, Bool.false_eq_true, if_false,
        foldl_map_lines] at hx
      exact h1 x hx hm
  have h3 : ∀ x ∈ minifiedLines s true k1 k2, '\n' ∉ x := by
    intro x hx hm
    cases k1
    · simp only [minifiedLines, Bool.not_false, if_true, removeMultilineComments] at hx
      obtain ⟨l, hl, hcl⟩ := removeMultilineCommentsFrom_mem _ _ _ hx _ hm
      exact h2 l hl hcl
    · simp only [minifiedLines, Bool.not_true, Bool.false_eq_true, if_false] at hx
      exact h2 x hx hm
  intro hm
  simp only [minifySource, stringsJoin, Bool.not_true, Bool.false_eq_true, if_false,
    fixSpacedOps, spacedOps, List.foldl_cons, List.foldl_nil, stringsReplaceAll,
    regexpReplaceAll] at hm
  rcases mem_regexpReplaceGo _ _ _ _ _ hm with h | h
  · obtain ⟨x, hx, hcx⟩ := List.mem_flatten.1 h
    exact h3 x hx hcx
  · revert h
    decide

/-! ## Block comments between text without `/` and `*` -/

theorem despace_compactLine (os : List Str) (hos : ∀ op ∈ os, op ∈ ops) (y : Str) :
    despace (compactLine os y) = despace y := by
  induction os generalizing y with
  | nil => rfl
  | cons op os ih =>
    have e : compactLine (op :: os) y = compactLine os (minifyOperator op y) := rfl
    have hop := hos op (List.mem_cons_self _ _)
    rw [e, ih (fun o ho => hos o (List.mem_cons_of_mem _ ho))]
    by_cases he : op = ['e', 'l', 's', 'e']
    · rw [he, minifyOperator_else]
      exact despace_replace _ _ (by simp) (by decide) y
    · rw [minifyOperator_plain op y he]
      exact despace_replace op op (ops_wellformed op hop).1 rfl y

theorem head_replace_else (l : Str) (y : Char)
    (hy : y ∈ (regexpReplaceAll (matchSpacedOp ['e', 'l', 's', 'e'])
      ['e', 'l', 's', 'e', ' '] l).head?) :
    (y ∈ l.head? ∧ matchSpacedOp ['e', 'l', 's', 'e'] l = none)
      ∨ (y = 'e' ∧ ∃ n, matchSpacedOp ['e', 'l', 's', 'e'] l = some n) := by
  cases l with
  | nil => simp [regexpReplaceAll_nil] at hy
  | cons c cs =>
    cases hm : matchSpacedOp ['e', 'l', 's', 'e'] (c :: cs) with
    | none =>
      rw [regexpReplaceAll_cons_none _ _ _ _ hm] at hy
      exact Or.inl ⟨by simpa using hy, rfl⟩
    | some n =>
      obtain ⟨k, k', rest, -, -, hR⟩ := minifyOperator_step ['e', 'l', 's', 'e']
        ['e', 'l', 's', 'e', ' '] _ n (by simp) hm
      rw [hR] at hy
      exact Or.inr ⟨by simpa using hy.symm, n, rfl⟩

/-- Replacing ` *else *` by `else` and one space: a relation that holds between any two
characters other than the space, between `e` and a space, and between a space and any
other character, and held between neighbours before, holds between neighbours after. -/
theorem chain_replace_else (r : Char → Char → Prop)
    (hr : ∀ a b, a ≠ ' ' → b ≠ ' ' → r a b) (he : r 'e' ' ')
    (hs : ∀ b, b ≠ ' ' → r ' ' b) (l : Str) (hl : List.Chain' r l) :
    List.Chain' r (regexpReplaceAll (matchSpacedOp ['e', 'l', 's', 'e'])
      ['e', 'l', 's', 'e', ' '] l) := by
  induction' hn : l.length using Nat.strong_induction_on with n ih generalizing l
  cases l with
  | nil => simp [regexpReplaceAll_nil]
  | cons c cs =>
    cases hm : matchSpacedOp ['e', 'l', 's', 'e'] (c :: cs) with
    | none =>
      rw [regexpReplaceAll_cons_none _ _ _ _ hm, List.chain'_cons']
      rw [List.chain'_cons'] at hl
      refine ⟨?_, ih cs.length (by simp [← hn]) cs hl.2 rfl⟩
      intro y hy
      rcases head_replace_else cs y hy with ⟨h1, -⟩ | ⟨h1, n', h2⟩
      · exact hl.1 y h1
      · have hc : c ≠ ' ' := by
          intro e
          subst e
          rw [matchSpacedOp_space_cons, h2] at hm
          simp at hm
        rw [h1]
        exact hr c 'e' hc (by decide)
    | some n' =>
      obtain ⟨k, k', rest, hl', hrest, hR⟩ := minifyOperator_step ['e', 'l', 's', 'e']
        ['e', 'l', 's', 'e', ' '] _ n' (by simp) hm
      have hlt := minifyOperator_rest_lt ['e', 'l', 's', 'e'] _ rest k k' (by simp) hl'
      have hsuf : rest <:+ c :: cs :=
        ⟨spaces k ++ (['e', 'l', 's', 'e'] ++ spaces k'), by simp [hl']⟩
      have hrec := ih rest.length (by omega) rest (hl.suffix hsuf) rfl
      rw [hR]
      have hy : ∀ y ∈ (regexpReplaceAll (matchSpacedOp ['e', 'l', 's', 'e'])
          ['e', 'l', 's', 'e', ' '] rest).head?, r ' ' y := by
        intro y hy
        rcases head_replace_else rest y hy with ⟨h1, -⟩ | ⟨h1, -⟩
        · exact hs y (head_ne_space_of_leadingSpaces rest hrest y h1)
        · rw [h1]
          exact hs 'e' (by decide)
      simp only [List.cons_append, List.nil_append, List.chain'_cons', List.head?_cons,
        Option.mem_def, Option.some.injEq, forall_eq']
      exact ⟨hr _ _ (by decide) (by decide), hr _ _ (by decide) (by decide),
        hr _ _ (by decide) (by decide), he, hy, hrec⟩

/-- After the loop over the operators no space stands right after `/` or `*`. -/
theorem compactLine_right (c : Char) (hc : [c] ∈ ops) (hce : c ≠ 'e') (y : Str) :
    NoSpaceAfter c (compactLine ops y) := by
  have hcs : c ≠ ' ' := fun e => (ops_wellformed [c] hc).2 (by rw [e]; simp)
  have key : ∀ (os : List Str), (∀ op ∈ os, op ∈ ops) → ∀ l : Str,
      (NoSpaceAfter c l ∨ [c] ∈ os) → NoSpaceAfter c (compactLine os l) := by
    intro os
    induction os with
    | nil =>
      intro _ l h
      rcases h with h | h
      · exact h
      · simp at h
    | cons op os ih =>
      intro hos l h
      have hop := hos op (List.mem_cons_self _ _)
      have e : compactLine (op :: os) l = compactLine os (minifyOperator op l) := rfl
      rw [e]
      apply ih (fun o ho => hos o (List.mem_cons_of_mem _ ho))
      by_cases he : op = ['e', 'l', 's', 'e']
      · rcases h with h | h
        · left
          rw [he, minifyOperator_else]
          unfold NoSpaceAfter at h ⊢
          exact chain_replace_else (fun a b => ¬ (a = c ∧ b = ' '))
            (fun a b _ hb h' => hb h'.2) (fun h' => hce h'.1.symm)
            (fun b hb h' => hb h'.2) l h
        · right
          rcases List.mem_cons.1 h with h1 | h1
          · rw [he] at h1
            simp at h1
          · exact h1
      · rw [minifyOperator_plain op l he]
        obtain ⟨hne, hsp⟩ := ops_wellformed op hop
        rcases h with h | h
        · left
          unfold NoSpaceAfter at h ⊢
          exact chain_replace op hne hsp (fun a b => ¬ (a = c ∧ b = ' '))
            (fun a b _ hb h' => hb h'.2) l h
        · rcases List.mem_cons.1 h with h1 | h1
          · left
            subst h1
            have h3 := noSpaceNextTo_replace c hcs l
            unfold NoSpaceNextTo at h3
            unfold NoSpaceAfter
            exact List.Chain'.imp (fun a b (h' : ¬ (a = ' ' ∧ b = c) ∧ ¬ (a = c ∧ b = ' ')) =>
              h'.2) h3
          · exact Or.inr h1
  exact key ops (fun _ h => h) y (Or.inr hc)

theorem split_at_char (L A B : Str) (z : Char)
    (h : despace L = A ++ z :: B) :
    ∃ L1 L2, L = L1 ++ z :: L2 ∧ despace L1 = A ∧ despace L2 = B := by
  induction L generalizing A with
  | nil => simp [despace] at h
  | cons x L ih =>
    by_cases hx : x = ' '
    · subst hx
      have h' : despace L = A ++ z :: B := by simpa [despace] using h
      obtain ⟨L1, L2, h1, h2, h3⟩ := ih A h'
      exact ⟨' ' :: L1, L2, by simp [h1], by simpa [despace] using h2, h3⟩
    · have h' : x :: despace L = A ++ z :: B := by simpa [despace, hx] using h
      cases A with
      | nil =>
        simp only [List.nil_append, List.cons.injEq] at h'
        exact ⟨[], L, by simp [h'.1], rfl, h'.2⟩
      | cons a A =>
        simp only [List.cons_append, List.cons.injEq] at h'
        obtain ⟨L1, L2, h1, h2, h3⟩ := ih A h'.2
        refine ⟨x :: L1, L2, by simp [h1], ?_, h3⟩
        have e : despace (x :: L1) = x :: despace L1 := by simp [despace, hx]
        rw [e, h2, h'.1]

theorem split_at_marker (L A B : Str) (x y : Char)
    (hch : List.Chain' (fun a b => ¬ (a = x ∧ b = ' ')) L)
    (h : despace L = A ++ x :: y :: B) :
    ∃ L1 L3, L = L1 ++ x :: y :: L3 ∧ despace L1 = A ∧ despace L3 = B := by
  obtain ⟨L1, L2, h1, h2, h3⟩ := split_at_char L A (y :: B) x h
  cases L2 with
  | nil => simp [despace] at h3
  | cons w L2 =>
    have hw : w ≠ ' ' := by
      intro e
      subst e
      have hin : [x, ' '] <:+: L := ⟨L1, L2, by simp [h1]⟩
      exact List.chain'_pair.1 ( List.Chain'.infix hch hin) ⟨rfl, rfl⟩
    have h3' : w :: despace L2 = y :: B := by simpa [despace, hw] using h3
    simp only [List.cons.injEq] at h3'
    exact ⟨L1, L2, by rw [h1, h3'.1], h2, h3'.2⟩

theorem free_of_despace (L X : Str) (h : despace L = despace X) (hX : Free X) : Free L := by
  intro hm
  have h1 : '/' ∈ despace L := by simp [despace, hm]
  rw [h] at h1
  simp only [despace, List.mem_filter] at h1
  exact hX h1.1

theorem free_append (a b : Str) (ha : Free a) (hb : Free b) : Free (a ++ b) :=
  fun hm => (List.mem_append.1 hm).elim ha hb

theorem free_sublist (a b : Str) (h : a.Sublist b) (hb : Free b) : Free a :=
  fun hm => hb (h.subset hm)

theorem free_nil : Free [] := by
  intro hm
  simp at hm

theorem free_break (e : Str) (he : e = [] ∨ e = ['\n']) : Free e := by
  rcases he with rfl | rfl
  · exact free_nil
  · unfold Free
    decide

theorem free_star_cons (x : Str) (h : Free x) : Free ('*' :: x) := by
  intro hm
  rcases List.mem_cons.1 hm with h' | h'
  · exact absurd h' (by decide)
  · exact h h'

/-- A line that agrees up to spaces with a well-formed simple line, and in which no
space stands right after `/` or `*`, has the same form. -/
theorem shape_of_despace (L p c q : Str) (b1 b2 : Bool) (hp : Free p) (hc : Free c)
    (hq : Free q)
    (hd : despace L
      = despace (p ++ (marker b1 ['/', '*'] ++ (c ++ (marker b2 ['*', '/'] ++ q)))))
    (h1 : List.Chain' (fun a b => ¬ (a = '/' ∧ b = ' ')) L)
    (h2 : List.Chain' (fun a b => ¬ (a = '*' ∧ b = ' ')) L) :
    ∃ P C Q, L = P ++ (marker b1 ['/', '*'] ++ (C ++ (marker b2 ['*', '/'] ++ Q)))
      ∧ Free P ∧ Free C ∧ Free Q ∧ (b1 = true → despace P = despace p) := by
  have hnil : Free [] := free_nil
  have hm1 : despace ['/', '*'] = ['/', '*'] := by decide
  have hm2 : despace ['*', '/'] = ['*', '/'] := by decide
  cases b1 <;> cases b2 <;>
    simp only [marker, Bool.false_eq_true, if_false, if_true, List.nil_append,
      despace_append, hm1, hm2] at hd ⊢
  · refine ⟨L, [], [], by simp, ?_, hnil, hnil, by simp⟩
    apply free_of_despace L (p ++ (c ++ q)) (by simpa [despace_append] using hd)
    exact free_append _ _ hp (free_append _ _ hc hq)
  · have hd' : despace L = (despace p ++ despace c) ++ '*' :: '/' :: despace q := by
      simpa using hd
    obtain ⟨L1, L3, e, d1, d3⟩ := split_at_marker L _ _ '*' '/' h2 hd'
    refine ⟨L1, [], L3, by simp [e], ?_, hnil, free_of_despace L3 q d3 hq, by simp⟩
    apply free_of_despace L1 (p ++ c) (by simpa [despace_append] using d1)
    exact free_append _ _ hp hc
  · have hd' : despace L = despace p ++ '/' :: '*' :: (despace c ++ despace q) := by
      simpa using hd
    obtain ⟨L1, L3, e, d1, d3⟩ := split_at_marker L _ _ '/' '*' h1 hd'
    refine ⟨L1, L3, [], by simp [e], free_of_despace L1 p d1 hp, ?_, hnil, fun _ => d1⟩
    apply free_of_despace L3 (c ++ q) (by simpa [despace_append] using d3)
    exact free_append _ _ hc hq
  · have hd' : despace L
        = despace p ++ '/' :: '*' :: (despace c ++ '*' :: '/' :: despace q) := by
      simpa using hd
    obtain ⟨L1, L3, e, d1, d3⟩ := split_at_marker L _ _ '/' '*' h1 hd'
    have h2' : List.Chain' (fun a b => ¬ (a = '*' ∧ b = ' ')) L3 :=
      h2.suffix ⟨L1 ++ ['/', '*'], by simp [e]⟩
    obtain ⟨L4, L5, e', d4, d5⟩ := split_at_marker L3 _ _ '*' '/' h2' d3
    exact ⟨L1, L4, L5, by simp [e, e'], free_of_despace L1 p d1 hp,
      free_of_despace L4 c d4 hc, free_of_despace L5 q d5 hq, fun _ => d1⟩

/-! ### Which markers a simple line holds -/

theorem chain_free_append (r : Char → Char → Prop) (hr : ∀ a b, a ≠ '/' → r a b)
    (X Y : Str) (hX : Free X) (hY : List.Chain' r Y) : List.Chain' r (X ++ Y) := by
  induction X with
  | nil => exact hY
  | cons x X ih =>
    have hx : x ≠ '/' := fun e => hX (by simp [e])
    rw [List.cons_append, List.chain'_cons']
    exact ⟨fun y _ => hr x y hx, ih (fun hm => hX (List.mem_cons_of_mem _ hm))⟩

theorem chain_free_right (r : Char → Char → Prop) (hr : ∀ a b, b ≠ '/' → r a b)
    (X : Str) (hX : Free X) : List.Chain' r X := by
  induction X with
  | nil => exact List.chain'_nil
  | cons x X ih =>
    rw [List.chain'_cons']
    refine ⟨fun y hy => hr x y ?_, ih (fun hm => hX (List.mem_cons_of_mem _ hm))⟩
    intro e
    subst e
    exact hX (List.mem_cons_of_mem _ (List.mem_of_mem_head? hy))

theorem not_infix_of_chain (r : Char → Char → Prop) (a b : Char) (l : Str) (h : ¬ r a b)
    (hc : List.Chain' r l) : ¬ [a, b] <:+: l :=
  fun hi => h (List.chain'_pair.1 ( List.Chain'.infix hc hi))

theorem not_infix_of_free (a : Char) (l : Str) (hl : Free l) :
    ¬ [a, '/'] <:+: l ∧ ¬ ['/', a] <:+: l :=
  ⟨fun hi => hl (hi.subset (by simp)), fun hi => hl (hi.subset (by simp))⟩

/-- A simple line holds no `//`. -/
theorem no_double_slash (P C Q e : Str) (b1 b2 : Bool) (hP : Free P) (hC : Free C)
    (hQ : Free Q) (he : Free e) :
    ¬ ['/', '/'] <:+: P ++ (marker b1 ['/', '*'] ++ (C ++ (marker b2 ['*', '/'] ++ Q))) ++ e := by
  apply not_infix_of_chain (fun a b => ¬ (a = '/' ∧ b = '/')) '/' '/' _ (by simp)
  have hr : ∀ a b : Char, a ≠ '/' → ¬ (a = '/' ∧ b = '/') := fun a b ha h => ha h.1
  have e1 : P ++ (marker b1 ['/', '*'] ++ (C ++ (marker b2 ['*', '/'] ++ Q))) ++ e
      = P ++ (marker b1 ['/', '*'] ++ (C ++ (marker b2 ['*', '/'] ++ (Q ++ e)))) := by
    simp
  rw [e1]
  have hQe : Free (Q ++ e) := free_append _ _ hQ he
  have h0 : List.Chain' (fun a b => ¬ (a = '/' ∧ b = '/')) (Q ++ e) := by
    have := chain_free_append _ hr (Q ++ e) [] hQe List.chain'_nil
    simpa using this
  have h1 : List.Chain' (fun a b => ¬ (a = '/' ∧ b = '/'))
      (marker b2 ['*', '/'] ++ (Q ++ e)) := by
    cases b2
    · simpa [marker] using h0
    · simp only [marker, if_true, List.cons_append, List.nil_append, List.chain'_cons']
      refine ⟨fun y _ => hr _ _ (by decide), fun y hy h => ?_, h0⟩
      exact hQe (h.2 ▸ List.mem_of_mem_head? hy)
  have h2 := chain_free_append _ hr C _ hC h1
  have h3 : List.Chain' (fun a b => ¬ (a = '/' ∧ b = '/'))
      (marker b1 ['/', '*'] ++ (C ++ (marker b2 ['*', '/'] ++ (Q ++ e)))) := by
    cases b1
    · simpa [marker] using h2
    · simp only [marker, if_true, List.cons_append, List.nil_append, List.chain'_cons']
      refine ⟨fun y hy h => ?_, fun y _ => hr _ _ (by decide), h2⟩
      simp only [List.head?_cons, Option.mem_def, Option.some.injEq] at hy
      rw [← hy] at h
      exact absurd h.2 (by decide)
  exact chain_free_append _ hr P _ hP h3

/-- A simple line without end marker holds no `*/`, unless `*` stands right before its
start marker. -/
theorem no_end_marker (P C Q e : Str) (b1 : Bool) (hP : Free P) (hC : Free C)
    (hQ : Free Q) (he : Free e) (hstar : b1 = true → P.getLast? ≠ some '*') :
    ¬ ['*', '/'] <:+: P ++ (marker b1 ['/', '*'] ++ (C ++ (marker false ['*', '/'] ++ Q))) ++ e := by
  apply not_infix_of_chain (fun a b => ¬ (a = '*' ∧ b = '/')) '*' '/' _ (by simp)
  have hr : ∀ a b : Char, b ≠ '/' → ¬ (a = '*' ∧ b = '/') := fun a b hb h => hb h.2
  have hrest : Free (C ++ (Q ++ e)) := free_append _ _ hC (free_append _ _ hQ he)
  cases b1
  · have e1 : P ++ (marker false ['/', '*'] ++ (C ++ (marker false ['*', '/'] ++ Q))) ++ e
        = P ++ (C ++ (Q ++ e)) := by simp [marker]
    rw [e1]
    exact chain_free_right _ hr _ (free_append _ _ hP hrest)
  · have e1 : P ++ (marker true ['/', '*'] ++ (C ++ (marker false ['*', '/'] ++ Q))) ++ e
        = P ++ ('/' :: '*' :: (C ++ (Q ++ e))) := by simp [marker]
    rw [e1, List.chain'_append]
    refine ⟨chain_free_right _ hr _ hP, ?_, ?_⟩
    · rw [List.chain'_cons']
      refine ⟨fun y _ h => absurd h.1 (by decide), ?_⟩
      exact chain_free_right _ hr _ (free_star_cons _ hrest)
    · intro x hx y _ h
      exact hstar rfl (by rw [← h.1]; exact hx)

theorem stringsIndex_cons (c : Char) (cs sub : Str) (h : sub.isPrefixOf (c :: cs) = false) :
    stringsIndex (c :: cs) sub
      = if stringsIndex cs sub = -1 then -1 else stringsIndex cs sub + 1 := by
  rw [stringsIndex]
  simp only [h, Bool.false_eq_true, if_false]

theorem stringsIndex_first (A B : Str) (x : Char) (xs : Str) (hx : x ∉ A)
    (hB : (x :: xs).isPrefixOf B = true) : stringsIndex (A ++ B) (x :: xs) = A.length := by
  induction A with
  | nil =>
    cases B with
    | nil => simp [List.isPrefixOf] at hB
    | cons b B => simp [stringsIndex, hB]
  | cons a A ih =>
    have ha : x ≠ a := fun e => hx (by simp [e])
    have hA : x ∉ A := fun hm => hx (List.mem_cons_of_mem _ hm)
    have h1 : (x :: xs).isPrefixOf (a :: (A ++ B)) = false := by
      simp [List.isPrefixOf, ha]
    have hne : (A.length : Int) ≠ -1 := by omega
    rw [List.cons_append, stringsIndex_cons _ _ _ h1, ih hA, List.length_cons, if_neg hne]
    push_cast
    rfl

/-- No occurrence of `sub` starts inside `A`: the first one in `A ++ Y` is the first one
in `Y`. -/
theorem stringsIndex_append_skip (A Y sub : Str)
    (h : ∀ a u, a :: u <:+ A → sub.isPrefixOf (a :: (u ++ Y)) = false) :
    stringsIndex (A ++ Y) sub
      = if stringsIndex Y sub = -1 then -1 else A.length + stringsIndex Y sub := by
  induction A with
  | nil =>
    simp only [List.nil_append, List.length_nil, Nat.cast_zero, zero_add]
    split_ifs with h1
    · exact h1
    · rfl
  | cons a A ih =>
    have h0 := h a A (List.suffix_refl _)
    rw [List.cons_append, stringsIndex_cons _ _ _ h0,
      ih (fun a' u hu => h a' u (hu.trans (List.suffix_cons a A))), List.length_cons]
    have hge := stringsIndex_ge sub Y
    split_ifs with h1 h2 h2
    · rfl
    · omega
    · omega
    · push_cast
      omega

/-- On a line with both markers the first `*/` comes after the first `/*`. -/
theorem end_after_start (P R : Str) (hP : Free P) (hstar : P.getLast? ≠ some '*') :
    stringsIndex (P ++ '/' :: '*' :: R) ['*', '/'] = -1
      ∨ stringsIndex (P ++ '/' :: '*' :: R) ['/', '*']
        < stringsIndex (P ++ '/' :: '*' :: R) ['*', '/'] := by
  have h3 := stringsIndex_first P ('/' :: '*' :: R) '/' ['*'] hP (by simp [List.isPrefixOf])
  have h4 := stringsIndex_append_skip P ('/' :: '*' :: R) ['*', '/'] (by
    intro a u hu
    cases u with
    | nil =>
      have ha : a ≠ '*' := by
        intro e
        apply hstar
        obtain ⟨s, rfl⟩ := hu
        simp [e]
      have ha' : '*' ≠ a := fun e => ha e.symm
      simp [List.isPrefixOf, ha']
    | cons y u =>
      have hy : y ≠ '/' := fun e => hP (hu.subset (by simp [e]))
      have hy' : '/' ≠ y := fun e => hy e.symm
      simp [List.isPrefixOf, hy'])
  have h5 : stringsIndex ('/' :: '*' :: R) ['*', '/']
      = if stringsIndex ('*' :: R) ['*', '/'] = -1 then -1
        else stringsIndex ('*' :: R) ['*', '/'] + 1 :=
    stringsIndex_cons _ _ _ (by simp [List.isPrefixOf])
  have hge := stringsIndex_ge ['*', '/'] ('*' :: R)
  rw [h3, h4, h5]
  by_cases hX : stringsIndex ('*' :: R) ['*', '/'] = -1
  · left
    simp [hX]
  · have hX1 : stringsIndex ('*' :: R) ['*', '/'] + 1 ≠ -1 := by omega
    right
    rw [if_neg hX, if_neg hX1]
    omega

theorem stringsIndex_snoc_newline (t sub : Str) (hne : sub ≠ []) (hnl : '\n' ∉ sub) :
    stringsIndex (t ++ ['\n']) sub = stringsIndex t sub := by
  induction t with
  | nil =>
    have h1 : sub.isPrefixOf ['\n'] = false := by
      cases sub with
      | nil => exact absurd rfl hne
      | cons x xs =>
        have hx : x ≠ '\n' := fun e => hnl (by simp [e])
        simp [List.isPrefixOf, hx]
    simp [stringsIndex, h1, hne]
  | cons c cs ih =>
    have h1 := isPrefixOf_snoc sub (c :: cs) '\n' hnl
    simp only [List.cons_append] at h1 ⊢
    simp only [stringsIndex, h1, ih]

theorem regexpReplaceAll_front (m : Str → Option Nat) (rep A B : Str)
    (h : ∀ a u, a :: u <:+ A → m (a :: u ++ B) = none) :
    regexpReplaceAll m rep (A ++ B) = A ++ regexpReplaceAll m rep B := by
  induction A with
  | nil => rfl
  | cons a A ih =>
    have h0 := h a A (List.suffix_refl _)
    rw [List.cons_append, regexpReplaceAll_cons_none m rep a (A ++ B) h0,
      ih (fun a' u hu => h a' u (hu.trans (List.suffix_cons a A)))]
    rfl

theorem lastIndex_cons_some (sub : Str) (c : Char) (cs : Str) (i : Nat)
    (h : lastIndex sub cs = some i) : lastIndex sub (c :: cs) = some (i + 1) := by
  rw [lastIndex, h]

theorem lastIndex_cons_none (sub : Str) (c : Char) (cs : Str)
    (h : lastIndex sub cs = none) :
    lastIndex sub (c :: cs) = if sub.isPrefixOf (c :: cs) then some 0 else none := by
  rw [lastIndex, h]

theorem lastIndex_free (l : Str) (h : Free l) : lastIndex ['*', '/'] l = none := by
  induction l with
  | nil => simp [lastIndex]
  | cons c cs ih =>
    have hcs : Free cs := fun hm => h (List.mem_cons_of_mem _ hm)
    rw [lastIndex_cons_none _ _ _ (ih hcs)]
    cases cs with
    | nil => simp [List.isPrefixOf]
    | cons d ds =>
      have hd : '/' ≠ d := fun e => hcs (by rw [e]; exact List.mem_cons_self _ _)
      simp [List.isPrefixOf, hd]

theorem lastIndex_append (sub A B : Str) (i : Nat) (h : lastIndex sub B = some i) :
    lastIndex sub (A ++ B) = some (A.length + i) := by
  induction A with
  | nil => simpa using h
  | cons a A ih =>
    rw [List.cons_append, lastIndex_cons_some _ _ _ _ ih, List.length_cons]
    congr 1
    omega

theorem lastIndex_marker (Q : Str) (h : Free Q) :
    lastIndex ['*', '/'] ('*' :: '/' :: Q) = some 0 := by
  have h1 : lastIndex ['*', '/'] ('/' :: Q) = none := by
    rw [lastIndex_cons_none _ _ _ (lastIndex_free Q h)]
    simp [List.isPrefixOf]
  rw [lastIndex_cons_none _ _ _ h1]
  simp [List.isPrefixOf]

theorem between_shape (P C Q : Str) (hP : Free P) (hQ : Free Q)
    (hnl : '\n' ∉ C ++ (['*', '/'] ++ Q)) :
    removeEverythingBetween ['/', '*'] ['*', '/'] (P ++ (['/', '*'] ++ (C ++ (['*', '/'] ++ Q))))
      = P ++ Q := by
  unfold removeEverythingBetween
  have hnone : ∀ (a : Char) (v : Str), a ≠ '/' →
      matchBetween ['/', '*'] ['*', '/'] (a :: v) = none := by
    intro a v ha
    have ha' : '/' ≠ a := fun e => ha e.symm
    simp [matchBetween, List.isPrefixOf, ha']
  rw [regexpReplaceAll_front]
  · have hm : matchBetween ['/', '*'] ['*', '/'] ((['/', '*'] ++ C ++ ['*', '/']) ++ Q)
        = some (['/', '*'] ++ C ++ ['*', '/']).length := by
      have hl := lastIndex_append ['*', '/'] C _ 0 (lastIndex_marker Q hQ)
      have hd := dotStarLen_of_no_newline _ hnl
      have e1 : ['/', '*'] ++ C ++ ['*', '/'] ++ Q = '/' :: '*' :: (C ++ (['*', '/'] ++ Q)) := by
        simp
      rw [e1]
      unfold matchBetween
      simp only [List.isPrefixOf, beq_self_eq_true, Bool.and_self, if_true, List.length_cons,
        List.length_nil, List.drop_succ_cons, List.drop_zero, hd, List.take_length]
      have hl' : lastIndex ['*', '/'] (C ++ (['*', '/'] ++ Q)) = some (C.length + 0) := hl
      rw [hl']
      simp only [List.length_append, List.length_cons, List.length_nil, Option.some.injEq]
      omega
    have e : ['/', '*'] ++ (C ++ (['*', '/'] ++ Q)) = (['/', '*'] ++ C ++ ['*', '/']) ++ Q := by
      simp
    rw [e, regexpReplaceAll_match _ _ _ _ (by simp) hm, List.nil_append, regexpReplaceAll_id]
    intro t ht
    cases t with
    | nil => simp [matchBetween, List.isPrefixOf]
    | cons a v => exact hnone a v (fun e => hQ (e ▸ ht.subset (List.mem_cons_self a v)))
  · intro a u hu
    exact hnone a _ (fun e => hP (e ▸ hu.subset (List.mem_cons_self a u)))

theorem before_shape (A Q : Str) (hQ : Free Q) (hnl : '\n' ∉ A ++ (['*', '/'] ++ Q)) :
    removeEverythingBefore ['*', '/'] (A ++ (['*', '/'] ++ Q)) = Q := by
  unfold removeEverythingBefore
  have hm : matchBefore ['*', '/'] ((A ++ ['*', '/']) ++ Q) = some (A ++ ['*', '/']).length := by
    have hl := lastIndex_append ['*', '/'] A _ 0 (lastIndex_marker Q hQ)
    have e1 : A ++ ['*', '/'] ++ Q = A ++ (['*', '/'] ++ Q) := by simp
    have hd := dotStarLen_of_no_newline _ hnl
    rw [e1]
    unfold matchBefore
    simp only [hd, List.take_length]
    simp only [List.cons_append, List.nil_append] at hl ⊢
    rw [hl]
    simp
  have e : A ++ (['*', '/'] ++ Q) = (A ++ ['*', '/']) ++ Q := by simp
  rw [e, regexpReplaceAll_match _ _ _ _ (by simp) hm, List.nil_append, regexpReplaceAll_id]
  intro t ht
  unfold matchBefore
  have h1 : Free (t.take (dotStarLen t)) :=
    fun hm' => hQ (ht.subset (List.mem_of_mem_take hm'))
  rw [lastIndex_free _ h1]

theorem past_shape (P X : Str) (hP : Free P) (hnl : '\n' ∉ P ++ (['/', '*'] ++ X)) :
    removeEverythingPast ['/', '*'] (P ++ (['/', '*'] ++ X)) = P := by
  rw [removeEverythingPast_eq _ _ hnl]
  have e : P ++ (['/', '*'] ++ X) = P ++ ['/', '*'] ++ X := by simp
  rw [e]
  apply prefixBefore_append
  apply not_infix_of_chain (fun a b => ¬ (a = '/' ∧ b = '*')) '/' '*' _ (by simp)
  exact chain_free_append (fun a b => ¬ (a = '/' ∧ b = '*')) (fun a b ha h => ha h.1) P ['/'] hP
    (List.chain'_singleton _)

/-- One step of the block-comment pass on a simple line: what is left holds no `/`,
and the flag follows the markers of the line. -/
theorem step_shaped (st b1 b2 : Bool) (P C Q e : Str) (hP : Free P) (hC : Free C)
    (hQ : Free Q)
    (hnl : '\n' ∉ P ++ (marker b1 ['/', '*'] ++ (C ++ (marker b2 ['*', '/'] ++ Q))))
    (he : e = [] ∨ e = ['\n']) (hstar : b1 = true → P.getLast? ≠ some '*')
    (hs : st = false → b2 = true → b1 = true) :
    ∃ o, removeMultilineCommentsFrom st
        [P ++ (marker b1 ['/', '*'] ++ (C ++ (marker b2 ['*', '/'] ++ Q))) ++ e] = [o]
      ∧ Free o
      ∧ insideAfter st
          [P ++ (marker b1 ['/', '*'] ++ (C ++ (marker b2 ['*', '/'] ++ Q))) ++ e]
        = nextOpen st b1 b2 := by
  have hfe := free_break e he
  have hB : b1 = true → b2 = true → removeEverythingBetween ['/', '*'] ['*', '/']
      (P ++ (marker b1 ['/', '*'] ++ (C ++ (marker b2 ['*', '/'] ++ Q))) ++ e)
        = P ++ Q ++ e := by
    intro h1 h2
    subst h1 h2
    simp only [marker, if_true] at hnl ⊢
    have hb := between_shape P C Q hP hQ (fun hm => hnl (by simp at hm ⊢; tauto))
    rcases he with rfl | rfl
    · simpa using hb
    · rw [removeEverythingBetween_snoc _ _ _ (by decide) (by decide), hb]
  have hPa : b1 = true → removeEverythingPast ['/', '*']
      (P ++ (marker b1 ['/', '*'] ++ (C ++ (marker b2 ['*', '/'] ++ Q))) ++ e)
        = P ++ e := by
    intro h1
    subst h1
    simp only [marker, if_true] at hnl ⊢
    have hb := past_shape P (C ++ ((if b2 = true then ['*', '/'] else []) ++ Q)) hP hnl
    rcases he with rfl | rfl
    · simpa using hb
    · rw [removeEverythingPast_snoc _ _ (by decide) (by decide), hb]
  have hBe : b2 = true → removeEverythingBefore ['*', '/']
      (P ++ (marker b1 ['/', '*'] ++ (C ++ (marker b2 ['*', '/'] ++ Q))) ++ e)
        = Q ++ e := by
    intro h2
    subst h2
    simp only [marker, if_true] at hnl ⊢
    have e1 : P ++ ((if b1 = true then ['/', '*'] else []) ++ (C ++ (['*', '/'] ++ Q)))
        = (P ++ ((if b1 = true then ['/', '*'] else []) ++ C)) ++ (['*', '/'] ++ Q) := by
      simp
    rw [e1] at hnl ⊢
    have hb := before_shape _ Q hQ hnl
    rcases he with rfl | rfl
    · simpa using hb
    · rw [removeEverythingBefore_snoc _ _ (by decide), hb]
  have hlt : b1 = true → stringsIndex
      (P ++ (marker b1 ['/', '*'] ++ (C ++ (marker b2 ['*', '/'] ++ Q))) ++ e) ['*', '/'] ≠ -1 →
      stringsIndex (P ++ (marker b1 ['/', '*'] ++ (C ++ (marker b2 ['*', '/'] ++ Q))) ++ e)
        ['/', '*']
      < stringsIndex (P ++ (marker b1 ['/', '*'] ++ (C ++ (marker b2 ['*', '/'] ++ Q))) ++ e)
        ['*', '/'] := by
    intro h1 hne
    have hst := hstar h1
    subst h1
    simp only [marker, if_true] at hne ⊢
    have e1 : P ++ (['/', '*'] ++ (C ++ ((if b2 = true then ['*', '/'] else []) ++ Q))) ++ e
        = P ++ '/' :: '*' :: (C ++ ((if b2 = true then ['*', '/'] else []) ++ Q) ++ e) := by
      simp
    rw [e1] at hne ⊢
    rcases end_after_start P _ hP hst with h | h
    · exact absurd h hne
    · exact h
  have hfree : b1 = false → b2 = false →
      Free (P ++ (marker b1 ['/', '*'] ++ (C ++ (marker b2 ['*', '/'] ++ Q))) ++ e) := by
    intro h1 h2
    subst h1 h2
    simp only [marker, Bool.false_eq_true, if_false, List.nil_append]
    exact free_append _ _ (free_append _ _ hP (free_append _ _ hC hQ)) hfe
  have hS1 : b1 = true → stringsIndex
      (P ++ (marker b1 ['/', '*'] ++ (C ++ (marker b2 ['*', '/'] ++ Q))) ++ e) ['/', '*']
        ≠ -1 := by
    intro h1
    subst h1
    rw [Ne, stringsIndex_eq_neg_one, not_not]
    exact ⟨P, C ++ (marker b2 ['*', '/'] ++ Q) ++ e, by simp [marker]⟩
  have hS0 : b1 = false → b2 = false → stringsIndex
      (P ++ (marker b1 ['/', '*'] ++ (C ++ (marker b2 ['*', '/'] ++ Q))) ++ e) ['/', '*']
        = -1 := by
    intro h1 h2
    rw [stringsIndex_eq_neg_one]
    exact (not_infix_of_free '*' _ (hfree h1 h2)).2
  have hE1 : b2 = true → stringsIndex
      (P ++ (marker b1 ['/', '*'] ++ (C ++ (marker b2 ['*', '/'] ++ Q))) ++ e) ['*', '/']
        ≠ -1 := by
    intro h2
    subst h2
    rw [Ne, stringsIndex_eq_neg_one, not_not]
    exact ⟨P ++ (marker b1 ['/', '*'] ++ C), Q ++ e, by simp [marker]⟩
  have hE0 : b2 = false → stringsIndex
      (P ++ (marker b1 ['/', '*'] ++ (C ++ (marker b2 ['*', '/'] ++ Q))) ++ e) ['*', '/']
        = -1 := by
    intro h2
    subst h2
    rw [stringsIndex_eq_neg_one]
    exact no_end_marker P C Q e b1 hP hC hQ hfe hstar
  generalize P ++ (marker b1 ['/', '*'] ++ (C ++ (marker b2 ['*', '/'] ++ Q))) ++ e = line
    at hB hPa hBe hlt hfree hS1 hS0 hE1 hE0
  have hb1 : ∀ b : Bool, ¬ b = true → b = false := fun b h => by simpa using h
  cases st with
  | false =>
    simp only [removeMultilineCommentsFrom, insideAfter, Bool.not_false, if_true]
    have h1of : stringsIndex line ['/', '*'] ≠ -1 → b1 = true := by
      intro a
      by_contra h1
      have h1' := hb1 _ h1
      have h2' : b2 = false := by
        apply hb1
        intro h2
        rw [hs rfl h2] at h1'
        exact absurd h1' (by decide)
      exact a (hS0 h1' h2')
    split_ifs with a b
    · have h1 := h1of a
      have h2 : b2 = true := by
        by_contra h2
        have := hE0 (hb1 _ h2)
        have hge := stringsIndex_ge ['/', '*'] line
        omega
      refine ⟨_, rfl, ?_, ?_⟩
      · rw [hB h1 h2]
        exact free_append _ _ (free_append _ _ hP hQ) hfe
      · simp [nextOpen, h1, h2]
    · have h1 := h1of a
      have h2 : b2 = false := by
        apply hb1
        intro h2
        exact b (hlt h1 (hE1 h2))
      refine ⟨_, rfl, ?_, ?_⟩
      · rw [hPa h1]
        exact free_append _ _ hP hfe
      · simp [nextOpen, h1, h2]
    · have h1 : b1 = false := by
        apply hb1
        exact fun h => a (hS1 h)
      have h2 : b2 = false := by
        apply hb1
        intro h
        rw [hs rfl h] at h1
        exact absurd h1 (by decide)
      exact ⟨_, rfl, hfree h1 h2, by simp [nextOpen, h1, h2]⟩
  | true =>
    simp only [removeMultilineCommentsFrom, insideAfter, Bool.not_true, Bool.false_eq_true,
      if_false]
    split_ifs with a
    · have h2 : b2 = true := by
        by_contra h2
        exact a (hE0 (hb1 _ h2))
      refine ⟨_, rfl, ?_, ?_⟩
      · rw [hBe h2]
        exact free_append _ _ hQ hfe
      · simp [nextOpen, h2]
    · have h2 : b2 = false := by
        apply hb1
        exact fun h => a (hE1 h)
      exact ⟨_, rfl, free_nil, by simp [nextOpen, h2]⟩

theorem dropWhile_append_cons (A X : Str) (m : Char) (hm : isSpace m = false) :
    (A ++ m :: X).dropWhile isSpace = A.dropWhile isSpace ++ m :: X := by
  induction A with
  | nil => simp [List.dropWhile_cons, hm]
  | cons a A ih =>
    by_cases ha : isSpace a = true
    · simp [List.dropWhile_cons, ha, ih]
    · simp [List.dropWhile_cons, ha]

theorem trim_middle (A M B M1 M2 : Str) (m n : Char) (h1 : M = m :: M1) (h2 : M = M2 ++ [n])
    (hm : isSpace m = false) (hn : isSpace n = false) :
    stringsTrimSpace (A ++ (M ++ B))
      = A.dropWhile isSpace ++ (M ++ (B.reverse.dropWhile isSpace).reverse) := by
  unfold stringsTrimSpace
  have e1 : A ++ (M ++ B) = A ++ m :: (M1 ++ B) := by rw [h1]; simp
  rw [e1, dropWhile_append_cons A _ m hm]
  have e2 : (A.dropWhile isSpace ++ m :: (M1 ++ B)).reverse
      = B.reverse ++ n :: (M2.reverse ++ (A.dropWhile isSpace).reverse) := by
    have : m :: (M1 ++ B) = M2 ++ [n] ++ B := by rw [← h2, h1]; simp
    rw [this]
    simp
  rw [e2, dropWhile_append_cons _ _ n hn]
  have e3 : M = M2 ++ [n] := h2
  simp [e3]

theorem replaceTabs_free (x : Str) (h : Free x) : Free (replaceTabs x) := by
  intro hm
  rcases mem_replaceTabs x _ hm with h1 | ⟨h1, -⟩
  · exact absurd h1 (by decide)
  · exact h h1

theorem getLast_of_suffix (X Y : Str) (a : Char) (h : X <:+ Y) (hX : X.getLast? = some a) :
    Y.getLast? = some a := by
  obtain ⟨t, rfl⟩ := h
  have hne : X ≠ [] := by
    intro e
    rw [e] at hX
    simp at hX
  rw [List.getLast?_append_of_ne_nil _ hne, hX]

theorem getLast_despace (P : Str) (h : (despace P).getLast? ≠ some '*') :
    P.getLast? ≠ some '*' := by
  intro hP
  apply h
  obtain ⟨s, rfl⟩ : ∃ s, P = s ++ ['*'] := by
    rcases List.eq_nil_or_concat P with e | ⟨s, b, e⟩
    · rw [e] at hP
      simp at hP
    · rw [e] at hP ⊢
      simp only [List.concat_eq_append, List.getLast?_append_of_ne_nil _ (List.cons_ne_nil _ _),
        List.getLast?_singleton, Option.some.injEq] at hP
      exact ⟨s, by simp [hP]⟩
  rw [despace_append]
  have : despace ['*'] = ['*'] := by decide
  rw [this, List.getLast?_append_of_ne_nil _ (List.cons_ne_nil _ _)]
  rfl

/-- Replacing tabs and trimming keeps the form of a simple line. -/
theorem trim_shape (p c q : Str) (b1 b2 : Bool) (hp : Free p) (hc : Free c) (hq : Free q)
    (hstar : b1 = true → endsWithStar p = false) :
    ∃ p1 c1 q1, Free p1 ∧ Free c1 ∧ Free q1
      ∧ (b1 = true → (despace p1).getLast? ≠ some '*')
      ∧ stringsTrimSpace (replaceTabs
          (p ++ (marker b1 ['/', '*'] ++ (c ++ (marker b2 ['*', '/'] ++ q)))))
        = p1 ++ (marker b1 ['/', '*'] ++ (c1 ++ (marker b2 ['*', '/'] ++ q1))) := by
  have hp' := replaceTabs_free p hp
  have hc' := replaceTabs_free c hc
  have hq' := replaceTabs_free q hq
  have hstar' : b1 = true → (despace (replaceTabs p)).getLast? ≠ some '*' := by
    intro h1 h
    have := hstar h1
    simp [endsWithStar, h] at this
  have m1 : replaceTabs (marker b1 ['/', '*']) = marker b1 ['/', '*'] := by
    cases b1 <;> decide
  have m2 : replaceTabs (marker b2 ['*', '/']) = marker b2 ['*', '/'] := by
    cases b2 <;> decide
  have happ : ∀ a b : Str, replaceTabs (a ++ b) = replaceTabs a ++ replaceTabs b :=
    fun a b => List.map_append _ _ _
  rw [happ, happ, happ, happ, m1, m2]
  generalize replaceTabs p = p' at hp' hstar'
  generalize replaceTabs c = c' at hc'
  generalize replaceTabs q = q' at hq'
  have hdw : ∀ x : Str, Free x → Free (x.dropWhile isSpace) :=
    fun x hx => free_sublist _ _ (List.dropWhile_sublist _) hx
  have hdr : ∀ x : Str, Free x → Free (x.reverse.dropWhile isSpace).reverse := by
    intro x hx
    apply free_sublist _ x _ hx
    have := (List.dropWhile_sublist isSpace (l := x.reverse)).reverse
    rwa [List.reverse_reverse] at this
  have hds : b1 = true → (despace (p'.dropWhile isSpace)).getLast? ≠ some '*' := by
    intro h1 h
    apply hstar' h1
    apply getLast_of_suffix _ _ _ _ h
    exact List.IsSuffix.filter _ (List.dropWhile_suffix _)
  cases b1 <;> cases b2 <;> simp only [marker, Bool.false_eq_true, if_false, if_true,
    List.nil_append]
  · exact ⟨stringsTrimSpace (p' ++ (c' ++ q')), [], [],
      free_sublist _ _ (stringsTrimSpace_sublist _)
        (free_append _ _ hp' (free_append _ _ hc' hq')),
      free_nil, free_nil, by simp, by simp⟩
  · refine ⟨(p' ++ c').dropWhile isSpace, [], (q'.reverse.dropWhile isSpace).reverse,
      hdw _ (free_append _ _ hp' hc'), free_nil, hdr _ hq', by simp, ?_⟩
    have := trim_middle (p' ++ c') ['*', '/'] q' ['/'] ['*'] '*' '/' rfl rfl
      (by decide) (by decide)
    simpa using this
  · refine ⟨p'.dropWhile isSpace, ((c' ++ q').reverse.dropWhile isSpace).reverse, [],
      hdw _ hp', hdr _ (free_append _ _ hc' hq'), free_nil, fun _ => hds rfl, ?_⟩
    have := trim_middle p' ['/', '*'] (c' ++ q') ['*'] ['/'] '/' '*' rfl rfl
      (by decide) (by decide)
    simpa using this
  · refine ⟨p'.dropWhile isSpace, c', (q'.reverse.dropWhile isSpace).reverse,
      hdw _ hp', hc', hdr _ hq', fun _ => hds rfl, ?_⟩
    have := trim_middle p' (['/', '*'] ++ c' ++ ['*', '/']) q' ('*' :: (c' ++ ['*', '/']))
      (['/', '*'] ++ c' ++ ['*']) '/' '/' (by simp) (by simp) (by decide) (by decide)
    simpa using this

/-- The loop over the operators keeps the form of a simple line. -/
theorem compact_shape (p c q : Str) (b1 b2 : Bool) (hp : Free p) (hc : Free c) (hq : Free q)
    (hstar : b1 = true → (despace p).getLast? ≠ some '*')
    (hnl : '\n' ∉ p ++ (marker b1 ['/', '*'] ++ (c ++ (marker b2 ['*', '/'] ++ q)))) :
    ∃ P C Q, Free P ∧ Free C ∧ Free Q ∧ (b1 = true → P.getLast? ≠ some '*')
      ∧ '\n' ∉ P ++ (marker b1 ['/', '*'] ++ (C ++ (marker b2 ['*', '/'] ++ Q)))
      ∧ compactLine ops (p ++ (marker b1 ['/', '*'] ++ (c ++ (marker b2 ['*', '/'] ++ q))))
        = P ++ (marker b1 ['/', '*'] ++ (C ++ (marker b2 ['*', '/'] ++ Q))) := by
  have h1 := compactLine_right '/' (by decide) (by decide)
    (p ++ (marker b1 ['/', '*'] ++ (c ++ (marker b2 ['*', '/'] ++ q))))
  have h2 := compactLine_right '*' (by decide) (by decide)
    (p ++ (marker b1 ['/', '*'] ++ (c ++ (marker b2 ['*', '/'] ++ q))))
  have hd := despace_compactLine ops (fun _ h => h)
    (p ++ (marker b1 ['/', '*'] ++ (c ++ (marker b2 ['*', '/'] ++ q))))
  have hn := compactLine_no_newline ops (fun _ h => h) _ hnl
  generalize compactLine ops
    (p ++ (marker b1 ['/', '*'] ++ (c ++ (marker b2 ['*', '/'] ++ q)))) = T at h1 h2 hd hn ⊢
  unfold NoSpaceAfter at h1 h2
  obtain ⟨P, C, Q, e, hP, hC, hQ, hdP⟩ := shape_of_despace T p c q b1 b2 hp hc hq hd h1 h2
  refine ⟨P, C, Q, hP, hC, hQ, ?_, e ▸ hn, e⟩
  intro hb
  apply getLast_despace
  rw [hdP hb]
  exact hstar hb

/-- Every simple line of the source reaches the block-comment pass as a simple line of
the same kind, possibly followed by the line break of the directive guard. -/
theorem line_shape (p c q : Str) (b1 b2 : Bool) (hp : Free p) (hc : Free c) (hq : Free q)
    (hstar : b1 = true → endsWithStar p = false)
    (hnl : '\n' ∉ p ++ (marker b1 ['/', '*'] ++ (c ++ (marker b2 ['*', '/'] ++ q)))) :
    ∃ P C Q e, Free P ∧ Free C ∧ Free Q ∧ (e = [] ∨ e = ['\n'])
      ∧ (b1 = true → P.getLast? ≠ some '*')
      ∧ '\n' ∉ P ++ (marker b1 ['/', '*'] ++ (C ++ (marker b2 ['*', '/'] ++ Q)))
      ∧ compactedLine (p ++ (marker b1 ['/', '*'] ++ (c ++ (marker b2 ['*', '/'] ++ q))))
        = P ++ (marker b1 ['/', '*'] ++ (C ++ (marker b2 ['*', '/'] ++ Q))) ++ e := by
  obtain ⟨p1, c1, q1, hp1, hc1, hq1, hst1, hx⟩ := trim_shape p c q b1 b2 hp hc hq hstar
  have hxnl : '\n' ∉ p1 ++ (marker b1 ['/', '*'] ++ (c1 ++ (marker b2 ['*', '/'] ++ q1))) := by
    rw [← hx]
    intro hm
    rcases mem_replaceTabs _ _ ((stringsTrimSpace_sublist _).subset hm) with h | ⟨h, -⟩
    · exact absurd h (by decide)
    · exact hnl h
  obtain ⟨P, C, Q, hP, hC, hQ, hst, hTn, hT⟩ :=
    compact_shape p1 c1 q1 b1 b2 hp1 hc1 hq1 hst1 hxnl
  have key : ∀ e : Str, (e = [] ∨ e = ['\n']) →
      removeEverythingPast ['/', '/'] (compactLine ops
        (p1 ++ (marker b1 ['/', '*'] ++ (c1 ++ (marker b2 ['*', '/'] ++ q1))) ++ e))
      = P ++ (marker b1 ['/', '*'] ++ (C ++ (marker b2 ['*', '/'] ++ Q))) ++ e := by
    intro e he
    have h1 : compactLine ops
        (p1 ++ (marker b1 ['/', '*'] ++ (c1 ++ (marker b2 ['*', '/'] ++ q1))) ++ e)
        = P ++ (marker b1 ['/', '*'] ++ (C ++ (marker b2 ['*', '/'] ++ Q))) ++ e := by
      rcases he with rfl | rfl
      · rw [List.append_nil, List.append_nil, hT]
      · rw [compactLine_snoc ops (fun _ h => h), hT]
    rw [h1]
    unfold removeEverythingPast
    apply regexpReplaceAll_id
    intro t ht
    have hno := no_double_slash P C Q e b1 b2 hP hC hQ (free_break e he)
    have : ¬ ['/', '/'] <+: t := fun hpre => hno (hpre.isInfix.trans ht.isInfix)
    simp [matchPast, List.isPrefixOf_iff_prefix, this]
  unfold compactedLine
  rw [hx]
  split_ifs
  · exact ⟨P, C, Q, ['\n'], hP, hC, hQ, Or.inr rfl, hst, hTn, key _ (Or.inr rfl)⟩
  · refine ⟨P, C, Q, [], hP, hC, hQ, Or.inl rfl, hst, hTn, ?_⟩
    have := key [] (Or.inl rfl)
    simpa using this

theorem compactedLines_map (s : Str) :
    compactedLines s false false = (stringsSplit s).map compactedLine := by
  simp only [compactedLines, clearWhitespaceFirstPass, reinsertPreprocessorNewlines,
    foldl_map_lines, removeInlineComments, Bool.not_false, if_true, List.map_map]
  apply List.map_congr_left
  intro l _
  simp only [Function.comp_apply, compactedLine]

/-- The block-comment pass on well-formed simple lines: every line it returns holds no
`/`. -/
theorem pass_shaped (lines : List Str) (st : Bool) (hwf : WellFormedLines st lines)
    (hnl : ∀ l ∈ lines, '\n' ∉ l) :
    ∀ o ∈ removeMultilineCommentsFrom st (lines.map compactedLine), Free o := by
  induction lines generalizing st with
  | nil =>
    intro o ho
    simp [removeMultilineCommentsFrom] at ho
  | cons l rest ih =>
    obtain ⟨b1, b2, p, c, q, hl, hp, hc, hq, hstar, hs, hrest⟩ := hwf
    have hln : '\n' ∉ p ++ (marker b1 ['/', '*'] ++ (c ++ (marker b2 ['*', '/'] ++ q))) :=
      hl ▸ hnl l (List.mem_cons_self _ _)
    obtain ⟨P, C, Q, e, hP, hC, hQ, he, hst, hTn, hT⟩ :=
      line_shape p c q b1 b2 hp hc hq hstar hln
    obtain ⟨o1, ho1, hfree, hnext⟩ := step_shaped st b1 b2 P C Q e hP hC hQ hTn he hst hs
    intro o ho
    rw [List.map_cons, removeMultilineCommentsFrom_cons, hl, hT, ho1, hnext] at ho
    rcases List.mem_append.1 ho with h | h
    · rw [List.mem_singleton.1 h]
      exact hfree
    · exact ih _ hrest (fun l' hl' => hnl l' (List.mem_cons_of_mem _ hl')) o h

theorem minifySource_free (s : Str) (hwf : WellFormedLines false (stringsSplit s)) :
    Free (minifySource s false false false) := by
  have hlines : ∀ o ∈ minifiedLines s false false false, Free o := by
    intro o ho
    simp only [minifiedLines, Bool.not_false, if_true, removeMultilineComments,
      compactedLines_map] at ho
    exact pass_shaped _ false hwf
      (fun l hl hm => (mem_of_mem_stringsSplit s l hl _ hm).2 rfl) o ho
  intro hm
  simp only [minifySource, stringsJoin, Bool.not_false, if_true,
    fixSpacedOps, spacedOps, List.foldl_cons, List.foldl_nil, stringsReplaceAll,
    fixDuplicateNewlines, regexpReplaceAll] at hm
  rcases mem_regexpReplaceGo _ _ _ _ _ hm with h | h
  · rcases mem_regexpReplaceGo _ _ _ _ _ h with h' | h'
    · obtain ⟨x, hx, hcx⟩ := List.mem_flatten.1 h'
      exact hlines x hx hcx
    · revert h'
      decide
  · revert h
    decide

/-! ### Complete removal on sources with simple lines -/

/-- A marker can arise where the source holds no comment: in the source `x = a /`, line
break, `*p;` neither marker occurs, yet the lines are joined without a separator and the
output `x=a/*p;` contains the start marker. -/
theorem minifySource_joins_into_marker :
    ¬ ['/', '*'] <:+: "x = a /\n*p;".toList
      ∧ ¬ ['*', '/'] <:+: "x = a /\n*p;".toList
      ∧ minifySource "x = a /\n*p;".toList false false false = "x=a/*p;".toList
      ∧ ['/', '*'] <:+: minifySource "x = a /\n*p;".toList false false false := by
  decide

/-- Block-comment removal with default flags is complete on sources with simple lines.
If every line of the source is `p`, `p /* c`, `c */ q` or
`p /* c */ q`, where `p`, `c`, `q` hold no `/`, the last character of `p` other than
spaces and tabs is not `*` when a start marker follows, and a line with an end marker
but no start marker comes only while a comment is open, then the output holds no `/`,
hence neither `/*` nor `*/`. -/
theorem minifySource_strips_simple_comments (s : Str)
    (hwf : WellFormedLines false (stringsSplit s)) :
    '/' ∉ minifySource s false false false
      ∧ ¬ ['/', '*'] <:+: minifySource s false false false
      ∧ ¬ ['*', '/'] <:+: minifySource s false false false := by
  have h := minifySource_free s hwf
  exact ⟨h, (not_infix_of_free '*' _ h).2, (not_infix_of_free '*' _ h).1⟩

/-- Complete removal at a source with a one-line comment, a comment over two lines and a
comment on a directive line: the output is `int*p=1;y=2*x;z=3;# d` and a line break. -/
theorem minifySource_strips_simple_comments_witness :
    WellFormedLines false (stringsSplit
        "int *p = 1; /* one */ y = 2 * x;\n/** two\n * lines */ z = 3;\n# d /* three */".toList)
      ∧ minifySource
          "int *p = 1; /* one */ y = 2 * x;\n/** two\n * lines */ z = 3;\n# d /* three */".toList
          false false false = "int*p=1;y=2*x;z=3;# d\n".toList
      ∧ ('/' ∉ minifySource
          "int *p = 1; /* one */ y = 2 * x;\n/** two\n * lines */ z = 3;\n# d /* three */".toList
          false false false
        ∧ ¬ ['/', '*'] <:+: minifySource
          "int *p = 1; /* one */ y = 2 * x;\n/** two\n * lines */ z = 3;\n# d /* three */".toList
          false false false
        ∧ ¬ ['*', '/'] <:+: minifySource
          "int *p = 1; /* one */ y = 2 * x;\n/** two\n * lines */ z = 3;\n# d /* three */".toList
          false false false) := by
  have h : WellFormedLines false (stringsSplit
      "int *p = 1; /* one */ y = 2 * x;\n/** two\n * lines */ z = 3;\n# d /* three */".toList) := by
    rw [show stringsSplit
        "int *p = 1; /* one */ y = 2 * x;\n/** two\n * lines */ z = 3;\n# d /* three */".toList
      = ["int *p = 1; /* one */ y = 2 * x;".toList, "/** two".toList,
          " * lines */ z = 3;".toList, "# d /* three */".toList] by decide]
    refine ⟨true, true, "int *p = 1; ".toList, " one ".toList, " y = 2 * x;".toList,
      by decide, by unfold Free; decide, by unfold Free; decide, by unfold Free; decide,
      fun _ => by decide, fun _ _ => rfl, ?_⟩
    refine ⟨true, false, [], "* two".toList, [],
      by decide, by unfold Free; decide, by unfold Free; decide, by unfold Free; decide,
      fun _ => by decide, fun _ _ => rfl, ?_⟩
    refine ⟨false, true, [], " * lines ".toList, " z = 3;".toList,
      by decide, by unfold Free; decide, by unfold Free; decide, by unfold Free; decide,
      fun h => absurd h (by decide), fun h => absurd h (by decide), ?_⟩
    exact ⟨true, true, "# d ".toList, " three ".toList, [],
      by decide, by unfold Free; decide, by unfold Free; decide, by unfold Free; decide,
      fun _ => by decide, fun _ _ => rfl, trivial⟩
  exact ⟨h, by decide, minifySource_strips_simple_comments _ h⟩

/-! ## Inputs on which the block-comment pass and the line joiner go wrong -/

/-- C2: the source `a /* b */ c /* d`, line break, `e */ f` holds two well-formed block
comments, the second one opening on the line where the first one closes, and no string
literal; the output of `minifySource` (all flags false) is `ac/*de*/f`, which contains
both the start marker and the end marker: the block-comment pass looks for one comment
per line.  Likewise the source `/*/ c`, line break, `*/ d`, one comment over two lines
whose text begins with `/`, comes out as `/*/c*/d`. -/
theorem minifySource_leaves_second_comment :
    minifySource "a /* b */ c /* d\ne */ f".toList false false false = "ac/*de*/f".toList
      ∧ ['/', '*'] <:+: minifySource "a /* b */ c /* d\ne */ f".toList false false false
      ∧ ['*', '/'] <:+: minifySource "a /* b */ c /* d\ne */ f".toList false false false
      ∧ minifySource "/*/ c\n*/ d".toList false false false = "/*/c*/d".toList
      ∧ ['/', '*'] <:+: minifySource "/*/ c\n*/ d".toList false false false
      ∧ ['*', '/'] <:+: minifySource "/*/ c\n*/ d".toList false false false := by
  decide

/-- C3: on the single line `/* a */ b /* c */` the pass returns the empty line: the
text ` b ` between the two comments, which lies inside no comment, is deleted too. -/
theorem removeMultilineComments_drops_code_between_comments :
    removeMultilineComments ["/* a */ b /* c */".toList] = [[]]
      ∧ removeMultilineComments ["/* a */ b /* c */".toList] ≠ [" b ".toList] := by
  decide

/-- C5: with `keepNewlines` set, the two-line source `a`, line break, `b` comes out as
the single line `ab`: the output splits into one line where the source splits into two.
More generally the output then holds no line break, whatever the source. -/
theorem minifySource_keepNewlines_joins_lines :
    minifySource "a\nb".toList true false false = "ab".toList
      ∧ (stringsSplit (minifySource "a\nb".toList true false false)).length = 1
      ∧ (stringsSplit "a\nb".toList).length = 2
      ∧ ∀ (s : Str) (k1 k2 : Bool), '\n' ∉ minifySource s true k1 k2 :=
  ⟨by decide, by decide, by decide, minifySource_keepNewlines_no_break⟩

/-- C8: for `p`, `c2`, `q` empty and `c1` the single character `/`, the two lines
`/*/` and `*/` come back unchanged instead of as two empty lines; the instance of the
spec, `int x; /* comment` followed by `still comment */ int y;`, does give
`int x;int y;`. -/
theorem removeMultilineComments_slash_after_start :
    removeMultilineComments [[] ++ ['/', '*'] ++ ['/'], [] ++ ['*', '/'] ++ []]
        = ["/*/".toList, "*/".toList]
      ∧ removeMultilineComments [[] ++ ['/', '*'] ++ ['/'], [] ++ ['*', '/'] ++ []] ≠ [[], []]
      ∧ minifySource "int x; /* comment\nstill comment */ int y;".toList false false false
        = "int x;int y;".toList := by
  decide

/-! ## Lines without a start marker, and what one operator changes -/

/-- C17: a list of lines none of which contains the start marker `/*` comes back from
`removeMultilineComments` unchanged, whether or not lines contain `*/`. -/
theorem removeMultilineComments_no_start (lines : List Str)
    (h : ∀ l ∈ lines, ¬ ['/', '*'] <:+: l) :
    removeMultilineComments lines = lines := by
  have h1 := removeMultilineCommentsFrom_outside lines [] h
  simpa [removeMultilineComments, removeMultilineCommentsFrom] using h1

/-- C17 at the lines `a */ b` and `c`: the stray end marker stays. -/
theorem removeMultilineComments_no_start_witness :
    (∀ l ∈ ["a */ b".toList, "c".toList], ¬ ['/', '*'] <:+: l)
      ∧ removeMultilineComments ["a */ b".toList, "c".toList]
        = ["a */ b".toList, "c".toList] :=
  ⟨by decide, removeMultilineComments_no_start _ (by decide)⟩

/-- C18: for every operator of the table, `else` included, `minifyOperator` changes
nothing but spaces: with all spaces deleted, its result and the line are the same. -/
theorem minifyOperator_changes_spaces_only (op line : Str) (hop : op ∈ ops) :
    despace (minifyOperator op line) = despace line := by
  by_cases he : op = ['e', 'l', 's', 'e']
  · rw [he, minifyOperator_else]
    exact despace_replace _ _ (by simp) (by decide) line
  · rw [minifyOperator_plain op line he]
    exact despace_replace op op (ops_wellformed op hop).1 rfl line

/-- C18 at the operator `else` and the line `a  else  b`. -/
theorem minifyOperator_changes_spaces_only_witness :
    "else".toList ∈ ops
      ∧ despace (minifyOperator "else".toList "a  else  b".toList)
        = despace "a  else  b".toList :=
  ⟨by decide, minifyOperator_changes_spaces_only _ _ (by decide)⟩

/-! ## The whitespace normalizer and the directive guard -/

/-- The replacement of tabs, written as a map over the characters, is what the model of
`strings.ReplaceAll` gives for the pattern tab and the replacement space. -/
theorem replaceTabs_eq_replaceAll (l : Str) :
    replaceTabs l = stringsReplaceAll l ['\t'] [' '] := by
  unfold stringsReplaceAll
  induction l with
  | nil => rfl
  | cons c cs ih =>
    by_cases hc : c = '\t'
    · subst hc
      have hm : matchLiteral ['\t'] (['\t'] ++ cs) = some ['\t'].length := by
        simp [matchLiteral, List.isPrefixOf]
      have := regexpReplaceAll_match (matchLiteral ['\t']) [' '] ['\t'] cs (by simp) hm
      simp only [List.singleton_append] at this
      rw [this, ← ih]
      simp [replaceTabs]
    · have hc' : '\t' ≠ c := fun e => hc e.symm
      have hm : matchLiteral ['\t'] (c :: cs) = none := by
        simp [matchLiteral, List.isPrefixOf, hc']
      rw [regexpReplaceAll_cons_none _ _ _ _ hm, ← ih]
      simp [replaceTabs, hc]

theorem stringsTrimSpace_of_trimmed (o : Str) (hh : ∀ c ∈ o.head?, isSpace c = false)
    (hl : ∀ c ∈ o.getLast?, isSpace c = false) : stringsTrimSpace o = o := by
  cases o with
  | nil => rfl
  | cons c cs =>
    have := stringsTrimSpace_core 0 0 (c :: cs) (by simp) hh hl
    simpa [spaces] using this

theorem no_tab_replaceTabs (l : Str) : '\t' ∉ replaceTabs l := by
  intro hm
  rcases mem_replaceTabs l _ hm with h | ⟨-, h⟩
  · exact absurd h (by decide)
  · exact h rfl

/-- C13: `clearWhitespaceFirstPass` keeps the number of lines; line `i` of the result
is line `i` of the input with every tab replaced by a space (the map `replaceTabs`,
which is what `strings.ReplaceAll` computes) and then trimmed; so no line of the result
holds a tab or begins or ends with white space, and a second pass changes nothing. -/
theorem clearWhitespaceFirstPass_contract (lines : List Str) :
    (clearWhitespaceFirstPass lines).length = lines.length
      ∧ (∀ (i : Nat) (l : Str), lines[i]? = some l →
          (clearWhitespaceFirstPass lines)[i]?
              = some (stringsTrimSpace (l.map (fun c => if c = '\t' then ' ' else c)))
            ∧ l.map (fun c => if c = '\t' then ' ' else c) = stringsReplaceAll l ['\t'] [' '])
      ∧ (∀ o ∈ clearWhitespaceFirstPass lines, '\t' ∉ o
          ∧ (∀ c ∈ o.head?, isSpace c = false) ∧ (∀ c ∈ o.getLast?, isSpace c = false))
      ∧ clearWhitespaceFirstPass (clearWhitespaceFirstPass lines)
          = clearWhitespaceFirstPass lines := by
  have hfacts : ∀ l : Str, '\t' ∉ stringsTrimSpace (replaceTabs l)
      ∧ (∀ c ∈ (stringsTrimSpace (replaceTabs l)).head?, isSpace c = false)
      ∧ (∀ c ∈ (stringsTrimSpace (replaceTabs l)).getLast?, isSpace c = false) := by
    intro l
    refine ⟨fun hm => no_tab_replaceTabs l ((stringsTrimSpace_sublist _).subset hm), ?_⟩
    exact stringsTrimSpace_head _
  refine ⟨by simp [clearWhitespaceFirstPass], ?_, ?_, ?_⟩
  · intro i l hl
    refine ⟨?_, replaceTabs_eq_replaceAll l⟩
    simp only [clearWhitespaceFirstPass, List.getElem?_map, hl, Option.map_some']
    rfl
  · intro o ho
    simp only [clearWhitespaceFirstPass, List.mem_map] at ho
    obtain ⟨l, -, rfl⟩ := ho
    exact hfacts l
  · simp only [clearWhitespaceFirstPass, List.map_map]
    apply List.map_congr_left
    intro l _
    obtain ⟨h1, h2, h3⟩ := hfacts l
    simp only [Function.comp_apply]
    rw [replaceTabs_of_no_tab _ h1, stringsTrimSpace_of_trimmed _ h2 h3]

/-- C13 at the lines tab `int x ;` two spaces, and two spaces: the results are
`int x ;` and the empty line. -/
theorem clearWhitespaceFirstPass_contract_witness :
    ["\tint x ;  ".toList, "  ".toList][0]? = some "\tint x ;  ".toList
      ∧ (clearWhitespaceFirstPass ["\tint x ;  ".toList, "  ".toList])[0]?
        = some (stringsTrimSpace
            ("\tint x ;  ".toList.map (fun c => if c = '\t' then ' ' else c)))
      ∧ clearWhitespaceFirstPass ["\tint x ;  ".toList, "  ".toList]
        = ["int x ;".toList, []] :=
  ⟨rfl, ((clearWhitespaceFirstPass_contract _).2.1 0 _ rfl).1, by decide⟩

theorem hasPrefix_hash (l : Str) : stringsHasPrefix l ['#'] = true ↔ l.head? = some '#' := by
  cases l with
  | nil => simp [stringsHasPrefix, List.isPrefixOf]
  | cons c cs =>
    simp only [stringsHasPrefix, List.isPrefixOf, Bool.and_true, beq_iff_eq, List.head?_cons,
      Option.some.injEq]
    exact eq_comm

/-- C14: `reinsertPreprocessorNewlines` keeps the number of lines; line `i` of the
result is line `i` of the input followed by one line break when its first character is
`#`, and the input line itself otherwise.  `minifySource` runs the pass when
`keepNewlines` is false and skips it when `keepNewlines` is true (then no line break
reaches the output at all). -/
theorem reinsertPreprocessorNewlines_contract :
    (∀ lines : List Str,
        (reinsertPreprocessorNewlines lines).length = lines.length
          ∧ ∀ (i : Nat) (l : Str), lines[i]? = some l →
              (reinsertPreprocessorNewlines lines)[i]?
                = some (if l.head? = some '#' then l ++ ['\n'] else l))
      ∧ (∀ (s : Str) (km ki : Bool), minifySource s false km ki
          = fixSpacedOps (fixDuplicateNewlines (stringsJoin
              ((if km = true then id else removeMultilineComments)
                ((if ki = true then id else removeInlineComments)
                  ((reinsertPreprocessorNewlines (clearWhitespaceFirstPass (stringsSplit s))).map
                    (compactLine ops)))))))
      ∧ (∀ (s : Str) (km ki : Bool), minifySource s true km ki
          = fixSpacedOps (stringsJoin
              ((if km = true then id else removeMultilineComments)
                ((if ki = true then id else removeInlineComments)
                  ((clearWhitespaceFirstPass (stringsSplit s)).map (compactLine ops))))))
      ∧ (∀ (s : Str) (km ki : Bool), '\n' ∉ minifySource s true km ki)
      ∧ minifySource "#a\nb".toList false false false = "#a\nb".toList
      ∧ minifySource "#a\nb".toList true false false = "#ab".toList := by
  refine ⟨?_, ?_, ?_, minifySource_keepNewlines_no_break, by decide, by decide⟩
  · intro lines
    refine ⟨by simp [reinsertPreprocessorNewlines], ?_⟩
    intro i l hl
    simp only [reinsertPreprocessorNewlines, List.getElem?_map, hl, Option.map_some',
      hasPrefix_hash]
  · intro s km ki
    cases km <;> cases ki <;>
      simp only [minifySource, minifiedLines, compactedLines, foldl_map_lines, Bool.not_false,
        Bool.not_true, Bool.false_eq_true, if_true, if_false, id]
  · intro s km ki
    cases km <;> cases ki <;>
      simp only [minifySource, minifiedLines, compactedLines, foldl_map_lines, Bool.not_false,
        Bool.not_true, Bool.false_eq_true, if_true, if_false, id]

/-- C14 at the lines `#define N 4` and `x = N;`: only the first gets a line break. -/
theorem reinsertPreprocessorNewlines_contract_witness :
    ["#define N 4".toList, "x = N;".toList][0]? = some "#define N 4".toList
      ∧ (reinsertPreprocessorNewlines ["#define N 4".toList, "x = N;".toList])[0]?
        = some (if "#define N 4".toList.head? = some '#'
            then "#define N 4".toList ++ ['\n'] else "#define N 4".toList)
      ∧ reinsertPreprocessorNewlines ["#define N 4".toList, "x = N;".toList]
        = ["#define N 4\n".toList, "x = N;".toList] :=
  ⟨rfl, (reinsertPreprocessorNewlines_contract.1 _).2 0 _ rfl, by decide⟩

/-! ## Collapsing runs of line breaks -/

theorem collapseRuns_chain (b : Bool) (t : Str) :
    List.Chain' (fun x y => ¬ (x = '\n' ∧ y = '\n')) (collapseRuns b t)
      ∧ (b = true → ∀ c ∈ (collapseRuns b t).head?, c ≠ '\n') := by
  induction t generalizing b with
  | nil => exact ⟨List.chain'_nil, fun _ c hc => by simp [collapseRuns] at hc⟩
  | cons c cs ih =>
    by_cases hc : c = '\n'
    · subst hc
      cases b with
      | true =>
        have e : collapseRuns true ('\n' :: cs) = collapseRuns true cs := by
          simp [collapseRuns]
        rw [e]
        exact ih true
      | false =>
        have e : collapseRuns false ('\n' :: cs) = '\n' :: collapseRuns true cs := by
          simp [collapseRuns]
        rw [e, List.chain'_cons']
        refine ⟨⟨fun y hy h => (ih true).2 rfl y hy h.2, (ih true).1⟩, fun h => ?_⟩
        exact absurd h (by decide)
    · have e : collapseRuns b (c :: cs) = c :: collapseRuns false cs := by
        simp [collapseRuns, hc]
      rw [e, List.chain'_cons']
      refine ⟨⟨fun y _ h => hc h.1, (ih false).1⟩, fun _ d hd => ?_⟩
      simp only [List.head?_cons, Option.mem_def, Option.some.injEq] at hd
      rw [← hd]
      exact hc

theorem collapseRuns_fixed (b : Bool) (l : Str)
    (hch : List.Chain' (fun x y => ¬ (x = '\n' ∧ y = '\n')) l)
    (hb : b = true → ∀ c ∈ l.head?, c ≠ '\n') : collapseRuns b l = l := by
  induction l generalizing b with
  | nil => rfl
  | cons c cs ih =>
    rw [List.chain'_cons'] at hch
    by_cases hc : c = '\n'
    · subst hc
      have hbf : b = false := by
        cases b with
        | false => rfl
        | true => exact absurd rfl (hb rfl '\n' (by simp))
      subst hbf
      have e : collapseRuns false ('\n' :: cs) = '\n' :: collapseRuns true cs := by
        simp [collapseRuns]
      rw [e, ih true hch.2 (fun _ y hy h => hch.1 y hy ⟨rfl, h⟩)]
    · have e : collapseRuns b (c :: cs) = c :: collapseRuns false cs := by
        simp [collapseRuns, hc]
      rw [e, ih false hch.2 (fun h => absurd h (by decide))]

theorem filter_collapseRuns (f : Char → Bool) (hf : f '\n' = false) (b : Bool) (t : Str) :
    (collapseRuns b t).filter f = t.filter f := by
  induction t generalizing b with
  | nil => rfl
  | cons c cs ih =>
    by_cases hc : c = '\n'
    · subst hc
      cases b <;> simp [collapseRuns, List.filter_cons, hf, ih]
    · simp [collapseRuns, hc, List.filter_cons, ih]

theorem collapseRuns_snoc_of_last (b : Bool) (x : Str) (h : x.getLast? ≠ some '\n')
    (hb : x = [] → b = false) :
    collapseRuns b (x ++ ['\n']) = collapseRuns b x ++ ['\n'] := by
  induction x generalizing b with
  | nil =>
    rw [hb rfl]
    simp [collapseRuns]
  | cons c cs ih =>
    have hcs : cs ≠ [] → cs.getLast? ≠ some '\n' := by
      intro hne hl
      apply h
      cases cs with
      | nil => exact absurd rfl hne
      | cons d ds =>
        rw [List.getLast?_cons_cons]
        exact hl
    by_cases hc : c = '\n'
    · subst hc
      have hne : cs ≠ [] := by
        intro e
        subst e
        exact h rfl
      have h1 := ih true (hcs hne) (fun e => absurd e hne)
      cases b <;> simp [collapseRuns, h1]
    · have h1 : collapseRuns false (cs ++ ['\n']) = collapseRuns false cs ++ ['\n'] := by
        by_cases hne : cs = []
        · subst hne
          simp [collapseRuns]
        · exact ih false (hcs hne) (fun _ => rfl)
      simp [collapseRuns, hc, h1]

/-- C15: `fixDuplicateNewlines` computes `collapseRuns`, the text with every line break
that follows a line break dropped; so the result holds no two adjacent line breaks, a
maximal run of line breaks between `x` and `y` leaves exactly one, the other characters
stay as they are and in order, and a second application changes nothing. -/
theorem fixDuplicateNewlines_contract (t : Str) :
    fixDuplicateNewlines t = collapseRuns false t
      ∧ ¬ ['\n', '\n'] <:+: fixDuplicateNewlines t
      ∧ (∀ (x y : Str) (k : Nat), x.getLast? ≠ some '\n' → y.head? ≠ some '\n' →
          fixDuplicateNewlines (x ++ (List.replicate (k + 1) '\n' ++ y))
            = fixDuplicateNewlines x ++ '\n' :: fixDuplicateNewlines y)
      ∧ (fixDuplicateNewlines t).filter (fun c => c != '\n') = t.filter (fun c => c != '\n')
      ∧ fixDuplicateNewlines (fixDuplicateNewlines t) = fixDuplicateNewlines t := by
  refine ⟨fixDuplicateNewlines_eq t, ?_, ?_, ?_, ?_⟩
  · rw [fixDuplicateNewlines_eq]
    exact not_infix_of_chain _ '\n' '\n' _ (by simp) (collapseRuns_chain false t).1
  · intro x y k hx hy
    rw [fixDuplicateNewlines_eq, fixDuplicateNewlines_eq, fixDuplicateNewlines_eq]
    have e : x ++ (List.replicate (k + 1) '\n' ++ y)
        = x ++ '\n' :: (List.replicate k '\n' ++ y) := by
      simp [List.replicate_succ]
    have hy' : (y.takeWhile (fun c => c == '\n')).length = 0 := by
      cases y with
      | nil => rfl
      | cons d ds =>
        have hd : d ≠ '\n' := fun e => hy (by simp [e])
        simp [List.takeWhile_cons, hd]
    rw [e, collapseRuns_split, collapseRuns_newlines, collapseRuns_of_head true y hy',
      collapseRuns_snoc_of_last false x hx (fun _ => rfl)]
    simp
  · rw [fixDuplicateNewlines_eq]
    exact filter_collapseRuns _ (by decide) false t
  · rw [fixDuplicateNewlines_eq, fixDuplicateNewlines_eq]
    exact collapseRuns_fixed false _ (collapseRuns_chain false t).1
      (fun h => absurd h (by decide))

/-- C15 at the text `a`, three line breaks, `b`: one line break is left. -/
theorem fixDuplicateNewlines_contract_witness :
    "a".toList.getLast? ≠ some '\n' ∧ "b".toList.head? ≠ some '\n'
      ∧ fixDuplicateNewlines ("a".toList ++ (List.replicate (2 + 1) '\n' ++ "b".toList))
        = fixDuplicateNewlines "a".toList ++ '\n' :: fixDuplicateNewlines "b".toList
      ∧ fixDuplicateNewlines "a\n\n\nb".toList = "a\nb".toList :=
  ⟨by decide, by decide,
    (fixDuplicateNewlines_contract []).2.2.1 "a".toList "b".toList 2 (by decide) (by decide),
    by decide⟩

/-! ## The spacing fixup -/

theorem joinWith_cons_cons (sep u v : Str) (vs : List Str) :
    joinWith sep (u :: v :: vs) = u ++ (sep ++ joinWith sep (v :: vs)) := rfl

theorem joinWith_head (sep u : Str) (us : List Str) :
    ∃ z, joinWith sep (u :: us) = u ++ z := by
  cases us with
  | nil => exact ⟨[], by simp [joinWith]⟩
  | cons v vs => exact ⟨_, joinWith_cons_cons sep u v vs⟩

theorem joinWith_cons_head (sep u : Str) (c : Char) (us : List Str) :
    joinWith sep ((c :: u) :: us) = c :: joinWith sep (u :: us) := by
  cases us with
  | nil => rfl
  | cons v vs => rfl

/-- The model of `strings.ReplaceAll` cuts the text at occurrences of the pattern and
joins the pieces with the replacement. -/
theorem replaceAll_pieces (pat rep : Str) (hpat : pat ≠ []) (t : Str) :
    ∃ pieces : List Str, pieces ≠ [] ∧ t = joinWith pat pieces
      ∧ stringsReplaceAll t pat rep = joinWith rep pieces
      ∧ ∀ u ∈ pieces, ¬ pat <:+: u := by
  induction' hn : t.length using Nat.strong_induction_on with n ih generalizing t
  cases t with
  | nil =>
    refine ⟨[[]], by simp, rfl, ?_, ?_⟩
    · simp [stringsReplaceAll, regexpReplaceAll_nil, joinWith]
    · intro u hu h
      simp only [List.mem_singleton] at hu
      subst hu
      exact hpat (List.infix_nil.1 h)
  | cons c cs =>
    by_cases hp : pat <+: c :: cs
    · obtain ⟨rest, hrest⟩ := hp
      have hm : matchLiteral pat (pat ++ rest) = some pat.length := by
        simp [matchLiteral, List.isPrefixOf_iff_prefix]
      have hlen : rest.length < n := by
        have h1 := congrArg List.length hrest
        have h2 : 0 < pat.length := List.length_pos.2 hpat
        simp only [List.length_append, List.length_cons] at h1
        simp only [List.length_cons] at hn
        omega
      obtain ⟨pieces, hne, h1, h2, h3⟩ := ih rest.length hlen rest rfl
      cases pieces with
      | nil => exact absurd rfl hne
      | cons v vs =>
        refine ⟨[] :: v :: vs, by simp, ?_, ?_, ?_⟩
        · rw [joinWith_cons_cons, ← h1, List.nil_append, hrest]
        · rw [joinWith_cons_cons, ← h2, List.nil_append, ← hrest]
          exact regexpReplaceAll_match _ _ _ _ hpat hm
        · intro u hu
          rcases List.mem_cons.1 hu with h | h
          · rw [h]
            exact fun hi => hpat (List.infix_nil.1 hi)
          · exact h3 u h
    · have hm : matchLiteral pat (c :: cs) = none := by
        simp [matchLiteral, List.isPrefixOf_iff_prefix, hp]
      obtain ⟨pieces, hne, h1, h2, h3⟩ := ih cs.length (by simp [← hn]) cs rfl
      cases pieces with
      | nil => exact absurd rfl hne
      | cons v vs =>
        refine ⟨(c :: v) :: vs, by simp, ?_, ?_, ?_⟩
        · rw [joinWith_cons_head, ← h1]
        · rw [joinWith_cons_head, ← h2]
          exact regexpReplaceAll_cons_none _ _ _ _ hm
        · intro u hu
          rcases List.mem_cons.1 hu with h | h
          · rw [h]
            intro hi
            rcases List.infix_cons_iff.1 hi with h4 | h4
            · apply hp
              obtain ⟨z, hz⟩ := joinWith_head pat v vs
              rw [h1, hz, ← List.cons_append]
              exact h4.trans (List.prefix_append _ _)
            · exact h3 v (List.mem_cons_self _ _) h4
          · exact h3 u (List.mem_cons_of_mem _ h)

theorem fixSpacedOps_eq (t : Str) :
    fixSpacedOps t
      = stringsReplaceAll t ['e', 'l', 's', 'e', ' ', '\x7b'] ['e', 'l', 's', 'e', '\x7b'] := rfl

/-- How the replacement of `else {` starts on a text: with a match, at the end, or
with a character that is copied. -/
theorem fixSpacedOps_cases (t : Str) :
    (∃ rest, t = ['e', 'l', 's', 'e', ' ', '\x7b'] ++ rest
        ∧ fixSpacedOps t = ['e', 'l', 's', 'e', '\x7b'] ++ fixSpacedOps rest)
      ∨ (t = [] ∧ fixSpacedOps t = [])
      ∨ (∃ c cs, t = c :: cs ∧ ¬ ['e', 'l', 's', 'e', ' ', '\x7b'] <+: t
          ∧ fixSpacedOps t = c :: fixSpacedOps cs) := by
  cases t with
  | nil => exact Or.inr (Or.inl ⟨rfl, rfl⟩)
  | cons c cs =>
    by_cases hp : ['e', 'l', 's', 'e', ' ', '\x7b'] <+: c :: cs
    · left
      obtain ⟨rest, hrest⟩ := hp
      refine ⟨rest, hrest.symm, ?_⟩
      have hm : matchLiteral ['e', 'l', 's', 'e', ' ', '\x7b']
          (['e', 'l', 's', 'e', ' ', '\x7b'] ++ rest)
            = some ['e', 'l', 's', 'e', ' ', '\x7b'].length := by
        simp [matchLiteral, List.isPrefixOf]
      rw [← hrest, fixSpacedOps_eq, fixSpacedOps_eq]
      exact regexpReplaceAll_match _ _ _ _ (by simp) hm
    · right
      right
      refine ⟨c, cs, rfl, hp, ?_⟩
      have hm : matchLiteral ['e', 'l', 's', 'e', ' ', '\x7b'] (c :: cs) = none := by
        simp [matchLiteral, List.isPrefixOf_iff_prefix, hp]
      rw [fixSpacedOps_eq, fixSpacedOps_eq]
      exact regexpReplaceAll_cons_none _ _ _ _ hm

theorem fixSpacedOps_head (t : Str) (y : Char) (hy : y ≠ 'e') (rest : Str)
    (h : fixSpacedOps t = y :: rest) :
    ∃ cs, t = y :: cs ∧ rest = fixSpacedOps cs := by
  rcases fixSpacedOps_cases t with ⟨r, -, h1⟩ | ⟨-, h1⟩ | ⟨c, cs, h0, -, h1⟩
  · rw [h1] at h
    simp only [List.cons_append, List.cons.injEq] at h
    exact absurd h.1.symm hy
  · rw [h1] at h
    exact absurd h (by simp)
  · rw [h1] at h
    simp only [List.cons.injEq] at h
    exact ⟨cs, by rw [h0, h.1], h.2.symm⟩

theorem fixSpacedOps_head_e (t : Str) (y : Char) (hy : y ≠ 'l') (rest : Str)
    (h : fixSpacedOps t = 'e' :: y :: rest) :
    ∃ cs, t = 'e' :: cs ∧ y :: rest = fixSpacedOps cs := by
  rcases fixSpacedOps_cases t with ⟨r, -, h1⟩ | ⟨-, h1⟩ | ⟨c, cs, h0, -, h1⟩
  · rw [h1] at h
    simp only [List.cons_append, List.cons.injEq] at h
    exact absurd h.2.1.symm hy
  · rw [h1] at h
    exact absurd h (by simp)
  · rw [h1] at h
    simp only [List.cons.injEq] at h
    exact ⟨cs, by rw [h0, h.1], h.2.symm⟩

theorem fixSpacedOps_no_occurrence (t : Str) :
    ¬ ['e', 'l', 's', 'e', ' ', '\x7b'] <:+: fixSpacedOps t := by
  induction' hn : t.length using Nat.strong_induction_on with n ih generalizing t
  rcases fixSpacedOps_cases t with ⟨r, h0, h1⟩ | ⟨-, h1⟩ | ⟨c, cs, h0, hp, h1⟩
  · have hlen : r.length < n := by
      rw [← hn, h0]
      simp only [List.length_append, List.length_cons, List.length_nil]
      omega
    have hrec := ih r.length hlen r rfl
    rw [h1]
    intro hi
    simp only [List.cons_append, List.nil_append] at hi
    rcases List.infix_cons_iff.1 hi with h | hi
    · simp at h
    rcases List.infix_cons_iff.1 hi with h | hi
    · simp at h
    rcases List.infix_cons_iff.1 hi with h | hi
    · simp at h
    rcases List.infix_cons_iff.1 hi with h | hi
    · simp at h
    rcases List.infix_cons_iff.1 hi with h | hi
    · simp at h
    exact hrec hi
  · rw [h1]
    simp
  · have hrec := ih cs.length (by rw [← hn, h0]; simp) cs rfl
    rw [h1]
    intro hi
    rcases List.infix_cons_iff.1 hi with h | hi
    · obtain ⟨z, hz⟩ := h
      simp only [List.cons_append, List.nil_append, List.cons.injEq] at hz
      obtain ⟨hc, hz⟩ := hz
      obtain ⟨cs1, e1, hz⟩ := fixSpacedOps_head cs 'l' (by decide) _ hz.symm
      obtain ⟨cs2, e2, hz⟩ := fixSpacedOps_head cs1 's' (by decide) _ hz.symm
      obtain ⟨cs3, e3, hz⟩ := fixSpacedOps_head_e cs2 ' ' (by decide) _ hz.symm
      obtain ⟨cs4, e4, hz⟩ := fixSpacedOps_head cs3 ' ' (by decide) _ hz.symm
      obtain ⟨cs5, e5, -⟩ := fixSpacedOps_head cs4 '\x7b' (by decide) _ hz.symm
      apply hp
      rw [h0, ← hc, e1, e2, e3, e4, e5]
      exact ⟨cs5, rfl⟩
    · exact hrec hi

theorem else_brace_no_border :
    ∀ y ∈ (['e', 'l', 's', 'e', ' ', '\x7b'] : Str).tails,
      y <+: ['e', 'l', 's', 'e', ' ', '\x7b'] → y = [] ∨ y = ['e', 'l', 's', 'e', ' ', '\x7b'] := by
  decide

/-- When a pattern has no border (no proper non-empty suffix that is also a prefix) and
the pieces hold no occurrence of it, every occurrence of the pattern in the joined text
is one of the separators. -/
theorem occurrence_at_separator (pat : Str) (hpat : pat ≠ [])
    (hb : ∀ y, y <:+ pat → y <+: pat → y = [] ∨ y = pat) (pieces : List Str)
    (hfree : ∀ u ∈ pieces, ¬ pat <:+: u) (a b : Str)
    (h : joinWith pat pieces = a ++ (pat ++ b)) :
    ∃ k, k + 1 < pieces.length ∧ a = joinWith pat (pieces.take (k + 1))
      ∧ b = joinWith pat (pieces.drop (k + 1)) := by
  induction pieces generalizing a with
  | nil =>
    have h1 := congrArg List.length h
    have h2 : 0 < pat.length := List.length_pos.2 hpat
    simp only [joinWith, List.length_nil, List.length_append] at h1
    omega
  | cons u us ih =>
    cases us with
    | nil =>
      exact absurd ⟨a, b, by rw [List.append_assoc]; exact h.symm⟩
        (hfree u (List.mem_cons_self _ _))
    | cons v vs =>
      have hfree' : ∀ w ∈ v :: vs, ¬ pat <:+: w :=
        fun w hw => hfree w (List.mem_cons_of_mem _ hw)
      have hzero : a = u → b = joinWith pat (v :: vs) →
          ∃ k, k + 1 < (u :: v :: vs).length ∧ a = joinWith pat ((u :: v :: vs).take (k + 1))
            ∧ b = joinWith pat ((u :: v :: vs).drop (k + 1)) := by
        intro ha hb'
        exact ⟨0, by simp, by simpa [joinWith] using ha, by simpa using hb'⟩
      have hnext : ∀ a'', a = u ++ (pat ++ a'') → joinWith pat (v :: vs) = a'' ++ (pat ++ b) →
          ∃ k, k + 1 < (u :: v :: vs).length ∧ a = joinWith pat ((u :: v :: vs).take (k + 1))
            ∧ b = joinWith pat ((u :: v :: vs).drop (k + 1)) := by
        intro a'' ha hT
        obtain ⟨k, hk, e1, e2⟩ := ih hfree' a'' hT
        refine ⟨k + 1, by simpa using hk, ?_, by simpa using e2⟩
        have e3 : (u :: v :: vs).take (k + 1 + 1) = u :: v :: vs.take k := by simp
        have e4 : (v :: vs).take (k + 1) = v :: vs.take k := by simp
        rw [e3, joinWith_cons_cons, ← e4, ← e1, ha]
      rw [joinWith_cons_cons] at h
      rcases List.append_eq_append_iff.1 h with ⟨a', ha, hX⟩ | ⟨c', hu, hY⟩
      · rcases List.append_eq_append_iff.1 hX with ⟨a'', ha', hT⟩ | ⟨c', hp, hb'⟩
        · exact hnext a'' (by rw [ha, ha']) hT
        · have h1 : c' <+: pat := by
            have p1 : c' <+: pat ++ b := ⟨_, hb'.symm⟩
            have p2 : pat <+: pat ++ b := List.prefix_append _ _
            apply List.prefix_of_prefix_length_le p1 p2
            rw [hp]
            simp
          rcases hb c' ⟨a', hp.symm⟩ h1 with h2 | h2
          · subst h2
            rw [List.append_nil] at hp
            rw [List.nil_append] at hb'
            exact hnext [] (by rw [ha, ← hp, List.append_nil])
              (by rw [List.nil_append]; exact hb'.symm)
          · subst h2
            have ha' : a' = [] := by
              have := congrArg List.length hp
              simp only [List.length_append] at this
              exact List.length_eq_zero.1 (by omega)
            subst ha'
            rw [List.append_nil] at ha
            exact hzero ha (List.append_cancel_left hb')
      · rcases List.append_eq_append_iff.1 hY with ⟨x, hc, -⟩ | ⟨y, hp, hT⟩
        · exact absurd ⟨a, x, by rw [hu, hc, List.append_assoc]⟩
            (hfree u (List.mem_cons_self _ _))
        · have h1 : y <+: pat := by
            have p1 : y <+: pat ++ joinWith pat (v :: vs) := ⟨_, hT.symm⟩
            have p2 : pat <+: pat ++ joinWith pat (v :: vs) := List.prefix_append _ _
            apply List.prefix_of_prefix_length_le p1 p2
            rw [hp]
            simp
          rcases hb y ⟨c', hp.symm⟩ h1 with h2 | h2
          · subst h2
            rw [List.append_nil] at hp
            exact absurd ⟨a, [], by rw [hu, ← hp, List.append_nil]⟩
              (hfree u (List.mem_cons_self _ _))
          · subst h2
            have hc' : c' = [] := by
              have := congrArg List.length hp
              simp only [List.length_append] at this
              exact List.length_eq_zero.1 (by omega)
            subst hc'
            rw [List.append_nil] at hu
            exact hzero hu.symm (List.append_cancel_left hT).symm

/-- C16: the result of `fixSpacedOps` holds no `else {`; the text is pieces without
`else {` joined by `else {`, every occurrence of `else {` in the text is one of these
separators, and the result is the same pieces joined by `else{`: the text with the
space of each `else {` deleted and nothing else changed. -/
theorem fixSpacedOps_contract (t : Str) :
    ¬ "else \x7b".toList <:+: fixSpacedOps t
      ∧ ∃ pieces : List Str, t = joinWith "else \x7b".toList pieces
          ∧ fixSpacedOps t = joinWith "else\x7b".toList pieces
          ∧ (∀ u ∈ pieces, ¬ "else \x7b".toList <:+: u)
          ∧ ∀ a b : Str, t = a ++ ("else \x7b".toList ++ b) →
              ∃ k, k + 1 < pieces.length
                ∧ a = joinWith "else \x7b".toList (pieces.take (k + 1))
                ∧ b = joinWith "else \x7b".toList (pieces.drop (k + 1)) := by
  refine ⟨fixSpacedOps_no_occurrence t, ?_⟩
  obtain ⟨pieces, -, h1, h2, h3⟩ := replaceAll_pieces ['e', 'l', 's', 'e', ' ', '\x7b']
    ['e', 'l', 's', 'e', '\x7b'] (by simp) t
  refine ⟨pieces, h1, h2, h3, ?_⟩
  intro a b hab
  exact occurrence_at_separator ['e', 'l', 's', 'e', ' ', '\x7b'] (by simp)
    (fun y hy => else_brace_no_border y ((List.mem_tails _ _).2 hy)) pieces h3 a b
    (h1.symm.trans hab)

/-- C16 at a text with one `else {` and one `else`, two spaces, `{`: only the first
loses its space. -/
theorem fixSpacedOps_contract_witness :
    ¬ "else \x7b".toList <:+: fixSpacedOps "\x7d else \x7bx\x7d else  \x7b".toList
      ∧ fixSpacedOps "\x7d else \x7bx\x7d else  \x7b".toList
        = "\x7d else\x7bx\x7d else  \x7b".toList :=
  ⟨(fixSpacedOps_contract _).1, by decide⟩

/-! ## The order of the operator table -/

/-- C11, the claim as stated fails: `=` is a proper substring of `==` and `<` of `<<=`,
both pairs are in the table, and in both the shorter operator comes first. -/
theorem ops_shorter_before_longer :
    "=".toList ∈ ops ∧ "==".toList ∈ ops ∧ "=".toList <:+: "==".toList
      ∧ "=".toList ≠ "==".toList ∧ ops.indexOf "=".toList < ops.indexOf "==".toList
      ∧ "<".toList ∈ ops ∧ "<<=".toList ∈ ops ∧ "<".toList <:+: "<<=".toList
      ∧ "<".toList ≠ "<<=".toList ∧ ops.indexOf "<".toList < ops.indexOf "<<=".toList := by
  decide

/-- C11 (amended): the loop of `minifySource` takes the operators in the order of the
table (whatever stands before an operator in the table has been applied to the line
when the operator is applied, whatever stands after it is applied later).  In the table
an operator that is a proper substring of another one comes after the longer one in
the ten cases of `longerFirst` and before it in every other case. -/
theorem ops_order :
    (∀ s ∈ ops, ∀ l ∈ ops, s <:+: l → s ≠ l →
        (ops.indexOf l < ops.indexOf s ↔ (l, s) ∈ longerFirst))
      ∧ (∀ (before after : List Str) (op line : Str), ops = before ++ op :: after →
          compactLine ops line
            = compactLine after (minifyOperator op (compactLine before line))) := by
  refine ⟨by decide, ?_⟩
  intro before after op line h
  rw [h, compactLine_append]
  rfl

/-- C11 (amended) at the pairs `<`, `<<=` (the shorter one first) and `<`, `<<` (the
longer one first). -/
theorem ops_order_witness :
    ("<".toList ∈ ops ∧ "<<=".toList ∈ ops ∧ "<".toList <:+: "<<=".toList
        ∧ "<".toList ≠ "<<=".toList
        ∧ (ops.indexOf "<<=".toList < ops.indexOf "<".toList
            ↔ ("<<=".toList, "<".toList) ∈ longerFirst))
      ∧ ops.indexOf "<".toList < ops.indexOf "<<=".toList
      ∧ ops.indexOf "<<".toList < ops.indexOf "<".toList :=
  ⟨⟨by decide, by decide, by decide, by decide,
      ops_order.1 "<".toList (by decide) "<<=".toList (by decide) (by decide) (by decide)⟩,
    by decide, by decide⟩

/-! ## A lone word -/

/-- C19, the claim as stated fails: the word `elsewhere` is made of letters only, and
`minifySource` returns `else where`; the word `else` itself comes back with a space
after it. -/
theorem minifySource_splits_word_with_else :
    (∀ c ∈ "elsewhere".toList, isWordChar c = true)
      ∧ minifySource "elsewhere".toList false false false = "else where".toList
      ∧ minifySource "else".toList false false false = "else ".toList := by
  decide

theorem minifySource_word (w : Str) (hw : ∀ c ∈ w, isPlainChar c = true)
    (he : ¬ ['e', 'l', 's', 'e'] <:+: w) : minifySource w false false false = w := by
  have hp : ∀ c ∈ w, isSpace c = false ∧ c ≠ '#' ∧ c ∉ opChars :=
    fun c hc => (isPlainChar_iff c).1 (hw c hc)
  have hR : ∀ c ∈ w, c ≠ ' ' ∧ c ≠ '\n' ∧ c ≠ '\t' :=
    fun c hc => ne_of_not_isSpace c (hp c hc).1
  have hnl : '\n' ∉ w := fun h => (hR _ h).2.1 rfl
  have hns : ' ' ∉ w := fun h => (hR _ h).1 rfl
  have hslash : '/' ∉ w := fun h => (hp _ h).2.2 (by decide)
  have hsplit := stringsSplit_of_no_newline w hnl
  have htab := replaceTabs_of_no_tab w (fun h => (hR _ h).2.2 rfl)
  have htrim : stringsTrimSpace w = w :=
    stringsTrimSpace_of_trimmed w (fun c hc => (hp c (List.mem_of_mem_head? hc)).1)
      (fun c hc => (hp c (List.mem_of_mem_getLast? hc)).1)
  have hhash : stringsHasPrefix w ['#'] = false := by
    rw [Bool.eq_false_iff]
    intro h
    have h1 := (hasPrefix_hash w).1 h
    exact (hp '#' (List.mem_of_mem_head? h1)).2.1 rfl
  have hcomp : compactLine ops w = w := by
    apply compactLine_id ops (fun _ h => h) w _ he
    intro c _
    unfold NoSpaceNextTo
    exact chain_of_no_space _ (fun a b ha hb => ⟨fun h => ha h.1, fun h => hb h.2⟩) w hns
  have h1 : ¬ ['/', '/'] <:+: w := fun h => hslash (h.subset (by simp))
  have h2 : ¬ ['/', '*'] <:+: w := fun h => hslash (h.subset (by simp))
  simp only [minifySource, minifiedLines, compactedLines, Bool.not_false, if_true, hsplit,
    clearWhitespaceFirstPass, List.map_cons, List.map_nil, htab, htrim,
    reinsertPreprocessorNewlines, hhash, foldl_map_lines, Bool.false_eq_true, if_false]
  rw [hcomp, removeInlineComments_of_clean _ hnl h1, removeMultilineComments_of_clean _ h2]
  simp [stringsJoin, fixDuplicateNewlines_of_no_newline _ hnl, fixSpacedOps_of_absent _ he]

/-- C19 (amended): a word made of letters, digits and underscores in which `else` does
not occur is returned unchanged by `minifySource` with all flags false. -/
theorem minifySource_identifier (w : Str) (hw : ∀ c ∈ w, isWordChar c = true)
    (he : ¬ "else".toList <:+: w) : minifySource w false false false = w :=
  minifySource_word w (fun c hc => isPlainChar_of_isWordChar c (hw c hc)) he

/-- C19 (amended) at the words `counter_2` and `elsif`. -/
theorem minifySource_identifier_witness :
    (∀ c ∈ "counter_2".toList, isWordChar c = true)
      ∧ ¬ "else".toList <:+: "counter_2".toList
      ∧ minifySource "counter_2".toList false false false = "counter_2".toList
      ∧ minifySource "elsif".toList false false false = "elsif".toList :=
  ⟨by decide, by decide, minifySource_identifier _ (by decide) (by decide), by decide⟩

/-! ## Text without comments: only white space changes -/

/-- C12, the claim as stated fails: the source `a / / b` contains none of `//`, `/*`,
`*/`; the operator loop makes `a//b` of it, the inline pass cuts that down to `a`, and
the characters `//b` are lost. -/
theorem minifySource_builds_inline_comment :
    ¬ ['/', '/'] <:+: "a / / b".toList ∧ ¬ ['/', '*'] <:+: "a / / b".toList
      ∧ ¬ ['*', '/'] <:+: "a / / b".toList
      ∧ minifySource "a / / b".toList false false false = "a".toList
      ∧ (minifySource "a / / b".toList false false false).filter (fun c => !isSpace c)
        ≠ "a / / b".toList.filter (fun c => !isSpace c) := by
  decide

theorem stringsSplit_head (s : Str) : ∃ l ls, stringsSplit s = l :: ls ∧ l <+: s := by
  induction s with
  | nil => exact ⟨[], [], rfl, List.prefix_refl _⟩
  | cons c cs ih =>
    obtain ⟨l, ls, h1, h2⟩ := ih
    by_cases hc : c = '\n'
    · exact ⟨[], stringsSplit cs, by simp [stringsSplit, hc], List.nil_prefix⟩
    · refine ⟨c :: l, ls, by simp [stringsSplit, hc, h1], ?_⟩
      obtain ⟨z, hz⟩ := h2
      exact ⟨z, by simp [← hz]⟩

theorem line_within (s l : Str) (hl : l ∈ stringsSplit s) : l <:+: s := by
  induction s generalizing l with
  | nil =>
    simp only [stringsSplit, List.mem_singleton] at hl
    rw [hl]
  | cons c cs ih =>
    by_cases hc : c = '\n'
    · simp only [stringsSplit, hc, if_true, List.mem_cons] at hl
      rcases hl with h | h
      · rw [h]
        exact List.nil_infix
      · exact List.infix_cons (ih l h)
    · obtain ⟨l0, ls, h1, h2⟩ := stringsSplit_head cs
      simp only [stringsSplit, hc, if_false, h1, List.mem_cons] at hl
      rcases hl with h | h
      · rw [h]
        obtain ⟨z, hz⟩ := h2
        exact ⟨[], z, by simp [← hz]⟩
      · exact List.infix_cons (ih l (by rw [h1]; exact List.mem_cons_of_mem _ h))

theorem stringsTrimSpace_within (y : Str) : stringsTrimSpace y <:+: y := by
  unfold stringsTrimSpace
  have h1 : ((y.dropWhile isSpace).reverse.dropWhile isSpace).reverse
      <+: y.dropWhile isSpace := by
    have := List.dropWhile_suffix isSpace (l := (y.dropWhile isSpace).reverse)
    have h := List.reverse_prefix.2 this
    rwa [List.reverse_reverse] at h
  exact h1.isInfix.trans (List.dropWhile_suffix isSpace).isInfix

theorem despace_replaceTabs (l : Str) :
    despace (replaceTabs l) = l.filter (fun c => c != ' ' && c != '\t') := by
  induction l with
  | nil => rfl
  | cons c cs ih =>
    have e0 : replaceTabs (c :: cs) = (if c = '\t' then ' ' else c) :: replaceTabs cs := rfl
    rw [e0]
    unfold despace at ih ⊢
    rw [List.filter_cons, List.filter_cons, ih]
    by_cases h1 : c = '\t'
    · subst h1
      simp
    · by_cases h2 : c = ' '
      · subst h2
        simp
      · simp [h1, h2]

theorem filter_despace (l : Str) :
    (despace l).filter (fun c => !isSpace c) = l.filter (fun c => !isSpace c) := by
  unfold despace
  rw [List.filter_filter]
  apply List.filter_congr
  intro c _
  by_cases hc : c = ' '
  · subst hc
    decide
  · simp [hc]

theorem filter_snoc_newline (x : Str) :
    (x ++ ['\n']).filter (fun c => !isSpace c) = x.filter (fun c => !isSpace c) := by
  rw [List.filter_append]
  have : ['\n'].filter (fun c => !isSpace c) = [] := by decide
  rw [this, List.append_nil]

theorem removeEverythingPast_of_no_marker (sub l : Str) (h : ¬ sub <:+: l) :
    removeEverythingPast sub l = l := by
  unfold removeEverythingPast
  apply regexpReplaceAll_id
  intro t ht
  have : ¬ sub <+: t := fun hp => h (hp.isInfix.trans ht.isInfix)
  simp [matchPast, List.isPrefixOf_iff_prefix, this]

/-- What reaches the block-comment pass from a line of the source: the same characters
other than white space; and a marker of two characters in it stands already in the line
once spaces and tabs are taken out. -/
theorem compactedLine_facts (l : Str)
    (h1 : ¬ ['/', '/'] <:+: l.filter (fun c => c != ' ' && c != '\t')) :
    (compactedLine l).filter (fun c => !isSpace c) = l.filter (fun c => !isSpace c)
      ∧ ∀ a b : Char, a ≠ ' ' → b ≠ ' ' → a ≠ '\n' → b ≠ '\n' →
          [a, b] <:+: compactedLine l →
          [a, b] <:+: l.filter (fun c => c != ' ' && c != '\t') := by
  have hx : despace (stringsTrimSpace (replaceTabs l))
      <:+: l.filter (fun c => c != ' ' && c != '\t') := by
    rw [← despace_replaceTabs]
    exact List.IsInfix.filter _ (stringsTrimSpace_within _)
  have hN : (stringsTrimSpace (replaceTabs l)).filter (fun c => !isSpace c)
      = l.filter (fun c => !isSpace c) := by
    rw [filter_stringsTrimSpace, filter_replaceTabs]
  have key : ∀ y : Str, (y = stringsTrimSpace (replaceTabs l)
        ∨ y = stringsTrimSpace (replaceTabs l) ++ ['\n']) →
      (removeEverythingPast ['/', '/'] (compactLine ops y)).filter (fun c => !isSpace c)
          = l.filter (fun c => !isSpace c)
        ∧ ∀ a b : Char, a ≠ ' ' → b ≠ ' ' → a ≠ '\n' → b ≠ '\n' →
            [a, b] <:+: removeEverythingPast ['/', '/'] (compactLine ops y) →
            [a, b] <:+: l.filter (fun c => c != ' ' && c != '\t') := by
    intro y hy
    have hd := despace_compactLine ops (fun _ h => h) y
    have hyd : ∀ a b : Char, a ≠ '\n' → b ≠ '\n' → [a, b] <:+: despace y →
        [a, b] <:+: l.filter (fun c => c != ' ' && c != '\t') := by
      intro a b ha hb hi
      rcases hy with rfl | rfl
      · exact hi.trans hx
      · rw [despace_append] at hi
        have e : despace ['\n'] = '\n' :: [] := by decide
        rw [e] at hi
        have hm : '\n' ∉ [a, b] := by
          intro hm
          simp only [List.mem_cons, List.mem_singleton, List.not_mem_nil, or_false] at hm
          rcases hm with h | h
          · exact ha h.symm
          · exact hb h.symm
        rcases infix_sep _ _ _ _ hm hi with h | h
        · exact h.trans hx
        · have := List.infix_nil.1 h
          exact absurd this (by simp)
    have hyN : y.filter (fun c => !isSpace c) = l.filter (fun c => !isSpace c) := by
      rcases hy with rfl | rfl
      · exact hN
      · rw [filter_snoc_newline, hN]
    generalize compactLine ops y = T at hd ⊢
    have hT : ∀ a b : Char, a ≠ ' ' → b ≠ ' ' → a ≠ '\n' → b ≠ '\n' → [a, b] <:+: T →
        [a, b] <:+: l.filter (fun c => c != ' ' && c != '\t') := by
      intro a b ha hb ha' hb' hi
      have hsp : ' ' ∉ [a, b] := by
        intro hm
        simp only [List.mem_cons, List.mem_singleton, List.not_mem_nil, or_false] at hm
        rcases hm with h | h
        · exact ha h.symm
        · exact hb h.symm
      have := infix_despace _ _ hsp hi
      rw [hd] at this
      exact hyd a b ha' hb' this
    have hno : ¬ ['/', '/'] <:+: T :=
      fun hi => h1 (hT '/' '/' (by decide) (by decide) (by decide) (by decide) hi)
    rw [removeEverythingPast_of_no_marker _ _ hno]
    refine ⟨?_, hT⟩
    rw [← filter_despace, hd, filter_despace, hyN]
  unfold compactedLine
  split_ifs
  · exact key _ (Or.inr rfl)
  · exact key _ (Or.inl rfl)

theorem filter_joinWith (f : Char → Bool) (sep : Str) (pieces : List Str) :
    (joinWith sep pieces).filter f = joinWith (sep.filter f) (pieces.map (List.filter f)) := by
  induction pieces with
  | nil => rfl
  | cons u us ih =>
    cases us with
    | nil => rfl
    | cons v vs =>
      rw [joinWith_cons_cons, List.filter_append, List.filter_append, ih]
      rfl

theorem filter_fixSpacedOps (t : Str) :
    (fixSpacedOps t).filter (fun c => !isSpace c) = t.filter (fun c => !isSpace c) := by
  obtain ⟨pieces, -, h1, h2, -⟩ := replaceAll_pieces ['e', 'l', 's', 'e', ' ', '\x7b']
    ['e', 'l', 's', 'e', '\x7b'] (by simp) t
  have h3 : fixSpacedOps t = joinWith ['e', 'l', 's', 'e', '\x7b'] pieces := h2
  rw [h3]
  conv_rhs => rw [h1]
  rw [filter_joinWith, filter_joinWith]
  rfl

theorem minifySource_visible (s : Str)
    (h1 : ¬ ['/', '/'] <:+: s.filter (fun c => c != ' ' && c != '\t'))
    (h2 : ¬ ['/', '*'] <:+: s.filter (fun c => c != ' ' && c != '\t')) :
    (minifySource s false false false).filter (fun c => !isSpace c)
      = s.filter (fun c => !isSpace c) := by
  have hline : ∀ l ∈ stringsSplit s,
      (compactedLine l).filter (fun c => !isSpace c) = l.filter (fun c => !isSpace c)
        ∧ ¬ ['/', '*'] <:+: compactedLine l := by
    intro l hl
    have hin : l.filter (fun c => c != ' ' && c != '\t')
        <:+: s.filter (fun c => c != ' ' && c != '\t') :=
      List.IsInfix.filter _ (line_within s l hl)
    obtain ⟨hN, hM⟩ := compactedLine_facts l (fun hi => h1 (hi.trans hin))
    exact ⟨hN, fun hi => h2 ((hM '/' '*' (by decide) (by decide) (by decide) (by decide) hi).trans
      hin)⟩
  have hpass : removeMultilineComments ((stringsSplit s).map compactedLine)
      = (stringsSplit s).map compactedLine := by
    have := removeMultilineCommentsFrom_outside ((stringsSplit s).map compactedLine) [] (by
      intro l hl
      obtain ⟨l0, hl0, rfl⟩ := List.mem_map.1 hl
      exact (hline l0 hl0).2)
    simpa [removeMultilineComments, removeMultilineCommentsFrom] using this
  have hout : minifySource s false false false
      = fixSpacedOps (fixDuplicateNewlines ((stringsSplit s).map compactedLine).flatten) := by
    simp only [minifySource, minifiedLines, stringsJoin, Bool.not_false, if_true,
      compactedLines_map, hpass]
  have e2 : ∀ x : Str, (fixDuplicateNewlines x).filter (fun c => !isSpace c)
      = x.filter (fun c => !isSpace c) := by
    intro x
    rw [fixDuplicateNewlines_eq]
    exact filter_collapseRuns (fun c => !isSpace c) (by decide) false x
  have e3 : (((stringsSplit s).map compactedLine).flatten).filter (fun c => !isSpace c)
      = s.filter (fun c => !isSpace c) := by
    rw [List.filter_flatten, List.map_map]
    conv_rhs => rw [← filter_split]
    exact congrArg List.flatten (List.map_congr_left (fun l hl => (hline l hl).1))
  rw [hout, filter_fixSpacedOps, e2, e3]

/-- C12 (amended): if none of `//`, `/*`, `*/` occurs in the source once its spaces and
tabs are taken out, then `minifySource` with all flags false changes white space only:
with all white space deleted, the output and the source are the same text. -/
theorem minifySource_changes_whitespace_only (s : Str)
    (h1 : ¬ ['/', '/'] <:+: s.filter (fun c => c != ' ' && c != '\t'))
    (h2 : ¬ ['/', '*'] <:+: s.filter (fun c => c != ' ' && c != '\t'))
    (_h3 : ¬ ['*', '/'] <:+: s.filter (fun c => c != ' ' && c != '\t')) :
    (minifySource s false false false).filter (fun c => !isSpace c)
      = s.filter (fun c => !isSpace c) :=
  minifySource_visible s h1 h2

/-- C12 (amended) at a source of a directive and two lines of code. -/
theorem minifySource_changes_whitespace_only_witness :
    ¬ ['/', '/'] <:+: "#define N 4\n\tint x = a / b ;\n  x += N * 2 ;".toList.filter
        (fun c => c != ' ' && c != '\t')
      ∧ ¬ ['/', '*'] <:+: "#define N 4\n\tint x = a / b ;\n  x += N * 2 ;".toList.filter
        (fun c => c != ' ' && c != '\t')
      ∧ ¬ ['*', '/'] <:+: "#define N 4\n\tint x = a / b ;\n  x += N * 2 ;".toList.filter
        (fun c => c != ' ' && c != '\t')
      ∧ (minifySource "#define N 4\n\tint x = a / b ;\n  x += N * 2 ;".toList
          false false false).filter (fun c => !isSpace c)
        = "#define N 4\n\tint x = a / b ;\n  x += N * 2 ;".toList.filter (fun c => !isSpace c)
      ∧ minifySource "#define N 4\n\tint x = a / b ;\n  x += N * 2 ;".toList false false false
        = "#define N 4\nint x=a/b;x+=N*2;".toList :=
  ⟨by decide, by decide, by decide,
    minifySource_changes_whitespace_only _ (by decide) (by decide) (by decide), by decide⟩

/-! ## Texts that a further run leaves alone -/

theorem regexpReplaceGo_split (m : Str → Option Nat) (rep v : Str)
    (h2 : ∀ (u : Str) (n : Nat), m u = some n → n ≤ u.length) (t : Str)
    (h1 : ∀ u : Str, u ≠ [] → u <:+ t → m (u ++ v) = m u) (k : Nat) (hk : k ≤ t.length) :
    regexpReplaceGo m rep k (t ++ v)
      = regexpReplaceGo m rep k t ++ regexpReplaceGo m rep 0 v := by
  induction t generalizing k with
  | nil =>
    have : k = 0 := by simpa using hk
    subst this
    simp [regexpReplaceGo]
  | cons c cs ih =>
    have h1' : ∀ u : Str, u ≠ [] → u <:+ cs → m (u ++ v) = m u :=
      fun u hu hs => h1 u hu (hs.trans (List.suffix_cons c cs))
    cases k with
    | zero =>
      have e := h1 (c :: cs) (by simp) (List.suffix_refl _)
      simp only [List.cons_append] at e ⊢
      cases hm : m (c :: cs) with
      | none =>
        simp only [regexpReplaceGo, e, hm]
        rw [ih h1' 0 (Nat.zero_le _)]
        simp
      | some n =>
        have hn := h2 _ _ hm
        simp only [List.length_cons] at hn
        simp only [regexpReplaceGo, e, hm]
        rw [ih h1' (n - 1) (by omega)]
        simp
    | succ k =>
      simp only [List.cons_append, regexpReplaceGo]
      exact ih h1' k (by simpa using hk)

theorem leadingSpaces_append (u v : Str) (hv : ∀ c ∈ v.head?, c ≠ ' ') :
    leadingSpaces (u ++ v) = leadingSpaces u := by
  induction u with
  | nil =>
    cases v with
    | nil => rfl
    | cons y ys => exact leadingSpaces_cons_ne y ys (hv y (by simp))
  | cons c cs ih =>
    by_cases hc : c = ' '
    · subst hc
      rw [List.cons_append, leadingSpaces_cons_space, leadingSpaces_cons_space, ih]
    · rw [List.cons_append, leadingSpaces_cons_ne c _ hc, leadingSpaces_cons_ne c _ hc]

theorem isPrefixOf_append_barrier (op r v : Str) (hop : op ≠ [])
    (hv : ∀ c ∈ v.head?, c ∉ op) : op.isPrefixOf (r ++ v) = op.isPrefixOf r := by
  induction op generalizing r with
  | nil => exact absurd rfl hop
  | cons o os ih =>
    cases r with
    | nil =>
      cases v with
      | nil => rfl
      | cons y ys =>
        have : o ≠ y := fun e => hv y (by simp) (by simp [e])
        simp [List.isPrefixOf, this]
    | cons c cs =>
      by_cases hos : os = []
      · subst hos
        simp [List.isPrefixOf]
      · have := ih cs hos (fun y hy hm => hv y hy (List.mem_cons_of_mem _ hm))
        simp only [List.cons_append, List.isPrefixOf, List.append_eq, this]

/-- A match of ` *op *` does not look past a character that is neither a space nor part
of `op`. -/
theorem matchSpacedOp_append (op u v : Str) (hop : op ≠ [])
    (hv : ∀ c ∈ v.head?, c ≠ ' ' ∧ c ∉ op) :
    matchSpacedOp op (u ++ v) = matchSpacedOp op u := by
  have hl := leadingSpaces_append u v (fun c hc => (hv c hc).1)
  have hk := leadingSpaces_le u
  simp only [matchSpacedOp, hl, List.drop_append_of_le_length hk,
    isPrefixOf_append_barrier op _ v hop (fun c hc => (hv c hc).2)]
  by_cases hp : op.isPrefixOf (List.drop (leadingSpaces u) u) = true
  · have hle := (List.isPrefixOf_iff_prefix.1 hp).length_le
    simp only [hp, if_true, List.drop_append_of_le_length hle,
      leadingSpaces_append _ v (fun c hc => (hv c hc).1)]
  · simp [hp]

theorem matchSpacedOp_of_head (op : Str) (c : Char) (rest : Str) (hc : c ≠ ' ')
    (ho : op.head? ≠ some c) (hop : op ≠ []) : matchSpacedOp op (c :: rest) = none := by
  cases op with
  | nil => exact absurd rfl hop
  | cons o os =>
    have : o ≠ c := fun e => ho (by simp [e])
    simp [matchSpacedOp, leadingSpaces_cons_ne c rest hc, List.isPrefixOf, this]

theorem replace_space_cons_of_match (op rep Y : Str) (hop : op ≠ []) (n : Nat)
    (h : matchSpacedOp op Y = some n) :
    regexpReplaceAll (matchSpacedOp op) rep (' ' :: Y)
      = regexpReplaceAll (matchSpacedOp op) rep Y := by
  obtain ⟨k, k', rest, hl, -, hn⟩ := matchSpacedOp_decomp op Y n h
  have hpos : 0 < n := by
    have := List.length_pos.2 hop
    rw [hn]
    simp only [List.length_append]
    omega
  cases Y with
  | nil =>
    have := congrArg List.length hl
    have := List.length_pos.2 hop
    simp at *
    omega
  | cons c cs =>
    have h' : matchSpacedOp op (' ' :: c :: cs) = some (n + 1) := by
      rw [matchSpacedOp_space_cons, h]
      rfl
    simp only [regexpReplaceAll, regexpReplaceGo, h, h']
    obtain ⟨n', rfl⟩ : ∃ n', n = n' + 1 := ⟨n - 1, by omega⟩
    simp [regexpReplaceGo]

theorem ops_not_in_else : ∀ op ∈ ops, op ≠ ['e', 'l', 's', 'e'] →
    op ≠ [] ∧ 'e' ∉ op ∧ 'l' ∉ op ∧ 's' ∉ op ∧ ' ' ∉ op := by decide

theorem replace_plain (op : Str) (hop : op ∈ ops) (hne : op ≠ ['e', 'l', 's', 'e']) (x : Str)
    (hx : Plain x) : regexpReplaceAll (matchSpacedOp op) op x = x := by
  obtain ⟨hne', -⟩ := ops_wellformed op hop
  obtain ⟨o, os', hos'⟩ := List.exists_cons_of_ne_nil hne'
  rcases List.eq_nil_or_concat op with h | ⟨init, z, hz⟩
  · exact absurd h hne'
  · have ho1 := (ops_chars op hop hne o (by rw [hos']; simp)).1
    have hz1 := (ops_chars op hop hne z (by rw [hz]; simp)).1
    exact replace_id op x o z (by rw [hos']; rfl) (by rw [hz]; simp) (hx o ho1).1 (hx z hz1).2

theorem render_eq (x : Str) (ps : List (Bool × Str)) :
    ∃ tail, render x ps = x ++ tail ∧ ∀ c ∈ tail.head?, c = 'e' := by
  cases ps with
  | nil => exact ⟨[], by simp [render], by simp⟩
  | cons p rest => exact ⟨_, rfl, by simp⟩

theorem render_head (x : Str) (ps : List (Bool × Str)) (hx : x.head? ≠ some ' ') :
    ∀ c ∈ (render x ps).head?, c ≠ ' ' := by
  obtain ⟨tail, e, ht⟩ := render_eq x ps
  rw [e]
  intro c hc
  cases x with
  | nil =>
    rw [List.nil_append] at hc
    rw [ht c hc]
    decide
  | cons a as =>
    simp only [List.cons_append, List.head?_cons, Option.mem_def, Option.some.injEq] at hc
    subst hc
    exact fun e => hx (by simp [e])

theorem isPrefixOf_render (op x : Str) (ps : List (Bool × Str)) (hop : op ≠ [])
    (he : 'e' ∉ op) : op.isPrefixOf (render x ps) = op.isPrefixOf x := by
  obtain ⟨tail, e, ht⟩ := render_eq x ps
  rw [e]
  exact isPrefixOf_append_barrier op x tail hop (fun c hc => by rw [ht c hc]; exact he)

/-- A plain operator works on each side of an `else` separately. -/
theorem replace_around_else (op : Str) (hop : op ∈ ops) (hne : op ≠ ['e', 'l', 's', 'e'])
    (x0 W : Str) :
    regexpReplaceAll (matchSpacedOp op) op (x0 ++ (['e', 'l', 's', 'e'] ++ W))
      = regexpReplaceAll (matchSpacedOp op) op x0
        ++ (['e', 'l', 's', 'e'] ++ regexpReplaceAll (matchSpacedOp op) op W) := by
  obtain ⟨h0, he, hl, hs, hsp⟩ := ops_not_in_else op hop hne
  have hh : ∀ c : Char, c = 'e' ∨ c = 'l' ∨ c = 's' → op.head? ≠ some c := by
    intro c hc hh
    have := List.mem_of_mem_head? hh
    rcases hc with rfl | rfl | rfl
    · exact he this
    · exact hl this
    · exact hs this
  have e1 : regexpReplaceAll (matchSpacedOp op) op (['e', 'l', 's', 'e'] ++ W)
      = ['e', 'l', 's', 'e'] ++ regexpReplaceAll (matchSpacedOp op) op W := by
    apply regexpReplaceAll_front
    intro a u hu
    have hmem : a = 'e' ∨ a = 'l' ∨ a = 's' := by
      have : a ∈ ['e', 'l', 's', 'e'] := hu.subset (List.mem_cons_self _ _)
      simp only [List.mem_cons, List.mem_singleton, List.not_mem_nil, or_false] at this
      tauto
    have ha : a ≠ ' ' := by
      rcases hmem with rfl | rfl | rfl <;> decide
    exact matchSpacedOp_of_head op a _ ha (hh a hmem) h0
  unfold regexpReplaceAll at e1 ⊢
  rw [regexpReplaceGo_split _ _ _ (matchSpacedOp_le op) x0
    (fun u _ _ => matchSpacedOp_append op u _ h0 (by
      intro c hc
      simp only [List.cons_append, List.head?_cons, Option.mem_def, Option.some.injEq] at hc
      subst hc
      exact ⟨by decide, he⟩)) 0 (Nat.zero_le _), e1]

theorem piecesOK_cons (x0 : Str) (p : Bool × Str) (rest : List (Bool × Str)) :
    PiecesOK x0 (p :: rest)
      ↔ (Plain x0 ∧ ¬ ['e', 'l', 's', 'e'] <:+: x0 ++ ['e', 'l', 's']
          ∧ x0.getLast? ≠ some ' ' ∧ p.2.head? ≠ some ' ' ∧ PiecesOK p.2 rest) := Iff.rfl

theorem render_cons (x0 : Str) (p : Bool × Str) (rest : List (Bool × Str)) :
    render x0 (p :: rest)
      = x0 ++ (['e', 'l', 's', 'e'] ++ ((if p.1 then [' '] else []) ++ render p.2 rest)) := rfl

/-- The flags of the pieces do not matter for `PiecesOK`. -/
theorem piecesOK_map (f : Bool × Str → Bool) (x0 : Str) (ps : List (Bool × Str))
    (h : PiecesOK x0 ps) : PiecesOK x0 (ps.map (fun p => (f p, p.2))) := by
  induction ps generalizing x0 with
  | nil => exact h
  | cons p rest ih =>
    rw [piecesOK_cons] at h
    rw [List.map_cons, piecesOK_cons]
    exact ⟨h.1, h.2.1, h.2.2.1, h.2.2.2.1, ih _ h.2.2.2.2⟩

/-- A plain operator on pieces joined by `else`: the space after an `else` goes when the
piece after it begins with the operator; nothing else changes. -/
theorem replace_render (op : Str) (hop : op ∈ ops) (hne : op ≠ ['e', 'l', 's', 'e'])
    (x0 : Str) (ps : List (Bool × Str)) (h : PiecesOK x0 ps) :
    regexpReplaceAll (matchSpacedOp op) op (render x0 ps)
      = render x0 (ps.map (fun p => (p.1 && !op.isPrefixOf p.2, p.2))) := by
  obtain ⟨h0, he, -, -, -⟩ := ops_not_in_else op hop hne
  induction ps generalizing x0 with
  | nil => exact replace_plain op hop hne x0 h.1
  | cons p rest ih =>
    rw [piecesOK_cons] at h
    obtain ⟨hP, -, -, hhead, hrest⟩ := h
    have hrec := ih p.2 hrest
    rw [List.map_cons, render_cons, render_cons, replace_around_else op hop hne,
      replace_plain op hop hne x0 hP]
    refine congrArg (fun z => x0 ++ (['e', 'l', 's', 'e'] ++ z)) ?_
    have hY := render_head p.2 rest hhead
    have hls : leadingSpaces (render p.2 rest) = 0 := by
      cases hr : render p.2 rest with
      | nil => rfl
      | cons c cs => exact leadingSpaces_cons_ne c cs (hY c (by rw [hr]; simp))
    have hm : matchSpacedOp op (render p.2 rest)
        = if op.isPrefixOf p.2 = true then
            some (op.length + leadingSpaces ((render p.2 rest).drop op.length))
          else none := by
      simp only [matchSpacedOp, hls, List.drop_zero, isPrefixOf_render op p.2 rest h0 he,
        Nat.zero_add]
    cases hb : p.1 with
    | false => simpa using hrec
    | true =>
      by_cases hp : op.isPrefixOf p.2 = true
      · rw [if_pos hp] at hm
        simp only [hp, Bool.not_true, Bool.and_false, Bool.false_eq_true, if_false, if_true,
          List.nil_append, List.singleton_append]
        rw [replace_space_cons_of_match op op _ h0 _ hm, hrec]
      · rw [if_neg hp] at hm
        have hp' : op.isPrefixOf p.2 = false := Bool.eq_false_iff.2 hp
        have hm' : matchSpacedOp op (' ' :: render p.2 rest) = none := by
          rw [matchSpacedOp_space_cons, hm]
          rfl
        simp only [hp', Bool.not_false, Bool.and_true, if_true, List.singleton_append]
        rw [regexpReplaceAll_cons_none _ _ _ _ hm', hrec]

/-- The loop over plain operators on pieces joined by `else`. -/
theorem compactLine_render (os : List Str) (hos : ∀ op ∈ os, op ∈ ops)
    (hne : ['e', 'l', 's', 'e'] ∉ os) (x0 : Str) (ps : List (Bool × Str))
    (h : PiecesOK x0 ps) :
    compactLine os (render x0 ps)
      = render x0 (ps.map (fun p => (p.1 && !os.any (fun op => op.isPrefixOf p.2), p.2))) := by
  induction os generalizing ps with
  | nil =>
    have : ps.map (fun p => (p.1 && !([] : List Str).any (fun op => op.isPrefixOf p.2), p.2))
        = ps := by
      conv_rhs => rw [← List.map_id ps]
      apply List.map_congr_left
      intro p _
      simp
    rw [this]
    rfl
  | cons op os ih =>
    have hop := hos op (List.mem_cons_self _ _)
    have hne1 : op ≠ ['e', 'l', 's', 'e'] := fun e => hne (e ▸ List.mem_cons_self _ _)
    have e : compactLine (op :: os) (render x0 ps)
        = compactLine os (minifyOperator op (render x0 ps)) := rfl
    rw [e, minifyOperator_plain op _ hne1, replace_render op hop hne1 x0 ps h,
      ih (fun o ho => hos o (List.mem_cons_of_mem _ ho))
        (fun hm => hne (List.mem_cons_of_mem _ hm)) _ (piecesOK_map _ x0 ps h), List.map_map]
    refine congrArg (render x0) (List.map_congr_left ?_)
    intro p _
    simp only [Function.comp_apply, List.any_cons, Bool.not_or, Bool.and_assoc]

theorem leadingSpaces_lt (w : Str) (z : Char) (hz : w.getLast? = some z) (hzs : z ≠ ' ') :
    leadingSpaces w < w.length := by
  induction w with
  | nil => simp at hz
  | cons c cs ih =>
    by_cases hc : c = ' '
    · subst hc
      rw [leadingSpaces_cons_space, List.length_cons]
      cases cs with
      | nil =>
        simp only [List.getLast?_singleton, Option.some.injEq] at hz
        exact absurd hz.symm hzs
      | cons d ds =>
        rw [List.getLast?_cons_cons] at hz
        have := ih hz
        omega
    · rw [leadingSpaces_cons_ne c cs hc]
      simp

/-- An `else` that begins inside `w` and runs into a following `else` is already seen
with the first three characters of that `else`. -/
theorem else_front (w Z : Str) (hw : w ≠ [])
    (h : ['e', 'l', 's', 'e'] <+: w ++ (['e', 'l', 's', 'e'] ++ Z)) :
    ['e', 'l', 's', 'e'] <+: w ++ ['e', 'l', 's'] := by
  rw [List.prefix_iff_eq_take] at h ⊢
  rw [h]
  match w, hw with
  | [a], _ => simp
  | [a, b], _ => simp
  | [a, b, c], _ => simp
  | a :: b :: c :: d :: w', _ => simp

/-- No match of ` *else *` begins inside a piece that stands before an `else`. -/
theorem matchElse_front (x0 R : Str) (hE : ¬ ['e', 'l', 's', 'e'] <:+: x0 ++ ['e', 'l', 's'])
    (hlast : x0.getLast? ≠ some ' ') (a : Char) (u : Str) (hu : a :: u <:+ x0) :
    matchSpacedOp ['e', 'l', 's', 'e'] (a :: u ++ (['e', 'l', 's', 'e'] ++ R)) = none := by
  have hz : ∃ z, (a :: u).getLast? = some z ∧ z ≠ ' ' := by
    obtain ⟨pre, hpre⟩ := hu
    refine ⟨(a :: u).getLast (by simp), List.getLast?_eq_getLast _ _, ?_⟩
    intro e
    apply hlast
    rw [← hpre, List.getLast?_append_of_ne_nil _ (by simp), List.getLast?_eq_getLast _ (by simp), e]
  obtain ⟨z, hz1, hz2⟩ := hz
  have hlt := leadingSpaces_lt (a :: u) z hz1 hz2
  have hl : leadingSpaces (a :: u ++ (['e', 'l', 's', 'e'] ++ R)) = leadingSpaces (a :: u) :=
    leadingSpaces_append _ _ (by simp)
  simp only [matchSpacedOp, hl, List.drop_append_of_le_length (Nat.le_of_lt hlt)]
  rw [if_neg]
  intro hp
  have hp' := List.isPrefixOf_iff_prefix.1 hp
  have hne : List.drop (leadingSpaces (a :: u)) (a :: u) ≠ [] := by
    intro e
    have := congrArg List.length e
    simp only [List.length_drop, List.length_nil] at this
    omega
  have h1 := else_front _ R hne hp'
  apply hE
  have hsuf : List.drop (leadingSpaces (a :: u)) (a :: u) <:+ x0 :=
    (List.drop_suffix _ _).trans hu
  obtain ⟨pre, hpre⟩ := hsuf
  obtain ⟨post, hpost⟩ := h1
  exact ⟨pre, post, by rw [← hpre]; simp [← hpost]⟩

/-- The operator `else` on pieces joined by `else`: every `else` gets its one space. -/
theorem else_render (x0 : Str) (ps : List (Bool × Str)) (h : PiecesOK x0 ps) :
    regexpReplaceAll (matchSpacedOp ['e', 'l', 's', 'e']) ['e', 'l', 's', 'e', ' ']
        (render x0 ps)
      = render x0 (ps.map (fun p => (true, p.2))) := by
  induction ps generalizing x0 with
  | nil => exact replace_of_absent _ _ _ h.2
  | cons p rest ih =>
    rw [piecesOK_cons] at h
    obtain ⟨-, hE, hlast, hhead, hrest⟩ := h
    have hrec := ih p.2 hrest
    rw [List.map_cons, render_cons, render_cons,
      regexpReplaceAll_front _ _ x0 _ (fun a u hu => matchElse_front x0 _ hE hlast a u hu)]
    refine congrArg (fun z => x0 ++ z) ?_
    have hY := render_head p.2 rest hhead
    have hls : leadingSpaces (render p.2 rest) = 0 := by
      cases hr : render p.2 rest with
      | nil => rfl
      | cons c cs => exact leadingSpaces_cons_ne c cs (hY c (by rw [hr]; simp))
    have hm : matchSpacedOp ['e', 'l', 's', 'e']
        ((['e', 'l', 's', 'e'] ++ (if p.1 = true then [' '] else [])) ++ render p.2 rest)
        = some (['e', 'l', 's', 'e'] ++ (if p.1 = true then [' '] else [])).length := by
      cases p.1 with
      | false =>
        simp [matchSpacedOp, leadingSpaces_cons_ne, hls]
      | true =>
        simp [matchSpacedOp, leadingSpaces_cons_ne, leadingSpaces_cons_space, hls]
    have := regexpReplaceAll_match _ ['e', 'l', 's', 'e', ' '] _ _ (by simp) hm
    rw [List.append_assoc] at this
    rw [this, hrec]
    rfl

theorem render_head_eq (x : Str) (ps : List (Bool × Str)) (c : Char) (hc : c ≠ 'e') :
    (render x ps).head? = some c ↔ x.head? = some c := by
  obtain ⟨tail, e, ht⟩ := render_eq x ps
  rw [e]
  cases x with
  | nil =>
    simp only [List.nil_append, List.head?_nil]
    constructor
    · intro h
      exact absurd (ht c h) hc
    · intro h
      simp at h
  | cons a as => simp

/-- The pass `fixSpacedOps` on pieces joined by `else`: the space after an `else` goes
when the piece after it begins with an opening brace. -/
theorem fixSpacedOps_render (x0 : Str) (ps : List (Bool × Str)) (h : PiecesOK x0 ps)
    (hf : ∀ p ∈ ps, p.1 = false → p.2.head? ≠ some 'l') :
    fixSpacedOps (render x0 ps)
      = render x0 (ps.map (fun p => (p.1 && !(p.2.head? == some '\x7b'), p.2))) := by
  induction ps generalizing x0 with
  | nil => exact fixSpacedOps_of_absent x0 h.2
  | cons p rest ih =>
    rw [piecesOK_cons] at h
    obtain ⟨-, hE, hlast, hhead, hrest⟩ := h
    have hrec := ih p.2 hrest (fun q hq => hf q (List.mem_cons_of_mem _ hq))
    have hfp := hf p (List.mem_cons_self _ _)
    rw [fixSpacedOps_eq] at hrec ⊢
    unfold stringsReplaceAll at hrec ⊢
    have hfront : ∀ a u, a :: u <:+ x0 →
        matchLiteral ['e', 'l', 's', 'e', ' ', '\x7b']
          (a :: u ++ (['e', 'l', 's', 'e']
            ++ ((if p.1 = true then [' '] else []) ++ render p.2 rest))) = none := by
      intro a u hu
      simp only [matchLiteral]
      rw [if_neg]
      intro hp
      have hp' := List.isPrefixOf_iff_prefix.1 hp
      have h1 : ['e', 'l', 's', 'e'] <+: ['e', 'l', 's', 'e', ' ', '\x7b'] := ⟨_, rfl⟩
      have h2 := else_front (a :: u) _ (by simp) (h1.trans hp')
      apply hE
      obtain ⟨pre, hpre⟩ := hu
      obtain ⟨post, hpost⟩ := h2
      exact ⟨pre, post, by rw [← hpre]; simp [← hpost]⟩
    rw [List.map_cons, render_cons, render_cons, regexpReplaceAll_front _ _ x0 _ hfront]
    refine congrArg (fun z => x0 ++ z) ?_
    have hY := render_head p.2 rest hhead
    have hYb := render_head_eq p.2 rest '\x7b' (by decide)
    have hYl := render_head_eq p.2 rest 'l' (by decide)
    simp only []
    rw [← hrec]
    generalize render p.2 rest = Y at hY hYb hYl
    cases hb : p.1 with
    | false =>
      have hl : Y.head? ≠ some 'l' := fun e => hfp hb (hYl.1 e)
      cases Y with
      | nil => simp [regexpReplaceAll, regexpReplaceGo, matchLiteral, List.isPrefixOf]
      | cons c cs =>
        have hc : c ≠ ' ' := hY c (by simp)
        have hc2 : c ≠ 'l' := fun e => hl (by simp [e])
        have : ('l' == c) = false := by simpa using fun e : 'l' = c => hc2 e.symm
        have : (' ' == c) = false := by simpa using fun e : ' ' = c => hc e.symm
        simp [regexpReplaceAll, regexpReplaceGo, matchLiteral, List.isPrefixOf, *]
    | true =>
      by_cases hbr : p.2.head? = some '\x7b'
      · have hY1 := hYb.2 hbr
        cases Y with
        | nil => simp at hY1
        | cons c cs =>
          simp only [List.head?_cons, Option.some.injEq] at hY1
          subst hY1
          simp [regexpReplaceAll, regexpReplaceGo, matchLiteral, List.isPrefixOf, hbr]
      · have hY1 : Y.head? ≠ some '\x7b' := fun e => hbr (hYb.1 e)
        have hbr' : (p.2.head? == some '\x7b') = false := by simpa using hbr
        cases Y with
        | nil => simp [regexpReplaceAll, regexpReplaceGo, matchLiteral, List.isPrefixOf, hbr']
        | cons c cs =>
          have hc2 : c ≠ '\x7b' := fun e => hY1 (by simp [e])
          have : ('\x7b' == c) = false := by simpa using fun e : '\x7b' = c => hc2 e.symm
          simp [regexpReplaceAll, regexpReplaceGo, matchLiteral, List.isPrefixOf, hbr', *]

theorem ops_split :
    ops = ops.take 38 ++ (['e', 'l', 's', 'e'] :: [[':'], [':', ':'], ['?']]) := by decide

theorem ops_after_else (x : Str) :
    ([[':'], [':', ':'], ['?']] : List Str).any (fun op => op.isPrefixOf x)
      = (x.head? == some ':' || x.head? == some '?') := by
  cases x with
  | nil => rfl
  | cons c cs =>
    by_cases h1 : c = ':'
    · subst h1
      simp [List.isPrefixOf]
    · by_cases h2 : c = '?'
      · subst h2
        simp [List.isPrefixOf]
      · have e1 : (':' == c) = false := by simpa using fun e : ':' = c => h1 e.symm
        have e2 : ('?' == c) = false := by simpa using fun e : '?' = c => h2 e.symm
        simp [List.isPrefixOf, e1, e2, h1, h2]

/-- The whole loop over the operators on pieces joined by `else`: whatever the flags
were, every `else` ends up with one space, except before `:` and `?`. -/
theorem compactLine_ops_render (x0 : Str) (ps : List (Bool × Str)) (h : PiecesOK x0 ps) :
    compactLine ops (render x0 ps)
      = render x0 (ps.map
          (fun p => (!(p.2.head? == some ':' || p.2.head? == some '?'), p.2))) := by
  have h1 := compactLine_render (ops.take 38)
    (fun op hop => List.mem_of_mem_take hop) ops_before_else.2.1 x0 ps h
  have e0 : ∀ y : Str, compactLine (['e', 'l', 's', 'e'] :: [[':'], [':', ':'], ['?']]) y
      = compactLine [[':'], [':', ':'], ['?']] (minifyOperator ['e', 'l', 's', 'e'] y) :=
    fun _ => rfl
  have e : compactLine ops (render x0 ps)
      = compactLine [[':'], [':', ':'], ['?']]
          (minifyOperator ['e', 'l', 's', 'e'] (compactLine (ops.take 38) (render x0 ps))) := by
    rw [← e0, ← compactLine_append]
    exact congrArg (fun o => compactLine o (render x0 ps)) ops_split
  have hA := piecesOK_map
    (fun p => p.1 && !(ops.take 38).any (fun op => op.isPrefixOf p.2)) x0 ps h
  have h2 := else_render x0 _ hA
  have hB := piecesOK_map (fun _ => true) x0 _ hA
  have h3 := compactLine_render [[':'], [':', ':'], ['?']] (by decide) (by decide) x0 _ hB
  rw [e, h1, minifyOperator_else, h2, h3, List.map_map, List.map_map]
  refine congrArg (render x0) (List.map_congr_left ?_)
  intro p _
  simp only [Function.comp_apply, ops_after_else, Bool.true_and]

/-- What a further run makes of pieces joined by `else`: the loop over the operators and
then `fixSpacedOps` give the same pieces, each `else` with its space as `elseSpace` says. -/
theorem line_core (x0 : Str) (ps : List (Bool × Str)) (h : PiecesOK x0 ps) :
    fixSpacedOps (compactLine ops (render x0 ps))
      = render x0 (ps.map (fun p => (elseSpace p.2, p.2))) := by
  rw [compactLine_ops_render x0 ps h,
    fixSpacedOps_render x0 _ (piecesOK_map _ x0 ps h), List.map_map]
  · refine congrArg (render x0) (List.map_congr_left ?_)
    intro p _
    simp only [Function.comp_apply, elseSpace, Bool.not_or, Bool.and_assoc]
  · intro q hq hfalse hl
    obtain ⟨p, -, rfl⟩ := List.mem_map.1 hq
    simp only [hl] at hfalse
    revert hfalse
    decide

/-- A pair of characters that are neither a space nor a letter of `else` occurs in the
joined pieces whatever the flags are. -/
theorem infix_render (a b : Char) (ha : a ∉ ['e', 'l', 's', 'e', ' '])
    (hb : b ∉ ['e', 'l', 's', 'e', ' ']) (f : Bool × Str → Bool) (x0 : Str)
    (ps : List (Bool × Str)) (h : [a, b] <:+: render x0 ps) :
    [a, b] <:+: render x0 (ps.map (fun p => (f p, p.2))) := by
  induction ps generalizing x0 with
  | nil => exact h
  | cons p rest ih =>
    rw [List.map_cons, render_cons]
    rw [render_cons, ← List.append_assoc ['e', 'l', 's', 'e']] at h
    have hb' : ∀ c ∈ ['e', 'l', 's', 'e'] ++ (if p.1 = true then [' '] else []),
        c ∉ [a, b] := by
      intro c hc hm
      have hc' : c ∈ ['e', 'l', 's', 'e', ' '] := by
        rcases List.mem_append.1 hc with h1 | h1
        · exact List.mem_append_left [' '] h1
        · split at h1
          · exact List.mem_append_right ['e', 'l', 's', 'e'] h1
          · simp at h1
      simp only [List.mem_cons, List.mem_singleton, List.not_mem_nil, or_false] at hm
      rcases hm with rfl | rfl
      · exact ha hc'
      · exact hb hc'
    rcases infix_sep_list [a, b] x0 _ _ (by simp) hb' (by simp) h with h1 | h1
    · exact h1.trans (List.prefix_append x0 _).isInfix
    · exact (ih p.2 h1).trans
        (((List.suffix_append _ _).trans (List.suffix_append _ _)).trans
          (List.suffix_append _ _)).isInfix

/-! ### Cutting a line at every `else` -/

theorem first_occurrence (sub l : Str) (hs : sub ≠ []) (h : sub <:+: l) :
    ∃ a b, l = a ++ (sub ++ b) ∧ ¬ sub <:+: a ++ sub.dropLast := by
  induction l with
  | nil => exact absurd (List.eq_nil_of_infix_nil h) hs
  | cons c l ih =>
    by_cases hp : sub <+: c :: l
    · obtain ⟨b, hb⟩ := hp
      refine ⟨[], b, by simpa using hb.symm, ?_⟩
      intro hi
      have h1 := hi.length_le
      have h2 := List.length_pos.2 hs
      simp only [List.nil_append, List.length_dropLast] at h1
      omega
    · rcases List.infix_cons_iff.1 h with h1 | h1
      · exact absurd h1 hp
      · obtain ⟨a, b, hl, hfree⟩ := ih h1
        refine ⟨c :: a, b, by rw [hl]; rfl, ?_⟩
        intro hi
        rcases List.infix_cons_iff.1 hi with h2 | h2
        · apply hp
          refine h2.trans ?_
          rw [hl]
          refine (List.prefix_cons_inj c).2 ((List.prefix_append_right_inj a).2 ?_)
          exact ( List.dropLast_prefix sub).trans (List.prefix_append sub b)
        · exact hfree h2

theorem suffix_barrier (P a : Str) (c : Char) (hc : c ∉ ['e', 'l', 's', 'e'])
    (h : ['e', 'l', 's', 'e'] <:+ P ++ c :: a) : ['e', 'l', 's', 'e'] <:+ a := by
  induction P with
  | nil =>
    rcases List.suffix_cons_iff.1 h with h1 | h1
    · exact absurd (by rw [h1]; simp) hc
    · exact h1
  | cons p P ih =>
    rcases List.suffix_cons_iff.1 h with h1 | h1
    · exfalso
      apply hc
      rw [h1]
      exact List.mem_cons_of_mem _ (List.mem_append_right P (List.mem_cons_self _ _))
    · exact ih h1

/-- What `elseFollowTight` allows, as a flag (whether a space follows the `else`) and the
text after it. -/
theorem elseFollowTight_cases (b : Str) (h : elseFollowTight b = true) :
    ∃ (f : Bool) (y : Str), b = (if f = true then [' '] else []) ++ y
      ∧ y.head? ≠ some ' ' ∧ f = elseSpace y
      ∧ ∀ a P : Str, a ≠ [] → a <+: y →
          ['e', 'l', 's', 'e'] <:+ P ++ ((if f = true then [' '] else []) ++ a) →
          ['e', 'l', 's', 'e'] <:+ a := by
  cases b with
  | nil => simp [elseFollowTight] at h
  | cons c rest =>
    by_cases hc : c = '\x7b' ∨ c = ':' ∨ c = '?'
    · refine ⟨false, c :: rest, by simp, ?_, ?_, ?_⟩
      · rcases hc with rfl | rfl | rfl <;> simp
      · rcases hc with rfl | rfl | rfl <;> rfl
      · intro a P ha hpre hsuf
        cases a with
        | nil => exact absurd rfl ha
        | cons a0 as =>
          have e : a0 = c := by
            rcases List.prefix_cons_iff.1 hpre with h0 | ⟨t, h1, -⟩
            · exact absurd h0 (by simp)
            · exact (List.cons.inj h1).1
          subst e
          have hce : a0 ∉ ['e', 'l', 's', 'e'] := by
            rcases hc with rfl | rfl | rfl <;> decide
          simp only [Bool.false_eq_true, if_false, List.nil_append] at hsuf
          exact (suffix_barrier P as a0 hce hsuf).trans (List.suffix_cons a0 as)
    · simp only [elseFollowTight, hc, if_false] at h
      by_cases hs : c = ' '
      · subst hs
        simp only [if_true] at h
        refine ⟨true, rest, by simp, ?_, ?_, ?_⟩
        · cases rest with
          | nil => simp
          | cons d ds =>
            intro e
            simp only [List.head?_cons, Option.some.injEq] at e
            subst e
            simp at h
        · cases rest with
          | nil => rfl
          | cons d ds =>
            simp only [Bool.not_eq_true', Bool.or_eq_false_iff, beq_eq_false_iff_ne, ne_eq] at h
            simp [elseSpace, h.1.1.2, h.1.2, h.2]
        · intro a P _ _ hsuf
          simp only [if_true, List.singleton_append] at hsuf
          exact suffix_barrier P a ' ' (by decide) hsuf
      · simp [hs] at h

theorem elseSpace_render (x : Str) (ps : List (Bool × Str)) :
    elseSpace (render x ps) = elseSpace x := by
  have e : ∀ c : Char, c ≠ 'e' → ((render x ps).head? == some c) = (x.head? == some c) := by
    intro c hc
    rw [Bool.eq_iff_iff]
    simp only [beq_iff_eq]
    exact render_head_eq x ps c hc
  simp only [elseSpace, e ':' (by decide), e '?' (by decide), e '\x7b' (by decide)]

/-- A line in which spaces stand next to operator characters and `else` only as a
further run leaves them is made of pieces joined by `else`; with the spaces after `else`
set by `elseSpace` the pieces give the line back, followed by one space when the line
ends with `else`. -/
theorem pieces_of_line (x : Str)
    (h3 : ∀ o ∈ opChars, ¬ [o, ' '] <:+: x)
    (h4 : ∀ a b : Str, x = a ++ b →
      ((∃ o ∈ opChars, [' ', o] <+: b) ∨ [' ', 'e', 'l', 's', 'e'] <+: b) →
        ['e', 'l', 's', 'e'] <:+ a)
    (h5 : ∀ a b : Str, x = a ++ b → ['e', 'l', 's', 'e'] <:+ a →
      b = [] ∨ elseFollowTight b = true) :
    ∃ (x0 : Str) (ps : List (Bool × Str)), x = render x0 ps ∧ PiecesOK x0 ps ∧ x0 <+: x
      ∧ (['e', 'l', 's', 'e'] <:+ x →
          render x0 (ps.map (fun p => (elseSpace p.2, p.2))) = x ++ [' '])
      ∧ (¬ ['e', 'l', 's', 'e'] <:+ x →
          render x0 (ps.map (fun p => (elseSpace p.2, p.2))) = x) := by
  induction' hn : x.length using Nat.strong_induction_on with n ih generalizing x
  have hplain : ∀ x0 c : Str, x = x0 ++ c → ¬ ['e', 'l', 's', 'e'] <:+: x0 → Plain x0 := by
    intro x0 c hx hE o ho
    refine ⟨?_, fun hi => h3 o ho (hi.trans (hx ▸ (List.prefix_append x0 c).isInfix))⟩
    rintro ⟨a, b, hab⟩
    apply hE
    have := h4 a ([' ', o] ++ (b ++ c)) (by rw [hx, ← hab]; simp)
      (Or.inl ⟨o, ho, List.prefix_append _ _⟩)
    exact this.isInfix.trans ⟨[], [' ', o] ++ b, by simpa using hab⟩
  by_cases hE : ['e', 'l', 's', 'e'] <:+: x
  · obtain ⟨x0, b, hx, hfree⟩ := first_occurrence _ x (by simp) hE
    have hfree' : ¬ ['e', 'l', 's', 'e'] <:+: x0 ++ ['e', 'l', 's'] := hfree
    have hE0 : ¬ ['e', 'l', 's', 'e'] <:+: x0 :=
      fun hi => hfree' (hi.trans (List.prefix_append x0 _).isInfix)
    have hP := hplain x0 _ hx hE0
    have hlast : x0.getLast? ≠ some ' ' := by
      intro hl
      obtain ⟨a, ha⟩ : ∃ a, x0 = a ++ [' '] := by
        rcases List.eq_nil_or_concat x0 with h | ⟨a, z, hz⟩
        · rw [h] at hl
          simp at hl
        · rw [hz] at hl
          simp only [List.concat_eq_append, List.getLast?_append_of_ne_nil _ (List.cons_ne_nil _ _),
            List.getLast?_singleton, Option.some.injEq] at hl
          exact ⟨a, by rw [hz, hl, List.concat_eq_append]⟩
      have := h4 a ([' ', 'e', 'l', 's', 'e'] ++ b) (by rw [hx, ha]; simp)
        (Or.inr (List.prefix_append _ _))
      exact hE0 (this.isInfix.trans (ha ▸ (List.prefix_append a _).isInfix))
    rcases h5 (x0 ++ ['e', 'l', 's', 'e']) b (by rw [hx]; simp) (List.suffix_append _ _)
      with hb | hb
    · subst hb
      rw [List.append_nil] at hx
      refine ⟨x0, [(false, [])], by rw [hx]; simp [render], ?_, hx ▸ List.prefix_append _ _, ?_,
        ?_⟩
      · exact ⟨hP, hfree', hlast, by simp, fun o _ => ⟨by simp, by simp⟩, by simp⟩
      · intro _
        rw [hx]
        simp [render, elseSpace]
      · intro hns
        exact absurd (hx ▸ List.suffix_append _ _) hns
    · obtain ⟨f, y, hby, hyh, hfy, hbar⟩ := elseFollowTight_cases b hb
      subst hby
      have hylen : y.length < n := by
        rw [← hn, hx]
        simp only [List.length_append, List.length_cons]
        omega
      have hyx : x = (x0 ++ (['e', 'l', 's', 'e'] ++ (if f = true then [' '] else []))) ++ y := by
        rw [hx]
        simp
      obtain ⟨x1, ps1, hy, hok, hpre, hfin1, hfin2⟩ := ih y.length hylen y
        (fun o ho hi => h3 o ho (hi.trans (hyx ▸ (List.suffix_append _ y).isInfix)))
        (by
          intro a' b' hab hprem
          cases a' with
          | nil =>
            exfalso
            rw [List.nil_append] at hab
            apply hyh
            rw [hab]
            rcases hprem with ⟨o, -, ⟨c, hc⟩⟩ | ⟨c, hc⟩ <;> simp [← hc]
          | cons a0 as =>
            have := h4 (x0 ++ (['e', 'l', 's', 'e'] ++ (if f = true then [' '] else []))
              ++ (a0 :: as)) b' (by rw [hyx, hab]; simp) hprem
            refine hbar (a0 :: as) (x0 ++ ['e', 'l', 's', 'e']) (by simp)
              (hab ▸ List.prefix_append _ _) ?_
            simpa using this)
        (by
          intro a' b' hab hsuf
          exact h5 (x0 ++ (['e', 'l', 's', 'e'] ++ (if f = true then [' '] else [])) ++ a') b'
            (by rw [hyx, hab]; simp) (hsuf.trans (List.suffix_append _ _)))
        rfl
      have hx1 : x1.head? ≠ some ' ' := by
        intro e
        apply hyh
        obtain ⟨t, ht⟩ := hpre
        cases x1 with
        | nil => simp at e
        | cons a as =>
          simp only [List.head?_cons, Option.some.injEq] at e
          subst e
          simp [← ht]
      have hflag : elseSpace x1 = f := by
        rw [hfy, hy, elseSpace_render]
      have hiff : ['e', 'l', 's', 'e'] <:+ x → ['e', 'l', 's', 'e'] <:+ y := by
        intro hs
        cases hyy : y with
        | nil =>
          exfalso
          rw [hx, hyy] at hs
          cases f
          · rw [hyy] at hfy
            revert hfy
            decide
          · simp only [if_true, List.append_nil] at hs
            have := suffix_barrier (x0 ++ ['e', 'l', 's', 'e']) [] ' ' (by decide)
              (by simpa using hs)
            simp at this
        | cons c cs =>
          rw [← hyy]
          refine hbar y (x0 ++ ['e', 'l', 's', 'e']) (by simp [hyy]) (List.prefix_refl _) ?_
          rw [hx] at hs
          simpa using hs
      refine ⟨x0, (f, x1) :: ps1, ?_, ?_, hx ▸ List.prefix_append _ _, ?_, ?_⟩
      · rw [render_cons, ← hy, hx]
      · exact ⟨hP, hfree', hlast, hx1, hok⟩
      · intro hs
        rw [List.map_cons, render_cons, hfin1 (hiff hs), hx]
        simp [hflag]
      · intro hs
        have hs' : ¬ ['e', 'l', 's', 'e'] <:+ y :=
          fun h => hs (h.trans (hyx ▸ List.suffix_append _ y))
        rw [List.map_cons, render_cons, hfin2 hs', hx]
        simp [hflag]
  · refine ⟨x, [], rfl, ⟨hplain x [] (by simp) hE, hE⟩, List.prefix_refl _, ?_, fun _ => rfl⟩
    intro hs
    exact absurd hs.isInfix hE

/-! ### One line of a steady text -/

theorem mem_splits (t a b : Str) : (a, b) ∈ splits t ↔ a ++ b = t := by
  induction t generalizing a with
  | nil => simp [splits]
  | cons c cs ih =>
    simp only [splits, List.mem_cons, List.mem_map, Prod.mk.injEq, Prod.exists]
    constructor
    · rintro (⟨rfl, rfl⟩ | ⟨a', b', hm, rfl, rfl⟩)
      · rfl
      · rw [List.cons_append, (ih a').1 hm]
    · intro h
      cases a with
      | nil => exact Or.inl ⟨rfl, by simpa using h⟩
      | cons a0 as =>
        rw [List.cons_append] at h
        obtain ⟨rfl, h2⟩ := List.cons.inj h
        exact Or.inr ⟨as, b, (ih as).2 h2, rfl, rfl⟩

theorem elseFollowTight_of_snoc (b : Str) (hb : b ≠ [])
    (h : elseFollowTight (b ++ [' ']) = true) : elseFollowTight b = true := by
  cases b with
  | nil => exact absurd rfl hb
  | cons c rest =>
    cases rest with
    | nil =>
      by_cases hc : c = '\x7b' ∨ c = ':' ∨ c = '?'
      · simp [elseFollowTight, hc]
      · by_cases hs : c = ' '
        · subst hs
          rfl
        · simp [elseFollowTight, hc, hs] at h
    | cons d ds => simpa [elseFollowTight] using h

/-- One line of a steady text through a further run: trimming, the loop over the
operators and `fixSpacedOps` give the line back; between the loop and `fixSpacedOps` the
line holds no pair of characters (other than spaces and letters of `else`) that it does
not hold itself, and no line break. -/
theorem steadyLine_core (g : Str) (hg : SteadyLine g) (hnl : '\n' ∉ g) :
    fixSpacedOps (recompact g) = g
      ∧ (∀ a b : Char, a ∉ ['e', 'l', 's', 'e', ' '] → b ∉ ['e', 'l', 's', 'e', ' '] →
          [a, b] <:+: recompact g → [a, b] <:+: g)
      ∧ '\n' ∉ recompact g
      ∧ (stringsTrimSpace g).head? = g.head? := by
  unfold recompact
  obtain ⟨g1, g2, g3, g4, g5⟩ := hg
  -- the trimmed line `x`, a prefix of `g`
  have hx : ∃ x tail : Str, g = x ++ tail ∧ stringsTrimSpace g = x
      ∧ (tail = [] ∨ tail = [' ']) ∧ (['e', 'l', 's', 'e'] <:+ x ↔ tail = [' ']) := by
    by_cases hl : ∀ c ∈ g.getLast?, isSpace c = false
    · refine ⟨g, [], by simp, stringsTrimSpace_of_trimmed g g1 hl, Or.inl rfl, ?_⟩
      constructor
      · intro hs
        have := g5 (g, []) ((mem_splits g g []).2 (by simp)) hs
        simp [elseFollowTight] at this
      · intro h
        simp at h
    · push_neg at hl
      obtain ⟨c, hc, hcs⟩ := hl
      have hcs' : isSpace c = true := by simpa using hcs
      obtain ⟨pre, hpre⟩ := g2 c hc hcs'
      refine ⟨pre ++ ['e', 'l', 's', 'e'], [' '], by rw [← hpre]; simp, ?_, Or.inr rfl, ?_⟩
      · have hne : pre ++ ['e', 'l', 's', 'e'] ≠ [] := by simp
        have := stringsTrimSpace_core 0 1 (pre ++ ['e', 'l', 's', 'e']) hne
          (by
            intro d hd
            apply g1 d
            rw [← hpre]
            cases pre <;> simpa using hd)
          (by
            intro d hd
            rw [List.getLast?_append_of_ne_nil _ (by simp)] at hd
            simp only [List.getLast?_cons_cons, List.getLast?_singleton, Option.mem_def,
              Option.some.injEq] at hd
            subst hd
            decide)
        rw [← hpre]
        simpa [spaces] using this
      · exact ⟨fun _ => rfl, fun _ => List.suffix_append _ _⟩
  obtain ⟨x, tail, hgx, htrim, htail, hiff⟩ := hx
  rw [htrim]
  have hxg : x <+: g := hgx ▸ List.prefix_append x tail
  obtain ⟨x0, ps, hxr, hok, -, hfin1, hfin2⟩ := pieces_of_line x
    (fun o ho hi => g3 o ho (hi.trans hxg.isInfix))
    (by
      intro a b hab hprem
      refine g4 (a, b ++ tail) ((mem_splits g _ _).2 (by rw [hgx, hab]; simp)) ?_
      rcases hprem with ⟨o, ho, hp⟩ | hp
      · exact Or.inl ⟨o, ho, hp.trans (List.prefix_append _ _)⟩
      · exact Or.inr (hp.trans (List.prefix_append _ _)))
    (by
      intro a b hab hsuf
      have := g5 (a, b ++ tail) ((mem_splits g _ _).2 (by rw [hgx, hab]; simp)) hsuf
      by_cases hb : b = []
      · exact Or.inl hb
      · right
        rcases htail with h | h
        · rw [h, List.append_nil] at this
          exact this
        · rw [h] at this
          exact elseFollowTight_of_snoc b hb this)
  have hfix : fixSpacedOps (compactLine ops x) = g := by
    rw [hxr, line_core x0 ps hok]
    by_cases hs : ['e', 'l', 's', 'e'] <:+ x
    · rw [hfin1 hs, hgx, hiff.1 hs]
    · rw [hfin2 hs, hgx]
      rcases htail with h | h
      · rw [h, List.append_nil]
      · exact absurd (hiff.2 h) hs
  refine ⟨hfix, ?_, ?_, ?_⟩
  · intro a b ha hb hi
    rw [← hfix]
    rw [hxr, compactLine_ops_render x0 ps hok] at hi ⊢
    have := infix_render a b ha hb (fun p => elseSpace p.2) x0 _ hi
    rw [List.map_map] at this
    have e := line_core x0 ps hok
    rw [compactLine_ops_render x0 ps hok] at e
    rw [e]
    exact this
  · exact compactLine_no_newline ops (fun _ h => h) x
      (fun hm => hnl (hxg.subset hm))
  · rcases htail with h | h
    · rw [hgx, h, List.append_nil]
    · have hne : x ≠ [] := by
        intro e
        have := hiff.2 h
        rw [e] at this
        simp at this
      rw [hgx, List.head?_append_of_ne_nil _ hne]

/-! ### The lines of a steady text -/

theorem joinWith_stringsSplit (t : Str) : joinWith ['\n'] (stringsSplit t) = t := by
  induction t with
  | nil => rfl
  | cons c cs ih =>
    obtain ⟨l, ls, h1, -⟩ := stringsSplit_head cs
    by_cases hc : c = '\n'
    · subst hc
      have e : stringsSplit ('\n' :: cs) = [] :: stringsSplit cs := by simp [stringsSplit]
      rw [e, h1, joinWith_cons_cons, ← h1, ih]
      rfl
    · have e : stringsSplit (c :: cs) = (c :: l) :: ls := by simp [stringsSplit, hc, h1]
      rw [e, joinWith_cons_head, ← h1, ih]

theorem fixSpacedOps_nil : fixSpacedOps [] = [] := by decide

/-- Joining the compacted lines of a steady text and running `fixSpacedOps` gives the
text back; the joined text holds no two line breaks in a row. -/
theorem steady_join (ls : List Str) (hne : ls ≠ [])
    (hs : ∀ g ∈ ls, SteadyLine g ∧ '\n' ∉ g)
    (hd1 : ∀ g ∈ ls.dropLast, g.head? = some '#')
    (hd2 : ∀ g ∈ ls.getLast?, g.head? ≠ some '#') :
    fixSpacedOps (ls.map steadyCompact).flatten = joinWith ['\n'] ls
      ∧ List.Chain' (fun x y => ¬ (x = '\n' ∧ y = '\n')) (ls.map steadyCompact).flatten
      ∧ ∀ c ∈ (ls.map steadyCompact).flatten.head?, c ≠ '\n' := by
  induction ls with
  | nil => exact absurd rfl hne
  | cons g rest ih =>
    obtain ⟨hg, hgn⟩ := hs g (List.mem_cons_self _ _)
    obtain ⟨hfix, -, hLn, -⟩ := steadyLine_core g hg hgn
    cases rest with
    | nil =>
      have hh : g.head? ≠ some '#' := hd2 g (by simp)
      have e : steadyCompact g = recompact g := by
        simp [steadyCompact, hh]
      simp only [List.map_cons, List.map_nil, List.flatten_cons, List.flatten_nil,
        List.append_nil, e, joinWith]
      refine ⟨hfix, chain_of_forall _ _ (fun x hx y h => hLn (h.1 ▸ hx)), ?_⟩
      intro c hc e'
      exact hLn (e' ▸ List.mem_of_mem_head? hc)
    | cons g' rest' =>
      have hh : g.head? = some '#' := hd1 g (by simp [List.dropLast])
      have e : steadyCompact g = recompact g ++ ['\n'] := by
        simp [steadyCompact, hh]
      obtain ⟨ih1, ih2, ih3⟩ := ih (by simp)
        (fun x hx => hs x (List.mem_cons_of_mem _ hx))
        (fun x hx => hd1 x (by
          simp only [List.dropLast_cons₂, List.mem_cons] at hx ⊢
          exact Or.inr hx))
        (fun x hx => hd2 x (by simpa using hx))
      have hLne : recompact g ≠ [] := by
        intro e0
        rw [e0, fixSpacedOps_nil] at hfix
        rw [← hfix] at hh
        simp at hh
      rw [List.map_cons, List.flatten_cons, e, List.append_assoc, List.singleton_append]
      refine ⟨?_, ?_, ?_⟩
      · rw [fixSpacedOps_split, hfix, ih1, joinWith_cons_cons]
        rfl
      · rw [List.chain'_append]
        refine ⟨chain_of_forall _ _ (fun x hx y h => hLn (h.1 ▸ hx)), ?_, ?_⟩
        · rw [List.chain'_cons']
          exact ⟨fun y hy h => ih3 y hy h.2, ih2⟩
        · intro x hx y _ h
          exact hLn (h.1 ▸ List.mem_of_mem_getLast? hx)
      · intro c hc e'
        rw [List.head?_append_of_ne_nil _ hLne] at hc
        exact hLn (e' ▸ List.mem_of_mem_head? hc)

theorem recompact_eq (g : Str) : compactLine ops (stringsTrimSpace g) = recompact g := by
  unfold recompact
  rfl

/-- The directive guard and the loop over the operators on a line of a steady text. -/
theorem steady_line_compacted (g : Str) (hg : SteadyLine g) (hnl : '\n' ∉ g)
    (htab : '\t' ∉ g) :
    compactLine ops
        (if stringsHasPrefix (stringsTrimSpace (replaceTabs g)) ['#'] = true
          then stringsTrimSpace (replaceTabs g) ++ ['\n']
          else stringsTrimSpace (replaceTabs g))
      = steadyCompact g := by
  obtain ⟨-, -, -, hhead⟩ := steadyLine_core g hg hnl
  rw [replaceTabs_of_no_tab g htab]
  by_cases hh : g.head? = some '#'
  · have h1 : stringsHasPrefix (stringsTrimSpace g) ['#'] = true :=
      (hasPrefix_hash _).2 (hhead.trans hh)
    rw [if_pos h1, compactLine_snoc ops (fun _ h => h), recompact_eq]
    simp [steadyCompact, hh]
  · have h1 : ¬ stringsHasPrefix (stringsTrimSpace g) ['#'] = true :=
      fun h => hh (hhead.symm.trans ((hasPrefix_hash _).1 h))
    rw [if_neg h1, recompact_eq]
    simp [steadyCompact, hh]

theorem steadyCompact_marker (g : Str) (hg : SteadyLine g) (hnl : '\n' ∉ g) (a b : Char)
    (ha : a ∉ ['e', 'l', 's', 'e', ' ', '\n']) (hb : b ∉ ['e', 'l', 's', 'e', ' ', '\n'])
    (h : [a, b] <:+: steadyCompact g) : [a, b] <:+: g := by
  obtain ⟨-, hm, -, -⟩ := steadyLine_core g hg hnl
  have ha' : a ∉ ['e', 'l', 's', 'e', ' '] := fun hx => ha (by
    simp only [List.mem_cons, List.mem_singleton, List.not_mem_nil, or_false] at hx ⊢
    tauto)
  have hb' : b ∉ ['e', 'l', 's', 'e', ' '] := fun hx => hb (by
    simp only [List.mem_cons, List.mem_singleton, List.not_mem_nil, or_false] at hx ⊢
    tauto)
  have han : a ≠ '\n' := fun e => ha (by simp [e])
  have hbn : b ≠ '\n' := fun e => hb (by simp [e])
  apply hm a b ha' hb'
  unfold steadyCompact at h
  split at h
  · rcases infix_sep [a, b] (recompact g) [] '\n'
      (by simp [han.symm, hbn.symm]) h with h1 | h1
    · exact h1
    · exact absurd (List.eq_nil_of_infix_nil h1) (by simp)
  · exact h

/-- A text that is `Steady` for the flags, without tabs, and without line breaks when
`keepNewlines` is set, comes back unchanged from `minifySource`. -/
theorem minifySource_fixed (t : Str) (kn km ki : Bool) (htab : '\t' ∉ t)
    (hnl : kn = true → '\n' ∉ t) (h : Steady kn km ki t) : minifySource t kn km ki = t := by
  obtain ⟨hin, hbl, hdir, hlines⟩ := h
  have hfacts : ∀ g ∈ stringsSplit t, SteadyLine g ∧ '\n' ∉ g ∧ '\t' ∉ g := by
    intro g hg
    exact ⟨hlines g hg, fun hm => (mem_of_mem_stringsSplit t g hg _ hm).2 rfl,
      fun hm => htab (mem_of_mem_stringsSplit t g hg _ hm).1⟩
  have hinl : ki = false → ∀ g ∈ stringsSplit t,
      removeEverythingPast ['/', '/'] (steadyCompact g) = steadyCompact g := by
    intro hki g hg
    apply removeEverythingPast_of_no_marker
    intro hi
    exact hin hki ((steadyCompact_marker g (hfacts g hg).1 (hfacts g hg).2.1 '/' '/'
      (by decide) (by decide) hi).trans (line_within t g hg))
  have hblk : km = false → ∀ l ∈ (stringsSplit t).map steadyCompact, ¬ ['/', '*'] <:+: l := by
    intro hkm l hl hi
    obtain ⟨g, hg, rfl⟩ := List.mem_map.1 hl
    exact hbl hkm ((steadyCompact_marker g (hfacts g hg).1 (hfacts g hg).2.1 '/' '*'
      (by decide) (by decide) hi).trans (line_within t g hg))
  have hpass : ∀ ls : List Str, (km = false → ∀ l ∈ ls, ¬ ['/', '*'] <:+: l) →
      (if (!km) = true then removeMultilineComments ls else ls) = ls := by
    intro ls hls
    cases km with
    | true => rfl
    | false =>
      have := removeMultilineCommentsFrom_outside ls [] (hls rfl)
      simpa [removeMultilineComments, removeMultilineCommentsFrom] using this
  cases kn with
  | false =>
    have hC : compactedLines t false ki = (stringsSplit t).map steadyCompact := by
      have h0 : compactedLines t false true = (stringsSplit t).map steadyCompact := by
        simp only [compactedLines, clearWhitespaceFirstPass, reinsertPreprocessorNewlines,
          foldl_map_lines, Bool.not_false, Bool.not_true, if_true,
          Bool.false_eq_true, if_false, List.map_map]
        apply List.map_congr_left
        intro g hg
        simp only [Function.comp_apply]
        exact steady_line_compacted g (hfacts g hg).1 (hfacts g hg).2.1 (hfacts g hg).2.2
      cases ki with
      | true => exact h0
      | false =>
        have e : compactedLines t false false
            = removeInlineComments (compactedLines t false true) := by
          simp only [compactedLines, Bool.not_false, Bool.not_true, if_true,
            Bool.false_eq_true, if_false]
        rw [e, h0, removeInlineComments, List.map_map]
        conv_rhs => rw [← List.map_id ((stringsSplit t).map steadyCompact), List.map_map]
        apply List.map_congr_left
        intro g hg
        simp only [Function.comp_apply, id]
        exact hinl rfl g hg
    obtain ⟨hd1, hd2⟩ := hdir rfl
    obtain ⟨l0, ls0, hsplit, -⟩ := stringsSplit_head t
    obtain ⟨j1, j2, -⟩ := steady_join (stringsSplit t) (by rw [hsplit]; simp)
      (fun g hg => ⟨(hfacts g hg).1, (hfacts g hg).2.1⟩) hd1 hd2
    simp only [minifySource, minifiedLines, hC, hpass _ hblk, stringsJoin, Bool.not_false,
      if_true, fixDuplicateNewlines_eq,
      collapseRuns_fixed false _ j2 (fun h => absurd h (by decide)), j1,
      joinWith_stringsSplit]
  | true =>
    have hno := hnl rfl
    have hsp := stringsSplit_of_no_newline t hno
    have hg : t ∈ stringsSplit t := by rw [hsp]; simp
    obtain ⟨hfix, hm, -, -⟩ := steadyLine_core t (hfacts t hg).1 hno
    have hC0 : compactedLines t true true = [recompact t] := by
      simp only [compactedLines, clearWhitespaceFirstPass, foldl_map_lines, Bool.not_true,
        Bool.false_eq_true, if_false, hsp, List.map_cons, List.map_nil,
        replaceTabs_of_no_tab t htab, recompact_eq]
    have hC : compactedLines t true ki = [recompact t] := by
      cases ki with
      | true => exact hC0
      | false =>
        have e : compactedLines t true false
            = removeInlineComments (compactedLines t true true) := by
          simp only [compactedLines, Bool.not_false, Bool.not_true, if_true,
            Bool.false_eq_true, if_false]
        rw [e, hC0, removeInlineComments, List.map_cons, List.map_nil]
        exact congrArg (fun z => [z]) (removeEverythingPast_of_no_marker _ _
          (fun hi => hin rfl (hm '/' '/' (by decide) (by decide) hi)))
    have hb : km = false → ∀ l ∈ [recompact t], ¬ ['/', '*'] <:+: l := by
      intro hkm l hl hi
      rw [List.mem_singleton.1 hl] at hi
      exact hbl hkm (hm '/' '*' (by decide) (by decide) hi)
    simp only [minifySource, minifiedLines, hC, hpass _ hb, stringsJoin, Bool.not_true,
      Bool.false_eq_true, if_false, List.flatten_cons, List.flatten_nil, List.append_nil, hfix]

/-! ### The output of `minifySource` holds no tab -/

theorem ops_no_tab : ∀ op ∈ ops, '\t' ∉ op := by decide

theorem compactLine_no_tab (os : List Str) (hos : ∀ op ∈ os, op ∈ ops) (x : Str)
    (hx : '\t' ∉ x) : '\t' ∉ compactLine os x := by
  induction os generalizing x with
  | nil => exact hx
  | cons op os ih =>
    have e : compactLine (op :: os) x = compactLine os (minifyOperator op x) := rfl
    rw [e]
    apply ih (fun o ho => hos o (List.mem_cons_of_mem _ ho))
    intro hm
    have hop := ops_no_tab op (hos op (List.mem_cons_self _ _))
    unfold minifyOperator regexpReplaceAll at hm
    rcases mem_regexpReplaceGo _ _ _ _ _ hm with h1 | h1
    · exact hx h1
    · split at h1
      · rcases List.mem_append.1 h1 with h2 | h2
        · exact hop h2
        · simp at h2
      · exact hop h1

/-- Whatever the source and the flags, the output of `minifySource` holds no tab. -/
theorem minifySource_no_tab (s : Str) (kn km ki : Bool) : '\t' ∉ minifySource s kn km ki := by
  have h0 : ∀ x ∈ clearWhitespaceFirstPass (stringsSplit s), '\t' ∉ x := by
    intro x hx hm
    simp only [clearWhitespaceFirstPass, List.mem_map] at hx
    obtain ⟨l, hl, rfl⟩ := hx
    exact no_tab_replaceTabs l ((stringsTrimSpace_sublist _).subset hm)
  have h0' : ∀ x ∈ (if (!kn) = true then
      reinsertPreprocessorNewlines (clearWhitespaceFirstPass (stringsSplit s))
      else clearWhitespaceFirstPass (stringsSplit s)), '\t' ∉ x := by
    intro x hx hm
    cases kn
    · simp only [Bool.not_false, if_true, reinsertPreprocessorNewlines, List.mem_map] at hx
      obtain ⟨y, hy, rfl⟩ := hx
      split at hm
      · rcases List.mem_append.1 hm with h | h
        · exact h0 y hy h
        · simp at h
      · exact h0 y hy hm
    · simp only [Bool.not_true, Bool.false_eq_true, if_false] at hx
      exact h0 x hx hm
  have h2 : ∀ x ∈ compactedLines s kn ki, '\t' ∉ x := by
    intro x hx hm
    cases ki
    · simp only [compactedLines, Bool.not_false, if_true, foldl_map_lines,
        removeInlineComments] at hx
      obtain ⟨y, hy, rfl⟩ := List.mem_map.1 hx
      obtain ⟨z, hz, rfl⟩ := List.mem_map.1 hy
      exact compactLine_no_tab ops (fun _ h => h) z (h0' z hz) (mem_regexpReplaceAll_nil _ _ _ hm)
    · simp only [compactedLines, Bool.not_true, Bool.false_eq_true, if_false,
        foldl_map_lines] at hx
      obtain ⟨z, hz, rfl⟩ := List.mem_map.1 hx
      exact compactLine_no_tab ops (fun _ h => h) z (h0' z hz) hm
  have h3 : ∀ x ∈ minifiedLines s kn km ki, '\t' ∉ x := by
    intro x hx hm
    cases km
    · simp only [minifiedLines, Bool.not_false, if_true, removeMultilineComments] at hx
      obtain ⟨l, hl, hcl⟩ := removeMultilineCommentsFrom_mem _ _ _ hx _ hm
      exact h2 l hl hcl
    · simp only [minifiedLines, Bool.not_true, Bool.false_eq_true, if_false] at hx
      exact h2 x hx hm
  intro hm
  simp only [minifySource, stringsJoin, fixSpacedOps, spacedOps, List.foldl_cons,
    List.foldl_nil, stringsReplaceAll, regexpReplaceAll] at hm
  rcases mem_regexpReplaceGo _ _ _ _ _ hm with h | h
  · cases kn
    · simp only [Bool.not_false, if_true, fixDuplicateNewlines, regexpReplaceAll] at h
      rcases mem_regexpReplaceGo _ _ _ _ _ h with h' | h'
      · obtain ⟨x, hx, hcx⟩ := List.mem_flatten.1 h'
        exact h3 x hx hcx
      · revert h'
        decide
    · simp only [Bool.not_true, Bool.false_eq_true, if_false] at h
      obtain ⟨x, hx, hcx⟩ := List.mem_flatten.1 h
      exact h3 x hx hcx
  · revert h
    decide

/-! ## No space stands right after an operator character in the output -/

/-- Deleting matches keeps a relation between neighbours, when the relation holds before
every character other than the space and no match is followed by a space. -/
theorem delete_chain (m : Str → Option Nat) (r : Char → Char → Prop)
    (hr : ∀ x y, y ≠ ' ' → r x y) (l : Str) (hch : List.Chain' r l)
    (hm : ∀ (u : Str) (n : Nat), u <:+ l → m u = some n →
      0 < n ∧ ∀ y ∈ (u.drop n).head?, y ≠ ' ')
    (k : Nat) (hk : 0 < k → ∀ y ∈ (l.drop k).head?, y ≠ ' ') :
    List.Chain' r (regexpReplaceGo m [] k l)
      ∧ ∀ y ∈ (regexpReplaceGo m [] k l).head?, y ≠ ' ' ∨ (k = 0 ∧ y ∈ l.head?) := by
  induction l generalizing k with
  | nil => simp [regexpReplaceGo]
  | cons c cs ih =>
    have hch' : List.Chain' r cs := (List.chain'_cons'.1 hch).2
    have hm' : ∀ (u : Str) (n : Nat), u <:+ cs → m u = some n →
        0 < n ∧ ∀ y ∈ (u.drop n).head?, y ≠ ' ' :=
      fun u n hu => hm u n (hu.trans (List.suffix_cons c cs))
    have skip : ∀ j : Nat, (∀ y ∈ ((c :: cs).drop (j + 1)).head?, y ≠ ' ') →
        List.Chain' r (regexpReplaceGo m [] j cs)
          ∧ ∀ y ∈ (regexpReplaceGo m [] j cs).head?, y ≠ ' ' := by
      intro j hj
      rw [List.drop_succ_cons] at hj
      obtain ⟨h1, h2⟩ := ih hch' hm' j (fun _ => hj)
      refine ⟨h1, fun y hy => ?_⟩
      rcases h2 y hy with h | ⟨hj0, h⟩
      · exact h
      · subst hj0
        exact hj y (by simpa using h)
    cases k with
    | succ k =>
      simp only [regexpReplaceGo]
      obtain ⟨h1, h2⟩ := skip k (hk (Nat.succ_pos k))
      exact ⟨h1, fun y hy => Or.inl (h2 y hy)⟩
    | zero =>
      cases hmc : m (c :: cs) with
      | none =>
        simp only [regexpReplaceGo, hmc]
        obtain ⟨h1, h2⟩ := ih hch' hm' 0 (fun h => absurd h (by decide))
        refine ⟨?_, fun y hy => Or.inr ⟨trivial, by simpa using hy⟩⟩
        rw [List.chain'_cons']
        refine ⟨fun y hy => ?_, h1⟩
        rcases h2 y hy with h | ⟨-, h⟩
        · exact hr c y h
        · exact (List.chain'_cons'.1 hch).1 y h
      | some n =>
        simp only [regexpReplaceGo, hmc, List.nil_append]
        obtain ⟨hn, hy⟩ := hm (c :: cs) n (List.suffix_refl _) hmc
        obtain ⟨j, rfl⟩ : ∃ j, n = j + 1 := ⟨n - 1, by omega⟩
        obtain ⟨h1, h2⟩ := skip j hy
        exact ⟨by simpa using h1, fun y hy' => Or.inl (h2 y (by simpa using hy'))⟩

theorem opsTight_iff (l : Str) :
    OpsTight l ↔ List.Chain' (fun x y => ¬ (x ∈ opChars ∧ y = ' ')) l
      ∧ ∀ c ∈ l.head?, c ≠ ' ' := by
  unfold OpsTight
  exact Iff.rfl

theorem opsTight_nil : OpsTight [] := by
  rw [opsTight_iff]
  simp

theorem lastIndex_spec (sub w : Str) (q : Nat) (h : lastIndex sub w = some q) :
    ∃ a b, w = a ++ (sub ++ b) ∧ a.length = q := by
  induction w generalizing q with
  | nil =>
    simp only [lastIndex] at h
    split at h
    · rename_i hs
      exact ⟨[], [], by simp [hs], by simpa using Option.some.inj h⟩
    · exact absurd h (by simp)
  | cons c cs ih =>
    simp only [lastIndex] at h
    cases hq : lastIndex sub cs with
    | some i =>
      rw [hq] at h
      obtain ⟨a, b, hab, hlen⟩ := ih i hq
      refine ⟨c :: a, b, by rw [hab]; rfl, ?_⟩
      have := Option.some.inj h
      simp only [List.length_cons]
      omega
    | none =>
      rw [hq] at h
      simp only [List.isPrefixOf_iff_prefix] at h
      split at h
      · rename_i hp
        obtain ⟨b, hb⟩ := hp
        exact ⟨[], b, by simpa using hb.symm, by simpa using Option.some.inj h⟩
      · exact absurd h (by simp)

theorem dotStar_drop (v : Str) (y : Char) (h : (v.drop (dotStarLen v)).head? = some y) :
    y = '\n' := by
  induction v with
  | nil => simp [dotStarLen] at h
  | cons c cs ih =>
    by_cases hc : c = '\n'
    · subst hc
      simp only [dotStarLen, List.takeWhile_cons, bne_self_eq_false, Bool.false_eq_true,
        if_false, List.length_nil, List.drop_zero, List.head?_cons, Option.some.injEq] at h
      exact h.symm
    · have e : dotStarLen (c :: cs) = dotStarLen cs + 1 := by
        simp [dotStarLen, List.takeWhile_cons, hc]
      rw [e, List.drop_succ_cons] at h
      exact ih h

/-- A match of `/*`, anything, `*/` ends with `/`. -/
theorem matchBetween_ends (u : Str) (n : Nat)
    (h : matchBetween ['/', '*'] ['*', '/'] u = some n) :
    0 < n ∧ ∃ pre, u = pre ++ '/' :: u.drop n := by
  simp only [matchBetween, List.isPrefixOf_iff_prefix] at h
  split at h
  · rename_i hp
    obtain ⟨rest, hrest⟩ := hp
    rw [← hrest] at h
    have hdrop : List.drop (['/', '*'] : Str).length (['/', '*'] ++ rest) = rest :=
      List.drop_left _ _
    rw [hdrop] at h
    cases hq : lastIndex ['*', '/'] (rest.take (dotStarLen rest)) with
    | none =>
      rw [hq] at h
      exact absurd h (by simp)
    | some q =>
      rw [hq] at h
      obtain ⟨a, b, hab, hlen⟩ := lastIndex_spec _ _ q hq
      have hn := Option.some.inj h
      have hu : u = (['/', '*'] ++ a ++ ['*', '/']) ++ (b ++ rest.drop (dotStarLen rest)) := by
        rw [← hrest]
        conv_lhs => rw [← List.take_append_drop (dotStarLen rest) rest, hab]
        simp
      simp only [List.length_cons, List.length_nil] at hn
      have hlen' : (['/', '*'] ++ a ++ ['*', '/']).length = n := by
        simp only [List.length_append, List.length_cons, List.length_nil]
        omega
      refine ⟨by omega, ['/', '*'] ++ a ++ ['*'], ?_⟩
      have hd : u.drop n = b ++ rest.drop (dotStarLen rest) := by
        rw [hu, ← hlen', List.drop_left]
      rw [hd]
      conv_lhs => rw [hu]
      simp
  · exact absurd h (by simp)

/-- A match of anything followed by `*/` ends with `/`. -/
theorem matchBefore_ends (u : Str) (n : Nat) (h : matchBefore ['*', '/'] u = some n) :
    0 < n ∧ ∃ pre, u = pre ++ '/' :: u.drop n := by
  simp only [matchBefore] at h
  cases hq : lastIndex ['*', '/'] (u.take (dotStarLen u)) with
  | none =>
    rw [hq] at h
    exact absurd h (by simp)
  | some q =>
    rw [hq] at h
    obtain ⟨a, b, hab, hlen⟩ := lastIndex_spec _ _ q hq
    have hn := Option.some.inj h
    have hu : u = (a ++ ['*', '/']) ++ (b ++ u.drop (dotStarLen u)) := by
      conv_lhs => rw [← List.take_append_drop (dotStarLen u) u, hab]
      simp
    have hlen' : (a ++ ['*', '/']).length = n := by
      simp only [List.length_append, List.length_cons, List.length_nil] at hn ⊢
      omega
    refine ⟨by simp only [List.length_cons, List.length_nil] at hn; omega, a ++ ['*'], ?_⟩
    have hd : u.drop n = b ++ u.drop (dotStarLen u) := by
      conv_lhs => rw [hu, ← hlen', List.drop_left]
    rw [hd]
    conv_lhs => rw [hu]
    simp

/-- A match of a marker and the rest of the line is followed by a line break or by
nothing. -/
theorem matchPast_ends (sub u : Str) (hs : sub ≠ []) (n : Nat)
    (h : matchPast sub u = some n) : 0 < n ∧ ∀ y ∈ (u.drop n).head?, y = '\n' := by
  simp only [matchPast] at h
  split at h
  · have hn := Option.some.inj h
    have := List.length_pos.2 hs
    refine ⟨by omega, ?_⟩
    intro y hy
    rw [← hn, ← List.drop_drop] at hy
    exact dotStar_drop _ y hy
  · exact absurd h (by simp)

theorem after_slash (l u pre : Str) (n : Nat) (hch : List.Chain' (fun x y => ¬ (x ∈ opChars ∧ y = ' ')) l)
    (hu : u <:+ l) (hpre : u = pre ++ '/' :: u.drop n) :
    ∀ y ∈ (u.drop n).head?, y ≠ ' ' := by
  intro y hy e
  subst e
  obtain ⟨tail, htail⟩ : ∃ tail, u.drop n = ' ' :: tail := by
    cases hd : u.drop n with
    | nil => simp [hd] at hy
    | cons a as =>
      rw [hd] at hy
      simp only [List.head?_cons, Option.mem_def, Option.some.injEq] at hy
      exact ⟨as, by rw [hy]⟩
  have hi : ['/', ' '] <:+: l := by
    refine List.IsInfix.trans ?_ hu.isInfix
    rw [hpre, htail]
    exact ⟨pre, tail, by simp⟩
  exact not_infix_of_chain _ '/' ' ' l (fun h => h ⟨by decide, rfl⟩) hch hi

theorem past_tight (sub l : Str) (hs : sub ≠ []) (h : OpsTight l) :
    OpsTight (removeEverythingPast sub l) := by
  rw [opsTight_iff] at h ⊢
  obtain ⟨h1, h2⟩ := delete_chain (matchPast sub) (fun x y => ¬ (x ∈ opChars ∧ y = ' '))
    (fun _ _ hy hxy => hy (And.right hxy)) l h.1
    (fun u n _ hm => by
      obtain ⟨hn, hy⟩ := matchPast_ends sub u hs n hm
      exact ⟨hn, fun y hy' => by rw [hy y hy']; decide⟩) 0 (fun h0 => absurd h0 (by decide))
  refine ⟨h1, fun y hy => ?_⟩
  rcases h2 y hy with h3 | ⟨-, h3⟩
  · exact h3
  · exact h.2 y h3

theorem between_tight (l : Str) (h : OpsTight l) :
    OpsTight (removeEverythingBetween ['/', '*'] ['*', '/'] l) := by
  rw [opsTight_iff] at h ⊢
  obtain ⟨h1, h2⟩ := delete_chain (matchBetween ['/', '*'] ['*', '/'])
    (fun x y => ¬ (x ∈ opChars ∧ y = ' ')) (fun _ _ hy hxy => hy (And.right hxy)) l h.1
    (fun u n hu hm => by
      obtain ⟨hn, pre, hpre⟩ := matchBetween_ends u n hm
      exact ⟨hn, after_slash l u pre n h.1 hu hpre⟩) 0 (fun h0 => absurd h0 (by decide))
  refine ⟨h1, fun y hy => ?_⟩
  rcases h2 y hy with h3 | ⟨-, h3⟩
  · exact h3
  · exact h.2 y h3

theorem before_tight (l : Str) (h : OpsTight l) :
    OpsTight (removeEverythingBefore ['*', '/'] l) := by
  rw [opsTight_iff] at h ⊢
  obtain ⟨h1, h2⟩ := delete_chain (matchBefore ['*', '/'])
    (fun x y => ¬ (x ∈ opChars ∧ y = ' ')) (fun _ _ hy hxy => hy (And.right hxy)) l h.1
    (fun u n hu hm => by
      obtain ⟨hn, pre, hpre⟩ := matchBefore_ends u n hm
      exact ⟨hn, after_slash l u pre n h.1 hu hpre⟩) 0 (fun h0 => absurd h0 (by decide))
  refine ⟨h1, fun y hy => ?_⟩
  rcases h2 y hy with h3 | ⟨-, h3⟩
  · exact h3
  · exact h.2 y h3

/-- The block-comment pass keeps every line tight. -/
theorem block_tight (st : Bool) (lines : List Str) (h : ∀ l ∈ lines, OpsTight l) :
    ∀ o ∈ removeMultilineCommentsFrom st lines, OpsTight o := by
  induction lines generalizing st with
  | nil =>
    intro o ho
    simp [removeMultilineCommentsFrom] at ho
  | cons y rest ih =>
    have hy := h y (List.mem_cons_self _ _)
    have hrest : ∀ l ∈ rest, OpsTight l := fun l hl => h l (List.mem_cons_of_mem _ hl)
    intro o ho
    cases st
    · simp only [removeMultilineCommentsFrom, Bool.not_false, if_true] at ho
      split_ifs at ho
      · rcases List.mem_cons.1 ho with h1 | h1
        · exact h1 ▸ between_tight y hy
        · exact ih false hrest o h1
      · rcases List.mem_cons.1 ho with h1 | h1
        · exact h1 ▸ past_tight _ y (by simp) hy
        · exact ih true hrest o h1
      · rcases List.mem_cons.1 ho with h1 | h1
        · exact h1 ▸ hy
        · exact ih false hrest o h1
    · simp only [removeMultilineCommentsFrom, Bool.not_true, Bool.false_eq_true,
        if_false] at ho
      split_ifs at ho
      · rcases List.mem_cons.1 ho with h1 | h1
        · exact h1 ▸ before_tight y hy
        · exact ih false hrest o h1
      · rcases List.mem_cons.1 ho with h1 | h1
        · exact h1 ▸ opsTight_nil
        · exact ih true hrest o h1

theorem opChars_in_ops : ∀ c ∈ opChars, [c] ∈ ops ∧ c ≠ 'e' ∧ c ≠ ' ' ∧ c ≠ '\n' := by decide

theorem tight_of_each (l : Str)
    (h : ∀ c ∈ opChars, List.Chain' (fun a b => ¬ (a = c ∧ b = ' ')) l) :
    List.Chain' (fun x y => ¬ (x ∈ opChars ∧ y = ' ')) l := by
  induction l with
  | nil => exact List.chain'_nil
  | cons a as ih =>
    rw [List.chain'_cons']
    refine ⟨?_, ih (fun c hc => (List.chain'_cons'.1 (h c hc)).2)⟩
    intro y hy hxy
    exact (List.chain'_cons'.1 (h a hxy.1)).1 y hy ⟨rfl, hxy.2⟩

theorem compactLine_head (os : List Str) (hos : ∀ op ∈ os, op ∈ ops) (y : Str)
    (hy : ∀ c ∈ y.head?, c ≠ ' ') : ∀ c ∈ (compactLine os y).head?, c ≠ ' ' := by
  induction os generalizing y with
  | nil => exact hy
  | cons op os ih =>
    have e : compactLine (op :: os) y = compactLine os (minifyOperator op y) := rfl
    rw [e]
    apply ih (fun o ho => hos o (List.mem_cons_of_mem _ ho))
    have hop := hos op (List.mem_cons_self _ _)
    intro c hc
    by_cases he : op = ['e', 'l', 's', 'e']
    · rw [he, minifyOperator_else] at hc
      rcases head_replace_else y c hc with ⟨h1, -⟩ | ⟨h1, -⟩
      · exact hy c h1
      · rw [h1]
        decide
    · rw [minifyOperator_plain op y he] at hc
      obtain ⟨hne, hsp⟩ := ops_wellformed op hop
      rcases head_replace op y hne c hc with ⟨h1, -⟩ | ⟨h1, -⟩
      · exact hy c h1
      · exact fun e' => hsp (e' ▸ List.mem_of_mem_head? h1)

theorem compactLine_tight (y : Str) (hy : ∀ c ∈ y.head?, c ≠ ' ') :
    OpsTight (compactLine ops y) := by
  have hh := compactLine_head ops (fun _ h => h) y hy
  have hr : ∀ c ∈ opChars, NoSpaceAfter c (compactLine ops y) := fun c hc =>
    compactLine_right c (opChars_in_ops c hc).1 (opChars_in_ops c hc).2.1 y
  generalize compactLine ops y = z at hh hr
  rw [opsTight_iff]
  refine ⟨tight_of_each z (fun c hc => ?_), hh⟩
  have := hr c hc
  unfold NoSpaceAfter at this
  exact this

theorem compactedLines_tight (s : Str) (kn ki : Bool) :
    ∀ x ∈ compactedLines s kn ki, OpsTight x := by
  have h0 : ∀ x ∈ clearWhitespaceFirstPass (stringsSplit s), ∀ c ∈ x.head?, c ≠ ' ' := by
    intro x hx c hc e
    simp only [clearWhitespaceFirstPass, List.mem_map] at hx
    obtain ⟨l, -, rfl⟩ := hx
    have := (stringsTrimSpace_head (replaceTabs l)).1 c hc
    rw [e] at this
    revert this
    decide
  have h1 : ∀ x ∈ (if (!kn) = true then
      reinsertPreprocessorNewlines (clearWhitespaceFirstPass (stringsSplit s))
      else clearWhitespaceFirstPass (stringsSplit s)), ∀ c ∈ x.head?, c ≠ ' ' := by
    intro x hx c hc
    cases kn
    · simp only [Bool.not_false, if_true, reinsertPreprocessorNewlines, List.mem_map] at hx
      obtain ⟨y, hy, rfl⟩ := hx
      split at hc
      · cases y with
        | nil =>
          simp only [List.nil_append, List.head?_cons, Option.mem_def,
            Option.some.injEq] at hc
          rw [← hc]
          decide
        | cons a as => exact h0 _ hy c (by simpa using hc)
      · exact h0 y hy c hc
    · simp only [Bool.not_true, Bool.false_eq_true, if_false] at hx
      exact h0 x hx c hc
  intro x hx
  cases ki
  · simp only [compactedLines, Bool.not_false, if_true, foldl_map_lines,
      removeInlineComments] at hx
    obtain ⟨y, hy, rfl⟩ := List.mem_map.1 hx
    obtain ⟨z, hz, rfl⟩ := List.mem_map.1 hy
    exact past_tight _ _ (by simp) (compactLine_tight z (h1 z hz))
  · simp only [compactedLines, Bool.not_true, Bool.false_eq_true, if_false,
      foldl_map_lines] at hx
    obtain ⟨z, hz, rfl⟩ := List.mem_map.1 hx
    exact compactLine_tight z (h1 z hz)

theorem minifiedLines_tight (s : Str) (kn km ki : Bool) :
    ∀ x ∈ minifiedLines s kn km ki, OpsTight x := by
  intro x hx
  cases km
  · simp only [minifiedLines, Bool.not_false, if_true, removeMultilineComments] at hx
    exact block_tight false _ (compactedLines_tight s kn ki) x hx
  · simp only [minifiedLines, Bool.not_true, Bool.false_eq_true, if_false] at hx
    exact compactedLines_tight s kn ki x hx

theorem flatten_tight (ls : List Str) (h : ∀ l ∈ ls, OpsTight l) :
    List.Chain' (fun x y => ¬ (x ∈ opChars ∧ y = ' ')) ls.flatten
      ∧ ∀ c ∈ ls.flatten.head?, c ≠ ' ' := by
  induction ls with
  | nil => simp
  | cons l rest ih =>
    obtain ⟨ih1, ih2⟩ := ih (fun x hx => h x (List.mem_cons_of_mem _ hx))
    have hl := (opsTight_iff l).1 (h l (List.mem_cons_self _ _))
    rw [List.flatten_cons]
    constructor
    · rw [List.chain'_append]
      exact ⟨hl.1, ih1, fun x _ y hy hxy => ih2 y hy hxy.2⟩
    · intro c hc
      cases l with
      | nil => exact ih2 c (by simpa using hc)
      | cons a as => exact hl.2 c (by simpa using hc)

theorem collapseRuns_tight (b : Bool) (l : Str)
    (h : List.Chain' (fun x y => ¬ (x ∈ opChars ∧ y = ' ')) l) :
    List.Chain' (fun x y => ¬ (x ∈ opChars ∧ y = ' ')) (collapseRuns b l)
      ∧ (b = false → (collapseRuns b l).head? = l.head?) := by
  induction l generalizing b with
  | nil => simp [collapseRuns]
  | cons c cs ih =>
    rw [List.chain'_cons'] at h
    by_cases hc : c = '\n'
    · subst hc
      cases b
      · simp only [collapseRuns, if_true, Bool.false_eq_true, if_false, List.head?_cons,
          implies_true, and_true]
        rw [List.chain'_cons']
        exact ⟨fun y _ hxy => absurd hxy.1 (by decide), (ih true h.2).1⟩
      · simp only [collapseRuns, if_true]
        exact ⟨(ih true h.2).1, fun hb => absurd hb (by decide)⟩
    · simp only [collapseRuns, hc, if_false, List.head?_cons, implies_true, and_true]
      rw [List.chain'_cons']
      refine ⟨?_, (ih false h.2).1⟩
      intro y hy
      rw [(ih false h.2).2 rfl] at hy
      exact h.1 y hy

theorem fixSpacedOps_tight (t : Str)
    (h : List.Chain' (fun x y => ¬ (x ∈ opChars ∧ y = ' ')) t) :
    List.Chain' (fun x y => ¬ (x ∈ opChars ∧ y = ' ')) (fixSpacedOps t)
      ∧ ∀ y ∈ (fixSpacedOps t).head?, y ∈ t.head? := by
  induction' hn : t.length using Nat.strong_induction_on with n ih generalizing t
  rcases fixSpacedOps_cases t with ⟨rest, h0, h1⟩ | ⟨h0, h1⟩ | ⟨c, cs, h0, -, h1⟩
  · have hr : List.Chain' (fun x y => ¬ (x ∈ opChars ∧ y = ' ')) rest :=
      h.suffix ⟨['e', 'l', 's', 'e', ' ', '\x7b'], h0.symm⟩
    obtain ⟨i1, i2⟩ := ih rest.length (by rw [← hn, h0]; simp; omega) rest hr rfl
    rw [h1, h0]
    constructor
    · simp only [List.cons_append, List.nil_append, List.chain'_cons', List.head?_cons,
        Option.mem_def, Option.some.injEq, forall_eq']
      refine ⟨fun hxy => absurd hxy.2 (by decide), fun hxy => absurd hxy.2 (by decide),
        fun hxy => absurd hxy.2 (by decide), fun hxy => absurd hxy.2 (by decide), ?_, i1⟩
      intro y hy
      have hy' := i2 y hy
      rw [h0] at h
      simp only [List.cons_append, List.nil_append, List.chain'_cons', List.head?_cons,
        Option.mem_def, Option.some.injEq, forall_eq'] at h
      exact h.2.2.2.2.2.1 y hy'
    · intro y hy
      simpa using hy
  · rw [h1]
    simp
  · rw [h0] at h
    rw [List.chain'_cons'] at h
    obtain ⟨i1, i2⟩ := ih cs.length (by rw [← hn, h0]; simp) cs h.2 rfl
    rw [h1, h0]
    constructor
    · rw [List.chain'_cons']
      exact ⟨fun y hy => h.1 y (i2 y hy), i1⟩
    · intro y hy
      simpa using hy

/-- Whatever the source and the flags, no space stands right after an operator character
in the output of `minifySource`. -/
theorem minifySource_tight (s : Str) (kn km ki : Bool) :
    List.Chain' (fun x y => ¬ (x ∈ opChars ∧ y = ' ')) (minifySource s kn km ki) := by
  obtain ⟨h1, -⟩ := flatten_tight _ (minifiedLines_tight s kn km ki)
  simp only [minifySource, stringsJoin]
  apply (fixSpacedOps_tight _ ?_).1
  cases kn
  · simp only [Bool.not_false, if_true]
    rw [fixDuplicateNewlines_eq]
    exact (collapseRuns_tight false _ h1).1
  · simp only [Bool.not_true, Bool.false_eq_true, if_false]
    exact h1

/-! ## A space before an operator character stands right after `else` -/

/-- Replacing the part `d` of a text by `r` keeps the text guarded, under conditions on
the three places where a space can meet something new: at the end of what stands
before, inside `r`, and in what follows. -/
theorem guarded_swap (S w d r rest : Str) (h : Guarded S (w ++ (d ++ rest)))
    (hB : w.getLast? = some ' ' → (∀ c ∈ (r ++ rest).head?, c ∈ S) →
      ∀ c ∈ (d ++ rest).head?, c ∈ S)
    (hC : ∀ r1 r2 : Str, r = r1 ++ ' ' :: r2 → (∀ c ∈ (r2 ++ rest).head?, c ∈ S) →
      ['e', 'l', 's', 'e'] <:+ w ++ r1)
    (hD : ∀ r1 post : Str, rest = r1 ++ ' ' :: post → (∀ c ∈ post.head?, c ∈ S) →
      ['e', 'l', 's', 'e'] <:+ w ++ (d ++ r1) → ['e', 'l', 's', 'e'] <:+ w ++ (r ++ r1)) :
    Guarded S (w ++ (r ++ rest)) := by
  intro pre post hsplit hpost
  have inRest : ∀ b' : Str, pre = w ++ (r ++ b') → rest = b' ++ ' ' :: post →
      ['e', 'l', 's', 'e'] <:+ pre := by
    intro b' hp hr
    rw [hp]
    apply hD b' post hr hpost
    have := h (w ++ (d ++ b')) post (by rw [hr]; simp) hpost
    exact this
  have inTail : ∀ a' : Str, pre = w ++ a' → r ++ rest = a' ++ ' ' :: post →
      ['e', 'l', 's', 'e'] <:+ pre := by
    intro a' hp hr
    rcases List.append_eq_append_iff.1 hr with ⟨b', hb1, hb2⟩ | ⟨c', hc1, hc2⟩
    · exact inRest b' (by rw [hp, hb1]) hb2
    · cases c' with
      | nil =>
        simp only [List.append_nil] at hc1
        simp only [List.nil_append] at hc2
        exact inRest [] (by rw [hp, hc1]; simp) (by rw [← hc2]; simp)
      | cons x c'' =>
        simp only [List.cons_append, List.cons.injEq] at hc2
        obtain ⟨hx, hpost'⟩ := hc2
        subst hx
        rw [hp]
        exact hC a' c'' hc1 (by rw [← hpost']; exact hpost)
  rcases List.append_eq_append_iff.1 hsplit with ⟨a', ha1, ha2⟩ | ⟨c', hc1, hc2⟩
  · exact inTail a' ha1 ha2
  · cases c' with
    | nil =>
      simp only [List.append_nil] at hc1
      simp only [List.nil_append] at hc2
      exact inTail [] (by rw [hc1]; simp) (by rw [← hc2]; simp)
    | cons x c'' =>
      simp only [List.cons_append, List.cons.injEq] at hc2
      obtain ⟨hx, hpost'⟩ := hc2
      subst hx
      cases c'' with
      | nil =>
        simp only [List.nil_append] at hpost'
        apply h pre (d ++ rest) (by rw [hc1]; simp)
        apply hB (by rw [hc1]; simp)
        rw [← hpost']
        exact hpost
      | cons y c3 =>
        apply h pre (y :: c3 ++ (d ++ rest)) (by rw [hc1]; simp)
        intro c hc
        apply hpost c
        rw [hpost']
        simpa using hc

/-- A run of characters foreign to `else` cuts off every `else` that would end after it. -/
theorem suffix_barrier_run (P d a : Str) (hd : d ≠ []) (hc : ∀ c ∈ d, c ∉ ['e', 'l', 's', 'e'])
    (h : ['e', 'l', 's', 'e'] <:+ P ++ (d ++ a)) : ['e', 'l', 's', 'e'] <:+ a := by
  obtain ⟨d', x, rfl⟩ : ∃ d' x, d = d' ++ [x] := by
    rcases List.eq_nil_or_concat d with h0 | ⟨d', x, h0⟩
    · exact absurd h0 hd
    · exact ⟨d', x, by rw [h0, List.concat_eq_append]⟩
  apply suffix_barrier (P ++ d') a x (hc x (by simp))
  simpa using h

theorem split_snoc_space (op r1 r2 : Str) (hop : ' ' ∉ op) (h : op ++ [' '] = r1 ++ ' ' :: r2) :
    r1 = op ∧ r2 = [] := by
  induction op generalizing r1 with
  | nil =>
    cases r1 with
    | nil => simpa using h.symm
    | cons a as =>
      simp only [List.nil_append, List.cons_append, List.cons.injEq] at h
      have := h.2
      cases as <;> simp at this
  | cons o os ih =>
    cases r1 with
    | nil =>
      simp only [List.cons_append, List.nil_append, List.cons.injEq] at h
      exact absurd h.1 (fun e => hop (by rw [e]; simp))
    | cons a as =>
      simp only [List.cons_append, List.cons.injEq] at h
      obtain ⟨i1, i2⟩ := ih as (fun hm => hop (List.mem_cons_of_mem _ hm)) h.2
      exact ⟨by rw [h.1, i1], i2⟩

/-- Replacing ` *else *` by `else` and a space guards every space, when before it no
space met a character of `S` or the end of the text. -/
theorem guarded_else (S : Str) (hS : 'e' ∉ S) (l w : Str) (hw : Guarded S (w ++ l))
    (hl : ∀ pre post : Str, l = pre ++ ' ' :: post → ∃ c ∈ post.head?, c ∉ S) :
    Guarded S (w ++ regexpReplaceAll (matchSpacedOp ['e', 'l', 's', 'e'])
      ['e', 'l', 's', 'e', ' '] l) := by
  induction' hn : l.length using Nat.strong_induction_on with n ih generalizing l w
  cases l with
  | nil => simpa [regexpReplaceAll_nil] using hw
  | cons c cs =>
    cases hm : matchSpacedOp ['e', 'l', 's', 'e'] (c :: cs) with
    | none =>
      rw [regexpReplaceAll_cons_none _ _ _ _ hm]
      have := ih cs.length (by simp [← hn]) cs (w ++ [c]) (by simpa using hw)
        (fun pre post hp => hl (c :: pre) post (by rw [hp]; rfl)) rfl
      simpa using this
    | some n' =>
      obtain ⟨k, k', rest, hl', -, hR⟩ := minifyOperator_step ['e', 'l', 's', 'e']
        ['e', 'l', 's', 'e', ' '] _ n' (by simp) hm
      have hlt := minifyOperator_rest_lt ['e', 'l', 's', 'e'] _ rest k k' (by simp) hl'
      have hl2 : c :: cs = (spaces k ++ (['e', 'l', 's', 'e'] ++ spaces k')) ++ rest := by
        rw [hl']
        simp
      have hrest : ∀ pre post : Str, rest = pre ++ ' ' :: post → ∃ c ∈ post.head?, c ∉ S := by
        intro pre post hp
        apply hl ((spaces k ++ (['e', 'l', 's', 'e'] ++ spaces k')) ++ pre) post
        rw [hl2, hp]
        simp
      rw [hR]
      rw [hl2] at hw
      have hstep := guarded_swap S w _ ['e', 'l', 's', 'e', ' '] rest hw
        (fun _ hp => absurd (hp 'e' (by simp)) hS)
        (fun r1 r2 hr _ => by
          have := split_snoc_space ['e', 'l', 's', 'e'] r1 r2 (by decide) hr
          rw [this.1]
          exact List.suffix_append _ _)
        (fun r1 post hr hp _ => by
          obtain ⟨c, hc, hcS⟩ := hrest r1 post hr
          exact absurd (hp c hc) hcS)
      have := ih rest.length (by omega) rest (w ++ ['e', 'l', 's', 'e', ' '])
        (by simpa using hstep) hrest rfl
      simpa using this

/-- Replacing ` *op *` by `op` keeps a text guarded, when `op` is made of characters
that are neither in `S` nor in `else`. -/
theorem guarded_plain (S op : Str) (hop : op ≠ [])
    (hS : ∀ c ∈ op, c ∉ S ∧ c ≠ ' ' ∧ c ∉ ['e', 'l', 's', 'e']) (l w : Str)
    (hw : Guarded S (w ++ l)) :
    Guarded S (w ++ regexpReplaceAll (matchSpacedOp op) op l) := by
  induction' hn : l.length using Nat.strong_induction_on with n ih generalizing l w
  cases l with
  | nil => simpa [regexpReplaceAll_nil] using hw
  | cons c cs =>
    cases hm : matchSpacedOp op (c :: cs) with
    | none =>
      rw [regexpReplaceAll_cons_none _ _ _ _ hm]
      have := ih cs.length (by simp [← hn]) cs (w ++ [c]) (by simpa using hw) rfl
      simpa using this
    | some n' =>
      obtain ⟨k, k', rest, hl', -, hR⟩ := minifyOperator_step op op _ n' hop hm
      have hlt := minifyOperator_rest_lt op _ rest k k' hop hl'
      have hl2 : c :: cs = (spaces k ++ (op ++ spaces k')) ++ rest := by
        rw [hl']
        simp
      obtain ⟨o, os, rfl⟩ : ∃ o os, op = o :: os := by
        cases op with
        | nil => exact absurd rfl hop
        | cons o os => exact ⟨o, os, rfl⟩
      rw [hR]
      rw [hl2] at hw
      have hstep := guarded_swap S w _ (o :: os) rest hw
        (fun _ hp => absurd (hp o (by simp)) (hS o (List.mem_cons_self _ _)).1)
        (fun r1 r2 hr _ => by
          exfalso
          have : ' ' ∈ o :: os := by
            rw [hr]
            simp
          exact (hS ' ' this).2.1 rfl)
        (fun r1 post hr hp he => by
          have hd : ∀ x ∈ spaces k ++ (o :: os ++ spaces k'), x ∉ ['e', 'l', 's', 'e'] := by
            intro x hx
            simp only [spaces, List.mem_append, List.mem_replicate] at hx
            rcases hx with ⟨-, rfl⟩ | hx | ⟨-, rfl⟩
            · decide
            · exact (hS x hx).2.2
            · decide
          have := suffix_barrier_run w _ r1 (by simp) hd he
          have h2 : r1 <:+ w ++ (o :: os ++ r1) := ⟨w ++ (o :: os), by simp⟩
          exact this.trans h2)
      have := ih rest.length (by omega) rest (w ++ (o :: os)) (by simpa using hstep) rfl
      simpa using this

theorem early_ops :
    (∀ op ∈ ops.take 38, op ≠ [] ∧ ' ' ∉ op) ∧ ['e', 'l', 's', 'e'] ∉ ops.take 38
      ∧ ∀ c ∈ earlyOpChars, [c] ∈ ops.take 38 := by decide

theorem opChars_cases : ∀ c ∈ opChars, c ∈ earlyOpChars ∨ c = ':' ∨ c = '?' := by decide

/-- When the loop has gone through the operators that stand before `else` in the table,
every space of the line is followed by a character, and not by an operator character
other than `:` and `?`. -/
theorem compactLine_early (y : Str) (hy : Trimmed y) (pre post : Str)
    (h : compactLine (ops.take 38) y = pre ++ ' ' :: post) :
    ∃ c ∈ post.head?, c ∉ earlyOpChars := by
  obtain ⟨h1, h2, -, h4⟩ := compactLine_inv (ops.take 38) early_ops.1 y
    (fun h => absurd h early_ops.2.1)
  have ht := sublist_trimmed _ _ h1 h2 hy
  generalize compactLine (ops.take 38) y = z at h h4 ht
  cases post with
  | nil =>
    exfalso
    exact ht.2 ' ' (by rw [h]; simp) rfl
  | cons c rest =>
    refine ⟨c, by simp, fun hc => ?_⟩
    have := (noSpaceNextTo_pairs c z (h4 c (early_ops.2.2 c hc))).1
    exact this ⟨pre, rest, by rw [h]; simp⟩

/-- After the loop over the operators, every space of the line that is followed by an
operator character, or by nothing, stands right after `else`. -/
theorem compactLine_guarded (y : Str) (hy : Trimmed y) : Guarded opChars (compactLine ops y) := by
  have e : compactLine ops y = compactLine [[':'], [':', ':'], ['?']]
      (minifyOperator ['e', 'l', 's', 'e'] (compactLine (ops.take 38) y)) := by
    have e0 : ∀ x, compactLine (['e', 'l', 's', 'e'] :: [[':'], [':', ':'], ['?']]) x
        = compactLine [[':'], [':', ':'], ['?']] (minifyOperator ['e', 'l', 's', 'e'] x) :=
      fun _ => rfl
    rw [← e0, ← compactLine_append]
    exact congrArg (fun o => compactLine o y) ops_split
  have h1 := compactLine_early y hy
  rw [e]
  generalize compactLine (ops.take 38) y = z1 at h1
  have g1 : Guarded earlyOpChars z1 := by
    intro pre post hz hp
    obtain ⟨c, hc, hcS⟩ := h1 pre post hz
    exact absurd (hp c hc) hcS
  have g2 : Guarded earlyOpChars (minifyOperator ['e', 'l', 's', 'e'] z1) := by
    rw [minifyOperator_else]
    simpa using guarded_else earlyOpChars (by decide) z1 [] (by simpa using g1) h1
  generalize minifyOperator ['e', 'l', 's', 'e'] z1 = z2 at g2
  obtain ⟨-, -, -, n4⟩ := compactLine_inv [[':'], [':', ':'], ['?']] (by decide) z2
    (fun h => absurd h (by decide))
  have g3 : Guarded earlyOpChars (compactLine [[':'], [':', ':'], ['?']] z2) := by
    have e3 : compactLine [[':'], [':', ':'], ['?']] z2
        = minifyOperator ['?'] (minifyOperator [':', ':'] (minifyOperator [':'] z2)) := rfl
    rw [e3, minifyOperator_plain _ _ (by decide), minifyOperator_plain _ _ (by decide),
      minifyOperator_plain _ _ (by decide)]
    have a1 := guarded_plain earlyOpChars [':'] (by simp) (by decide) z2 []
      (by simpa using g2)
    have a2 := guarded_plain earlyOpChars [':', ':'] (by simp) (by decide) _ [] a1
    have a3 := guarded_plain earlyOpChars ['?'] (by simp) (by decide) _ [] a2
    simpa using a3
  have n1 := (noSpaceNextTo_pairs ':' _ (n4 ':' (by decide))).1
  have n2 := (noSpaceNextTo_pairs '?' _ (n4 '?' (by decide))).1
  generalize compactLine [[':'], [':', ':'], ['?']] z2 = z3 at g3 n1 n2
  intro pre post hz hp
  apply g3 pre post hz
  intro c hc
  rcases opChars_cases c (hp c hc) with h | h | h
  · exact h
  · exfalso
    subst h
    cases post with
    | nil => simp at hc
    | cons d rest =>
      simp only [List.head?_cons, Option.mem_def, Option.some.injEq] at hc
      subst hc
      exact n1 ⟨pre, rest, by rw [hz]; simp⟩
  · exfalso
    subst h
    cases post with
    | nil => simp at hc
    | cons d rest =>
      simp only [List.head?_cons, Option.mem_def, Option.some.injEq] at hc
      subst hc
      exact n2 ⟨pre, rest, by rw [hz]; simp⟩

/-- Deleting matches keeps a text guarded, if deleting one match does; `K` is what the
scan knows about the text copied so far and the text still to be read. -/
theorem delete_guarded (m : Str → Option Nat) (K : Str → Str → Prop)
    (hKnone : ∀ w c cs, K w (c :: cs) → m (c :: cs) = none → K (w ++ [c]) cs)
    (hstep : ∀ w u n, K w u → m u = some n → Guarded opChars (w ++ u) →
      0 < n ∧ K w (u.drop n) ∧ Guarded opChars (w ++ u.drop n))
    (l : Str) (k : Nat) (w : Str) (hK : K w (l.drop k))
    (hG : Guarded opChars (w ++ l.drop k)) :
    Guarded opChars (w ++ regexpReplaceGo m [] k l) := by
  induction l generalizing k w with
  | nil => simpa [regexpReplaceGo] using hG
  | cons c cs ih =>
    cases k with
    | succ k =>
      simp only [regexpReplaceGo]
      exact ih k w (by simpa using hK) (by simpa using hG)
    | zero =>
      simp only [List.drop_zero] at hK hG
      cases hm : m (c :: cs) with
      | none =>
        simp only [regexpReplaceGo, hm]
        have := ih 0 (w ++ [c]) (by simpa using hKnone w c cs hK hm) (by simpa using hG)
        simpa using this
      | some n =>
        simp only [regexpReplaceGo, hm, List.nil_append]
        obtain ⟨hn, h1, h2⟩ := hstep w (c :: cs) n hK hm hG
        obtain ⟨n', rfl⟩ : ∃ n', n = n' + 1 := ⟨n - 1, by omega⟩
        simp only [List.drop_succ_cons] at h1 h2
        exact ih n' w h1 h2

/-- Deleting a piece that ends with `/` keeps a text guarded, when the piece begins with
an operator character or no space stands before it. -/
theorem guarded_delete_slash (w pre rest : Str) (h : Guarded opChars (w ++ (pre ++ '/' :: rest)))
    (hB : w.getLast? = some ' ' → ∀ c ∈ (pre ++ '/' :: rest).head?, c ∈ opChars) :
    Guarded opChars (w ++ rest) := by
  have h' : Guarded opChars (w ++ ((pre ++ ['/']) ++ rest)) := by simpa using h
  have := guarded_swap opChars w (pre ++ ['/']) [] rest h'
    (fun hw _ => by simpa using hB hw)
    (fun r1 r2 hr _ => by simp at hr)
    (fun r1 post _ _ he => by
      have h1 : ['e', 'l', 's', 'e'] <:+ w ++ pre ++ '/' :: r1 := by simpa using he
      have h2 := suffix_barrier (w ++ pre) r1 '/' (by decide) h1
      have h3 : r1 <:+ w ++ ([] ++ r1) := ⟨w, by simp⟩
      exact h2.trans h3)
  simpa using this

theorem matchPast_head (sub u : Str) (n : Nat) (c : Char) (hs : sub.head? = some c)
    (h : matchPast sub u = some n) : u.head? = some c := by
  simp only [matchPast, List.isPrefixOf_iff_prefix] at h
  split at h
  · rename_i hp
    obtain ⟨t, rfl⟩ := hp
    cases sub with
    | nil => simp at hs
    | cons a as => simpa using hs
  · exact absurd h (by simp)

theorem matchBetween_head (u : Str) (n : Nat)
    (h : matchBetween ['/', '*'] ['*', '/'] u = some n) : u.head? = some '/' := by
  simp only [matchBetween, List.isPrefixOf_iff_prefix] at h
  split at h
  · rename_i hp
    obtain ⟨t, rfl⟩ := hp
    rfl
  · exact absurd h (by simp)

theorem matchBefore_tail (sub : Str) (c : Char) (cs : Str) (hc : c ≠ '\n')
    (h : matchBefore sub (c :: cs) = none) : matchBefore sub cs = none := by
  have hd : dotStarLen (c :: cs) = dotStarLen cs + 1 := by
    simp [dotStarLen, List.takeWhile_cons, hc]
  simp only [matchBefore, hd, List.take_succ_cons, lastIndex] at h ⊢
  cases hq : lastIndex sub (cs.take (dotStarLen cs)) with
  | none => rfl
  | some i =>
    rw [hq] at h
    simp at h

theorem past_guarded (sub l : Str) (hs : sub.head? = some '/') (h : Guarded opChars l) :
    Guarded opChars (removeEverythingPast sub l) := by
  have hne : sub ≠ [] := by
    rintro rfl
    simp at hs
  have := delete_guarded (matchPast sub) (fun _ _ => True) (fun _ _ _ _ _ => trivial)
    (fun w u n _ hm hG => by
      obtain ⟨hn, hy⟩ := matchPast_ends sub u hne n hm
      have hh := matchPast_head sub u n '/' hs hm
      refine ⟨hn, trivial, ?_⟩
      have hG' : Guarded opChars (w ++ (u.take n ++ u.drop n)) := by
        rw [List.take_append_drop]
        exact hG
      have := guarded_swap opChars w (u.take n) [] (u.drop n) hG'
        (fun _ _ c hc => by
          rw [List.take_append_drop, hh] at hc
          simp only [Option.mem_def, Option.some.injEq] at hc
          rw [← hc]
          decide)
        (fun r1 r2 hr _ => by simp at hr)
        (fun r1 post hr _ he => by
          cases r1 with
          | nil =>
            exfalso
            have := hy ' ' (by rw [hr]; simp)
            revert this
            decide
          | cons x r1' =>
            have hx : x = '\n' := hy x (by rw [hr]; simp)
            subst hx
            have h1 : ['e', 'l', 's', 'e'] <:+ (w ++ u.take n) ++ '\n' :: r1' := by
              simpa using he
            have h2 := suffix_barrier _ r1' '\n' (by decide) h1
            have h3 : r1' <:+ w ++ ([] ++ '\n' :: r1') := ⟨w ++ ['\n'], by simp⟩
            exact h2.trans h3)
      simpa using this)
    l 0 [] trivial (by simpa using h)
  simpa [removeEverythingPast, regexpReplaceAll] using this

theorem between_guarded (l : Str) (h : Guarded opChars l) :
    Guarded opChars (removeEverythingBetween ['/', '*'] ['*', '/'] l) := by
  have := delete_guarded (matchBetween ['/', '*'] ['*', '/']) (fun _ _ => True)
    (fun _ _ _ _ _ => trivial)
    (fun w u n _ hm hG => by
      obtain ⟨hn, pre, hpre⟩ := matchBetween_ends u n hm
      have hh := matchBetween_head u n hm
      refine ⟨hn, trivial, ?_⟩
      rw [hpre] at hG
      apply guarded_delete_slash w pre _ hG
      intro _ c hc
      rw [← hpre, hh] at hc
      simp only [Option.mem_def, Option.some.injEq] at hc
      rw [← hc]
      decide)
    l 0 [] trivial (by simpa using h)
  simpa [removeEverythingBetween, regexpReplaceAll] using this

theorem before_guarded (l : Str) (h : Guarded opChars l) :
    Guarded opChars (removeEverythingBefore ['*', '/'] l) := by
  have := delete_guarded (matchBefore ['*', '/'])
    (fun w u => w.getLast? = some ' ' → matchBefore ['*', '/'] u = none)
    (fun w c cs _ hm hw => by
      have hc : c = ' ' := by simpa using hw
      subst hc
      exact matchBefore_tail _ ' ' cs (by decide) hm)
    (fun w u n hK hm hG => by
      obtain ⟨hn, pre, hpre⟩ := matchBefore_ends u n hm
      refine ⟨hn, fun hw => ?_, ?_⟩
      · rw [hK hw] at hm
        exact absurd hm (by simp)
      · rw [hpre] at hG
        apply guarded_delete_slash w pre _ hG
        intro hw
        rw [hK hw] at hm
        exact absurd hm (by simp))
    l 0 [] (fun hw => by simp at hw) (by simpa using h)
  simpa [removeEverythingBefore, regexpReplaceAll] using this

theorem guarded_nil (S : Str) : Guarded S [] := by
  intro pre post h
  simp at h

/-- The block-comment pass keeps every line guarded. -/
theorem block_guarded (st : Bool) (lines : List Str) (h : ∀ l ∈ lines, Guarded opChars l) :
    ∀ o ∈ removeMultilineCommentsFrom st lines, Guarded opChars o := by
  induction lines generalizing st with
  | nil =>
    intro o ho
    simp [removeMultilineCommentsFrom] at ho
  | cons y rest ih =>
    have hy := h y (List.mem_cons_self _ _)
    have hrest : ∀ l ∈ rest, Guarded opChars l := fun l hl => h l (List.mem_cons_of_mem _ hl)
    intro o ho
    cases st
    · simp only [removeMultilineCommentsFrom, Bool.not_false, if_true] at ho
      split_ifs at ho
      · rcases List.mem_cons.1 ho with h1 | h1
        · exact h1 ▸ between_guarded y hy
        · exact ih false hrest o h1
      · rcases List.mem_cons.1 ho with h1 | h1
        · exact h1 ▸ past_guarded _ y rfl hy
        · exact ih true hrest o h1
      · rcases List.mem_cons.1 ho with h1 | h1
        · exact h1 ▸ hy
        · exact ih false hrest o h1
    · simp only [removeMultilineCommentsFrom, Bool.not_true, Bool.false_eq_true,
        if_false] at ho
      split_ifs at ho
      · rcases List.mem_cons.1 ho with h1 | h1
        · exact h1 ▸ before_guarded y hy
        · exact ih false hrest o h1
      · rcases List.mem_cons.1 ho with h1 | h1
        · exact h1 ▸ guarded_nil opChars
        · exact ih true hrest o h1

theorem compactedLines_guarded (s : Str) (kn ki : Bool) :
    ∀ x ∈ compactedLines s kn ki, Guarded opChars x := by
  have hsp : ∀ c : Char, isSpace c = false → c ≠ ' ' := by
    intro c hc e
    rw [e] at hc
    revert hc
    decide
  have h0 : ∀ x ∈ clearWhitespaceFirstPass (stringsSplit s), Trimmed x := by
    intro x hx
    simp only [clearWhitespaceFirstPass, List.mem_map] at hx
    obtain ⟨l, -, rfl⟩ := hx
    have := stringsTrimSpace_head (replaceTabs l)
    exact ⟨fun c hc => hsp c (this.1 c hc), fun c hc => hsp c (this.2 c hc)⟩
  have h1 : ∀ x ∈ (if (!kn) = true then
      reinsertPreprocessorNewlines (clearWhitespaceFirstPass (stringsSplit s))
      else clearWhitespaceFirstPass (stringsSplit s)), Trimmed x := by
    intro x hx
    cases kn
    · simp only [Bool.not_false, if_true, reinsertPreprocessorNewlines, List.mem_map] at hx
      obtain ⟨y, hy, rfl⟩ := hx
      split
      · constructor
        · intro c hc
          cases y with
          | nil =>
            simp only [List.nil_append, List.head?_cons, Option.mem_def,
              Option.some.injEq] at hc
            rw [← hc]
            decide
          | cons a as => exact (h0 _ hy).1 c (by simpa using hc)
        · intro c hc
          simp only [List.getLast?_append, List.getLast?_singleton, Option.mem_def] at hc
          have hc' : some '\n' = some c := hc
          rw [← Option.some.inj hc']
          decide
      · exact h0 y hy
    · simp only [Bool.not_true, Bool.false_eq_true, if_false] at hx
      exact h0 x hx
  intro x hx
  cases ki
  · simp only [compactedLines, Bool.not_false, if_true, foldl_map_lines,
      removeInlineComments] at hx
    obtain ⟨y, hy, rfl⟩ := List.mem_map.1 hx
    obtain ⟨z, hz, rfl⟩ := List.mem_map.1 hy
    exact past_guarded _ _ rfl (compactLine_guarded z (h1 z hz))
  · simp only [compactedLines, Bool.not_true, Bool.false_eq_true, if_false,
      foldl_map_lines] at hx
    obtain ⟨z, hz, rfl⟩ := List.mem_map.1 hx
    exact compactLine_guarded z (h1 z hz)

theorem minifiedLines_guarded (s : Str) (kn km ki : Bool) :
    ∀ x ∈ minifiedLines s kn km ki, Guarded opChars x := by
  intro x hx
  cases km
  · simp only [minifiedLines, Bool.not_false, if_true, removeMultilineComments] at hx
    exact block_guarded false _ (compactedLines_guarded s kn ki) x hx
  · simp only [minifiedLines, Bool.not_true, Bool.false_eq_true, if_false] at hx
    exact compactedLines_guarded s kn ki x hx

theorem guarded_append (S a b : Str) (ha : Guarded S a) (hb : Guarded S b) :
    Guarded S (a ++ b) := by
  intro pre post hsplit hpost
  rcases List.append_eq_append_iff.1 hsplit with ⟨a', h1, h2⟩ | ⟨c', h1, h2⟩
  · rw [h1]
    exact (hb a' post h2 hpost).trans ⟨a, rfl⟩
  · cases c' with
    | nil =>
      simp only [List.nil_append] at h2
      exact (hb [] post (by rw [← h2]; simp) hpost).trans (List.nil_suffix : [] <:+ pre)
    | cons x c'' =>
      simp only [List.cons_append, List.cons.injEq] at h2
      obtain ⟨hx, hpost'⟩ := h2
      subst hx
      apply ha pre c'' h1
      intro c hc
      apply hpost c
      rw [hpost']
      cases c'' with
      | nil => simp at hc
      | cons y ys => simpa using hc

theorem flatten_guarded (S : Str) (ls : List Str) (h : ∀ l ∈ ls, Guarded S l) :
    Guarded S ls.flatten := by
  induction ls with
  | nil => exact guarded_nil S
  | cons l rest ih =>
    rw [List.flatten_cons]
    exact guarded_append S l _ (h l (List.mem_cons_self _ _))
      (ih (fun x hx => h x (List.mem_cons_of_mem _ hx)))

theorem collapseRuns_guarded (l : Str) (b : Bool) (w : Str)
    (hb : b = true → w.getLast? = some '\n') (h : Guarded opChars (w ++ l)) :
    Guarded opChars (w ++ collapseRuns b l) := by
  induction l generalizing b w with
  | nil => simpa [collapseRuns] using h
  | cons c cs ih =>
    by_cases hc : c = '\n'
    · subst hc
      cases b
      · simp only [collapseRuns, if_true, Bool.false_eq_true, if_false]
        have := ih true (w ++ ['\n']) (fun _ => by simp) (by simpa using h)
        simpa using this
      · simp only [collapseRuns, if_true]
        apply ih true w hb
        have h' : Guarded opChars (w ++ (['\n'] ++ cs)) := by simpa using h
        have := guarded_swap opChars w ['\n'] [] cs h'
          (fun hw _ => by
            rw [hb rfl] at hw
            exact absurd hw (by decide))
          (fun r1 r2 hr _ => by simp at hr)
          (fun r1 post _ _ he => by
            have h1 : ['e', 'l', 's', 'e'] <:+ w ++ '\n' :: r1 := by simpa using he
            have h2 := suffix_barrier w r1 '\n' (by decide) h1
            have h3 : r1 <:+ w ++ ([] ++ r1) := ⟨w, by simp⟩
            exact h2.trans h3)
        simpa using this
    · simp only [collapseRuns, hc, if_false]
      have := ih false (w ++ [c]) (fun hb' => absurd hb' (by decide)) (by simpa using h)
      simpa using this

theorem fixSpacedOps_guarded (t w : Str) (h : Guarded opChars (w ++ t)) :
    Guarded opChars (w ++ fixSpacedOps t) := by
  induction' hn : t.length using Nat.strong_induction_on with n ih generalizing t w
  rcases fixSpacedOps_cases t with ⟨rest, h0, h1⟩ | ⟨h0, h1⟩ | ⟨c, cs, h0, -, h1⟩
  · rw [h1]
    rw [h0] at h
    have hstep := guarded_swap opChars w ['e', 'l', 's', 'e', ' ', '\x7b']
      ['e', 'l', 's', 'e', '\x7b'] rest h
      (fun _ hp => absurd (hp 'e' (by simp)) (by decide))
      (fun r1 r2 hr _ => by
        exfalso
        have : ' ' ∈ ['e', 'l', 's', 'e', '\x7b'] := by
          rw [hr]
          simp
        revert this
        decide)
      (fun r1 post _ _ he => by
        have h1 : ['e', 'l', 's', 'e'] <:+ (w ++ ['e', 'l', 's', 'e', ' ']) ++ '\x7b' :: r1 := by
          simpa using he
        have h2 := suffix_barrier _ r1 '\x7b' (by decide) h1
        have h3 : r1 <:+ w ++ (['e', 'l', 's', 'e', '\x7b'] ++ r1) :=
          ⟨w ++ ['e', 'l', 's', 'e', '\x7b'], by simp⟩
        exact h2.trans h3)
    have := ih rest.length (by rw [← hn, h0]; simp; omega) rest
      (w ++ ['e', 'l', 's', 'e', '\x7b']) (by simpa using hstep) rfl
    simpa using this
  · rw [h1]
    rw [h0] at h
    exact h
  · rw [h1]
    rw [h0] at h
    have := ih cs.length (by rw [← hn, h0]; simp) cs (w ++ [c]) (by simpa using h) rfl
    simpa using this

/-- Whatever the source and the flags, every space of the output of `minifySource` that
is followed by an operator character, or by nothing, stands right after `else`. -/
theorem minifySource_guarded (s : Str) (kn km ki : Bool) :
    Guarded opChars (minifySource s kn km ki) := by
  have h1 := flatten_guarded opChars _ (minifiedLines_guarded s kn km ki)
  simp only [minifySource, stringsJoin]
  have key : ∀ t, Guarded opChars t → Guarded opChars (fixSpacedOps t) := fun t ht => by
    simpa using fixSpacedOps_guarded t [] (by simpa using ht)
  apply key
  cases kn
  · simp only [Bool.not_false, if_true]
    rw [fixDuplicateNewlines_eq]
    simpa using collapseRuns_guarded _ false [] (fun hb => absurd hb (by decide))
      (by simpa using h1)
  · simp only [Bool.not_true, Bool.false_eq_true, if_false]
    exact h1

/-- A piece of a joined text stands at its beginning or right after a separator. -/
theorem joinWith_piece (sep : Str) (ls : List Str) (g : Str) (hg : g ∈ ls) :
    ∃ a b, joinWith sep ls = a ++ (g ++ b) ∧ (a = [] ∨ sep <:+ a) := by
  induction ls with
  | nil => simp at hg
  | cons x rest ih =>
    cases rest with
    | nil =>
      have : g = x := by simpa using hg
      subst this
      exact ⟨[], [], by simp [joinWith], Or.inl rfl⟩
    | cons y ys =>
      rcases List.mem_cons.1 hg with h | h
      · subst h
        exact ⟨[], sep ++ joinWith sep (y :: ys), by simp [joinWith], Or.inl rfl⟩
      · obtain ⟨a, b, hab, ha⟩ := ih h
        refine ⟨x ++ (sep ++ a), b, by simp [joinWith, hab], Or.inr ?_⟩
        rcases ha with ha | ha
        · rw [ha]
          exact ⟨x, by simp⟩
        · exact ha.trans ⟨x ++ sep, by simp⟩

/-- The text that `fixSpacedOps` returns never holds `else`, a space and an opening
brace in a row. -/
theorem fixSpacedOps_no_else_brace (t : Str) :
    ¬ ['e', 'l', 's', 'e', ' ', '\x7b'] <:+: fixSpacedOps t := by
  induction' hn : t.length using Nat.strong_induction_on with n ih generalizing t
  rcases fixSpacedOps_cases t with ⟨rest, h0, h1⟩ | ⟨-, h1⟩ | ⟨c, cs, h0, hp, h1⟩
  · have hr := ih rest.length (by rw [← hn, h0]; simp; omega) rest rfl
    rw [h1]
    intro hi
    simp only [List.cons_append, List.nil_append] at hi
    rcases List.infix_cons_iff.1 hi with h | hi
    · simp [List.prefix_cons_iff] at h
    rcases List.infix_cons_iff.1 hi with h | hi
    · simp [List.prefix_cons_iff] at h
    rcases List.infix_cons_iff.1 hi with h | hi
    · simp [List.prefix_cons_iff] at h
    rcases List.infix_cons_iff.1 hi with h | hi
    · simp [List.prefix_cons_iff] at h
    rcases List.infix_cons_iff.1 hi with h | hi
    · simp [List.prefix_cons_iff] at h
    exact hr hi
  · rw [h1]
    intro hi
    have := List.eq_nil_of_infix_nil hi
    simp at this
  · have hr := ih cs.length (by rw [← hn, h0]; simp) cs rfl
    rw [h1]
    intro hi
    rcases List.infix_cons_iff.1 hi with h | hi
    · apply hp
      obtain ⟨r, hr'⟩ := h
      simp only [List.cons_append, List.nil_append, List.cons.injEq] at hr'
      obtain ⟨hc, hF⟩ := hr'
      obtain ⟨cs1, e1, f1⟩ := fixSpacedOps_head cs 'l' (by decide) _ hF.symm
      obtain ⟨cs2, e2, f2⟩ := fixSpacedOps_head cs1 's' (by decide) _ f1.symm
      obtain ⟨cs3, e3, f3⟩ := fixSpacedOps_head_e cs2 ' ' (by decide) _ f2.symm
      obtain ⟨cs4, e4, f4⟩ := fixSpacedOps_head cs3 ' ' (by decide) _ f3.symm
      obtain ⟨cs5, e5, -⟩ := fixSpacedOps_head cs4 '\x7b' (by decide) _ f4.symm
      exact ⟨cs5, by rw [h0, ← hc, e1, e2, e3, e4, e5]; rfl⟩
    · exact hr hi

theorem minifySource_no_else_brace (s : Str) (kn km ki : Bool) :
    ¬ ['e', 'l', 's', 'e', ' ', '\x7b'] <:+: minifySource s kn km ki := by
  simp only [minifySource]
  exact fixSpacedOps_no_else_brace _

theorem elseFollowTight_of_ok (b : Str) (h : elseFollowOk b = true)
    (hb : ¬ [' ', '\x7b'] <+: b) : elseFollowTight b = true := by
  cases b with
  | nil => simp [elseFollowOk] at h
  | cons c rest =>
    cases rest with
    | nil => simpa [elseFollowOk, elseFollowTight] using h
    | cons d r =>
      simp only [elseFollowOk, elseFollowTight] at h ⊢
      split_ifs at h ⊢ with h1 h2
      · rfl
      · have hd : d ≠ '\x7b' := by
          rintro rfl
          apply hb
          rw [h2]
          exact ⟨r, rfl⟩
        simp only [Bool.not_eq_true', Bool.or_eq_false_iff, beq_eq_false_iff_ne, ne_eq] at h ⊢
        exact ⟨⟨⟨h.1.1, hd⟩, h.1.2⟩, h.2⟩

/-- In a text where no space stands right after an operator character, and a space right
before one only after `else`, the lines have these two properties. -/
theorem steadyLine_of_stable (t : Str)
    (hT : List.Chain' (fun x y => ¬ (x ∈ opChars ∧ y = ' ')) t) (hG : Guarded opChars t)
    (hN : ¬ ['e', 'l', 's', 'e', ' ', '\x7b'] <:+: t)
    (g : Str) (hg : g ∈ stringsSplit t) (h : StableLine g) : SteadyLine g := by
  obtain ⟨a, b, hab, ha⟩ := joinWith_piece ['\n'] (stringsSplit t) g hg
  rw [joinWith_stringsSplit] at hab
  obtain ⟨s1, s2, s4, s5⟩ := h
  refine ⟨s1, s2, ?_, ?_, ?_⟩
  rotate_left 2
  · intro p hp he
    apply elseFollowTight_of_ok p.2 (s5 p hp he)
    rintro ⟨r, hr⟩
    apply hN
    obtain ⟨q, hq⟩ := he
    have hgp : p.1 ++ p.2 = g := (mem_splits g p.1 p.2).1 hp
    exact ⟨a ++ q, r ++ b, by rw [hab, ← hgp, ← hq, ← hr]; simp⟩
  · intro o ho hi
    have hgt : g <:+: t := ⟨a, b, by rw [hab]; simp⟩
    exact not_infix_of_chain _ o ' ' t (fun h => h ⟨ho, rfl⟩) hT (hi.trans hgt)
  · intro p hp hor
    rcases hor with ⟨o, ho, rest, hrest⟩ | h5
    · have hgp : p.1 ++ p.2 = g := (mem_splits g p.1 p.2).1 hp
      have := hG (a ++ p.1) (o :: rest ++ b) (by rw [hab, ← hgp, ← hrest]; simp)
        (by
          intro c hc
          simp only [List.cons_append, List.head?_cons, Option.mem_def,
            Option.some.injEq] at hc
          rw [← hc]
          exact ho)
      rcases ha with ha | ⟨a', ha⟩
      · rw [ha] at this
        simpa using this
      · rw [← ha] at this
        exact suffix_barrier a' p.1 '\n' (by decide) (by simpa using this)
    · exact s4 p hp h5

/-- C1, the claim as stated fails: a second run with the same flags (all false) changes
the output of the first run for each of these sources.  `a/`, `/b` (two lines) gives
`a//b`, then `a`: the lines are joined without a separator and the joined text holds a
comment marker; likewise `a/`, `*b` gives `a/*b`, then `a`.  `a`, `#b` gives `a#b` and a
line break, then `a#b`: the line that ends with the break does not begin with `#`.
`/**/#x` gives `#x`, then `#x` and a line break.  `/**/`, carriage return, `b` and `a`,
carriage return, `//c` leave white space at an end of the line, which the second run
trims.  `a el`, `se b` gives `a else b`, then `aelse b`.  `el`, `se` gives `else`, then
`else` and a space; `els else` gives `elselse` and a space, then `else lse`; `el`,
`se  x` gives `else`, two spaces, `x`, then `else x`; `else`, `:x` gives `else :x`, then
`else:x`, and `else`, `?x` gives `else ?x`, then `else?x`. -/
theorem minifySource_not_idempotent :
    minifySource (minifySource "a/\n/b".toList false false false) false false false
        ≠ minifySource "a/\n/b".toList false false false
      ∧ minifySource "a/\n/b".toList false false false = "a//b".toList
      ∧ minifySource "a//b".toList false false false = "a".toList
      ∧ minifySource "a/\n*b".toList false false false = "a/*b".toList
      ∧ minifySource "a/*b".toList false false false = "a".toList
      ∧ minifySource "a\n#b".toList false false false = "a#b\n".toList
      ∧ minifySource "a#b\n".toList false false false = "a#b".toList
      ∧ minifySource "/**/#x".toList false false false = "#x".toList
      ∧ minifySource "#x".toList false false false = "#x\n".toList
      ∧ minifySource "/**/\x0db".toList false false false = "\x0db".toList
      ∧ minifySource "\x0db".toList false false false = "b".toList
      ∧ minifySource "a\x0d//c".toList false false false = "a\x0d".toList
      ∧ minifySource "a\x0d".toList false false false = "a".toList
      ∧ minifySource "a el\nse b".toList false false false = "a else b".toList
      ∧ minifySource "a else b".toList false false false = "aelse b".toList
      ∧ minifySource "el\nse".toList false false false = "else".toList
      ∧ minifySource "else".toList false false false = "else ".toList
      ∧ minifySource "els else".toList false false false = "elselse ".toList
      ∧ minifySource "elselse ".toList false false false = "else lse".toList
      ∧ minifySource "el\nse  x".toList false false false = "else  x".toList
      ∧ minifySource "else  x".toList false false false = "else x".toList
      ∧ minifySource "else\n:x".toList false false false = "else :x".toList
      ∧ minifySource "else :x".toList false false false = "else:x".toList
      ∧ minifySource "else\n?x".toList false false false = "else ?x".toList
      ∧ minifySource "else ?x".toList false false false = "else?x".toList := by
  decide

/-- C1 (amended): for every source and every choice of the three flags, if the output
of `minifySource` is `Stable` for the flags, a second run with the same flags gives the
same output.  `Stable` says that the output holds no `//` when inline comments are
removed and no `/*` when block comments are removed; that, when `keepNewlines` is not
set, every line of the output but the last begins with `#` and the last does not; that
no line of the output begins with white space, or ends with white space other than the
one space after a final `else`; that in a line a space stands right before `else` only
right after an `else`; and that every `else` is followed by an opening brace, `:` or
`?`, or by one space that ends the line or is followed by something other than a second
space, `:` and `?`. -/
theorem minifySource_idempotent_of_stable (s : Str)
    (keepNewlines keepMultilineComments keepInlineComments : Bool)
    (h : Stable keepNewlines keepMultilineComments keepInlineComments
      (minifySource s keepNewlines keepMultilineComments keepInlineComments)) :
    minifySource (minifySource s keepNewlines keepMultilineComments keepInlineComments)
        keepNewlines keepMultilineComments keepInlineComments
      = minifySource s keepNewlines keepMultilineComments keepInlineComments := by
  have hT := minifySource_tight s keepNewlines keepMultilineComments keepInlineComments
  have hG := minifySource_guarded s keepNewlines keepMultilineComments keepInlineComments
  have hN := minifySource_no_else_brace s keepNewlines keepMultilineComments
    keepInlineComments
  have htab := minifySource_no_tab s keepNewlines keepMultilineComments keepInlineComments
  have hnl : keepNewlines = true →
      '\n' ∉ minifySource s keepNewlines keepMultilineComments keepInlineComments := by
    intro hkn
    subst hkn
    exact minifySource_keepNewlines_no_break s keepMultilineComments keepInlineComments
  generalize minifySource s keepNewlines keepMultilineComments keepInlineComments = t
    at h hT hG hN htab hnl
  obtain ⟨h1, h2, h3, h4⟩ := h
  exact minifySource_fixed t keepNewlines keepMultilineComments keepInlineComments htab hnl
    ⟨h1, h2, h3, fun g hg => steadyLine_of_stable t hT hG hN g hg (h4 g hg)⟩

/-- C1 (amended) at three sources.  A division, an inline comment and a block comment
over two lines: `a = b / c; // d`, `e /* f */ g` gives `a=b/c;eg`.  A directive followed
by code: `#include <a.h>`, `int x;` gives `#include<a.h>`, a line break, `int x;`.  Both
forms of `else`, with every flag set: `if (a) b; else {`, ` c;} else d ? e : f;` gives
`if(a)b;else{c;}else d?e:f;`.  Each output is `Stable`, and a second run returns it. -/
theorem minifySource_idempotent_of_stable_witness :
    minifySource "a = b / c; // d\ne /* f */ g".toList false false false = "a=b/c;eg".toList
      ∧ Stable false false false
          (minifySource "a = b / c; // d\ne /* f */ g".toList false false false)
      ∧ minifySource (minifySource "a = b / c; // d\ne /* f */ g".toList false false false)
          false false false
        = minifySource "a = b / c; // d\ne /* f */ g".toList false false false
      ∧ minifySource "#include <a.h>\nint x;".toList false false false
          = "#include<a.h>\nint x;".toList
      ∧ minifySource (minifySource "#include <a.h>\nint x;".toList false false false)
          false false false
        = minifySource "#include <a.h>\nint x;".toList false false false
      ∧ minifySource "if (a) b; else \x7b\n c;\x7d else d ? e : f;".toList true true true
          = "if(a)b;else\x7bc;\x7delse d?e:f;".toList
      ∧ minifySource
          (minifySource "if (a) b; else \x7b\n c;\x7d else d ? e : f;".toList true true true)
          true true true
        = minifySource "if (a) b; else \x7b\n c;\x7d else d ? e : f;".toList true true true :=
  ⟨by decide, by unfold Stable StableLine; decide,
    minifySource_idempotent_of_stable _ false false false (by unfold Stable StableLine; decide),
    by decide,
    minifySource_idempotent_of_stable _ false false false (by unfold Stable StableLine; decide),
    by decide,
    minifySource_idempotent_of_stable _ true true true (by unfold Stable StableLine; decide)⟩

end Cminifier
